import Mathlib

/-!
# pvetop: rate estimation, snapshot rotation, guest sorting and rendering

A shallow embedding of `internal/models/models.go`, of the parts of
`internal/ui/model.go` that derive throughput from two snapshots, rotate the
snapshot generations, sort the guest list, choose the columns and build the
screens, of `GetAllGuests` (`internal/api/client.go`) and of `ValidateHost`
(`internal/setup/wizard.go`).

Conventions of the embedding:

* Go `int` and `int64` values are `Int`; where the Go code can overflow the
  operation is wrapped with `wrapInt64`.
* Go `float64` values are `F64`: NaN, the two infinities, or a rational.
  Arithmetic rounds to the 53-bit significand of binary64 (`roundF64`).
* `time.Time` is an instant counted in nanoseconds, `time.Duration` a number
  of nanoseconds.
* `map[int]models.Guest` is a function `Int → Option Guest`.
* `sort.Slice` is the routine `pdqsort_func` of the library (Go 1.19 and
  later), on a list; a loop is a function that recurses on a counter.
-/

namespace Pvetop

/-! ## Machine integers -/

/-- Smallest `int64`. -/
def minInt64 : Int := -(2 ^ 63)

/-- Largest `int64`. -/
def maxInt64 : Int := 2 ^ 63 - 1

/-- Two's-complement wrap-around of an integer into the `int64` range: the value
an `int64` addition or subtraction yields when the exact result is `x`. -/
def wrapInt64 (x : Int) : Int := (x + 2 ^ 63) % 2 ^ 64 - 2 ^ 63

/-! ## binary64 floating point -/

/-- Nearest integer to a rational, ties going to the even neighbour. -/
def roundHalfEven (x : ℚ) : Int :=
  if x - ⌊x⌋ < 1 / 2 then ⌊x⌋
  else if 1 / 2 < x - ⌊x⌋ then ⌊x⌋ + 1
  else if ⌊x⌋ % 2 = 0 then ⌊x⌋ else ⌊x⌋ + 1

/-- Rounding of a rational to the nearest number with a 53-bit significand, ties
to even: `x` lies in the binade `[2^e, 2^(e+1))` with `e = Int.log 2 |x|`, whose
representable numbers are the multiples of `2^(e-52)`.

The exponent range is left unbounded. The numbers this program rounds are
`int64` values, quotients of two of them and durations in seconds; their
magnitudes lie between `2^-64` and `2^94`, far inside the normal range of
binary64 (`2^-1022` to `2^1024`), where this is exactly IEEE 754 rounding. -/
def roundF64 (x : ℚ) : ℚ :=
  (roundHalfEven (x * 2 ^ (52 - Int.log 2 |x|)) : ℚ) * 2 ^ (Int.log 2 |x| - 52)

/-- A Go `float64`: NaN, an infinity with its sign, or a finite value. The two
zeros are identified; nothing modelled here divides by a negative zero. -/
inductive F64 where
  | nan
  | inf (neg : Bool)
  | fin (q : ℚ)
deriving DecidableEq

namespace F64

/-- The binary64 nearest to a rational. -/
def round (x : ℚ) : F64 := fin (roundF64 x)

/-- The conversion `float64(i)` of an integer. -/
def ofInt (i : Int) : F64 := round (i : ℚ)

/-- The quotient `a / b` of two `float64`. -/
def div : F64 → F64 → F64
  | fin a, fin b =>
    if b = 0 then (if a = 0 then nan else inf (decide (a < 0))) else round (a / b)
  | fin _, inf _ => fin 0
  | inf s, fin b => inf (s != decide (b < 0))
  | inf _, inf _ => nan
  | nan, _ => nan
  | _, nan => nan

/-- The sum `a + b` of two `float64`. -/
def add : F64 → F64 → F64
  | fin a, fin b => round (a + b)
  | fin _, inf s => inf s
  | inf s, fin _ => inf s
  | inf s, inf t => if s = t then inf s else nan
  | nan, _ => nan
  | _, nan => nan

/-- The comparison `a < b` of two `float64`; false as soon as one is NaN. -/
def lt : F64 → F64 → Bool
  | fin a, fin b => decide (a < b)
  | fin _, inf s => !s
  | inf s, fin _ => s
  | inf s, inf t => s && !t
  | nan, _ => false
  | _, nan => false

/-- The conversion `int64(f)`: the fractional part is discarded. When the
truncated value is outside the `int64` range, or `f` is NaN or infinite, Go
leaves the result to the implementation; the value modelled is the one amd64
produces, the smallest `int64`. -/
def toInt64 : F64 → Int
  | fin q =>
    if minInt64 ≤ (if 0 ≤ q then ⌊q⌋ else ⌈q⌉) ∧ (if 0 ≤ q then ⌊q⌋ else ⌈q⌉) ≤ maxInt64
    then (if 0 ≤ q then ⌊q⌋ else ⌈q⌉) else minInt64
  | _ => minInt64

end F64

/-! ## Time -/

/-- A `time.Time`: an instant in nanoseconds on the clock that `Sub` reads. The
zero `Time` is instant `0`. -/
structure Time where
  ns : Int
deriving DecidableEq

/-- The method `Time.IsZero`. -/
def Time.IsZero (t : Time) : Bool := decide (t.ns = 0)

/-- The method `Time.Sub`: the duration `t - u` in nanoseconds, saturated to the
range of `time.Duration` (an `int64`). -/
def Time.Sub (t u : Time) : Int := max minInt64 (min maxInt64 (t.ns - u.ns))

/-- The method `Duration.Seconds` of the standard library:
`float64(d / Second) + float64(d % Second) / 1e9`, with Go's truncating integer
division. -/
def Duration.Seconds (d : Int) : F64 :=
  F64.add (F64.ofInt (Int.tdiv d 1000000000))
    (F64.div (F64.ofInt (Int.tmod d 1000000000)) (F64.fin 1000000000))

/-! ## Data model (`internal/models/models.go`) -/

/-- The struct `models.Node`. -/
structure Node where
  Node : String
  Status : String
  CPU : ℚ
  MaxCPU : Int
  Mem : Int
  MaxMem : Int
  Disk : Int
  MaxDisk : Int
  Uptime : Int
deriving DecidableEq

/-- The struct `models.Guest`. The field `Typ` is Go's `Type`. `CPU` is a
`float64` decoded from JSON, hence finite, and is kept as its rational value. -/
structure Guest where
  VMID : Int
  Name : String
  Typ : String
  Status : String
  Node : String
  CPU : ℚ
  CPUs : Int
  Mem : Int
  MaxMem : Int
  Disk : Int
  MaxDisk : Int
  NetIn : Int
  NetOut : Int
  DiskRead : Int
  DiskWrite : Int
  Uptime : Int
  PID : Int
deriving DecidableEq

/-! ## The dashboard model (`internal/ui/model.go`) -/

/-- The type `sortColumn` and its constants. -/
inductive sortColumn where
  | sortByVMID
  | sortByName
  | sortByStatus
  | sortByCPU
  | sortByMem
  | sortByDisk
  | sortByDiskIO
  | sortByNetIO
deriving DecidableEq

/-- The type `viewMode` and its constants. -/
inductive viewMode where
  | viewGuests
  | viewNodes
deriving DecidableEq

/-- The struct `Model`, without the API client and the key bindings, which are
fixed at construction. `err` is `none` for Go's `nil`. -/
structure Model where
  guests : List Guest
  nodes : List Node
  prevGuests : List Guest
  prevGuestMap : Int → Option Guest
  sortBy : sortColumn
  sortReverse : Bool
  showAll : Bool
  viewMode : Pvetop.viewMode
  isCluster : Bool
  err : Option String
  width : Int
  height : Int
  lastUpdate : Time
  lastFetch : Time
  scrollOffset : Int
  selectedRow : Int

/-- The constructor `NewModel`. -/
def NewModel : Model where
  guests := []
  nodes := []
  prevGuests := []
  prevGuestMap := fun _ => none
  sortBy := sortColumn.sortByCPU
  sortReverse := true
  showAll := false
  viewMode := viewMode.viewGuests
  isCluster := false
  err := none
  width := 0
  height := 0
  lastUpdate := ⟨0⟩
  lastFetch := ⟨0⟩
  scrollOffset := 0
  selectedRow := -1

/-- The method `Model.getDiskRateNumeric`. -/
def Model.getDiskRateNumeric (m : Model) (guest : Guest) : Int :=
  match m.prevGuestMap guest.VMID with
  | some prev =>
    if F64.lt (F64.fin 0) (Duration.Seconds (m.lastUpdate.Sub m.lastFetch)) then
      let readDiff := wrapInt64 (guest.DiskRead - prev.DiskRead)
      let writeDiff := wrapInt64 (guest.DiskWrite - prev.DiskWrite)
      let readDiff := if readDiff < 0 then 0 else readDiff
      let writeDiff := if writeDiff < 0 then 0 else writeDiff
      let totalDiff := wrapInt64 (readDiff + writeDiff)
      F64.toInt64 (F64.div (F64.ofInt totalDiff) (Duration.Seconds (m.lastUpdate.Sub m.lastFetch)))
    else 0
  | none => 0

/-- The method `Model.getNetRateNumeric`. -/
def Model.getNetRateNumeric (m : Model) (guest : Guest) : Int :=
  match m.prevGuestMap guest.VMID with
  | some prev =>
    if F64.lt (F64.fin 0) (Duration.Seconds (m.lastUpdate.Sub m.lastFetch)) then
      let inDiff := wrapInt64 (guest.NetIn - prev.NetIn)
      let outDiff := wrapInt64 (guest.NetOut - prev.NetOut)
      let inDiff := if inDiff < 0 then 0 else inDiff
      let outDiff := if outDiff < 0 then 0 else outDiff
      let totalDiff := wrapInt64 (inDiff + outDiff)
      F64.toInt64 (F64.div (F64.ofInt totalDiff) (Duration.Seconds (m.lastUpdate.Sub m.lastFetch)))
    else 0
  | none => 0

/-! ## Sorting -/

/-- The inner loop of `insertionSort_func` (package `sort`),
`for j := i; j > a && data.Less(j, j-1); j-- { data.Swap(j, j-1) }`: the element
`x` just after the sorted prefix is swapped with its left neighbour as long as
`less x neighbour` holds. The prefix is given from its last element to its
first, and so is the result. -/
def insertLeft {α : Type} (less : α → α → Bool) (x : α) : List α → List α
  | [] => [x]
  | y :: before => if less x y then y :: insertLeft less x before else x :: y :: before

/-- The loops of `insertionSort_func` (package `sort`) on a whole slice:
`for i := a + 1; i < b; i++ { for j := i; j > a && data.Less(j, j-1); j-- { data.Swap(j, j-1) } }`. -/
def insertionSortLessFunc {α : Type} (less : α → α → Bool) (data : List α) : List α :=
  (data.foldl (fun sortedRev x => insertLeft less x sortedRev) []).reverse

/-! ## The sorting routine (`sort.Slice`, Go 1.19 and later)

`sort.Slice(x, less)` runs `pdqsort_func(lessSwap{less, swap}, 0, n, bits.Len(n))`
of `zsortfunc.go`. The slice is a list; `data.Less(i, j)` and `data.Swap(i, j)`
take indices into it, which are natural numbers (the routine never forms a
negative index). A loop is a function that recurses on a counter: the number of
iterations that remain at most (`b - j` for a loop that runs `j` up to `b`). -/

/-- The call `data.Less(i, j)`: `less` on the elements at the indices `i` and
`j`. The routine only passes indices inside the slice. -/
def Less {α : Type} (less : α → α → Bool) (data : List α) (i j : Nat) : Bool :=
  match data[i]?, data[j]? with
  | some x, some y => less x y
  | _, _ => false

/-- The call `data.Swap(i, j)`: the elements at the indices `i` and `j` change
places. -/
def Swap {α : Type} (data : List α) (i j : Nat) : List α :=
  match data[i]?, data[j]? with
  | some x, some y => (data.set i y).set j x
  | _, _ => data

/-- The function `insertionSort_func`, which sorts `data[a:b]` by insertion: its
loops run on the elements of `data[a:b]`, the rest of the slice stays. -/
def insertionSort_func {α : Type} (less : α → α → Bool) (data : List α) (a b : Nat) : List α :=
  data.take a ++ insertionSortLessFunc less ((data.drop a).take (b - a)) ++ data.drop (a + (b - a))

/-- The function `siftDown_func`; `root` starts at `lo`, the counter at `hi`. -/
def siftDown_func {α : Type} (less : α → α → Bool) (hi first : Nat) :
    Nat → List α → Nat → List α
  | 0, data, _ => data
  | n + 1, data, root =>
    if 2 * root + 1 ≥ hi then data
    else
      let child :=
        if 2 * root + 1 + 1 < hi ∧ Less less data (first + (2 * root + 1)) (first + (2 * root + 1) + 1)
        then 2 * root + 1 + 1 else 2 * root + 1
      if !Less less data (first + root) (first + child) then data
      else siftDown_func less hi first n (Swap data (first + root) (first + child)) child

/-- The function `heapSort_func`: the loop `for i := (hi - 1) / 2; i >= 0; i--`
that builds the heap, then the loop `for i := hi - 1; i >= 0; i--` that pops the
elements. -/
def heapSort_func {α : Type} (less : α → α → Bool) (data : List α) (a b : Nat) : List α :=
  let first := a
  let lo := 0
  let hi := b - a
  let data := (List.range ((hi - 1) / 2 + 1)).reverse.foldl
    (fun data i => siftDown_func less hi first hi data i) data
  (List.range hi).reverse.foldl
    (fun data i => siftDown_func less i first i (Swap data first (first + i)) lo) data

/-- The method `Next` of `xorshift`, on a `uint64`. -/
def xorshiftNext (r : Nat) : Nat :=
  let r := r ^^^ ((r <<< 13) % 2 ^ 64)
  let r := r ^^^ (r >>> 7)
  r ^^^ ((r <<< 17) % 2 ^ 64)

/-- The function `bits.Len`: the number of bits of `x`; the counter starts at
`x`. -/
def bitsLen : Nat → Nat → Nat
  | 0, _ => 0
  | n + 1, x => if x = 0 then 0 else bitsLen n (x / 2) + 1

/-- The function `nextPowerOfTwo`. -/
def nextPowerOfTwo (length : Nat) : Nat := 1 <<< bitsLen length length

/-- The function `breakPatterns_func`. -/
def breakPatterns_func {α : Type} (data : List α) (a b : Nat) : List α :=
  let length := b - a
  if length ≥ 8 then
    let modulus := nextPowerOfTwo length
    let idx := a + (length / 4) * 2 - 1
    ([0, 1, 2].foldl
      (fun (state : Nat × List α) i =>
        let random := xorshiftNext state.1
        let other := random &&& (modulus - 1)
        let other := if other ≥ length then other - length else other
        (random, Swap state.2 (idx - 1 + i) (a + other)))
      (length, data)).2
  else data

/-- The type `sortedHint` and its constants. -/
inductive sortedHint where
  | unknownHint
  | increasingHint
  | decreasingHint
deriving DecidableEq

/-- The function `order2_func`; the counter `*swaps` is returned with the pair. -/
def order2_func {α : Type} (less : α → α → Bool) (data : List α) (a b swaps : Nat) :
    Nat × Nat × Nat :=
  if Less less data b a then (b, a, swaps + 1) else (a, b, swaps)

/-- The function `median_func`. -/
def median_func {α : Type} (less : α → α → Bool) (data : List α) (a b c swaps : Nat) :
    Nat × Nat :=
  let r1 := order2_func less data a b swaps
  let r2 := order2_func less data r1.2.1 c r1.2.2
  let r3 := order2_func less data r1.1 r2.1 r2.2.2
  (r3.2.1, r3.2.2)

/-- The function `medianAdjacent_func`. -/
def medianAdjacent_func {α : Type} (less : α → α → Bool) (data : List α) (a swaps : Nat) :
    Nat × Nat :=
  median_func less data (a - 1) a (a + 1) swaps

/-- The function `choosePivot_func`. -/
def choosePivot_func {α : Type} (less : α → α → Bool) (data : List α) (a b : Nat) :
    Nat × sortedHint :=
  let l := b - a
  let i := a + l / 4 * 1
  let j := a + l / 4 * 2
  let k := a + l / 4 * 3
  let r :=
    if l ≥ 8 then
      if l ≥ 50 then
        let ri := medianAdjacent_func less data i 0
        let rj := medianAdjacent_func less data j ri.2
        let rk := medianAdjacent_func less data k rj.2
        median_func less data ri.1 rj.1 rk.1 rk.2
      else median_func less data i j k 0
    else (j, 0)
  if r.2 = 0 then (r.1, sortedHint.increasingHint)
  else if r.2 = 4 * 3 then (r.1, sortedHint.decreasingHint)
  else (r.1, sortedHint.unknownHint)

/-- The function `reverseRange_func`: `i` starts at `a`, `j` at `b - 1`, the
counter at `b - a`. -/
def reverseRange_loop {α : Type} : Nat → List α → Nat → Nat → List α
  | 0, data, _, _ => data
  | n + 1, data, i, j => if i < j then reverseRange_loop n (Swap data i j) (i + 1) (j - 1) else data

/-- The function `reverseRange_func`. -/
def reverseRange_func {α : Type} (data : List α) (a b : Nat) : List α :=
  reverseRange_loop (b - a) data a (b - 1)

/-- A loop `for i <= j && test(i) { i++ }`: the value of `i` after it; the
counter starts at `j + 1 - i`. -/
def scanUp (test : Nat → Bool) : Nat → Nat → Nat
  | 0, i => i
  | n + 1, i => if test i then scanUp test n (i + 1) else i

/-- A loop `for i <= j && test(j) { j-- }`: the value of `j` after it; the
counter starts at `j + 1 - i`. -/
def scanDown (test : Nat → Bool) : Nat → Nat → Nat
  | 0, j => j
  | n + 1, j => if test j then scanDown test n (j - 1) else j

/-- The loop of `partialInsertionSort_func` that shifts the smaller element to
the left: `for j := i - 1; j >= 1; j--`, the argument being `j`. -/
def shiftSmaller {α : Type} (less : α → α → Bool) : Nat → List α → List α
  | 0, data => data
  | j + 1, data =>
    if !Less less data (j + 1) j then data else shiftSmaller less j (Swap data (j + 1) j)

/-- The loop of `partialInsertionSort_func` that shifts the greater element to
the right: `for j := i + 1; j < b; j++`; the counter starts at `b - j`. -/
def shiftGreater {α : Type} (less : α → α → Bool) : Nat → List α → Nat → List α
  | 0, data, _ => data
  | n + 1, data, j =>
    if !Less less data j (j - 1) then data
    else shiftGreater less n (Swap data j (j - 1)) (j + 1)

/-- The loop `for j := 0; j < maxSteps; j++` of `partialInsertionSort_func`; the
counter is the number of steps that remain. -/
def partialInsertionSort_loop {α : Type} (less : α → α → Bool) (a b : Nat) :
    Nat → List α → Nat → List α × Bool
  | 0, data, _ => (data, false)
  | steps + 1, data, i =>
    let i := scanUp (fun i => !Less less data i (i - 1)) (b - i) i
    if i = b then (data, true)
    else if b - a < 50 then (data, false)
    else
      let data := Swap data i (i - 1)
      let data := if i - a ≥ 2 then shiftSmaller less (i - 1) data else data
      let data := if b - i ≥ 2 then shiftGreater less (b - (i + 1)) data (i + 1) else data
      partialInsertionSort_loop less a b steps data i

/-- The function `partialInsertionSort_func` (`maxSteps = 5`,
`shortestShifting = 50`). -/
def partialInsertionSort_func {α : Type} (less : α → α → Bool) (data : List α) (a b : Nat) :
    List α × Bool :=
  partialInsertionSort_loop less a b 5 data (a + 1)

/-- The loop `for` of `partitionEqual_func`; the counter starts at `b - a`. -/
def partitionEqual_loop {α : Type} (less : α → α → Bool) (a : Nat) :
    Nat → List α → Nat → Nat → List α × Nat
  | 0, data, i, _ => (data, i)
  | n + 1, data, i, j =>
    let i' := scanUp (fun i => !Less less data a i) (j + 1 - i) i
    let j' := scanDown (fun j => Less less data a j) (j + 1 - i') j
    if i' > j' then (data, i')
    else partitionEqual_loop less a n (Swap data i' j') (i' + 1) (j' - 1)

/-- The function `partitionEqual_func`. -/
def partitionEqual_func {α : Type} (less : α → α → Bool) (data : List α) (a b pivot : Nat) :
    List α × Nat :=
  partitionEqual_loop less a (b - a) (Swap data a pivot) (a + 1) (b - 1)

/-- The second loop `for` of `partition_func`; the counter starts at `b - a`. -/
def partition_loop {α : Type} (less : α → α → Bool) (a : Nat) :
    Nat → List α → Nat → Nat → List α × Nat
  | 0, data, _, j => (data, j)
  | n + 1, data, i, j =>
    let i' := scanUp (fun i => Less less data i a) (j + 1 - i) i
    let j' := scanDown (fun j => !Less less data j a) (j + 1 - i') j
    if i' > j' then (data, j')
    else partition_loop less a n (Swap data i' j') (i' + 1) (j' - 1)

/-- The function `partition_func`: the slice, the new index of the pivot and
whether the slice was already partitioned. -/
def partition_func {α : Type} (less : α → α → Bool) (data : List α) (a b pivot : Nat) :
    List α × Nat × Bool :=
  let data := Swap data a pivot
  let i := scanUp (fun i => Less less data i a) (b - 1 + 1 - (a + 1)) (a + 1)
  let j := scanDown (fun j => !Less less data j a) (b - 1 + 1 - i) (b - 1)
  if i > j then (Swap data j a, j, true)
  else
    let r := partition_loop less a (b - a) (Swap data i j) (i + 1) (j - 1)
    (Swap r.1 r.2 a, r.2, false)

/-- The function `pdqsort_func` (`maxInsertion = 12`). The loop `for` and the
recursive call are both calls of this function; the counter starts above `b - a`,
which every turn of the loop and every recursive call makes smaller. -/
def pdqsort_func {α : Type} (less : α → α → Bool) :
    Nat → List α → Nat → Nat → Nat → Bool → Bool → List α
  | 0, data, _, _, _, _, _ => data
  | n + 1, data, a, b, limit, wasBalanced, wasPartitioned =>
    let length := b - a
    if length ≤ 12 then insertionSort_func less data a b
    else if limit = 0 then heapSort_func less data a b
    else
      let data1 := if !wasBalanced then breakPatterns_func data a b else data
      let limit1 := if !wasBalanced then limit - 1 else limit
      let choice := choosePivot_func less data1 a b
      let data2 :=
        if choice.2 = sortedHint.decreasingHint then reverseRange_func data1 a b else data1
      let pivot :=
        if choice.2 = sortedHint.decreasingHint then (b - 1) - (choice.1 - a) else choice.1
      let hint :=
        if choice.2 = sortedHint.decreasingHint then sortedHint.increasingHint else choice.2
      let attempt :=
        if wasBalanced && wasPartitioned && decide (hint = sortedHint.increasingHint) then
          partialInsertionSort_func less data2 a b
        else (data2, false)
      if attempt.2 then attempt.1
      else if a > 0 ∧ !Less less attempt.1 (a - 1) pivot then
        let r := partitionEqual_func less attempt.1 a b pivot
        pdqsort_func less n r.1 r.2 b limit1 wasBalanced wasPartitioned
      else
        let r := partition_func less attempt.1 a b pivot
        let mid := r.2.1
        if mid - a < b - mid then
          pdqsort_func less n (pdqsort_func less n r.1 a mid limit1 true true) (mid + 1) b limit1
            (decide (mid - a ≥ length / 8)) r.2.2
        else
          pdqsort_func less n (pdqsort_func less n r.1 (mid + 1) b limit1 true true) a mid limit1
            (decide (b - mid ≥ length / 8)) r.2.2

/-- The library function `sort.Slice`, which is not part of the repository:
`pdqsort_func(lessSwap{less, swap}, 0, length, bits.Len(uint(length)))`, with
`length` the length of the slice. The counter of `pdqsort_func` starts at
`length + 1`. -/
def sortSlice {α : Type} (less : α → α → Bool) (data : List α) : List α :=
  pdqsort_func less (data.length + 1) data 0 data.length (bitsLen data.length data.length)
    true true

/-- The `switch m.sortBy` of the comparison in `sortGuests`: the value of `less`
for two guests. -/
def Model.keyLess (m : Model) (gi gj : Guest) : Bool :=
  match m.sortBy with
  | sortColumn.sortByVMID => decide (gi.VMID < gj.VMID)
  | sortColumn.sortByName => decide (gi.Name < gj.Name)
  | sortColumn.sortByStatus => decide (gi.Status < gj.Status)
  | sortColumn.sortByCPU => decide (gi.CPU < gj.CPU)
  | sortColumn.sortByMem =>
    F64.lt (F64.div (F64.ofInt gi.Mem) (F64.ofInt gi.MaxMem))
      (F64.div (F64.ofInt gj.Mem) (F64.ofInt gj.MaxMem))
  | sortColumn.sortByDisk => decide (gi.Disk < gj.Disk)
  | sortColumn.sortByDiskIO => decide (m.getDiskRateNumeric gi < m.getDiskRateNumeric gj)
  | sortColumn.sortByNetIO => decide (m.getNetRateNumeric gi < m.getNetRateNumeric gj)

/-- The comparison function that `sortGuests` passes to `sort.Slice`, on the two
guests found at the indices it is called with. -/
def Model.less (m : Model) (gi gj : Guest) : Bool :=
  if gi.Status = "running" ∧ gj.Status ≠ "running" then true
  else if gi.Status ≠ "running" ∧ gj.Status = "running" then false
  else if gi.Status ≠ "running" ∧ gj.Status ≠ "running" then decide (gi.VMID < gj.VMID)
  else if m.sortReverse then !(m.keyLess gi gj) else m.keyLess gi gj

/-- The method `Model.sortGuests`. -/
def Model.sortGuests (m : Model) : Model :=
  { m with guests := sortSlice m.less m.guests }

/-- The method `Model.getDisplayGuests`. -/
def Model.getDisplayGuests (m : Model) : List Guest :=
  if !m.showAll then m.guests.filter (fun g => decide (g.Status = "running")) else m.guests

/-! ## Messages and `Update` -/

/-- The messages `Update` receives: a `tea.WindowSizeMsg`, a `tickMsg`, a
`dataMsg`, an `errMsg` or a `tea.KeyMsg` given by the name of the key. An
`errMsg` is built by `fetchData` alone, from an error that is not `nil`; it is
given by the text of that error. -/
inductive Msg where
  | windowSize (width height : Int)
  | tick
  | data (guests : List Guest) (nodes : List Node)
  | err (e : String)
  | key (k : String)

/-- The commands `Update` returns. -/
inductive Cmd where
  | none
  | quit
  | clearScreen
  | tickAndFetch
deriving DecidableEq

/-- The loop of the `dataMsg` case that fills the map of previous guests: a later
guest replaces an earlier one with the same id. -/
def buildPrevGuestMap (guests : List Guest) : Int → Option Guest :=
  guests.foldl (fun prevGuestMap guest k => if k = guest.VMID then some guest else prevGuestMap k)
    (fun _ => Option.none)

/-- The `dataMsg` case of `Update`; `now` is the reading of `time.Now()`. -/
def Model.applyData (m : Model) (guests : List Guest) (nodes : List Node) (now : Time) : Model :=
  let m1 : Model := { m with
    prevGuestMap := buildPrevGuestMap m.guests
    prevGuests := m.guests
    guests := guests
    nodes := nodes
    isCluster := decide (1 < nodes.length) }
  let m2 : Model := if !m1.lastUpdate.IsZero then { m1 with lastFetch := m1.lastUpdate } else m1
  let m3 : Model := { m2 with lastUpdate := now }
  let m4 : Model := if m3.lastFetch.IsZero then { m3 with lastFetch := now } else m3
  m4.sortGuests

/-- The `tea.KeyMsg` case of `Update`, the bindings tried in the order of the
`switch`. -/
def Model.applyKey (m : Model) (k : String) : Model × Cmd :=
  if k = "q" ∨ k = "ctrl+c" then (m, Cmd.quit)
  else if k = "up" ∨ k = "k" then
    (if 0 < m.scrollOffset then { m with scrollOffset := m.scrollOffset - 1 } else m, Cmd.none)
  else if k = "down" ∨ k = "j" then
    let contentHeight := if m.height - 5 < 1 then 1 else m.height - 5
    let maxScroll := if (m.getDisplayGuests.length : Int) - contentHeight < 0 then 0
      else (m.getDisplayGuests.length : Int) - contentHeight
    (if m.scrollOffset < maxScroll then { m with scrollOffset := m.scrollOffset + 1 } else m,
      Cmd.none)
  else if k = "v" then
    ({ ({ m with sortBy := sortColumn.sortByVMID } : Model).sortGuests with scrollOffset := 0 },
      Cmd.none)
  else if k = "c" then
    ({ ({ m with sortBy := sortColumn.sortByCPU } : Model).sortGuests with scrollOffset := 0 },
      Cmd.none)
  else if k = "m" then
    ({ ({ m with sortBy := sortColumn.sortByMem } : Model).sortGuests with scrollOffset := 0 },
      Cmd.none)
  else if k = "d" then
    ({ ({ m with sortBy := sortColumn.sortByDiskIO } : Model).sortGuests with scrollOffset := 0 },
      Cmd.none)
  else if k = "i" then
    ({ ({ m with sortBy := sortColumn.sortByNetIO } : Model).sortGuests with scrollOffset := 0 },
      Cmd.none)
  else if k = "r" then
    ({ ({ m with sortReverse := !m.sortReverse } : Model).sortGuests with scrollOffset := 0 },
      Cmd.none)
  else if k = "a" then ({ m with showAll := !m.showAll, scrollOffset := 0 }, Cmd.none)
  else if k = "n" then
    (if 0 < m.nodes.length then
      { m with
        viewMode := if m.viewMode = viewMode.viewGuests then viewMode.viewNodes
          else viewMode.viewGuests
        scrollOffset := 0 }
     else m, Cmd.none)
  else (m, Cmd.none)

/-- The method `Model.Update`; `now` is the reading of `time.Now()` taken when a
`dataMsg` is processed. -/
def Model.Update (m : Model) (msg : Msg) (now : Time) : Model × Cmd :=
  match msg with
  | Msg.windowSize width height => ({ m with width := width, height := height }, Cmd.clearScreen)
  | Msg.tick => (m, Cmd.tickAndFetch)
  | Msg.data guests nodes => (m.applyData guests nodes now, Cmd.none)
  | Msg.err e => ({ m with err := some e }, Cmd.none)
  | Msg.key k => m.applyKey k

/-! ## Column layout (`getVisibleColumns`) -/

/-- The type `column` and its constants. -/
inductive column where
  | colID
  | colName
  | colType
  | colStatus
  | colCPU
  | colMem
  | colMemGiB
  | colDiskIO
  | colNetIO
  | colNode
deriving DecidableEq

/-- A `map[column]bool`: `none` for a key that is absent. -/
abbrev columnMap := column → Option Bool

/-- The assignment `visible[col] = b`. -/
def columnMap.set (visible : columnMap) (col : column) (b : Bool) : columnMap :=
  fun c => if c = col then some b else visible c

/-- The slice `columns` of `getVisibleColumns`: the optional columns with the
width the planner counts for each. -/
def optionalColumns : List (column × Int) :=
  [( column.colID, 7), ( column.colType, 7), ( column.colStatus, 9), ( column.colCPU, 7),
   ( column.colMem, 7), ( column.colMemGiB, 16), ( column.colNetIO, 14), ( column.colDiskIO, 14)]

/-- The slice `sacrificeOrder` of `getVisibleColumns`. -/
def sacrificeOrder : List column :=
  [ column.colDiskIO, column.colNetIO, column.colMemGiB, column.colID, column.colStatus,
    column.colType, column.colMem, column.colCPU]

/-- The inner loop of `getVisibleColumns`: the width of the first entry of
`columns` for `col` is taken off `totalWidth`. -/
def subtractWidth (columns : List (column × Int)) (col : column) (totalWidth : Int) : Int :=
  match columns.find? (fun c => decide (c.1 = col)) with
  | some c => totalWidth - c.2
  | none => totalWidth

/-- The loop of `getVisibleColumns` over `sacrificeOrder`: it stops as soon as
the total fits the width, and otherwise hides the next column and takes its
width off the total. -/
def sacrificeLoop (width : Int) (columns : List (column × Int)) :
    List column → columnMap → Int → columnMap
  | [], visible, _ => visible
  | col :: rest, visible, totalWidth =>
    if totalWidth ≤ width then visible
    else sacrificeLoop width columns rest (visible.set col false)
      (subtractWidth columns col totalWidth)

/-- The method `Model.getVisibleColumns`. -/
def Model.getVisibleColumns (m : Model) : columnMap :=
  let visible : columnMap :=
    columnMap.set (columnMap.set (fun _ => none) column.colName true) column.colNode true
  let totalWidth : Int := optionalColumns.foldl (fun total col => total + col.2) (20 + 8 + 2)
  let visible := sacrificeLoop m.width optionalColumns sacrificeOrder visible totalWidth
  optionalColumns.foldl
    (fun visible colInfo => if (visible colInfo.1).isNone then visible.set colInfo.1 true
      else visible)
    visible

/-! ## Rendering window (`View`, `viewGuests`) -/

/-- The list `displayGuests` that `viewGuests` builds. -/
def Model.viewGuestsDisplayGuests (m : Model) : List Guest :=
  if !m.showAll then m.guests.filter (fun g => decide (g.Status = "running")) else m.guests

/-- The value of `m.scrollOffset` inside `viewGuests` after its two clamping
assignments. `View` and `viewGuests` have value receivers: they work on their
own copy of the model, so these assignments do not reach the model that the
program holds and passes to the next `Update`. -/
def Model.viewGuestsScrollOffset (m : Model) : Int :=
  let contentHeight := if m.height - 5 < 1 then 1 else m.height - 5
  let maxScroll := if (m.viewGuestsDisplayGuests.length : Int) - contentHeight < 0 then 0
    else (m.viewGuestsDisplayGuests.length : Int) - contentHeight
  let scrollOffset := if m.scrollOffset > maxScroll then maxScroll else m.scrollOffset
  if scrollOffset < 0 then 0 else scrollOffset

/-- One turn of the program's event loop: `Update` gives the next model, which
is rendered by `View` (on a copy) and kept for the next message. -/
def Model.next (m : Model) (msg : Msg) (now : Time) : Model := (m.Update msg now).1

/-- The models that the program can hold: `NewModel`, and the model after any
message (data arrival, key press, resize, tick, error) processed at any time. -/
inductive Reachable : Model → Prop where
  | init : Reachable NewModel
  | step (m : Model) (msg : Msg) (now : Time) : Reachable m → Reachable (m.next msg now)

/-! ## Formatting (`fmt.Sprintf`, `truncate`, `formatBytesPerSec`)

Text is a `String`, a sequence of characters. `fmt.Sprintf` pads to a width
counted in characters. The decimal rendering of a `float64` by the verb `%.1f`
belongs to package `fmt` and is a parameter `fmtFloat : F64 → String` of the
functions below. A `lipgloss` style only colours the text it renders; `Render`
is the identity here. -/

/-- The product `a * b` of two `float64`. -/
def F64.mul : F64 → F64 → F64
  | F64.fin a, F64.fin b => F64.round (a * b)
  | F64.fin a, F64.inf s => if a = 0 then F64.nan else F64.inf (s != decide (a < 0))
  | F64.inf s, F64.fin b => if b = 0 then F64.nan else F64.inf (s != decide (b < 0))
  | F64.inf s, F64.inf t => F64.inf (s != t)
  | F64.nan, _ => F64.nan
  | _, F64.nan => F64.nan

/-- A run of `n` spaces. -/
def spaces (n : Nat) : String := String.mk (List.replicate n ' ')

/-- The verb `%Ns` of `fmt.Sprintf` with `N = width`: the text is padded with
spaces on the left up to the width; a longer text is left as it is. -/
def padLeft (width : Nat) (s : String) : String := spaces (width - s.length) ++ s

/-- The verb `%-Ns` of `fmt.Sprintf` with `N = width`: the padding is on the
right. -/
def padRight (width : Nat) (s : String) : String := s ++ spaces (width - s.length)

/-- The leading characters of a text whose UTF-8 encoding fits in `n` bytes. -/
def takeBytes : Nat → List Char → List Char
  | _, [] => []
  | n, c :: cs => if c.utf8Size ≤ n then c :: takeBytes (n - c.utf8Size) cs else []

/-- The function `truncate`. `len(s)` and `s[:n-3]` count the bytes of the UTF-8
encoding. When the cut falls inside a character, Go keeps the leading bytes of
that character, which no longer form a character; they are dropped here. -/
def truncate (s : String) (n : Nat) : String :=
  if s.utf8ByteSize ≤ n then s else String.mk (takeBytes (n - 3) s.data) ++ "..."

/-- The function `formatBytesPerSec`: `fmt.Sprintf("%8.1f", float64(b) / 1024)`. -/
def formatBytesPerSec (fmtFloat : F64 → String) (b : Int) : String :=
  padLeft 8 (fmtFloat (F64.div (F64.ofInt b) (F64.fin 1024)))

/-- The method `Model.getDiskRate`. -/
def Model.getDiskRate (m : Model) (fmtFloat : F64 → String) (guest : Guest) : String :=
  formatBytesPerSec fmtFloat (m.getDiskRateNumeric guest)

/-- The method `Model.getNetRate`. -/
def Model.getNetRate (m : Model) (fmtFloat : F64 → String) (guest : Guest) : String :=
  formatBytesPerSec fmtFloat (m.getNetRateNumeric guest)

/-- The loop of `getNodeDiskRate`: the `int64` variable `totalRate` after the
running guests of the node have been added up. -/
def Model.nodeDiskRateTotal (m : Model) (nodeName : String) : Int :=
  m.guests.foldl
    (fun totalRate guest =>
      if guest.Node = nodeName ∧ guest.Status = "running" then
        wrapInt64 (totalRate + m.getDiskRateNumeric guest)
      else totalRate)
    0

/-- The method `Model.getNodeDiskRate`. -/
def Model.getNodeDiskRate (m : Model) (fmtFloat : F64 → String) (nodeName : String) : String :=
  formatBytesPerSec fmtFloat (m.nodeDiskRateTotal nodeName)

/-- The loop of `getNodeNetRate`. -/
def Model.nodeNetRateTotal (m : Model) (nodeName : String) : Int :=
  m.guests.foldl
    (fun totalRate guest =>
      if guest.Node = nodeName ∧ guest.Status = "running" then
        wrapInt64 (totalRate + m.getNetRateNumeric guest)
      else totalRate)
    0

/-- The method `Model.getNodeNetRate`. -/
def Model.getNodeNetRate (m : Model) (fmtFloat : F64 → String) (nodeName : String) : String :=
  formatBytesPerSec fmtFloat (m.nodeNetRateTotal nodeName)

/-! ## Table lines (`formatHeaders`, `formatGuestRow`) -/

/-- The slice `columnOrder` of `formatHeaders` and `formatGuestRow`. -/
def columnOrder : List column :=
  [ column.colID, column.colName, column.colType, column.colStatus, column.colCPU,
    column.colMem, column.colMemGiB, column.colDiskIO, column.colNetIO, column.colNode]

/-- The lookup `visible[col]`: `false` for a key that is absent. -/
def columnMap.get (visible : columnMap) (col : column) : Bool := (visible col).getD false

/-- The `switch` of `formatHeaders`: the header field of a column. -/
def headerField : column → String
  | column.colID => padRight 6 "ID"
  | column.colName => padRight 20 "NAME"
  | column.colType => padRight 6 "TYPE"
  | column.colStatus => padRight 8 "STATUS"
  | column.colCPU => padLeft 6 "CPU%"
  | column.colMem => padLeft 6 "MEM%"
  | column.colMemGiB => padLeft 15 "MEM(GiB)"
  | column.colDiskIO => padLeft 13 "DISK(KiB/s)"
  | column.colNetIO => padLeft 13 "NET(KiB/s)"
  | column.colNode => padRight 8 "NODE"

/-- The method `Model.formatHeaders`: the fields of the visible columns, in the
order of `columnOrder`, joined by single spaces. -/
def Model.formatHeaders (_m : Model) (visible : columnMap) : String :=
  " ".intercalate
    (columnOrder.foldl
      (fun parts col => if !visible.get col then parts else parts ++ [headerField col]) [])

/-- The `switch` of `formatGuestRow`: the field of a guest in a column. -/
def Model.guestField (m : Model) (fmtFloat : F64 → String) (guest : Guest) : column → String
  | column.colID => padRight 6 (toString guest.VMID)
  | column.colName => padRight 20 (truncate guest.Name 20)
  | column.colType => padRight 6 guest.Typ
  | column.colStatus => padRight 8 guest.Status
  | column.colCPU =>
    if guest.Status ≠ "running" then padLeft 6 "—"
    else padLeft 6 (fmtFloat (F64.mul (F64.fin guest.CPU) (F64.fin 100)))
  | column.colMem =>
    if guest.Status ≠ "running" then padLeft 6 "—"
    else padLeft 6 (fmtFloat
      (F64.mul (F64.div (F64.ofInt guest.Mem) (F64.ofInt guest.MaxMem)) (F64.fin 100)))
  | column.colMemGiB =>
    if guest.Status ≠ "running" then padLeft 15 "—"
    else padLeft 15
      (padLeft 5 (fmtFloat (F64.div (F64.ofInt guest.Mem) (F64.fin (1024 * 1024 * 1024))))
        ++ " / "
        ++ padRight 5 (fmtFloat (F64.div (F64.ofInt guest.MaxMem) (F64.fin (1024 * 1024 * 1024)))))
  | column.colDiskIO =>
    if guest.Status ≠ "running" then padLeft 13 "—" else padLeft 13 (m.getDiskRate fmtFloat guest)
  | column.colNetIO =>
    if guest.Status ≠ "running" then padLeft 13 "—" else padLeft 13 (m.getNetRate fmtFloat guest)
  | column.colNode => padRight 8 guest.Node

/-- The method `Model.formatGuestRow`. -/
def Model.formatGuestRow (m : Model) (fmtFloat : F64 → String) (guest : Guest)
    (visible : columnMap) : String :=
  " ".intercalate
    (columnOrder.foldl
      (fun parts col =>
        if !visible.get col then parts else parts ++ [m.guestField fmtFloat guest col]) [])

/-! ## Screens (`View`, `viewGuests`)

`m.width` and `m.height` are the size of the terminal; they are far from the
bounds of `int`, and `m.height - 5` is the integer difference. -/

/-- The constant `minTerminalWidth`. -/
def minTerminalWidth : Int := 35

/-- The constant `minTerminalHeight`. -/
def minTerminalHeight : Int := 10

/-- The slice expression `displayGuests[startIdx:endIdx]`, which panics (`none`)
when the indices are out of range. The upper bound is taken to be the length of
the slice, which its capacity is at least. -/
def sliceGuests (displayGuests : List Guest) (startIdx endIdx : Int) : Option (List Guest) :=
  if 0 ≤ startIdx ∧ startIdx ≤ endIdx ∧ endIdx ≤ displayGuests.length then
    some ((displayGuests.drop startIdx.toNat).take (endIdx - startIdx).toNat)
  else none

/-- The variable `contentHeight` of `viewGuests`. -/
def Model.viewGuestsContentHeight (m : Model) : Int :=
  if m.height - 5 < 1 then 1 else m.height - 5

/-- The variable `startIdx` of `viewGuests`: the scroll offset of the rendered
copy, after the two clamping assignments. -/
def Model.viewGuestsStartIdx (m : Model) : Int := m.viewGuestsScrollOffset

/-- The variable `endIdx` of `viewGuests`. -/
def Model.viewGuestsEndIdx (m : Model) : Int :=
  if m.viewGuestsStartIdx + m.viewGuestsContentHeight > m.viewGuestsDisplayGuests.length then
    m.viewGuestsDisplayGuests.length
  else m.viewGuestsStartIdx + m.viewGuestsContentHeight

/-- The slice `visibleGuests` of `viewGuests`. -/
def Model.viewGuestsVisibleGuests (m : Model) : Option (List Guest) :=
  sliceGuests m.viewGuestsDisplayGuests m.viewGuestsStartIdx m.viewGuestsEndIdx

/-- What `View` returns, colour and layout styling aside: the message of a
terminal that is too small, the error screen with its text, the node table
(whose content is not modelled), or the guest table with its column-header
line and its rows (the title bar, the padding and the help line are not
modelled). -/
inductive Screen where
  | tooSmall (message : String)
  | error (message : String)
  | nodes
  | guests (headers : String) (rows : List String)
deriving DecidableEq

/-- The method `Model.viewGuests`; `none` when the slice expression panics. -/
def Model.viewGuests (m : Model) (fmtFloat : F64 → String) : Option Screen :=
  match m.viewGuestsVisibleGuests with
  | none => none
  | some visibleGuests =>
    some (Screen.guests (m.formatHeaders m.getVisibleColumns)
      (visibleGuests.map (fun guest => m.formatGuestRow fmtFloat guest m.getVisibleColumns)))

/-- The method `Model.View`. -/
def Model.View (m : Model) (fmtFloat : F64 → String) : Option Screen :=
  if m.width < minTerminalWidth ∨ m.height < minTerminalHeight then
    some (Screen.tooSmall
      ("Terminal too small\nMinimum: " ++ toString minTerminalWidth ++ "x"
        ++ toString minTerminalHeight ++ "\nCurrent: " ++ toString m.width ++ "x"
        ++ toString m.height))
  else
    match m.err with
    | some err => some (Screen.error ("Error: " ++ err ++ "\n\nPress 'q' to quit."))
    | none =>
      if m.viewMode = viewMode.viewNodes ∧ 0 < m.nodes.length then some Screen.nodes
      else m.viewGuests fmtFloat

/-! ## Host validation (`internal/setup/wizard.go`) -/

/-- The library function `strings.TrimPrefix`, on the characters of the text. -/
def TrimPrefix (s pre : List Char) : List Char :=
  if pre.isPrefixOf s then s.drop pre.length else s

/-- The library function `strings.TrimSuffix`, on the characters of the text. -/
def TrimSuffix (s suf : List Char) : List Char :=
  if suf.isSuffixOf s then s.take (s.length - suf.length) else s

/-- The statement `if colonIndex := strings.Index(host, ":"); colonIndex != -1
\x7b host = host[:colonIndex] \x7d` of `ValidateHost`. -/
def cutAtColon (host : List Char) : List Char :=
  if ':' ∈ host then host.take (host.indexOf ':') else host

/-- The function `ValidateHost`. -/
def ValidateHost (host : String) : Except String String :=
  if host = "" then Except.error "host cannot be empty"
  else
    let host := TrimPrefix host.data "https://".data
    let host := TrimPrefix host "http://".data
    let host := cutAtColon host
    let host := TrimSuffix host "/".data
    if '/' ∈ host ∨ ' ' ∈ host then Except.error "invalid host format"
    else Except.ok (String.mk host)

/-! ## Aggregation of the guests (`internal/api/client.go`) -/

/-- The method `Client.GetAllGuests`. The answers of the remote API are given:
`getNodes` is the result of `c.GetNodes()`, and `getVMs` and `getContainers` give
the results of `c.GetVMs` and `c.GetContainers` for a node name. -/
def GetAllGuests (getNodes : Except String (List Node))
    (getVMs getContainers : String → Except String (List Guest)) : Except String (List Guest) :=
  match getNodes with
  | Except.error err => Except.error err
  | Except.ok nodes =>
    Except.ok (nodes.foldl
      (fun allGuests node =>
        match getVMs node.Node with
        | Except.error _ => allGuests
        | Except.ok vms =>
          match getContainers node.Node with
          | Except.error _ => allGuests ++ vms
          | Except.ok containers => allGuests ++ vms ++ containers)
      [])

/-! ## Auxiliary definitions for the statements -/

/-- The rational value of `Duration.Seconds d`. -/
def secondsValue (d : Int) : ℚ :=
  roundF64 (roundF64 ((Int.tdiv d 1000000000 : Int) : ℚ)
    + roundF64 (roundF64 ((Int.tmod d 1000000000 : Int) : ℚ) / 1000000000))

/-- The delta of one cumulative counter as the rate functions compute it: the
`int64` difference, replaced by 0 when negative. -/
def clampedDelta (cur prev : Int) : Int :=
  if wrapInt64 (cur - prev) < 0 then 0 else wrapInt64 (cur - prev)

/-- The value that `getDiskRateNumeric` and `getNetRateNumeric` return once a
previous sample is found, as a function of the elapsed duration and of the two
counter pairs. -/
def rateBody (elapsed cur1 prev1 cur2 prev2 : Int) : Int :=
  if F64.lt (F64.fin 0) (Duration.Seconds elapsed) then
    F64.toInt64 (F64.div (F64.ofInt (wrapInt64 (clampedDelta cur1 prev1 + clampedDelta cur2 prev2)))
      (Duration.Seconds elapsed))
  else 0

/-- The rate as the specification words it: each delta clamped at 0, the pair
summed, the sum divided by the elapsed seconds, the integer part taken, all in
exact arithmetic. `elapsed` is in nanoseconds. -/
def specRate (elapsed cur1 prev1 cur2 prev2 : Int) : Int :=
  ⌊(((max 0 (cur1 - prev1) + max 0 (cur2 - prev2) : Int) : ℚ)) / ((elapsed : ℚ) / 1000000000)⌋

/-- Whether a guest's status is `running`. -/
def Guest.isRunning (g : Guest) : Bool := decide (g.Status = "running")

/-- The comparison by id alone, the one `sortGuests` applies to two guests that
are not running. -/
def idLess (gi gj : Guest) : Bool := decide (gi.VMID < gj.VMID)

/-- The total width `getVisibleColumns` starts from: the mandatory columns with
their separators and every optional column. -/
def plannedTotalWidth : Int :=
  optionalColumns.foldl (fun total col => total + col.2) (20 + 8 + 2)

/-- The planner's total once the first `k` columns of the sacrifice order are
hidden. -/
def remainingWidth (k : Nat) : Int :=
  (sacrificeOrder.take k).foldl (fun total col => subtractWidth optionalColumns col total)
    plannedTotalWidth

/-- The number of hidden columns as the specification words it: the smallest `k`
for which the total without the first `k` columns of the sacrifice order fits
the width, or 8 when there is none. -/
def hiddenCount (width : Int) : Nat :=
  ((List.range 8).find? (fun k => decide (remainingWidth k ≤ width))).getD 8

/-- The number of columns `sacrificeLoop` hides before it stops. -/
def sacrificeSteps (width : Int) (columns : List (column × Int)) : List column → Int → Nat
  | [], _ => 0
  | col :: rest, totalWidth =>
    if totalWidth ≤ width then 0
    else sacrificeSteps width columns rest (subtractWidth columns col totalWidth) + 1

/-- The map `getVisibleColumns` returns when its loop hides the first `k` columns
of the sacrifice order. -/
def visibleWhenHidden (k : Nat) : columnMap :=
  optionalColumns.foldl
    (fun visible colInfo => if (visible colInfo.1).isNone then visible.set colInfo.1 true
      else visible)
    ((sacrificeOrder.take k).foldl (fun visible col => visible.set col false)
      (columnMap.set (columnMap.set (fun _ => none) column.colName true) column.colNode true))

/-- What one host contributes to the result of `GetAllGuests`: nothing when the
enumeration of its VMs fails, its VMs alone when only the enumeration of its
containers fails, its VMs followed by its containers otherwise. -/
def hostContribution (getVMs getContainers : String → Except String (List Guest))
    (node : Node) : List Guest :=
  match getVMs node.Node with
  | Except.error _ => []
  | Except.ok vms =>
    match getContainers node.Node with
    | Except.error _ => vms
    | Except.ok containers => vms ++ containers

/-- What one host contributes as the specification words it: its VMs and
containers when both enumerations succeed, nothing at all otherwise. -/
def specHostContribution (getVMs getContainers : String → Except String (List Guest))
    (node : Node) : List Guest :=
  match getVMs node.Node, getContainers node.Node with
  | Except.ok vms, Except.ok containers => vms ++ containers
  | _, _ => []

/-- The largest scroll offset as the specification words it:
`max(0, displayed guests - content height)` with content height
`max(1, height - 5)`. -/
def Model.maxScrollOffset (m : Model) : Int :=
  max 0 ((m.getDisplayGuests.length : Int) - max 1 (m.height - 5))

/-- The text of the error screen for an error `err`. -/
def errorScreenText (err : String) : String := "Error: " ++ err ++ "\n\nPress 'q' to quit."

/-- The guests whose node is `nodeName` and whose status is `running`, in their
stored order. -/
def Model.runningGuestsOf (m : Model) (nodeName : String) : List Guest :=
  m.guests.filter (fun g => decide (g.Node = nodeName ∧ g.Status = "running"))

/-- The four cumulative counters of a guest are byte counts: non-negative
`int64` values. -/
def Guest.byteCounters (g : Guest) : Prop :=
  (0 ≤ g.DiskRead ∧ g.DiskRead ≤ maxInt64) ∧ (0 ≤ g.DiskWrite ∧ g.DiskWrite ≤ maxInt64) ∧
  (0 ≤ g.NetIn ∧ g.NetIn ≤ maxInt64) ∧ (0 ≤ g.NetOut ∧ g.NetOut ≤ maxInt64)

/-- The statements of the loop body of `pdqsort_func` from `breakPatterns_func`
to the attempt of `partialInsertionSort_func`: the slice and the result of the
attempt, and the index of the pivot. -/
def pdqsort_attempt {α : Type} (less : α → α → Bool) (data : List α) (a b : Nat)
    (wasBalanced wasPartitioned : Bool) : (List α × Bool) × Nat :=
  let data1 := if !wasBalanced then breakPatterns_func data a b else data
  let choice := choosePivot_func less data1 a b
  let data2 :=
    if choice.2 = sortedHint.decreasingHint then reverseRange_func data1 a b else data1
  let pivot :=
    if choice.2 = sortedHint.decreasingHint then (b - 1) - (choice.1 - a) else choice.1
  let hint :=
    if choice.2 = sortedHint.decreasingHint then sortedHint.increasingHint else choice.2
  let attempt :=
    if wasBalanced && wasPartitioned && decide (hint = sortedHint.increasingHint) then
      partialInsertionSort_func less data2 a b
    else (data2, false)
  (attempt, pivot)

/-- The comparison agrees with a key on the elements of the slice: `less x y`
implies `key x ≤ key y` and its failure implies `key y ≤ key x`. -/
def Compat {α K : Type} [LinearOrder K] (key : α → K) (less : α → α → Bool) (data : List α) :
    Prop :=
  ∀ x ∈ data, ∀ y ∈ data,
    (less x y = true → key x ≤ key y) ∧ (less x y = false → key y ≤ key x)

/-- The key of the element at an index of the slice. -/
def keyAt {α K : Type} [Inhabited α] (key : α → K) (data : List α) (i : Nat) : K :=
  key (data.getD i default)

/-- What an operation on `data[a:b]` preserves: the elements, the key at every
index outside `[a, b)`, and the keys found inside `[a, b)`. -/
structure KFrame {α K : Type} [Inhabited α] (key : α → K) (a b : Nat) (data data' : List α) :
    Prop where
  perm : data'.Perm data
  out : ∀ k, k < a ∨ b ≤ k → keyAt key data' k = keyAt key data k
  inn : ∀ k, a ≤ k → k < b → ∃ k', a ≤ k' ∧ k' < b ∧ keyAt key data' k = keyAt key data k'

/-- The keys at the indices `[a, b)` are in order. -/
def SortedOn {α K : Type} [LinearOrder K] [Inhabited α] (key : α → K) (data : List α)
    (a b : Nat) : Prop :=
  ∀ i j, a ≤ i → i < j → j < b → keyAt key data i ≤ keyAt key data j

/-- Every key before index `a` is at most every key at the indices `[a, b)`. -/
def LowerBound {α K : Type} [LinearOrder K] [Inhabited α] (key : α → K) (data : List α)
    (a b : Nat) : Prop :=
  ∀ u v, u < a → a ≤ v → v < b → keyAt key data u ≤ keyAt key data v

/-- The heap of `heapSort_func` on `data[first : first + hi]`, from node `lo` on:
no child has a greater key than its parent. -/
def HeapFrom {α K : Type} [LinearOrder K] [Inhabited α] (key : α → K) (data : List α)
    (first lo hi : Nat) : Prop :=
  ∀ i c, lo ≤ i → c < hi → c = 2 * i + 1 ∨ c = 2 * i + 2 →
    keyAt key data (first + c) ≤ keyAt key data (first + i)

/-- The heap of `heapSort_func` with node `root` still to be sifted down: every
other node from `lo` on has no child with a greater key, and neither has the
parent of `root` a grandchild below `root` with a greater key. -/
def HeapExcept {α K : Type} [LinearOrder K] [Inhabited α] (key : α → K) (data : List α)
    (first lo hi root : Nat) : Prop :=
  (∀ i c, lo ≤ i → i ≠ root → c < hi → c = 2 * i + 1 ∨ c = 2 * i + 2 →
    keyAt key data (first + c) ≤ keyAt key data (first + i)) ∧
  (∀ p c, lo ≤ p → root = 2 * p + 1 ∨ root = 2 * p + 2 → c < hi →
    c = 2 * root + 1 ∨ c = 2 * root + 2 →
    keyAt key data (first + c) ≤ keyAt key data (first + p))

/-- The comparison `a <= b` of two `float64`; false as soon as one is NaN. -/
def F64.le : F64 → F64 → Bool
  | F64.fin a, F64.fin b => decide (a ≤ b)
  | F64.fin _, F64.inf s => !s
  | F64.inf s, F64.fin _ => s
  | F64.inf s, F64.inf t => s || !t
  | F64.nan, _ => false
  | _, F64.nan => false

/-- The place of a `float64` in the order of the numbers: minus infinity, the
finite values, plus infinity (NaN, which has no place, is put last). -/
def F64.toOrd : F64 → ℤ ×ₗ ℚ
  | F64.fin q => toLex (0, q)
  | F64.inf true => toLex (-1, 0)
  | F64.inf false => toLex (1, 0)
  | F64.nan => toLex (2, 0)

/-- The memory use of a guest, the key of the sort by memory:
`float64(Mem) / float64(MaxMem)`. -/
def Guest.memRatio (g : Guest) : F64 := F64.div (F64.ofInt g.Mem) (F64.ofInt g.MaxMem)

/-- The order of the specification on the selected key: guest `a` has at most
the value of guest `b` in the field that the key names (the id, the name, the
status, the CPU fraction, the memory use, the disk use, the disk rate, the
network rate). -/
def Model.keyLE (m : Model) (a b : Guest) : Prop :=
  match m.sortBy with
  | sortColumn.sortByVMID => a.VMID ≤ b.VMID
  | sortColumn.sortByName => a.Name ≤ b.Name
  | sortColumn.sortByStatus => a.Status ≤ b.Status
  | sortColumn.sortByCPU => a.CPU ≤ b.CPU
  | sortColumn.sortByMem => F64.le a.memRatio b.memRatio = true
  | sortColumn.sortByDisk => a.Disk ≤ b.Disk
  | sortColumn.sortByDiskIO => m.getDiskRateNumeric a ≤ m.getDiskRateNumeric b
  | sortColumn.sortByNetIO => m.getNetRateNumeric a ≤ m.getNetRateNumeric b

/-- The key that the comparison of `sortGuests` agrees with, given the key `k`
of the running guests: the running guests first, by `k`, then the others, by
id. -/
def guestKey {K : Type} (k : Guest → K) (g : Guest) : K ⊕ₗ ℤ :=
  if g.Status = "running" then toLex (Sum.inl (k g)) else toLex (Sum.inr g.VMID)

/-! ## Sample data -/

/-- A guest with the given id, status and cumulative counters. -/
def sampleGuest (vmid : Int) (status : String) (diskRead diskWrite netIn netOut : Int) : Guest where
  VMID := vmid
  Name := "guest"
  Typ := "qemu"
  Status := status
  Node := "pve"
  CPU := 0
  CPUs := 1
  Mem := 0
  MaxMem := 0
  Disk := 0
  MaxDisk := 0
  NetIn := netIn
  NetOut := netOut
  DiskRead := diskRead
  DiskWrite := diskWrite
  Uptime := 0
  PID := 0

/-- A model whose previous snapshot is the single guest `prev`, fetched at
instant `t0`, the current snapshot dating from instant `t1`. -/
def sampleModel (prev : Guest) (t0 t1 : Int) : Model :=
  { NewModel with
    prevGuests := [prev]
    prevGuestMap := buildPrevGuestMap [prev]
    lastFetch := ⟨t0⟩
    lastUpdate := ⟨t1⟩ }

/-- A guest with the given id, status, CPU fraction and memory figures. -/
def sampleLoad (vmid : Int) (status : String) (cpu : ℚ) (mem maxMem : Int) : Guest where
  VMID := vmid
  Name := "guest"
  Typ := "qemu"
  Status := status
  Node := "pve"
  CPU := cpu
  CPUs := 1
  Mem := mem
  MaxMem := maxMem
  Disk := 0
  MaxDisk := 0
  NetIn := 0
  NetOut := 0
  DiskRead := 0
  DiskWrite := 0
  Uptime := 0
  PID := 0

/-- Ten guests, three of them running, in no particular order. -/
def scenarioGuests : List Guest :=
  [sampleLoad 107 "stopped" 0 0 4, sampleLoad 103 "running" 3 1 4,
   sampleLoad 110 "stopped" 0 0 4, sampleLoad 101 "running" 5 2 4,
   sampleLoad 104 "paused" 9 1 4, sampleLoad 109 "stopped" 0 0 4,
   sampleLoad 102 "running" 1 3 4, sampleLoad 106 "stopped" 0 0 4,
   sampleLoad 108 "stopped" 0 0 4, sampleLoad 105 "stopped" 0 0 4]

/-- The model holding `scenarioGuests`, to be sorted by CPU, not reversed. -/
def scenarioModel : Model :=
  { NewModel with guests := scenarioGuests, sortBy := sortColumn.sortByCPU, sortReverse := false }

/-- Three running guests whose memory figures give the ratios 1, NaN (0 / 0)
and 0. -/
def nanGuests : List Guest :=
  [sampleLoad 101 "running" 0 1 1, sampleLoad 102 "running" 0 0 0, sampleLoad 103 "running" 0 0 1]

/-- The model holding `nanGuests`, to be sorted by memory use, not reversed. -/
def nanModel : Model :=
  { NewModel with guests := nanGuests, sortBy := sortColumn.sortByMem, sortReverse := false }

/-- Two running guests with the same CPU use, in a model with the settings of
`NewModel` (sorted by CPU, reversed). -/
def tieModel : Model :=
  { NewModel with guests := [sampleLoad 101 "running" 0 1 4, sampleLoad 102 "running" 0 1 4] }

/-- The model of `tieModel` with the sort not reversed. -/
def tieModelForward : Model :=
  { tieModel with sortReverse := false }

/-- Two running guests of node `pve` whose disk-read counters went from 0 to
`2^62` in the second between the two snapshots. -/
def heavyLoadModel : Model :=
  { NewModel with
    guests := [sampleGuest 101 "running" 4611686018427387904 0 0 0,
      sampleGuest 102 "running" 4611686018427387904 0 0 0]
    prevGuests := [sampleGuest 101 "running" 0 0 0 0, sampleGuest 102 "running" 0 0 0 0]
    prevGuestMap :=
      buildPrevGuestMap [sampleGuest 101 "running" 0 0 0 0, sampleGuest 102 "running" 0 0 0 0]
    lastFetch := ⟨1000000000⟩
    lastUpdate := ⟨2000000000⟩ }

/-- Node `pve` with two running guests whose disk-read counters went up by 500
and by 300 in the second between the two snapshots, and a stopped guest whose
counter went up by 9000; a running guest of node `pve2`. -/
def busyNodeModel : Model :=
  { NewModel with
    guests := [sampleGuest 101 "running" 1500 0 0 0, sampleGuest 102 "stopped" 9000 0 0 0,
      sampleGuest 103 "running" 300 0 0 0,
      { sampleGuest 104 "running" 77 0 0 0 with Node := "pve2" }]
    prevGuests := [sampleGuest 101 "running" 1000 0 0 0, sampleGuest 102 "running" 0 0 0 0,
      sampleGuest 103 "running" 0 0 0 0, sampleGuest 104 "running" 0 0 0 0]
    prevGuestMap :=
      buildPrevGuestMap [sampleGuest 101 "running" 1000 0 0 0, sampleGuest 102 "running" 0 0 0 0,
        sampleGuest 103 "running" 0 0 0 0, sampleGuest 104 "running" 0 0 0 0]
    lastFetch := ⟨1000000000⟩
    lastUpdate := ⟨2000000000⟩ }

/-- A guest with the given id, name, status and CPU fraction. -/
def namedGuest (vmid : Int) (name status : String) (cpu : ℚ) : Guest :=
  { sampleLoad vmid status cpu 1 4 with Name := name }

/-- Thirteen guests: eleven running guests with CPU fractions 1 to 11 and, in
second and eighth place, two stopped guests `a` and `b` that share the id 50. -/
def sharedIdGuests : List Guest :=
  [namedGuest 101 "r" "running" 1, namedGuest 50 "a" "stopped" 0,
   namedGuest 102 "r" "running" 2, namedGuest 103 "r" "running" 3,
   namedGuest 104 "r" "running" 4, namedGuest 105 "r" "running" 5,
   namedGuest 106 "r" "running" 6, namedGuest 50 "b" "stopped" 0,
   namedGuest 107 "r" "running" 7, namedGuest 108 "r" "running" 8,
   namedGuest 109 "r" "running" 9, namedGuest 110 "r" "running" 10,
   namedGuest 111 "r" "running" 11]

/-- The model holding `sharedIdGuests`, to be sorted by CPU. -/
def sharedIdModel (reversed : Bool) : Model :=
  { NewModel with
    guests := sharedIdGuests
    sortBy := sortColumn.sortByCPU
    sortReverse := reversed }

/-- Thirteen running guests; the first and the seventh (ids 100 and 106) have
the same CPU fraction, 20. -/
def thirteenGuests : List Guest :=
  [sampleLoad 100 "running" 20 1 4, sampleLoad 101 "running" 19 1 4,
   sampleLoad 102 "running" 18 1 4, sampleLoad 103 "running" 17 1 4,
   sampleLoad 104 "running" 16 1 4, sampleLoad 105 "running" 15 1 4,
   sampleLoad 106 "running" 20 1 4, sampleLoad 107 "running" 13 1 4,
   sampleLoad 108 "running" 12 1 4, sampleLoad 109 "running" 11 1 4,
   sampleLoad 110 "running" 10 1 4, sampleLoad 111 "running" 9 1 4,
   sampleLoad 112 "running" 8 1 4]

/-- The model holding `thirteenGuests`, to be sorted by CPU, not reversed. -/
def thirteenModel : Model :=
  { NewModel with guests := thirteenGuests, sortBy := sortColumn.sortByCPU, sortReverse := false }

/-- Two running guests whose memory figures give the ratios 1 and NaN (0 / 0),
to be sorted by memory use, reversed. -/
def nanModelReversed : Model :=
  { NewModel with
    guests := [sampleLoad 101 "running" 0 1 1, sampleLoad 102 "running" 0 0 0]
    sortBy := sortColumn.sortByMem
    sortReverse := true }

/-- Thirteen running guests with the ids 100 to 112 and the same CPU use. -/
def tiedGuests : List Guest :=
  (List.range 13).map (fun i => sampleLoad (100 + (i : Int)) "running" 0 1 4)

/-- The model holding `tiedGuests`, with the settings of `NewModel` (sorted by
CPU, reversed). -/
def tiedModel : Model := { NewModel with guests := tiedGuests }

/-- Seven running guests. -/
def sevenRunningGuests : List Guest :=
  [sampleLoad 101 "running" 7 1 4, sampleLoad 102 "running" 6 1 4,
   sampleLoad 103 "running" 5 1 4, sampleLoad 104 "running" 4 1 4,
   sampleLoad 105 "running" 3 1 4, sampleLoad 106 "running" 2 1 4,
   sampleLoad 107 "running" 1 1 4]

/-- The model the program holds after this session: the terminal is sized 80 x 10
(five content rows), seven running guests arrive, the user scrolls down twice,
then a snapshot with a single running guest arrives. -/
def staleScrollModel : Model :=
  (((((NewModel.next (Msg.windowSize 80 10) ⟨1⟩).next (Msg.data sevenRunningGuests []) ⟨2⟩).next
    (Msg.key "j") ⟨3⟩).next (Msg.key "j") ⟨4⟩).next
    (Msg.data [sampleLoad 101 "running" 7 1 4] []) ⟨5⟩)

/-! ## Rounding lemmas -/

theorem roundHalfEven_intCast (n : Int) : roundHalfEven (n : ℚ) = n := by
  simp [roundHalfEven]
theorem floor_le_roundHalfEven (x : ℚ) : ⌊x⌋ ≤ roundHalfEven x := by
  unfold roundHalfEven
  split_ifs <;> omega
theorem roundHalfEven_le_floor_add_one (x : ℚ) : roundHalfEven x ≤ ⌊x⌋ + 1 := by
  unfold roundHalfEven
  split_ifs <;> omega
theorem le_roundHalfEven {x : ℚ} {j : Int} (h : (j : ℚ) ≤ x) : j ≤ roundHalfEven x :=
  le_trans (Int.le_floor.mpr h) (floor_le_roundHalfEven x)
theorem roundHalfEven_lt {x : ℚ} {j : Int} (h : x < (j : ℚ) - 1 / 2) : roundHalfEven x < j := by
  have hfl : ⌊x⌋ < j := by
    have : x < (j : ℚ) := by linarith
    exact Int.floor_lt.mpr this
  unfold roundHalfEven
  have h1 := Int.floor_le x
  have h2 := Int.lt_floor_add_one x
  by_cases hc : ⌊x⌋ + 1 = j
  · have : x - ⌊x⌋ < 1 / 2 := by
      have : ((⌊x⌋ : ℚ)) + 1 = j := by exact_mod_cast hc
      linarith
    rw [if_pos this]; exact hfl
  · have : ⌊x⌋ + 1 < j := by omega
    split_ifs <;> omega
theorem roundHalfEven_nonneg {x : ℚ} (hx : 0 ≤ x) : 0 ≤ roundHalfEven x :=
  le_roundHalfEven (by exact_mod_cast hx)
theorem roundHalfEven_nonpos {x : ℚ} (hx : x ≤ 0) : roundHalfEven x ≤ 0 := by
  rcases eq_or_lt_of_le hx with h | h
  · subst h; simp [roundHalfEven]
  · have : ⌊x⌋ < 0 := Int.floor_lt.mpr (by exact_mod_cast h)
    have := roundHalfEven_le_floor_add_one x
    omega
theorem roundHalfEven_pos {x : ℚ} (hx : 1 ≤ x) : 0 < roundHalfEven x := by
  have : (1 : Int) ≤ roundHalfEven x := le_roundHalfEven (by exact_mod_cast hx)
  omega

theorem two_zpow_pos (z : Int) : (0 : ℚ) < 2 ^ z := zpow_pos (by norm_num) z

theorem roundF64_zero : roundF64 0 = 0 := by
  simp [roundF64, roundHalfEven]

theorem roundF64_nonneg {x : ℚ} (hx : 0 ≤ x) : 0 ≤ roundF64 x := by
  unfold roundF64
  have h1 : (0 : ℚ) ≤ x * 2 ^ (52 - Int.log 2 |x|) := mul_nonneg hx (two_zpow_pos _).le
  have h2 : (0 : ℚ) ≤ (roundHalfEven (x * 2 ^ (52 - Int.log 2 |x|)) : ℚ) := by
    exact_mod_cast roundHalfEven_nonneg h1
  exact mul_nonneg h2 (two_zpow_pos _).le

theorem roundF64_nonpos {x : ℚ} (hx : x ≤ 0) : roundF64 x ≤ 0 := by
  unfold roundF64
  have h1 : x * 2 ^ (52 - Int.log 2 |x|) ≤ 0 := mul_nonpos_of_nonpos_of_nonneg hx (two_zpow_pos _).le
  have h2 : (roundHalfEven (x * 2 ^ (52 - Int.log 2 |x|)) : ℚ) ≤ 0 := by
    exact_mod_cast roundHalfEven_nonpos h1
  exact mul_nonpos_of_nonpos_of_nonneg h2 (two_zpow_pos _).le

/-- A positive number scaled into its binade is at least `2^52`. -/
theorem scaled_ge {x : ℚ} (hx : 0 < x) : (2 : ℚ) ^ (52 : Int) ≤ x * 2 ^ (52 - Int.log 2 |x|) := by
  have h := Int.zpow_log_le_self (b := 2) (r := x) (by norm_num) hx
  rw [abs_of_pos hx]
  have h3 : (2 : ℚ) ^ (52 : Int) = 2 ^ Int.log 2 x * 2 ^ (52 - Int.log 2 x) := by
    rw [← zpow_add₀ (by norm_num : (2 : ℚ) ≠ 0)]; congr 1; ring
  rw [h3]
  push_cast at h
  exact mul_le_mul_of_nonneg_right h (two_zpow_pos _).le

theorem roundF64_pos {x : ℚ} (hx : 0 < x) : 0 < roundF64 x := by
  unfold roundF64
  have h1 := scaled_ge hx
  have h2 : (1 : ℚ) ≤ x * 2 ^ (52 - Int.log 2 |x|) := le_trans (by norm_num) h1
  have h3 : (0 : ℚ) < (roundHalfEven (x * 2 ^ (52 - Int.log 2 |x|)) : ℚ) := by
    exact_mod_cast roundHalfEven_pos h2
  exact mul_pos h3 (two_zpow_pos _)

theorem roundF64_of_scaled_int (x : ℚ) (k : Int)
    (h : x * 2 ^ (52 - Int.log 2 |x|) = k) : roundF64 x = x := by
  unfold roundF64
  rw [h, roundHalfEven_intCast, ← h, mul_assoc, ← zpow_add₀ (by norm_num : (2 : ℚ) ≠ 0)]
  simp

theorem roundF64_intCast (n : Int) (h : |n| ≤ 2 ^ 53) : roundF64 (n : ℚ) = n := by
  rcases eq_or_ne n 0 with h0 | h0
  · subst h0; simpa using roundF64_zero
  have habs : (1 : ℚ) ≤ |(n : ℚ)| := by
    have : (1 : Int) ≤ |n| := Int.one_le_abs h0
    exact_mod_cast this
  have hpos : (0 : ℚ) < |(n : ℚ)| := lt_of_lt_of_le one_pos habs
  have hle : |(n : ℚ)| ≤ 2 ^ 53 := by exact_mod_cast h
  have he0 : 0 ≤ Int.log 2 |(n : ℚ)| := by
    rw [Int.log_of_one_le_right 2 habs]; exact Int.natCast_nonneg _
  have he1 : Int.log 2 |(n : ℚ)| < 54 := by
    rw [← Int.lt_zpow_iff_log_lt (by norm_num) hpos]
    calc |(n : ℚ)| ≤ 2 ^ 53 := hle
      _ < ((2 : ℕ) : ℚ) ^ (54 : Int) := by norm_num
  have hlow := Int.zpow_log_le_self (b := 2) (r := |(n : ℚ)|) (by norm_num) hpos
  push_cast at hlow
  rcases lt_or_le (Int.log 2 |(n : ℚ)|) 53 with hlt | hge
  · obtain ⟨t, ht⟩ := Int.eq_ofNat_of_zero_le (show 0 ≤ 52 - Int.log 2 |(n : ℚ)| by omega)
    apply roundF64_of_scaled_int _ (n * 2 ^ t)
    rw [ht, zpow_natCast]; push_cast; ring
  · have he : Int.log 2 |(n : ℚ)| = 53 := by omega
    rw [he] at hlow
    have hlow' : (2 : ℚ) ^ 53 ≤ |(n : ℚ)| := by
      have h53 : (2 : ℚ) ^ (53 : Int) = 2 ^ 53 := by norm_num
      rw [← h53]; exact hlow
    have habs' : |(n : ℚ)| = 2 ^ 53 := le_antisymm hle hlow'
    have habsZ : |n| = 2 ^ 53 := by exact_mod_cast habs'
    have hn : n = 2 ^ 53 ∨ n = -(2 ^ 53) := by
      rcases abs_cases n with ⟨h1, _⟩ | ⟨h1, _⟩ <;> omega
    rcases hn with hn | hn
    · apply roundF64_of_scaled_int _ (2 ^ 52)
      rw [he]; subst hn; norm_num
    · apply roundF64_of_scaled_int _ (-(2 ^ 52))
      rw [he]; subst hn; norm_num


theorem floor_roundF64_div (a b : ℕ) (hb : 0 < b) (ha : a < 2 ^ 53) :
    ⌊roundF64 ((a : ℚ) / b)⌋ = ((a / b : ℕ) : Int) := by
  rcases Nat.eq_zero_or_pos a with h0 | hapos
  · subst h0; simp [roundF64_zero]
  have hbq : (0 : ℚ) < b := by exact_mod_cast hb
  have haq : (0 : ℚ) < a := by exact_mod_cast hapos
  have hx : (0 : ℚ) < (a : ℚ) / b := div_pos haq hbq
  have hxa : (a : ℚ) / b ≤ a := div_le_self haq.le (by exact_mod_cast hb)
  have he1 : Int.log 2 |(a : ℚ) / b| < 53 := by
    rw [abs_of_pos hx, ← Int.lt_zpow_iff_log_lt (by norm_num) hx]
    calc (a : ℚ) / b ≤ a := hxa
      _ < ((2 : ℕ) : ℚ) ^ (53 : Int) := by
        have : (a : ℚ) < 2 ^ 53 := by exact_mod_cast ha
        have h53 : ((2 : ℕ) : ℚ) ^ (53 : Int) = 2 ^ 53 := by norm_num
        rw [h53]; exact this
  obtain ⟨t, ht⟩ := Int.eq_ofNat_of_zero_le (show 0 ≤ 52 - Int.log 2 |(a : ℚ) / b| by omega)
  have hP : (0 : ℚ) < 2 ^ t := pow_pos (by norm_num) t
  have hlow := scaled_ge hx
  rw [ht, zpow_natCast] at hlow
  have hlow' : (2 : ℚ) ^ 52 ≤ (a : ℚ) / b * 2 ^ t := by
    have h52 : (2 : ℚ) ^ (52 : Int) = 2 ^ 52 := by norm_num
    rw [← h52]; exact hlow
  have he2 : Int.log 2 |(a : ℚ) / b| - 52 = -(t : Int) := by omega
  -- the quotient of the natural division
  obtain ⟨k, hk, hk1, hk2⟩ : ∃ k : ℕ, a / b = k ∧ k * b ≤ a ∧ a + 1 ≤ (k + 1) * b := by
    refine ⟨a / b, rfl, Nat.div_mul_le_self a b, ?_⟩
    have h1 := Nat.div_add_mod a b
    have h2 := Nat.mod_lt a hb
    nlinarith
  rw [hk]
  have hk1q : (k : ℚ) * b ≤ a := by exact_mod_cast hk1
  have hk2q : (a : ℚ) + 1 ≤ ((k : ℚ) + 1) * b := by exact_mod_cast hk2
  have hkx : (k : ℚ) ≤ (a : ℚ) / b := (le_div_iff₀ hbq).mpr hk1q
  have hxk : (a : ℚ) / b ≤ (k : ℚ) + 1 - 1 / b := by
    rw [div_le_iff₀ hbq, sub_mul, one_div, inv_mul_cancel₀ hbq.ne']
    linarith
  -- the divisor is below `2^(t+1)`
  have hb2 : (b : ℚ) < 2 * 2 ^ t := by
    have h1 : (2 : ℚ) ^ 52 * b ≤ a * 2 ^ t := by
      have := mul_le_mul_of_nonneg_right hlow' hbq.le
      calc (2 : ℚ) ^ 52 * b ≤ (a : ℚ) / b * 2 ^ t * b := this
        _ = a * 2 ^ t := by field_simp
    have h2 : (a : ℚ) * 2 ^ t < 2 ^ 53 * 2 ^ t := by
      have : (a : ℚ) < 2 ^ 53 := by exact_mod_cast ha
      exact mul_lt_mul_of_pos_right this hP
    have h3 : (2 : ℚ) ^ 52 * b < 2 ^ 52 * (2 * 2 ^ t) := by
      calc (2 : ℚ) ^ 52 * b ≤ a * 2 ^ t := h1
        _ < 2 ^ 53 * 2 ^ t := h2
        _ = 2 ^ 52 * (2 * 2 ^ t) := by ring
    exact lt_of_mul_lt_mul_left h3 (by positivity)
  have hgap : (1 : ℚ) / 2 < 2 ^ t / b := by
    rw [lt_div_iff₀ hbq]; linarith
  unfold roundF64
  rw [ht, he2, zpow_neg, zpow_natCast]
  have hn1 : (k : Int) * 2 ^ t ≤ roundHalfEven ((a : ℚ) / b * 2 ^ t) := by
    apply le_roundHalfEven
    push_cast
    exact mul_le_mul_of_nonneg_right hkx hP.le
  have hn2 : roundHalfEven ((a : ℚ) / b * 2 ^ t) < ((k : Int) + 1) * 2 ^ t := by
    apply roundHalfEven_lt
    push_cast
    have : (a : ℚ) / b * 2 ^ t ≤ ((k : ℚ) + 1 - 1 / b) * 2 ^ t :=
      mul_le_mul_of_nonneg_right hxk hP.le
    have h4 : ((k : ℚ) + 1 - 1 / b) * 2 ^ t = ((k : ℚ) + 1) * 2 ^ t - 2 ^ t / b := by ring
    linarith
  generalize roundHalfEven ((a : ℚ) / b * 2 ^ t) = n at hn1 hn2 ⊢
  rw [Int.floor_eq_iff]
  have hn1q : (k : ℚ) * 2 ^ t ≤ (n : ℚ) := by exact_mod_cast hn1
  have hn2q : (n : ℚ) < ((k : ℚ) + 1) * 2 ^ t := by exact_mod_cast hn2
  constructor
  · rw [← div_eq_mul_inv, le_div_iff₀ hP]; exact_mod_cast hn1q
  · rw [← div_eq_mul_inv, div_lt_iff₀ hP]; exact_mod_cast hn2q

/-- The binade exponent of a number between `2^e` and `2^(e+1)`. -/
theorem log_eq_of_bounds {x : ℚ} {e : Int} (h1 : (2 : ℚ) ^ e ≤ x) (h2 : x < 2 ^ (e + 1)) :
    Int.log 2 x = e := by
  have hx : 0 < x := lt_of_lt_of_le (two_zpow_pos e) h1
  have a1 : e ≤ Int.log 2 x := by
    rw [← Int.zpow_le_iff_le_log (by norm_num) hx]; simpa using h1
  have a2 : Int.log 2 x < e + 1 := by
    rw [← Int.lt_zpow_iff_log_lt (by norm_num) hx]; simpa using h2
  omega

/-- Rounding never goes below a power of two that the argument reaches. -/
theorem two_zpow_le_roundF64 {x : ℚ} {k : Int} (h : (2 : ℚ) ^ k ≤ x) : (2 : ℚ) ^ k ≤ roundF64 x := by
  have hx : 0 < x := lt_of_lt_of_le (two_zpow_pos k) h
  have hk : k ≤ Int.log 2 |x| := by
    rw [abs_of_pos hx, ← Int.zpow_le_iff_le_log (by norm_num) hx]; simpa using h
  have hm := scaled_ge hx
  have hr : ((2 ^ 52 : Int) : ℚ) ≤ (roundHalfEven (x * 2 ^ (52 - Int.log 2 |x|)) : ℚ) := by
    have : (2 ^ 52 : Int) ≤ roundHalfEven (x * 2 ^ (52 - Int.log 2 |x|)) := by
      apply le_roundHalfEven
      have h52 : (((2 : Int) ^ 52 : Int) : ℚ) = (2 : ℚ) ^ (52 : Int) := by norm_num
      rw [h52]; exact hm
    exact_mod_cast this
  unfold roundF64
  calc (2 : ℚ) ^ k ≤ 2 ^ Int.log 2 |x| := zpow_le_zpow_right₀ (by norm_num) hk
    _ = ((2 ^ 52 : Int) : ℚ) * 2 ^ (Int.log 2 |x| - 52) := by
        have h52 : (((2 : Int) ^ 52 : Int) : ℚ) = (2 : ℚ) ^ (52 : Int) := by norm_num
        rw [h52, ← zpow_add₀ (by norm_num : (2 : ℚ) ≠ 0)]; congr 1; ring
    _ ≤ _ := mul_le_mul_of_nonneg_right hr (two_zpow_pos _).le

/-- Rounding never goes above a power of two that bounds the argument. -/
theorem roundF64_le_two_zpow {x : ℚ} {k : Int} (h0 : 0 ≤ x) (h : x ≤ (2 : ℚ) ^ k) :
    roundF64 x ≤ (2 : ℚ) ^ k := by
  rcases eq_or_lt_of_le h0 with h0' | hx
  · rw [← h0', roundF64_zero]; exact (two_zpow_pos k).le
  rcases eq_or_lt_of_le h with heq | hlt
  · have hlog : Int.log 2 |x| = k := by
      rw [abs_of_pos hx]; exact log_eq_of_bounds (le_of_eq heq.symm) (by
        rw [heq]; exact zpow_lt_zpow_right₀ (by norm_num) (by omega))
    have : roundF64 x = x := by
      apply roundF64_of_scaled_int x (2 ^ 52)
      rw [hlog, heq, ← zpow_add₀ (by norm_num : (2 : ℚ) ≠ 0)]
      norm_num
    rw [this]; exact h
  · have he : Int.log 2 |x| + 1 ≤ k := by
      have : Int.log 2 |x| < k := by
        rw [abs_of_pos hx, ← Int.lt_zpow_iff_log_lt (by norm_num) hx]; simpa using hlt
      omega
    have hup := Int.lt_zpow_succ_log_self (b := 2) (by norm_num) (|x|)
    rw [abs_of_pos hx] at hup he
    push_cast at hup
    have hm : x * 2 ^ (52 - Int.log 2 x) < (2 : ℚ) ^ (53 : Int) := by
      have h3 : (2 : ℚ) ^ (53 : Int) = 2 ^ (Int.log 2 x + 1) * 2 ^ (52 - Int.log 2 x) := by
        rw [← zpow_add₀ (by norm_num : (2 : ℚ) ≠ 0)]; congr 1; ring
      rw [h3]; exact mul_lt_mul_of_pos_right hup (two_zpow_pos _)
    have hr : roundHalfEven (x * 2 ^ (52 - Int.log 2 x)) < 2 ^ 53 + 1 := by
      apply roundHalfEven_lt
      have h53 : (2 : ℚ) ^ (53 : Int) = 2 ^ 53 := by norm_num
      rw [h53] at hm
      push_cast; linarith
    have hr' : (roundHalfEven (x * 2 ^ (52 - Int.log 2 x)) : ℚ) ≤ (2 : ℚ) ^ (53 : Int) := by
      have : roundHalfEven (x * 2 ^ (52 - Int.log 2 x)) ≤ 2 ^ 53 := by omega
      have h53 : (2 : ℚ) ^ (53 : Int) = ((2 ^ 53 : Int) : ℚ) := by norm_num
      rw [h53]; exact_mod_cast this
    unfold roundF64
    rw [abs_of_pos hx]
    calc _ ≤ (2 : ℚ) ^ (53 : Int) * 2 ^ (Int.log 2 x - 52) :=
          mul_le_mul_of_nonneg_right hr' (two_zpow_pos _).le
      _ = 2 ^ (Int.log 2 x + 1) := by
          rw [← zpow_add₀ (by norm_num : (2 : ℚ) ≠ 0)]; congr 1; ring
      _ ≤ 2 ^ k := zpow_le_zpow_right₀ (by norm_num) he

/-! ## Lemmas on durations, conversions and the rate functions -/

theorem Duration.Seconds_eq (d : Int) : Duration.Seconds d = F64.fin (secondsValue d) := by
  simp [Duration.Seconds, secondsValue, F64.ofInt, F64.round, F64.add, F64.div]

theorem getDiskRateNumeric_of_prev {m : Model} {guest prev : Guest}
    (h : m.prevGuestMap guest.VMID = some prev) :
    m.getDiskRateNumeric guest
      = rateBody (m.lastUpdate.Sub m.lastFetch) guest.DiskRead prev.DiskRead
          guest.DiskWrite prev.DiskWrite := by
  simp [Model.getDiskRateNumeric, h, rateBody, clampedDelta]

theorem getNetRateNumeric_of_prev {m : Model} {guest prev : Guest}
    (h : m.prevGuestMap guest.VMID = some prev) :
    m.getNetRateNumeric guest
      = rateBody (m.lastUpdate.Sub m.lastFetch) guest.NetIn prev.NetIn
          guest.NetOut prev.NetOut := by
  simp [Model.getNetRateNumeric, h, rateBody, clampedDelta]

theorem getDiskRateNumeric_of_none {m : Model} {guest : Guest}
    (h : m.prevGuestMap guest.VMID = none) : m.getDiskRateNumeric guest = 0 := by
  simp [Model.getDiskRateNumeric, h]

theorem getNetRateNumeric_of_none {m : Model} {guest : Guest}
    (h : m.prevGuestMap guest.VMID = none) : m.getNetRateNumeric guest = 0 := by
  simp [Model.getNetRateNumeric, h]

theorem tdiv_tmod_nonpos {d : Int} (hd : d ≤ 0) :
    Int.tdiv d 1000000000 ≤ 0 ∧ Int.tmod d 1000000000 ≤ 0 := by
  obtain ⟨n, rfl⟩ : ∃ n : Int, d = -n := ⟨-d, by ring⟩
  have hn : 0 ≤ n := by omega
  have h1 : 0 ≤ Int.tdiv n 1000000000 := Int.tdiv_nonneg hn (by norm_num)
  have h2 : 0 ≤ Int.tmod n 1000000000 := Int.tmod_nonneg _ hn
  constructor
  · rw [Int.neg_tdiv]; omega
  · rw [Int.tmod_def, Int.neg_tdiv]
    rw [Int.tmod_def] at h2
    linarith

theorem secondsValue_nonpos {d : Int} (hd : d ≤ 0) : secondsValue d ≤ 0 := by
  obtain ⟨h1, h2⟩ := tdiv_tmod_nonpos hd
  unfold secondsValue
  apply roundF64_nonpos
  have a1 : roundF64 ((Int.tdiv d 1000000000 : Int) : ℚ) ≤ 0 :=
    roundF64_nonpos (by exact_mod_cast h1)
  have a2 : roundF64 ((Int.tmod d 1000000000 : Int) : ℚ) ≤ 0 :=
    roundF64_nonpos (by exact_mod_cast h2)
  have a3 : roundF64 (roundF64 ((Int.tmod d 1000000000 : Int) : ℚ) / 1000000000) ≤ 0 :=
    roundF64_nonpos (div_nonpos_of_nonpos_of_nonneg a2 (by norm_num))
  linarith

theorem tdiv_tmod_of_nonneg {d : Int} (hd : 0 ≤ d) :
    Int.tdiv d 1000000000 = d / 1000000000 ∧ Int.tmod d 1000000000 = d % 1000000000 :=
  ⟨Int.tdiv_eq_ediv hd (by norm_num), Int.tmod_eq_emod hd (by norm_num)⟩

theorem secondsValue_pos {d : Int} (hd : 0 < d) : 0 < secondsValue d := by
  obtain ⟨h1, h2⟩ := tdiv_tmod_of_nonneg hd.le
  unfold secondsValue
  rw [h1, h2]
  apply roundF64_pos
  have b1 : 0 ≤ d / 1000000000 := by omega
  have b2 : 0 ≤ d % 1000000000 := by omega
  have a1 : 0 ≤ roundF64 ((d / 1000000000 : Int) : ℚ) := roundF64_nonneg (by exact_mod_cast b1)
  have a2 : 0 ≤ roundF64 ((d % 1000000000 : Int) : ℚ) := roundF64_nonneg (by exact_mod_cast b2)
  have a3 : 0 ≤ roundF64 (roundF64 ((d % 1000000000 : Int) : ℚ) / 1000000000) :=
    roundF64_nonneg (div_nonneg a2 (by norm_num))
  rcases Int.lt_or_le 0 (d / 1000000000) with h | h
  · have : 0 < roundF64 ((d / 1000000000 : Int) : ℚ) := roundF64_pos (by exact_mod_cast h)
    linarith
  · have hpos : 0 < d % 1000000000 := by omega
    have c1 : 0 < roundF64 ((d % 1000000000 : Int) : ℚ) := roundF64_pos (by exact_mod_cast hpos)
    have c2 : 0 < roundF64 (roundF64 ((d % 1000000000 : Int) : ℚ) / 1000000000) :=
      roundF64_pos (div_pos c1 (by norm_num))
    linarith

theorem secondsValue_whole (s : Int) (hs : |s| ≤ 2 ^ 53) :
    secondsValue (s * 1000000000) = s := by
  unfold secondsValue
  rw [Int.mul_tdiv_cancel _ (by norm_num), Int.mul_tmod_left]
  simp [roundF64_zero, roundF64_intCast s hs]

theorem wrapInt64_of_range {x : Int} (h1 : minInt64 ≤ x) (h2 : x ≤ maxInt64) :
    wrapInt64 x = x := by
  unfold wrapInt64; unfold minInt64 at h1; unfold maxInt64 at h2
  omega

theorem toInt64_of_nonneg {q : ℚ} (h0 : 0 ≤ q) (h1 : q < 2 ^ 63) :
    F64.toInt64 (F64.fin q) = ⌊q⌋ := by
  have hf0 : 0 ≤ ⌊q⌋ := Int.floor_nonneg.mpr h0
  have hf1 : ⌊q⌋ < 2 ^ 63 := by
    rw [Int.floor_lt]; exact_mod_cast h1
  simp only [F64.toInt64, if_pos h0]
  rw [if_pos]
  unfold minInt64 maxInt64
  constructor <;> omega

theorem clampedDelta_nonneg (cur prev : Int) : 0 ≤ clampedDelta cur prev := by
  unfold clampedDelta; split_ifs <;> omega

theorem clampedDelta_of_no_wrap {cur prev : Int} (h1 : minInt64 ≤ cur - prev)
    (h2 : cur - prev ≤ maxInt64) : clampedDelta cur prev = max 0 (cur - prev) := by
  unfold clampedDelta
  rw [wrapInt64_of_range h1 h2]
  split_ifs <;> omega

theorem specRate_whole_seconds (secs cur1 prev1 cur2 prev2 : Int) (hs : 0 < secs) :
    specRate (secs * 1000000000) cur1 prev1 cur2 prev2
      = (max 0 (cur1 - prev1) + max 0 (cur2 - prev2)) / secs := by
  obtain ⟨b, rfl⟩ := Int.eq_ofNat_of_zero_le hs.le
  unfold specRate
  have : (((b : Int) * 1000000000 : Int) : ℚ) / 1000000000 = (b : ℚ) := by
    push_cast; field_simp
  rw [this]
  exact Rat.floor_intCast_div_natCast _ _

theorem rateBody_whole_seconds (secs cur1 prev1 cur2 prev2 : Int) (hs : 0 < secs)
    (hsb : secs ≤ 2 ^ 53)
    (h1 : minInt64 ≤ cur1 - prev1) (h2 : minInt64 ≤ cur2 - prev2)
    (hS : max 0 (cur1 - prev1) + max 0 (cur2 - prev2) < 2 ^ 53) :
    rateBody (secs * 1000000000) cur1 prev1 cur2 prev2
      = (max 0 (cur1 - prev1) + max 0 (cur2 - prev2)) / secs := by
  have hm1 : max 0 (cur1 - prev1) < 2 ^ 53 := by omega
  have hm2 : max 0 (cur2 - prev2) < 2 ^ 53 := by omega
  have hc1 : clampedDelta cur1 prev1 = max 0 (cur1 - prev1) :=
    clampedDelta_of_no_wrap h1 (by unfold maxInt64; omega)
  have hc2 : clampedDelta cur2 prev2 = max 0 (cur2 - prev2) :=
    clampedDelta_of_no_wrap h2 (by unfold maxInt64; omega)
  obtain ⟨a, ha⟩ := Int.eq_ofNat_of_zero_le
    (show 0 ≤ max 0 (cur1 - prev1) + max 0 (cur2 - prev2) by omega)
  obtain ⟨b, rfl⟩ := Int.eq_ofNat_of_zero_le hs.le
  have hb : 0 < b := by exact_mod_cast hs
  have ha53 : a < 2 ^ 53 := by
    have : (a : Int) < 2 ^ 53 := by omega
    exact_mod_cast this
  have hsec : secondsValue ((b : Int) * 1000000000) = (b : ℚ) := by
    have := secondsValue_whole (b : Int) (by rw [abs_of_pos hs]; exact hsb)
    simpa using this
  have hbq : (0 : ℚ) < b := by exact_mod_cast hb
  unfold rateBody
  rw [Duration.Seconds_eq, hsec, hc1, hc2, ha,
    wrapInt64_of_range (by unfold minInt64; omega) (by unfold maxInt64; omega)]
  have hlt : F64.lt (F64.fin 0) (F64.fin (b : ℚ)) = true := by
    simp [F64.lt, hbq]
  rw [if_pos hlt]
  have hround : roundF64 (a : ℚ) = (a : ℚ) := by
    have := roundF64_intCast (a : Int) (by
      rw [abs_of_nonneg (Int.natCast_nonneg a)]; omega)
    simpa using this
  have hdiv : F64.div (F64.ofInt (a : Int)) (F64.fin (b : ℚ))
      = F64.fin (roundF64 ((a : ℚ) / b)) := by
    simp [F64.div, F64.ofInt, F64.round, hround, hbq.ne']
  rw [hdiv]
  have hq0 : 0 ≤ roundF64 ((a : ℚ) / b) := roundF64_nonneg (div_nonneg (by positivity) hbq.le)
  have hq1 : roundF64 ((a : ℚ) / b) < 2 ^ 63 := by
    have hle : (a : ℚ) / b ≤ (2 : ℚ) ^ (53 : Int) := by
      have h53 : (2 : ℚ) ^ (53 : Int) = 2 ^ 53 := by norm_num
      rw [h53]
      have : (a : ℚ) ≤ 2 ^ 53 := by exact_mod_cast ha53.le
      exact le_trans (div_le_self (by positivity) (by exact_mod_cast hb)) this
    have := roundF64_le_two_zpow (div_nonneg (by positivity) hbq.le) hle
    calc roundF64 ((a : ℚ) / b) ≤ (2 : ℚ) ^ (53 : Int) := this
      _ < 2 ^ 63 := by norm_num
  rw [toInt64_of_nonneg hq0 hq1, floor_roundF64_div a b hb ha53]
  norm_cast

theorem roundF64_eq_of_bounds {x : ℚ} (e : Int) (h1 : (2 : ℚ) ^ e ≤ |x|)
    (h2 : |x| < 2 ^ (e + 1)) :
    roundF64 x = (roundHalfEven (x * 2 ^ (52 - e)) : ℚ) * 2 ^ (e - 52) := by
  unfold roundF64
  rw [log_eq_of_bounds h1 h2]

theorem roundF64_two_pow_53_add_one :
    roundF64 (9007199254740993 : ℚ) = 9007199254740992 := by
  rw [roundF64_eq_of_bounds 53 (by norm_num [abs_of_pos]) (by norm_num [abs_of_pos])]
  have hfl : ⌊(9007199254740993 : ℚ) * 2 ^ ((52 : Int) - 53)⌋ = 4503599627370496 := by
    rw [Int.floor_eq_iff]; norm_num
  have hr : roundHalfEven ((9007199254740993 : ℚ) * 2 ^ ((52 : Int) - 53))
      = 4503599627370496 := by
    unfold roundHalfEven
    rw [hfl]
    norm_num
  rw [hr]; norm_num

theorem sampleModel_prev (prev : Guest) (t0 t1 : Int) :
    (sampleModel prev t0 t1).prevGuestMap prev.VMID = some prev := by
  simp [sampleModel, buildPrevGuestMap]

theorem sampleModel_elapsed (prev : Guest) (t0 t1 : Int) :
    (sampleModel prev t0 t1).lastUpdate.Sub (sampleModel prev t0 t1).lastFetch
      = max minInt64 (min maxInt64 (t1 - t0)) := rfl

theorem two_zpow_le_secondsValue {d : Int} (hd : 0 < d) {k : Int}
    (h : (2 : ℚ) ^ k ≤ (d : ℚ) / 1000000000) : (2 : ℚ) ^ k ≤ secondsValue d := by
  obtain ⟨h1, h2⟩ := tdiv_tmod_of_nonneg hd.le
  unfold secondsValue
  rw [h1, h2]
  have b1 : 0 ≤ d / 1000000000 := by omega
  have b2 : 0 ≤ d % 1000000000 := by omega
  have a1 : 0 ≤ roundF64 ((d / 1000000000 : Int) : ℚ) := roundF64_nonneg (by exact_mod_cast b1)
  have a2 : 0 ≤ roundF64 ((d % 1000000000 : Int) : ℚ) := roundF64_nonneg (by exact_mod_cast b2)
  have a3 : 0 ≤ roundF64 (roundF64 ((d % 1000000000 : Int) : ℚ) / 1000000000) :=
    roundF64_nonneg (div_nonneg a2 (by norm_num))
  apply two_zpow_le_roundF64
  rcases Int.lt_or_le 0 (d / 1000000000) with hsec | hsec
  · -- at least one whole second
    have hk : (2 : ℚ) ^ k ≤ ((d / 1000000000 : Int) : ℚ) := by
      rcases Int.le_or_lt k 0 with hk0 | hk0
      · calc (2 : ℚ) ^ k ≤ 2 ^ (0 : Int) := zpow_le_zpow_right₀ (by norm_num) hk0
          _ = 1 := by norm_num
          _ ≤ ((d / 1000000000 : Int) : ℚ) := by
            have : (1 : Int) ≤ d / 1000000000 := by omega
            exact_mod_cast this
      · obtain ⟨n, rfl⟩ := Int.eq_ofNat_of_zero_le hk0.le
        rw [zpow_natCast] at h ⊢
        rw [le_div_iff₀ (by norm_num)] at h
        have hZ : (2 : Int) ^ n * 1000000000 ≤ d := by exact_mod_cast h
        have : (2 : Int) ^ n ≤ d / 1000000000 :=
          (Int.le_ediv_iff_mul_le (by norm_num)).mpr hZ
        exact_mod_cast this
    have := two_zpow_le_roundF64 hk
    linarith
  · -- less than a second
    have hd9 : d % 1000000000 = d := by omega
    have hexact : roundF64 ((d % 1000000000 : Int) : ℚ) = ((d % 1000000000 : Int) : ℚ) :=
      roundF64_intCast _ (by rw [abs_of_nonneg b2]; omega)
    rw [hexact, hd9]
    have := two_zpow_le_roundF64 h
    linarith

theorem rateBody_nonneg (elapsed cur1 prev1 cur2 prev2 : Int)
    (h : 0 < elapsed →
      clampedDelta cur1 prev1 + clampedDelta cur2 prev2 ≤ maxInt64 ∧
      (clampedDelta cur1 prev1 + clampedDelta cur2 prev2) * 1000000000 ≤ 2 ^ 61 * elapsed) :
    0 ≤ rateBody elapsed cur1 prev1 cur2 prev2 := by
  unfold rateBody
  rw [Duration.Seconds_eq]
  rcases Int.lt_or_le 0 elapsed with hpos | hnp
  swap
  · have := secondsValue_nonpos hnp
    have hlt : F64.lt (F64.fin 0) (F64.fin (secondsValue elapsed)) = false := by
      simp [F64.lt, this]
    simp [hlt]
  obtain ⟨hS1, hS2⟩ := h hpos
  have hT := secondsValue_pos hpos
  have hlt : F64.lt (F64.fin 0) (F64.fin (secondsValue elapsed)) = true := by
    simp [F64.lt, hT]
  rw [if_pos hlt]
  have hc1 := clampedDelta_nonneg cur1 prev1
  have hc2 := clampedDelta_nonneg cur2 prev2
  generalize hSdef : clampedDelta cur1 prev1 + clampedDelta cur2 prev2 = S at hS1 hS2
  have hS0 : 0 ≤ S := by omega
  rw [wrapInt64_of_range (by unfold minInt64; omega) hS1]
  have hdiv : F64.div (F64.ofInt S) (F64.fin (secondsValue elapsed))
      = F64.fin (roundF64 (roundF64 (S : ℚ) / secondsValue elapsed)) := by
    simp [F64.div, F64.ofInt, F64.round, hT.ne']
  rw [hdiv]
  have hSq : (0 : ℚ) ≤ (S : ℚ) := by exact_mod_cast hS0
  have hr0 : 0 ≤ roundF64 (S : ℚ) := roundF64_nonneg hSq
  have hq0 : 0 ≤ roundF64 (S : ℚ) / secondsValue elapsed := div_nonneg hr0 hT.le
  have hQ0 : 0 ≤ roundF64 (roundF64 (S : ℚ) / secondsValue elapsed) := roundF64_nonneg hq0
  -- the binade of the exact elapsed seconds
  have hTe : (0 : ℚ) < (elapsed : ℚ) / 1000000000 := by
    have : (0 : ℚ) < elapsed := by exact_mod_cast hpos
    positivity
  have hk1 := Int.zpow_log_le_self (b := 2) (by norm_num) hTe
  have hk2 := Int.lt_zpow_succ_log_self (b := 2) (by norm_num) ((elapsed : ℚ) / 1000000000)
  push_cast at hk1 hk2
  generalize Int.log 2 ((elapsed : ℚ) / 1000000000) = k at hk1 hk2
  have hThat : (2 : ℚ) ^ k ≤ secondsValue elapsed := two_zpow_le_secondsValue hpos hk1
  have hSle : (S : ℚ) ≤ (2 : ℚ) ^ (62 + k) := by
    have h1 : (S : ℚ) * 1000000000 ≤ 2 ^ 61 * elapsed := by exact_mod_cast hS2
    have h2 : (S : ℚ) ≤ 2 ^ 61 * ((elapsed : ℚ) / 1000000000) := by
      rw [← mul_div_assoc, le_div_iff₀ (by norm_num)]; exact h1
    have h3 : (2 : ℚ) ^ (62 + k) = 2 ^ 61 * 2 ^ (k + 1) := by
      have h61 : (2 : ℚ) ^ 61 = 2 ^ (61 : Int) := by norm_num
      rw [h61, ← zpow_add₀ (by norm_num : (2 : ℚ) ≠ 0)]; congr 1; ring
    rw [h3]
    exact le_trans h2 (mul_le_mul_of_nonneg_left hk2.le (by positivity))
  have hrS : roundF64 (S : ℚ) ≤ (2 : ℚ) ^ (62 + k) := roundF64_le_two_zpow hSq hSle
  have hq : roundF64 (S : ℚ) / secondsValue elapsed ≤ (2 : ℚ) ^ (62 : Int) := by
    rw [div_le_iff₀ hT]
    calc roundF64 (S : ℚ) ≤ (2 : ℚ) ^ (62 + k) := hrS
      _ = 2 ^ (62 : Int) * 2 ^ k := by rw [← zpow_add₀ (by norm_num : (2 : ℚ) ≠ 0)]
      _ ≤ 2 ^ (62 : Int) * secondsValue elapsed :=
          mul_le_mul_of_nonneg_left hThat (two_zpow_pos _).le
  have hQ : roundF64 (roundF64 (S : ℚ) / secondsValue elapsed) < 2 ^ 63 := by
    calc _ ≤ (2 : ℚ) ^ (62 : Int) := roundF64_le_two_zpow hq0 hq
      _ < 2 ^ 63 := by norm_num
  rw [toInt64_of_nonneg hQ0 hQ]
  exact Int.floor_nonneg.mpr hQ0

theorem toInt64_intCast (n : Int) (h1 : minInt64 ≤ n) (h2 : n ≤ maxInt64) :
    F64.toInt64 (F64.fin (n : ℚ)) = n := by
  simp [F64.toInt64, h1, h2]

theorem rateBody_of_nonpos {elapsed : Int} (h : elapsed ≤ 0) (cur1 prev1 cur2 prev2 : Int) :
    rateBody elapsed cur1 prev1 cur2 prev2 = 0 := by
  unfold rateBody
  rw [Duration.Seconds_eq]
  have := secondsValue_nonpos h
  have hlt : F64.lt (F64.fin 0) (F64.fin (secondsValue elapsed)) = false := by
    simp [F64.lt, this]
  simp [hlt]

theorem rateBody_of_zero_total {elapsed cur1 prev1 cur2 prev2 : Int}
    (h : wrapInt64 (clampedDelta cur1 prev1 + clampedDelta cur2 prev2) = 0) :
    rateBody elapsed cur1 prev1 cur2 prev2 = 0 := by
  unfold rateBody
  rw [Duration.Seconds_eq, h]
  split_ifs with hlt
  · have hT : secondsValue elapsed ≠ 0 := by
      intro h0; rw [h0] at hlt; simp [F64.lt] at hlt
    simp [F64.div, F64.ofInt, F64.round, roundF64_zero, hT, F64.toInt64, minInt64, maxInt64]
  · rfl

theorem rateBody_one_second (cur1 prev1 cur2 prev2 : Int)
    (h : |wrapInt64 (clampedDelta cur1 prev1 + clampedDelta cur2 prev2)| ≤ 2 ^ 53) :
    rateBody 1000000000 cur1 prev1 cur2 prev2
      = wrapInt64 (clampedDelta cur1 prev1 + clampedDelta cur2 prev2) := by
  have hsec : secondsValue 1000000000 = 1 := by
    have := secondsValue_whole 1 (by norm_num)
    simpa using this
  unfold rateBody
  rw [Duration.Seconds_eq, hsec]
  generalize wrapInt64 (clampedDelta cur1 prev1 + clampedDelta cur2 prev2) = S at h
  have hlt : F64.lt (F64.fin 0) (F64.fin 1) = true := by simp [F64.lt]
  rw [if_pos hlt]
  have hr := roundF64_intCast S h
  have hdiv : F64.div (F64.ofInt S) (F64.fin 1) = F64.fin (S : ℚ) := by
    simp [F64.div, F64.ofInt, F64.round, hr]
  rw [hdiv]
  have := abs_le.mp h
  exact toInt64_intCast S (by unfold minInt64; omega) (by unfold maxInt64; omega)

theorem time_sub_nonpos {t u : Time} (h : t.ns - u.ns ≤ 0) : t.Sub u ≤ 0 := by
  unfold Time.Sub minInt64 maxInt64
  omega

/-! ## Rounding error of the rate -/

theorem abs_roundHalfEven_sub_le (w : ℚ) : |(roundHalfEven w : ℚ) - w| ≤ 1 / 2 := by
  have h1 : (⌊w⌋ : ℚ) ≤ w := Int.floor_le w
  have h2 : w < ⌊w⌋ + 1 := Int.lt_floor_add_one w
  rw [abs_le]
  unfold roundHalfEven
  split_ifs with c1 c2 c3
  · constructor <;> linarith
  · push_cast; constructor <;> linarith
  · have : w - ⌊w⌋ = 1 / 2 := le_antisymm (not_lt.mp c2) (not_lt.mp c1)
    constructor <;> linarith
  · have : w - ⌊w⌋ = 1 / 2 := le_antisymm (not_lt.mp c2) (not_lt.mp c1)
    push_cast; constructor <;> linarith

/-- The relative error of one rounding to binary64 is at most `2^-53`. -/
theorem abs_roundF64_sub_le {x : ℚ} (hx : 0 ≤ x) : |roundF64 x - x| ≤ x / 2 ^ 53 := by
  rcases eq_or_lt_of_le hx with h0 | hpos
  · subst h0; simp [roundF64_zero]
  have hlog : (2 : ℚ) ^ (Int.log 2 |x|) ≤ x := by
    have := Int.zpow_log_le_self (b := 2) (r := x) (by norm_num) hpos
    rw [abs_of_pos hpos]
    exact_mod_cast this
  have hp : (0 : ℚ) < 2 ^ (Int.log 2 |x| - 52) := two_zpow_pos _
  have hmul : (2 : ℚ) ^ (52 - Int.log 2 |x|) * 2 ^ (Int.log 2 |x| - 52) = 1 := by
    rw [← zpow_add₀ (by norm_num : (2 : ℚ) ≠ 0)]
    simp
  have hsplit : (2 : ℚ) ^ (Int.log 2 |x| - 52) = 2 ^ (Int.log 2 |x|) / 2 ^ 52 := by
    rw [zpow_sub₀ (by norm_num : (2 : ℚ) ≠ 0)]
    norm_num
  have hdiff : roundF64 x - x
      = ((roundHalfEven (x * 2 ^ (52 - Int.log 2 |x|)) : ℚ) - x * 2 ^ (52 - Int.log 2 |x|))
        * 2 ^ (Int.log 2 |x| - 52) := by
    unfold roundF64
    rw [sub_mul, mul_assoc, hmul, mul_one]
  rw [hdiff, abs_mul, abs_of_pos hp]
  have h := abs_roundHalfEven_sub_le (x * 2 ^ (52 - Int.log 2 |x|))
  calc |(roundHalfEven (x * 2 ^ (52 - Int.log 2 |x|)) : ℚ) - x * 2 ^ (52 - Int.log 2 |x|)|
        * 2 ^ (Int.log 2 |x| - 52)
      ≤ 1 / 2 * 2 ^ (Int.log 2 |x| - 52) := mul_le_mul_of_nonneg_right h hp.le
    _ = 2 ^ (Int.log 2 |x|) / 2 ^ 53 := by rw [hsplit]; ring
    _ ≤ x / 2 ^ 53 := by
        apply div_le_div_of_nonneg_right hlog
        norm_num

theorem roundF64_bounds {x : ℚ} (hx : 0 ≤ x) :
    x * (1 - 1 / 2 ^ 53) ≤ roundF64 x ∧ roundF64 x ≤ x * (1 + 1 / 2 ^ 53) := by
  have h := abs_le.mp (abs_roundF64_sub_le hx)
  constructor <;> linarith [h.1, h.2]

/-- The `float64` number of seconds of a positive duration `d` (in nanoseconds)
is `d / 10^9` up to two roundings. -/
theorem secondsValue_bounds {d : Int} (hd : 0 < d) (hmax : d ≤ maxInt64) :
    (d : ℚ) / 1000000000 * (1 - 1 / 2 ^ 53) ^ 2 ≤ secondsValue d ∧
    secondsValue d ≤ (d : ℚ) / 1000000000 * (1 + 1 / 2 ^ 53) ^ 2 := by
  obtain ⟨h1, h2⟩ := tdiv_tmod_of_nonneg hd.le
  have hq0 : 0 ≤ d / 1000000000 := Int.ediv_nonneg hd.le (by norm_num)
  have hqle : d / 1000000000 ≤ 2 ^ 53 := by unfold maxInt64 at hmax; omega
  have hr0 : 0 ≤ d % 1000000000 := Int.emod_nonneg _ (by norm_num)
  have hrlt : d % 1000000000 < 1000000000 := Int.emod_lt_of_pos _ (by norm_num)
  have hsplit : (d : ℚ) = ((d / 1000000000 : Int) : ℚ) * 1000000000 + ((d % 1000000000 : Int) : ℚ) := by
    have := Int.ediv_add_emod d 1000000000
    have h3 : ((1000000000 * (d / 1000000000) + d % 1000000000 : Int) : ℚ) = (d : ℚ) := by
      rw [this]
    push_cast at h3
    linarith
  unfold secondsValue
  rw [h1, h2, roundF64_intCast _ (by rw [abs_of_nonneg hq0]; exact hqle),
    roundF64_intCast _ (by rw [abs_of_nonneg hr0]; omega)]
  set q : ℚ := ((d / 1000000000 : Int) : ℚ) with hq
  set r : ℚ := ((d % 1000000000 : Int) : ℚ) with hr
  have hq0' : (0 : ℚ) ≤ q := by rw [hq]; exact_mod_cast hq0
  have hr0' : (0 : ℚ) ≤ r := by rw [hr]; exact_mod_cast hr0
  have hf0 : (0 : ℚ) ≤ r / 1000000000 := div_nonneg hr0' (by norm_num)
  obtain ⟨f1, f2⟩ := roundF64_bounds hf0
  have hfnn : 0 ≤ roundF64 (r / 1000000000) := roundF64_nonneg hf0
  have hs0 : 0 ≤ q + roundF64 (r / 1000000000) := add_nonneg hq0' hfnn
  obtain ⟨s1, s2⟩ := roundF64_bounds hs0
  have ht : (d : ℚ) / 1000000000 = q + r / 1000000000 := by
    rw [hsplit]; field_simp
  rw [ht]
  have hu1 : (0 : ℚ) ≤ 1 - 1 / 2 ^ 53 := by norm_num
  have hu2 : (0 : ℚ) ≤ 1 + 1 / 2 ^ 53 := by norm_num
  constructor
  · calc (q + r / 1000000000) * (1 - 1 / 2 ^ 53) ^ 2
        = (q * (1 - 1 / 2 ^ 53) + r / 1000000000 * (1 - 1 / 2 ^ 53)) * (1 - 1 / 2 ^ 53) := by ring
      _ ≤ (q + roundF64 (r / 1000000000)) * (1 - 1 / 2 ^ 53) := by
          apply mul_le_mul_of_nonneg_right _ hu1
          have : q * (1 - 1 / 2 ^ 53) ≤ q := by
            have : q * (1 / 2 ^ 53) ≥ 0 := mul_nonneg hq0' (by norm_num)
            linarith
          linarith
      _ ≤ roundF64 (q + roundF64 (r / 1000000000)) := s1
  · calc roundF64 (q + roundF64 (r / 1000000000))
        ≤ (q + roundF64 (r / 1000000000)) * (1 + 1 / 2 ^ 53) := s2
      _ ≤ (q * (1 + 1 / 2 ^ 53) + r / 1000000000 * (1 + 1 / 2 ^ 53)) * (1 + 1 / 2 ^ 53) := by
          apply mul_le_mul_of_nonneg_right _ hu2
          have : q ≤ q * (1 + 1 / 2 ^ 53) := by
            have : q * (1 / 2 ^ 53) ≥ 0 := mul_nonneg hq0' (by norm_num)
            linarith
          linarith
      _ = (q + r / 1000000000) * (1 + 1 / 2 ^ 53) ^ 2 := by ring

/-- The quotient `float64(S) / seconds` of the rate functions lies within
`x / 2^51` of the exact quotient `x = S / (d / 10^9)`, where `S` stands for the
`float64` total. -/
theorem rate_quotient_bounds {d S : Int} (hd : 0 < d) (hmax : d ≤ maxInt64) (hS0 : 0 ≤ S) :
    (S : ℚ) / ((d : ℚ) / 1000000000) * (1 - 1 / 2 ^ 51)
      ≤ roundF64 ((S : ℚ) / secondsValue d) ∧
    roundF64 ((S : ℚ) / secondsValue d)
      ≤ (S : ℚ) / ((d : ℚ) / 1000000000) * (1 + 1 / 2 ^ 51) := by
  obtain ⟨t1, t2⟩ := secondsValue_bounds hd hmax
  have hT : 0 < secondsValue d := secondsValue_pos hd
  have hS0' : (0 : ℚ) ≤ (S : ℚ) := by exact_mod_cast hS0
  have ht : (0 : ℚ) < (d : ℚ) / 1000000000 := by
    apply div_pos _ (by norm_num)
    exact_mod_cast hd
  set t : ℚ := (d : ℚ) / 1000000000 with htdef
  set T : ℚ := secondsValue d with hTdef
  have hq0 : 0 ≤ (S : ℚ) / T := div_nonneg hS0' hT.le
  obtain ⟨y1, y2⟩ := roundF64_bounds hq0
  have hx0 : 0 ≤ (S : ℚ) / t := div_nonneg hS0' ht.le
  have hA : (0 : ℚ) < (1 - 1 / 2 ^ 53) ^ 2 := by norm_num
  have hB : (0 : ℚ) < (1 + 1 / 2 ^ 53) ^ 2 := by norm_num
  have hup : (S : ℚ) / T ≤ (S : ℚ) / (t * (1 - 1 / 2 ^ 53) ^ 2) :=
    div_le_div_of_nonneg_left hS0' (mul_pos ht hA) t1
  have hlo : (S : ℚ) / (t * (1 + 1 / 2 ^ 53) ^ 2) ≤ (S : ℚ) / T :=
    div_le_div_of_nonneg_left hS0' hT t2
  have e1 : (S : ℚ) / (t * (1 - 1 / 2 ^ 53) ^ 2) = (S : ℚ) / t * (1 / (1 - 1 / 2 ^ 53) ^ 2) := by
    field_simp
  have e2 : (S : ℚ) / (t * (1 + 1 / 2 ^ 53) ^ 2) = (S : ℚ) / t * (1 / (1 + 1 / 2 ^ 53) ^ 2) := by
    field_simp
  rw [e1] at hup
  rw [e2] at hlo
  have c1 : (1 : ℚ) / (1 - 1 / 2 ^ 53) ^ 2 * (1 + 1 / 2 ^ 53) ≤ 1 + 1 / 2 ^ 51 := by norm_num
  have c2 : (1 : ℚ) - 1 / 2 ^ 51 ≤ 1 / (1 + 1 / 2 ^ 53) ^ 2 * (1 - 1 / 2 ^ 53) := by norm_num
  have hu1 : (0 : ℚ) ≤ 1 - 1 / 2 ^ 53 := by norm_num
  have hu2 : (0 : ℚ) ≤ 1 + 1 / 2 ^ 53 := by norm_num
  constructor
  · calc (S : ℚ) / t * (1 - 1 / 2 ^ 51)
        ≤ (S : ℚ) / t * (1 / (1 + 1 / 2 ^ 53) ^ 2 * (1 - 1 / 2 ^ 53)) :=
          mul_le_mul_of_nonneg_left c2 hx0
      _ = (S : ℚ) / t * (1 / (1 + 1 / 2 ^ 53) ^ 2) * (1 - 1 / 2 ^ 53) := by ring
      _ ≤ (S : ℚ) / T * (1 - 1 / 2 ^ 53) := mul_le_mul_of_nonneg_right hlo hu1
      _ ≤ roundF64 ((S : ℚ) / T) := y1
  · calc roundF64 ((S : ℚ) / T)
        ≤ (S : ℚ) / T * (1 + 1 / 2 ^ 53) := y2
      _ ≤ (S : ℚ) / t * (1 / (1 - 1 / 2 ^ 53) ^ 2) * (1 + 1 / 2 ^ 53) :=
          mul_le_mul_of_nonneg_right hup hu2
      _ = (S : ℚ) / t * (1 / (1 - 1 / 2 ^ 53) ^ 2 * (1 + 1 / 2 ^ 53)) := by ring
      _ ≤ (S : ℚ) / t * (1 + 1 / 2 ^ 51) := mul_le_mul_of_nonneg_left c1 hx0

/-- For a positive elapsed time, a total of the two clamped deltas of at most
`2^53` and an exact rate below `2^51` bytes per second, the value of the rate
functions is within 1 of the integer part of the exact rate. -/
theorem rateBody_within_one (elapsed cur1 prev1 cur2 prev2 : Int) (hd : 0 < elapsed)
    (hmax : elapsed ≤ maxInt64)
    (h1 : minInt64 ≤ cur1 - prev1) (h2 : minInt64 ≤ cur2 - prev2)
    (hS : max 0 (cur1 - prev1) + max 0 (cur2 - prev2) ≤ 2 ^ 53)
    (hx : (max 0 (cur1 - prev1) + max 0 (cur2 - prev2)) * 1000000000 < 2 ^ 51 * elapsed) :
    specRate elapsed cur1 prev1 cur2 prev2 - 1 ≤ rateBody elapsed cur1 prev1 cur2 prev2 ∧
    rateBody elapsed cur1 prev1 cur2 prev2 ≤ specRate elapsed cur1 prev1 cur2 prev2 + 1 := by
  have hc1 : clampedDelta cur1 prev1 = max 0 (cur1 - prev1) := by
    by_cases hle : cur1 - prev1 ≤ maxInt64
    · exact clampedDelta_of_no_wrap h1 hle
    · exfalso
      have : max 0 (cur1 - prev1) = cur1 - prev1 := max_eq_right (by unfold maxInt64 at hle; omega)
      have h0 : 0 ≤ max 0 (cur2 - prev2) := le_max_left _ _
      unfold maxInt64 at hle
      omega
  have hc2 : clampedDelta cur2 prev2 = max 0 (cur2 - prev2) := by
    by_cases hle : cur2 - prev2 ≤ maxInt64
    · exact clampedDelta_of_no_wrap h2 hle
    · exfalso
      have : max 0 (cur2 - prev2) = cur2 - prev2 := max_eq_right (by unfold maxInt64 at hle; omega)
      have h0 : 0 ≤ max 0 (cur1 - prev1) := le_max_left _ _
      unfold maxInt64 at hle
      omega
  set S : Int := max 0 (cur1 - prev1) + max 0 (cur2 - prev2) with hSdef
  have hS0 : 0 ≤ S := add_nonneg (le_max_left _ _) (le_max_left _ _)
  have hwrap : wrapInt64 S = S :=
    wrapInt64_of_range (by unfold minInt64; omega) (by unfold maxInt64; omega)
  have hT : 0 < secondsValue elapsed := secondsValue_pos hd
  have hbody : rateBody elapsed cur1 prev1 cur2 prev2
      = F64.toInt64 (F64.fin (roundF64 ((S : ℚ) / secondsValue elapsed))) := by
    unfold rateBody
    rw [Duration.Seconds_eq, hc1, hc2, hwrap]
    have hlt : F64.lt (F64.fin 0) (F64.fin (secondsValue elapsed)) = true := by
      simp [F64.lt, hT]
    rw [if_pos hlt]
    have hr : roundF64 ((S : Int) : ℚ) = S := roundF64_intCast S (by rw [abs_of_nonneg hS0]; exact hS)
    simp [F64.div, F64.ofInt, F64.round, hr, hT.ne']
  obtain ⟨q1, q2⟩ := rate_quotient_bounds hd hmax hS0
  have ht : (0 : ℚ) < (elapsed : ℚ) / 1000000000 := by
    apply div_pos _ (by norm_num)
    exact_mod_cast hd
  set x : ℚ := (S : ℚ) / ((elapsed : ℚ) / 1000000000) with hxdef
  have hx0 : 0 ≤ x := div_nonneg (by exact_mod_cast hS0) ht.le
  have hxlt : x < 2 ^ 51 := by
    rw [hxdef, div_lt_iff₀ ht]
    have : ((S * 1000000000 : Int) : ℚ) < ((2 ^ 51 * elapsed : Int) : ℚ) := by exact_mod_cast hx
    push_cast at this
    linarith
  set y : ℚ := roundF64 ((S : ℚ) / secondsValue elapsed) with hydef
  have hy0 : 0 ≤ y := roundF64_nonneg (div_nonneg (by exact_mod_cast hS0) hT.le)
  have hylo : x - 1 < y := by
    have : x * (1 / 2 ^ 51) < 1 := by
      have := mul_lt_mul_of_pos_right hxlt (by norm_num : (0 : ℚ) < 1 / 2 ^ 51)
      norm_num at this ⊢
      linarith
    linarith
  have hyhi : y < x + 1 := by
    have : x * (1 / 2 ^ 51) < 1 := by
      have := mul_lt_mul_of_pos_right hxlt (by norm_num : (0 : ℚ) < 1 / 2 ^ 51)
      norm_num at this ⊢
      linarith
    linarith
  have hspec : specRate elapsed cur1 prev1 cur2 prev2 = ⌊x⌋ := rfl
  rw [hbody, hspec, toInt64_of_nonneg hy0 (by linarith [show (2 : ℚ) ^ 51 + 1 < 2 ^ 63 by norm_num])]
  have fx1 : (⌊x⌋ : ℚ) ≤ x := Int.floor_le x
  have fx2 : x < ⌊x⌋ + 1 := Int.lt_floor_add_one x
  constructor
  · have : ((⌊x⌋ - 1 : Int) : ℚ) ≤ y := by push_cast; linarith
    exact Int.le_floor.mpr this
  · have : y < ((⌊x⌋ + 1 + 1 : Int) : ℚ) := by push_cast; linarith
    have := Int.floor_lt.mpr this
    omega

/-! ## C1 .. C4: the rate functions -/

/-- C1 (as amended): for a guest with a previous sample and every elapsed time
greater than 0, when the two 64-bit subtractions do not wrap around (as with
byte counters), the sum `S` of the two clamped deltas is at most `2^53` and the
exact rate `S / elapsedSeconds` is below `2^51` bytes per second, both
`getDiskRateNumeric` and `getNetRateNumeric` return the integer part of
`S / elapsedSeconds` or an integer next to it (at most 1 away); they return that
integer part itself when the elapsed time is a whole number of seconds and `S`
is below `2^53`. -/
theorem rate_is_integer_part_of_clamped_sum_per_second (m : Model) (guest prev : Guest)
    (hprev : m.prevGuestMap guest.VMID = some prev)
    (hpos : 0 < m.lastUpdate.Sub m.lastFetch) :
    (minInt64 ≤ guest.DiskRead - prev.DiskRead → minInt64 ≤ guest.DiskWrite - prev.DiskWrite →
      max 0 (guest.DiskRead - prev.DiskRead) + max 0 (guest.DiskWrite - prev.DiskWrite) ≤ 2 ^ 53 →
      (max 0 (guest.DiskRead - prev.DiskRead) + max 0 (guest.DiskWrite - prev.DiskWrite))
          * 1000000000 < 2 ^ 51 * m.lastUpdate.Sub m.lastFetch →
      specRate (m.lastUpdate.Sub m.lastFetch) guest.DiskRead prev.DiskRead
            guest.DiskWrite prev.DiskWrite - 1 ≤ m.getDiskRateNumeric guest ∧
      m.getDiskRateNumeric guest
        ≤ specRate (m.lastUpdate.Sub m.lastFetch) guest.DiskRead prev.DiskRead
            guest.DiskWrite prev.DiskWrite + 1) ∧
    (minInt64 ≤ guest.NetIn - prev.NetIn → minInt64 ≤ guest.NetOut - prev.NetOut →
      max 0 (guest.NetIn - prev.NetIn) + max 0 (guest.NetOut - prev.NetOut) ≤ 2 ^ 53 →
      (max 0 (guest.NetIn - prev.NetIn) + max 0 (guest.NetOut - prev.NetOut))
          * 1000000000 < 2 ^ 51 * m.lastUpdate.Sub m.lastFetch →
      specRate (m.lastUpdate.Sub m.lastFetch) guest.NetIn prev.NetIn
            guest.NetOut prev.NetOut - 1 ≤ m.getNetRateNumeric guest ∧
      m.getNetRateNumeric guest
        ≤ specRate (m.lastUpdate.Sub m.lastFetch) guest.NetIn prev.NetIn
            guest.NetOut prev.NetOut + 1) ∧
    (∀ secs : Int, m.lastUpdate.Sub m.lastFetch = secs * 1000000000 →
      minInt64 ≤ guest.DiskRead - prev.DiskRead → minInt64 ≤ guest.DiskWrite - prev.DiskWrite →
      max 0 (guest.DiskRead - prev.DiskRead) + max 0 (guest.DiskWrite - prev.DiskWrite) < 2 ^ 53 →
      m.getDiskRateNumeric guest
        = specRate (m.lastUpdate.Sub m.lastFetch) guest.DiskRead prev.DiskRead
            guest.DiskWrite prev.DiskWrite) ∧
    (∀ secs : Int, m.lastUpdate.Sub m.lastFetch = secs * 1000000000 →
      minInt64 ≤ guest.NetIn - prev.NetIn → minInt64 ≤ guest.NetOut - prev.NetOut →
      max 0 (guest.NetIn - prev.NetIn) + max 0 (guest.NetOut - prev.NetOut) < 2 ^ 53 →
      m.getNetRateNumeric guest
        = specRate (m.lastUpdate.Sub m.lastFetch) guest.NetIn prev.NetIn
            guest.NetOut prev.NetOut) := by
  have hmax : m.lastUpdate.Sub m.lastFetch ≤ maxInt64 := by
    unfold Time.Sub minInt64 maxInt64; omega
  have hwhole : ∀ secs : Int, m.lastUpdate.Sub m.lastFetch = secs * 1000000000 →
      0 < secs ∧ secs ≤ 2 ^ 53 := by
    intro secs hel
    rw [hel] at hmax hpos
    unfold maxInt64 at hmax
    constructor <;> omega
  refine ⟨?_, ?_, ?_, ?_⟩
  · intro h1 h2 hS hx
    rw [getDiskRateNumeric_of_prev hprev]
    exact rateBody_within_one _ _ _ _ _ hpos hmax h1 h2 hS hx
  · intro h1 h2 hS hx
    rw [getNetRateNumeric_of_prev hprev]
    exact rateBody_within_one _ _ _ _ _ hpos hmax h1 h2 hS hx
  · intro secs hel h1 h2 hS
    obtain ⟨hsecs, hsb⟩ := hwhole secs hel
    rw [getDiskRateNumeric_of_prev hprev, hel, specRate_whole_seconds _ _ _ _ _ hsecs]
    exact rateBody_whole_seconds secs _ _ _ _ hsecs hsb h1 h2 hS
  · intro secs hel h1 h2 hS
    obtain ⟨hsecs, hsb⟩ := hwhole secs hel
    rw [getNetRateNumeric_of_prev hprev, hel, specRate_whole_seconds _ _ _ _ _ hsecs]
    exact rateBody_whole_seconds secs _ _ _ _ hsecs hsb h1 h2 hS

/-- Witness for C1: disk-read 1000 then 1500 with disk-write unchanged over 5
seconds gives the integer part of the exact rate; 7 bytes read in 70 ms give an
integer at most 1 away from the integer part of the exact rate. -/
theorem rate_is_integer_part_of_clamped_sum_per_second_witness :
    (sampleModel (sampleGuest 100 "running" 1000 7 0 0) 0 5000000000).prevGuestMap
        (sampleGuest 100 "running" 1500 7 300 0).VMID
      = some (sampleGuest 100 "running" 1000 7 0 0) ∧
    (sampleModel (sampleGuest 100 "running" 1000 7 0 0) 0 5000000000).getDiskRateNumeric
        (sampleGuest 100 "running" 1500 7 300 0)
      = specRate 5000000000 1500 1000 7 7 ∧
    (sampleModel (sampleGuest 100 "running" 0 0 0 0) 0 70000000).prevGuestMap
        (sampleGuest 100 "running" 7 0 0 0).VMID
      = some (sampleGuest 100 "running" 0 0 0 0) ∧
    specRate 70000000 7 0 0 0 - 1
      ≤ (sampleModel (sampleGuest 100 "running" 0 0 0 0) 0 70000000).getDiskRateNumeric
          (sampleGuest 100 "running" 7 0 0 0) ∧
    (sampleModel (sampleGuest 100 "running" 0 0 0 0) 0 70000000).getDiskRateNumeric
        (sampleGuest 100 "running" 7 0 0 0)
      ≤ specRate 70000000 7 0 0 0 + 1 :=
  ⟨sampleModel_prev _ _ _,
    (rate_is_integer_part_of_clamped_sum_per_second
      (sampleModel (sampleGuest 100 "running" 1000 7 0 0) 0 5000000000)
      (sampleGuest 100 "running" 1500 7 300 0) (sampleGuest 100 "running" 1000 7 0 0)
      (sampleModel_prev _ _ _) (by decide)).2.2.1 5 (by decide) (by decide) (by decide)
      (by decide),
    sampleModel_prev _ _ _,
    ((rate_is_integer_part_of_clamped_sum_per_second
      (sampleModel (sampleGuest 100 "running" 0 0 0 0) 0 70000000)
      (sampleGuest 100 "running" 7 0 0 0) (sampleGuest 100 "running" 0 0 0 0)
      (sampleModel_prev _ _ _) (by decide)).1 (by decide) (by decide) (by decide)
      (by decide)).1,
    ((rate_is_integer_part_of_clamped_sum_per_second
      (sampleModel (sampleGuest 100 "running" 0 0 0 0) 0 70000000)
      (sampleGuest 100 "running" 7 0 0 0) (sampleGuest 100 "running" 0 0 0 0)
      (sampleModel_prev _ _ _) (by decide)).1 (by decide) (by decide) (by decide)
      (by decide)).2⟩

/-- The scenario of the specification: disk-read 1000 at t = 0 and 1500 at
t = 5 s, disk-write unchanged, gives 100 bytes per second. -/
theorem disk_rate_scenario :
    (sampleModel (sampleGuest 100 "running" 1000 7 0 0) 0 5000000000).getDiskRateNumeric
        (sampleGuest 100 "running" 1500 7 300 0) = 100 := by
  have hprev : (sampleModel (sampleGuest 100 "running" 1000 7 0 0) 0 5000000000).prevGuestMap
      (sampleGuest 100 "running" 1500 7 300 0).VMID
      = some (sampleGuest 100 "running" 1000 7 0 0) := sampleModel_prev _ _ _
  rw [getDiskRateNumeric_of_prev hprev]
  exact rateBody_whole_seconds 5 1500 1000 7 7 (by decide) (by decide) (by decide) (by decide)
    (by decide)

/-- Above 53 bits the total is rounded: with disk-read going from 0 to
`2^53 + 1` in one second the code returns `2^53`, the nearest `float64`, while
the exact formula gives `2^53 + 1`. -/
theorem rate_formula_fails_above_53_bits :
    (sampleModel (sampleGuest 100 "running" 0 0 0 0) 0 1000000000).prevGuestMap
        (sampleGuest 100 "running" 9007199254740993 0 0 0).VMID
      = some (sampleGuest 100 "running" 0 0 0 0) ∧
    0 < (sampleModel (sampleGuest 100 "running" 0 0 0 0) 0 1000000000).lastUpdate.Sub
        (sampleModel (sampleGuest 100 "running" 0 0 0 0) 0 1000000000).lastFetch ∧
    (sampleModel (sampleGuest 100 "running" 0 0 0 0) 0 1000000000).getDiskRateNumeric
        (sampleGuest 100 "running" 9007199254740993 0 0 0) = 9007199254740992 ∧
    specRate 1000000000 9007199254740993 0 0 0 = 9007199254740993 := by
  refine ⟨sampleModel_prev _ _ _, by decide, ?_, ?_⟩
  · have hprev : (sampleModel (sampleGuest 100 "running" 0 0 0 0) 0 1000000000).prevGuestMap
        (sampleGuest 100 "running" 9007199254740993 0 0 0).VMID
        = some (sampleGuest 100 "running" 0 0 0 0) := sampleModel_prev _ _ _
    rw [getDiskRateNumeric_of_prev hprev]
    have hsec : secondsValue 1000000000 = 1 := by
      have := secondsValue_whole 1 (by norm_num)
      simpa using this
    have hel : (sampleModel (sampleGuest 100 "running" 0 0 0 0) 0 1000000000).lastUpdate.Sub
        (sampleModel (sampleGuest 100 "running" 0 0 0 0) 0 1000000000).lastFetch
        = 1000000000 := by decide
    have hS : wrapInt64 (clampedDelta 9007199254740993 0 + clampedDelta 0 0)
        = 9007199254740993 := by decide
    have hlt : F64.lt (F64.fin 0) (F64.fin 1) = true := by simp [F64.lt]
    have hr : roundF64 (9007199254740992 : ℚ) = 9007199254740992 := by
      have := roundF64_intCast 9007199254740992 (by norm_num)
      simpa using this
    have hdiv : F64.div (F64.ofInt 9007199254740993) (F64.fin 1)
        = F64.fin ((9007199254740992 : Int) : ℚ) := by
      simp [F64.div, F64.ofInt, F64.round, roundF64_two_pow_53_add_one, hr]
    rw [hel]
    show rateBody 1000000000 9007199254740993 0 0 0 = 9007199254740992
    unfold rateBody
    rw [Duration.Seconds_eq, hsec, if_pos hlt, hS, hdiv]
    exact toInt64_intCast _ (by decide) (by decide)
  · have := specRate_whole_seconds 1 9007199254740993 0 0 0 (by decide)
    simpa using this

theorem roundHalfEven_eq_floor_of_lt {x : ℚ} {f : Int} (h1 : (f : ℚ) ≤ x)
    (h2 : x - f < 1 / 2) : roundHalfEven x = f := by
  have hf : ⌊x⌋ = f := by
    rw [Int.floor_eq_iff]; constructor <;> linarith
  unfold roundHalfEven
  rw [hf, if_pos h2]

theorem roundHalfEven_eq_succ_of_gt {x : ℚ} {f : Int} (h1 : 1 / 2 < x - f)
    (h2 : x < f + 1) : roundHalfEven x = f + 1 := by
  have hf : ⌊x⌋ = f := by
    rw [Int.floor_eq_iff]; constructor <;> linarith
  unfold roundHalfEven
  rw [hf, if_neg (by linarith), if_pos h1]

/-- The `float64` nearest to 0.07. -/
theorem roundF64_seven_hundredths :
    roundF64 (7 / 100) = 5044031582654956 / 2 ^ 56 := by
  rw [roundF64_eq_of_bounds (-4) (by norm_num [abs_of_pos]) (by norm_num [abs_of_pos])]
  have hr : roundHalfEven ((7 / 100 : ℚ) * 2 ^ ((52 : Int) - (-4))) = 5044031582654955 + 1 :=
    roundHalfEven_eq_succ_of_gt (by norm_num) (by norm_num)
  rw [hr]; norm_num

theorem roundF64_seven_hundredths_again :
    roundF64 (5044031582654956 / 2 ^ 56) = 5044031582654956 / 2 ^ 56 := by
  apply roundF64_of_scaled_int _ 5044031582654956
  rw [log_eq_of_bounds (e := -4) (by norm_num [abs_of_pos]) (by norm_num [abs_of_pos])]
  norm_num

theorem roundF64_seven_over_seven_hundredths :
    roundF64 (7 / (5044031582654956 / 2 ^ 56)) = 7036874417766399 / 2 ^ 46 := by
  rw [roundF64_eq_of_bounds 6 (by norm_num [abs_of_pos]) (by norm_num [abs_of_pos])]
  have hr : roundHalfEven ((7 / (5044031582654956 / 2 ^ 56) : ℚ) * 2 ^ ((52 : Int) - 6))
      = 7036874417766399 :=
    roundHalfEven_eq_floor_of_lt (by norm_num) (by norm_num)
  rw [hr]; norm_num

/-- With a fractional elapsed time the rate can miss the exact integer part: 7
bytes read in 70 ms give 99, since 0.07 is not a `float64` and the quotient
`7 / 0.07` rounds to a number just below 100, while the exact integer part of
7 / 0.07 is 100. -/
theorem rate_of_seven_bytes_in_70_ms :
    (sampleModel (sampleGuest 100 "running" 0 0 0 0) 0 70000000).getDiskRateNumeric
        (sampleGuest 100 "running" 7 0 0 0) = 99 ∧
    specRate 70000000 7 0 0 0 = 100 := by
  constructor
  · have hprev : (sampleModel (sampleGuest 100 "running" 0 0 0 0) 0 70000000).prevGuestMap
        (sampleGuest 100 "running" 7 0 0 0).VMID
        = some (sampleGuest 100 "running" 0 0 0 0) := sampleModel_prev _ _ _
    rw [getDiskRateNumeric_of_prev hprev]
    have hel : (sampleModel (sampleGuest 100 "running" 0 0 0 0) 0 70000000).lastUpdate.Sub
        (sampleModel (sampleGuest 100 "running" 0 0 0 0) 0 70000000).lastFetch
        = 70000000 := by decide
    rw [hel]
    show rateBody 70000000 7 0 0 0 = 99
    have hdiv : Int.tdiv 70000000 1000000000 = 0 := by decide
    have hmod : Int.tmod 70000000 1000000000 = 70000000 := by decide
    have hn : roundF64 ((70000000 : Int) : ℚ) = ((70000000 : Int) : ℚ) :=
      roundF64_intCast 70000000 (by norm_num)
    have hsec : secondsValue 70000000 = 5044031582654956 / 2 ^ 56 := by
      unfold secondsValue
      rw [hdiv, hmod, hn]
      have h7 : (((70000000 : Int) : ℚ)) / 1000000000 = 7 / 100 := by norm_num
      rw [h7, roundF64_seven_hundredths]
      simp only [Int.cast_zero, roundF64_zero, zero_add]
      exact roundF64_seven_hundredths_again
    have hS : wrapInt64 (clampedDelta 7 0 + clampedDelta 0 0) = 7 := by decide
    have h7r : roundF64 ((7 : Int) : ℚ) = ((7 : Int) : ℚ) := roundF64_intCast 7 (by norm_num)
    unfold rateBody
    rw [Duration.Seconds_eq, hsec, hS]
    have hlt : F64.lt (F64.fin 0) (F64.fin (5044031582654956 / 2 ^ 56)) = true := by
      simp [F64.lt]
    rw [if_pos hlt]
    have hq : F64.div (F64.ofInt 7) (F64.fin (5044031582654956 / 2 ^ 56))
        = F64.fin (7036874417766399 / 2 ^ 46) := by
      unfold F64.ofInt F64.round
      rw [h7r]
      simp only [F64.div, F64.round]
      rw [if_neg (by norm_num)]
      have : (((7 : Int) : ℚ)) = 7 := by norm_num
      rw [this, roundF64_seven_over_seven_hundredths]
    rw [hq, toInt64_of_nonneg (by norm_num) (by norm_num), Int.floor_eq_iff]
    norm_num
  · unfold specRate
    rw [Int.floor_eq_iff]
    norm_num

theorem secondsValue_70_ms : secondsValue 70000000 = 5044031582654956 / 2 ^ 56 := by
  have hdiv : Int.tdiv 70000000 1000000000 = 0 := by decide
  have hmod : Int.tmod 70000000 1000000000 = 70000000 := by decide
  have hn : roundF64 ((70000000 : Int) : ℚ) = ((70000000 : Int) : ℚ) :=
    roundF64_intCast 70000000 (by norm_num)
  unfold secondsValue
  rw [hdiv, hmod, hn]
  have h7 : (((70000000 : Int) : ℚ)) / 1000000000 = 7 / 100 := by norm_num
  rw [h7, roundF64_seven_hundredths]
  simp only [Int.cast_zero, roundF64_zero, zero_add]
  exact roundF64_seven_hundredths_again

theorem roundF64_seven_e15_over_seven_hundredths :
    roundF64 (7000000000000000 / (5044031582654956 / 2 ^ 56)) = 99999999999999984 := by
  rw [roundF64_eq_of_bounds 56 (by norm_num [abs_of_pos]) (by norm_num [abs_of_pos])]
  have hr : roundHalfEven ((7000000000000000 / (5044031582654956 / 2 ^ 56) : ℚ)
      * 2 ^ ((52 : Int) - 56)) = 6249999999999999 :=
    roundHalfEven_eq_floor_of_lt (by norm_num) (by norm_num)
  rw [hr]; norm_num

/-- With a high rate the rounding of the quotient costs more than 1: `7 * 10^15`
bytes read in 70 ms give `10^17 - 16`, while the exact rate is `10^17`. -/
theorem rate_of_seven_e15_bytes_in_70_ms :
    (sampleModel (sampleGuest 100 "running" 0 0 0 0) 0 70000000).getDiskRateNumeric
        (sampleGuest 100 "running" 7000000000000000 0 0 0) = 99999999999999984 ∧
    specRate 70000000 7000000000000000 0 0 0 = 100000000000000000 := by
  constructor
  · have hprev : (sampleModel (sampleGuest 100 "running" 0 0 0 0) 0 70000000).prevGuestMap
        (sampleGuest 100 "running" 7000000000000000 0 0 0).VMID
        = some (sampleGuest 100 "running" 0 0 0 0) := sampleModel_prev _ _ _
    rw [getDiskRateNumeric_of_prev hprev]
    have hel : (sampleModel (sampleGuest 100 "running" 0 0 0 0) 0 70000000).lastUpdate.Sub
        (sampleModel (sampleGuest 100 "running" 0 0 0 0) 0 70000000).lastFetch
        = 70000000 := by decide
    rw [hel]
    show rateBody 70000000 7000000000000000 0 0 0 = 99999999999999984
    have hS : wrapInt64 (clampedDelta 7000000000000000 0 + clampedDelta 0 0)
        = 7000000000000000 := by decide
    have h7r : roundF64 ((7000000000000000 : Int) : ℚ) = ((7000000000000000 : Int) : ℚ) :=
      roundF64_intCast 7000000000000000 (by norm_num)
    unfold rateBody
    rw [Duration.Seconds_eq, secondsValue_70_ms, hS]
    have hlt : F64.lt (F64.fin 0) (F64.fin (5044031582654956 / 2 ^ 56)) = true := by
      simp [F64.lt]
    rw [if_pos hlt]
    have hq : F64.div (F64.ofInt 7000000000000000) (F64.fin (5044031582654956 / 2 ^ 56))
        = F64.fin (99999999999999984 : ℚ) := by
      unfold F64.ofInt F64.round
      rw [h7r]
      simp only [F64.div, F64.round]
      rw [if_neg (by norm_num)]
      have : (((7000000000000000 : Int) : ℚ)) = 7000000000000000 := by norm_num
      rw [this, roundF64_seven_e15_over_seven_hundredths]
    rw [hq, toInt64_of_nonneg (by norm_num) (by norm_num), Int.floor_eq_iff]
    norm_num
  · unfold specRate
    rw [Int.floor_eq_iff]
    norm_num

/-- C1 fails as stated, in three ways. With disk-read going from 0 to `2^53 + 1`
in one second the code returns `2^53`, the nearest `float64`, not `2^53 + 1`.
With 7 bytes read in 70 ms it returns 99, as 0.07 is not a `float64`, while the
integer part of the exact rate is 100. With `7 * 10^15` bytes read in 70 ms it
returns `10^17 - 16`, while the exact rate is `10^17`. -/
theorem rate_formula_fails_in_float64 :
    ((sampleModel (sampleGuest 100 "running" 0 0 0 0) 0 1000000000).getDiskRateNumeric
        (sampleGuest 100 "running" 9007199254740993 0 0 0) = 9007199254740992 ∧
      specRate 1000000000 9007199254740993 0 0 0 = 9007199254740993) ∧
    ((sampleModel (sampleGuest 100 "running" 0 0 0 0) 0 70000000).getDiskRateNumeric
        (sampleGuest 100 "running" 7 0 0 0) = 99 ∧
      specRate 70000000 7 0 0 0 = 100) ∧
    ((sampleModel (sampleGuest 100 "running" 0 0 0 0) 0 70000000).getDiskRateNumeric
        (sampleGuest 100 "running" 7000000000000000 0 0 0) = 99999999999999984 ∧
      specRate 70000000 7000000000000000 0 0 0 = 100000000000000000) :=
  ⟨⟨rate_formula_fails_above_53_bits.2.2.1, rate_formula_fails_above_53_bits.2.2.2⟩,
    rate_of_seven_bytes_in_70_ms, rate_of_seven_e15_bytes_in_70_ms⟩

/-- C2: `getDiskRateNumeric` and `getNetRateNumeric` return 0 when the guest's id
has no entry in the previous-guest map, and when the current snapshot timestamp
is not later than the previous one, whatever the counters are. -/
theorem rate_zero_without_previous_sample_or_elapsed_time (m : Model) (guest : Guest)
    (h : m.prevGuestMap guest.VMID = none ∨ m.lastUpdate.ns - m.lastFetch.ns ≤ 0) :
    m.getDiskRateNumeric guest = 0 ∧ m.getNetRateNumeric guest = 0 := by
  rcases h with h | h
  · exact ⟨getDiskRateNumeric_of_none h, getNetRateNumeric_of_none h⟩
  · have hsub := time_sub_nonpos h
    cases hp : m.prevGuestMap guest.VMID with
    | none => exact ⟨getDiskRateNumeric_of_none hp, getNetRateNumeric_of_none hp⟩
    | some prev =>
      rw [getDiskRateNumeric_of_prev hp, getNetRateNumeric_of_prev hp]
      exact ⟨rateBody_of_nonpos hsub _ _ _ _, rateBody_of_nonpos hsub _ _ _ _⟩

/-- Witness for C2: a previous sample exists but both snapshots carry the same
timestamp. -/
theorem rate_zero_without_previous_sample_or_elapsed_time_witness :
    ((sampleModel (sampleGuest 100 "running" 1000 7 0 0) 7 7).prevGuestMap
        (sampleGuest 100 "running" 1500 9 300 20).VMID = none ∨
      (sampleModel (sampleGuest 100 "running" 1000 7 0 0) 7 7).lastUpdate.ns
        - (sampleModel (sampleGuest 100 "running" 1000 7 0 0) 7 7).lastFetch.ns ≤ 0) ∧
    (sampleModel (sampleGuest 100 "running" 1000 7 0 0) 7 7).getDiskRateNumeric
        (sampleGuest 100 "running" 1500 9 300 20) = 0 ∧
    (sampleModel (sampleGuest 100 "running" 1000 7 0 0) 7 7).getNetRateNumeric
        (sampleGuest 100 "running" 1500 9 300 20) = 0 :=
  ⟨Or.inr (by decide),
    rate_zero_without_previous_sample_or_elapsed_time _ _ (Or.inr (by decide))⟩

/-- The scenario of the specification: a guest absent from the previous snapshot
has rate 0. -/
theorem absent_guest_scenario :
    (sampleModel (sampleGuest 100 "running" 1000 7 0 0) 0 5000000000).getDiskRateNumeric
        (sampleGuest 101 "running" 1500 9 300 20) = 0 := by
  apply getDiskRateNumeric_of_none
  simp [sampleModel, buildPrevGuestMap, sampleGuest]

/-- C3 fails as stated: with disk-read and disk-write both going from 0 to
`2^63 - 1` in one second, the `int64` sum of the two deltas wraps to -2 and
`getDiskRateNumeric` returns -2. -/
theorem rate_negative_when_sum_wraps :
    (sampleModel (sampleGuest 100 "running" 0 0 0 0) 0 1000000000).getDiskRateNumeric
        (sampleGuest 100 "running" 9223372036854775807 9223372036854775807 0 0) = -2 ∧
    ¬ 0 ≤ (sampleModel (sampleGuest 100 "running" 0 0 0 0) 0 1000000000).getDiskRateNumeric
        (sampleGuest 100 "running" 9223372036854775807 9223372036854775807 0 0) := by
  have hprev : (sampleModel (sampleGuest 100 "running" 0 0 0 0) 0 1000000000).prevGuestMap
      (sampleGuest 100 "running" 9223372036854775807 9223372036854775807 0 0).VMID
      = some (sampleGuest 100 "running" 0 0 0 0) := sampleModel_prev _ _ _
  have hval : (sampleModel (sampleGuest 100 "running" 0 0 0 0) 0 1000000000).getDiskRateNumeric
      (sampleGuest 100 "running" 9223372036854775807 9223372036854775807 0 0) = -2 := by
    rw [getDiskRateNumeric_of_prev hprev]
    have hS : wrapInt64 (clampedDelta 9223372036854775807 0 + clampedDelta 9223372036854775807 0)
        = -2 := by decide
    have := rateBody_one_second 9223372036854775807 0 9223372036854775807 0
      (by rw [hS]; norm_num)
    rw [hS] at this
    exact this
  exact ⟨hval, by rw [hval]; decide⟩

/-- C3 (as amended): the values returned by `getDiskRateNumeric` and
`getNetRateNumeric` are non-negative whenever, for the previous sample found
and a positive elapsed time, the sum of the two clamped deltas fits in an
`int64` and does not exceed `2^61` bytes per second of elapsed time. -/
theorem rate_nonneg_within_int64_range (m : Model) (guest : Guest)
    (hdisk : ∀ prev, m.prevGuestMap guest.VMID = some prev → 0 < m.lastUpdate.Sub m.lastFetch →
      clampedDelta guest.DiskRead prev.DiskRead + clampedDelta guest.DiskWrite prev.DiskWrite
        ≤ maxInt64 ∧
      (clampedDelta guest.DiskRead prev.DiskRead + clampedDelta guest.DiskWrite prev.DiskWrite)
        * 1000000000 ≤ 2 ^ 61 * m.lastUpdate.Sub m.lastFetch)
    (hnet : ∀ prev, m.prevGuestMap guest.VMID = some prev → 0 < m.lastUpdate.Sub m.lastFetch →
      clampedDelta guest.NetIn prev.NetIn + clampedDelta guest.NetOut prev.NetOut ≤ maxInt64 ∧
      (clampedDelta guest.NetIn prev.NetIn + clampedDelta guest.NetOut prev.NetOut)
        * 1000000000 ≤ 2 ^ 61 * m.lastUpdate.Sub m.lastFetch) :
    0 ≤ m.getDiskRateNumeric guest ∧ 0 ≤ m.getNetRateNumeric guest := by
  cases hp : m.prevGuestMap guest.VMID with
  | none => rw [getDiskRateNumeric_of_none hp, getNetRateNumeric_of_none hp]; simp
  | some prev =>
    rw [getDiskRateNumeric_of_prev hp, getNetRateNumeric_of_prev hp]
    exact ⟨rateBody_nonneg _ _ _ _ _ (hdisk prev hp), rateBody_nonneg _ _ _ _ _ (hnet prev hp)⟩

/-- Witness for C3: disk-read 1000 then 1500, net-in 0 then 300, over 5 seconds. -/
theorem rate_nonneg_within_int64_range_witness :
    (∀ prev, (sampleModel (sampleGuest 100 "running" 1000 7 0 0) 0 5000000000).prevGuestMap
        (sampleGuest 100 "running" 1500 7 300 0).VMID = some prev →
      0 < (sampleModel (sampleGuest 100 "running" 1000 7 0 0) 0 5000000000).lastUpdate.Sub
        (sampleModel (sampleGuest 100 "running" 1000 7 0 0) 0 5000000000).lastFetch →
      clampedDelta (sampleGuest 100 "running" 1500 7 300 0).DiskRead prev.DiskRead
        + clampedDelta (sampleGuest 100 "running" 1500 7 300 0).DiskWrite prev.DiskWrite
        ≤ maxInt64 ∧
      (clampedDelta (sampleGuest 100 "running" 1500 7 300 0).DiskRead prev.DiskRead
        + clampedDelta (sampleGuest 100 "running" 1500 7 300 0).DiskWrite prev.DiskWrite)
        * 1000000000
        ≤ 2 ^ 61 * (sampleModel (sampleGuest 100 "running" 1000 7 0 0) 0 5000000000).lastUpdate.Sub
          (sampleModel (sampleGuest 100 "running" 1000 7 0 0) 0 5000000000).lastFetch) ∧
    0 ≤ (sampleModel (sampleGuest 100 "running" 1000 7 0 0) 0 5000000000).getDiskRateNumeric
        (sampleGuest 100 "running" 1500 7 300 0) ∧
    0 ≤ (sampleModel (sampleGuest 100 "running" 1000 7 0 0) 0 5000000000).getNetRateNumeric
        (sampleGuest 100 "running" 1500 7 300 0) := by
  have hprev : (sampleModel (sampleGuest 100 "running" 1000 7 0 0) 0 5000000000).prevGuestMap
      (sampleGuest 100 "running" 1500 7 300 0).VMID
      = some (sampleGuest 100 "running" 1000 7 0 0) := sampleModel_prev _ _ _
  have hd : ∀ prev, (sampleModel (sampleGuest 100 "running" 1000 7 0 0) 0 5000000000).prevGuestMap
        (sampleGuest 100 "running" 1500 7 300 0).VMID = some prev →
      0 < (sampleModel (sampleGuest 100 "running" 1000 7 0 0) 0 5000000000).lastUpdate.Sub
        (sampleModel (sampleGuest 100 "running" 1000 7 0 0) 0 5000000000).lastFetch →
      clampedDelta (sampleGuest 100 "running" 1500 7 300 0).DiskRead prev.DiskRead
        + clampedDelta (sampleGuest 100 "running" 1500 7 300 0).DiskWrite prev.DiskWrite
        ≤ maxInt64 ∧
      (clampedDelta (sampleGuest 100 "running" 1500 7 300 0).DiskRead prev.DiskRead
        + clampedDelta (sampleGuest 100 "running" 1500 7 300 0).DiskWrite prev.DiskWrite)
        * 1000000000
        ≤ 2 ^ 61 * (sampleModel (sampleGuest 100 "running" 1000 7 0 0) 0 5000000000).lastUpdate.Sub
          (sampleModel (sampleGuest 100 "running" 1000 7 0 0) 0 5000000000).lastFetch := by
    intro prev hp _
    rw [hprev] at hp
    cases hp
    decide
  refine ⟨hd, rate_nonneg_within_int64_range _ _ hd ?_⟩
  intro prev hp _
  rw [hprev] at hp
  cases hp
  decide

/-- Outside the range of a byte counter the subtraction can wrap: with a
disk-read field going from `2^63 - 5` to the negative value `-2^63` the `int64`
difference is 5, and `getDiskRateNumeric` returns 5 after one second. -/
theorem negative_counter_wraps_the_subtraction :
    (sampleGuest 100 "running" (-9223372036854775808) 0 0 0).DiskRead
      < (sampleGuest 100 "running" 9223372036854775803 0 0 0).DiskRead ∧
    (sampleGuest 100 "running" (-9223372036854775808) 0 0 0).DiskWrite
      ≤ (sampleGuest 100 "running" 9223372036854775803 0 0 0).DiskWrite ∧
    (sampleModel (sampleGuest 100 "running" 9223372036854775803 0 0 0) 0 1000000000).prevGuestMap
        (sampleGuest 100 "running" (-9223372036854775808) 0 0 0).VMID
      = some (sampleGuest 100 "running" 9223372036854775803 0 0 0) ∧
    0 < (sampleModel (sampleGuest 100 "running" 9223372036854775803 0 0 0) 0
          1000000000).lastUpdate.Sub
        (sampleModel (sampleGuest 100 "running" 9223372036854775803 0 0 0) 0
          1000000000).lastFetch ∧
    (sampleModel (sampleGuest 100 "running" 9223372036854775803 0 0 0) 0
        1000000000).getDiskRateNumeric
      (sampleGuest 100 "running" (-9223372036854775808) 0 0 0) = 5 := by
  have hprev : (sampleModel (sampleGuest 100 "running" 9223372036854775803 0 0 0) 0
      1000000000).prevGuestMap (sampleGuest 100 "running" (-9223372036854775808) 0 0 0).VMID
      = some (sampleGuest 100 "running" 9223372036854775803 0 0 0) := sampleModel_prev _ _ _
  refine ⟨by decide, by decide, hprev, by decide, ?_⟩
  rw [getDiskRateNumeric_of_prev hprev]
  have hS : wrapInt64 (clampedDelta (-9223372036854775808) 9223372036854775803
      + clampedDelta 0 0) = 5 := by decide
  have := rateBody_one_second (-9223372036854775808) 9223372036854775803 0 0
    (by rw [hS]; norm_num)
  rw [hS] at this
  exact this

theorem clampedDelta_of_le {cur prev : Int} (h1 : minInt64 ≤ cur - prev) (h2 : cur ≤ prev) :
    clampedDelta cur prev = 0 := by
  rw [clampedDelta_of_no_wrap h1 (by unfold maxInt64; omega)]
  omega

theorem clampedDelta_self (x : Int) : clampedDelta x x = 0 := by
  simp [clampedDelta, wrapInt64]

/-- For a guest with a previous sample, as long as the 64-bit subtraction
`current - previous` of a counter does not wrap around, a counter that is lower
than its previous value contributes 0. -/
theorem reset_contributes_zero_of_no_wrap (m : Model) (guest prev : Guest)
    (hprev : m.prevGuestMap guest.VMID = some prev) :
    (minInt64 ≤ guest.DiskRead - prev.DiskRead → minInt64 ≤ guest.DiskWrite - prev.DiskWrite →
      guest.DiskRead ≤ prev.DiskRead → guest.DiskWrite ≤ prev.DiskWrite →
      m.getDiskRateNumeric guest = 0) ∧
    (minInt64 ≤ guest.DiskRead - prev.DiskRead → guest.DiskRead < prev.DiskRead →
      m.getDiskRateNumeric guest
        = m.getDiskRateNumeric { guest with DiskRead := prev.DiskRead }) ∧
    (minInt64 ≤ guest.DiskWrite - prev.DiskWrite → guest.DiskWrite < prev.DiskWrite →
      m.getDiskRateNumeric guest
        = m.getDiskRateNumeric { guest with DiskWrite := prev.DiskWrite }) ∧
    (minInt64 ≤ guest.NetIn - prev.NetIn → minInt64 ≤ guest.NetOut - prev.NetOut →
      guest.NetIn ≤ prev.NetIn → guest.NetOut ≤ prev.NetOut →
      m.getNetRateNumeric guest = 0) ∧
    (minInt64 ≤ guest.NetIn - prev.NetIn → guest.NetIn < prev.NetIn →
      m.getNetRateNumeric guest = m.getNetRateNumeric { guest with NetIn := prev.NetIn }) ∧
    (minInt64 ≤ guest.NetOut - prev.NetOut → guest.NetOut < prev.NetOut →
      m.getNetRateNumeric guest = m.getNetRateNumeric { guest with NetOut := prev.NetOut }) := by
  have zero : ∀ c1 p1 c2 p2 : Int, minInt64 ≤ c1 - p1 → minInt64 ≤ c2 - p2 → c1 ≤ p1 → c2 ≤ p2 →
      rateBody (m.lastUpdate.Sub m.lastFetch) c1 p1 c2 p2 = 0 := by
    intro c1 p1 c2 p2 h1 h2 h3 h4
    apply rateBody_of_zero_total
    rw [clampedDelta_of_le h1 h3, clampedDelta_of_le h2 h4]
    decide
  have left : ∀ c1 p1 c2 p2 : Int, minInt64 ≤ c1 - p1 → c1 < p1 →
      rateBody (m.lastUpdate.Sub m.lastFetch) c1 p1 c2 p2
        = rateBody (m.lastUpdate.Sub m.lastFetch) p1 p1 c2 p2 := by
    intro c1 p1 c2 p2 h1 h3
    unfold rateBody
    rw [clampedDelta_of_le h1 h3.le, clampedDelta_self]
  have right : ∀ c1 p1 c2 p2 : Int, minInt64 ≤ c2 - p2 → c2 < p2 →
      rateBody (m.lastUpdate.Sub m.lastFetch) c1 p1 c2 p2
        = rateBody (m.lastUpdate.Sub m.lastFetch) c1 p1 p2 p2 := by
    intro c1 p1 c2 p2 h1 h3
    unfold rateBody
    rw [clampedDelta_of_le h1 h3.le, clampedDelta_self]
  have hp1 : m.prevGuestMap ({ guest with DiskRead := prev.DiskRead } : Guest).VMID = some prev :=
    hprev
  have hp2 : m.prevGuestMap ({ guest with DiskWrite := prev.DiskWrite } : Guest).VMID
      = some prev := hprev
  have hp3 : m.prevGuestMap ({ guest with NetIn := prev.NetIn } : Guest).VMID = some prev := hprev
  have hp4 : m.prevGuestMap ({ guest with NetOut := prev.NetOut } : Guest).VMID = some prev :=
    hprev
  refine ⟨?_, ?_, ?_, ?_, ?_, ?_⟩
  · intro h1 h2 h3 h4
    rw [getDiskRateNumeric_of_prev hprev]; exact zero _ _ _ _ h1 h2 h3 h4
  · intro h1 h3
    rw [getDiskRateNumeric_of_prev hprev, getDiskRateNumeric_of_prev hp1]
    exact left _ _ _ _ h1 h3
  · intro h1 h3
    rw [getDiskRateNumeric_of_prev hprev, getDiskRateNumeric_of_prev hp2]
    exact right _ _ _ _ h1 h3
  · intro h1 h2 h3 h4
    rw [getNetRateNumeric_of_prev hprev]; exact zero _ _ _ _ h1 h2 h3 h4
  · intro h1 h3
    rw [getNetRateNumeric_of_prev hprev, getNetRateNumeric_of_prev hp3]
    exact left _ _ _ _ h1 h3
  · intro h1 h3
    rw [getNetRateNumeric_of_prev hprev, getNetRateNumeric_of_prev hp4]
    exact right _ _ _ _ h1 h3

/-- C4: for every guest with a previous sample, the counters being byte counts
(non-negative `int64` values), a cumulative counter whose current value is lower
than its previous value contributes exactly 0 to the rate: if neither counter of
the pair increased the rate is 0, and if one counter was reset the rate is the
one obtained with that counter left at its previous value, that is, from the
other counter's delta alone. -/
theorem reset_counter_contributes_zero (m : Model) (guest prev : Guest)
    (hprev : m.prevGuestMap guest.VMID = some prev)
    (hg : guest.byteCounters) (hp : prev.byteCounters) :
    (guest.DiskRead ≤ prev.DiskRead → guest.DiskWrite ≤ prev.DiskWrite →
      m.getDiskRateNumeric guest = 0) ∧
    (guest.DiskRead < prev.DiskRead →
      m.getDiskRateNumeric guest
        = m.getDiskRateNumeric { guest with DiskRead := prev.DiskRead }) ∧
    (guest.DiskWrite < prev.DiskWrite →
      m.getDiskRateNumeric guest
        = m.getDiskRateNumeric { guest with DiskWrite := prev.DiskWrite }) ∧
    (guest.NetIn ≤ prev.NetIn → guest.NetOut ≤ prev.NetOut →
      m.getNetRateNumeric guest = 0) ∧
    (guest.NetIn < prev.NetIn →
      m.getNetRateNumeric guest = m.getNetRateNumeric { guest with NetIn := prev.NetIn }) ∧
    (guest.NetOut < prev.NetOut →
      m.getNetRateNumeric guest = m.getNetRateNumeric { guest with NetOut := prev.NetOut }) := by
  obtain ⟨⟨g1, _⟩, ⟨g2, _⟩, ⟨g3, _⟩, ⟨g4, _⟩⟩ := hg
  obtain ⟨⟨_, p1⟩, ⟨_, p2⟩, ⟨_, p3⟩, ⟨_, p4⟩⟩ := hp
  unfold maxInt64 at p1 p2 p3 p4
  have h1 : minInt64 ≤ guest.DiskRead - prev.DiskRead := by unfold minInt64; omega
  have h2 : minInt64 ≤ guest.DiskWrite - prev.DiskWrite := by unfold minInt64; omega
  have h3 : minInt64 ≤ guest.NetIn - prev.NetIn := by unfold minInt64; omega
  have h4 : minInt64 ≤ guest.NetOut - prev.NetOut := by unfold minInt64; omega
  obtain ⟨c1, c2, c3, c4, c5, c6⟩ := reset_contributes_zero_of_no_wrap m guest prev hprev
  exact ⟨c1 h1 h2, c2 h1, c3 h2, c4 h3 h4, c5 h3, c6 h4⟩

/-- Witness for C4, the scenario of the specification: disk-read 5000 then 200
with disk-write unchanged gives rate 0. -/
theorem reset_counter_contributes_zero_witness :
    (sampleModel (sampleGuest 100 "running" 5000 7 0 0) 0 5000000000).prevGuestMap
        (sampleGuest 100 "running" 200 7 0 0).VMID
      = some (sampleGuest 100 "running" 5000 7 0 0) ∧
    (sampleGuest 100 "running" 200 7 0 0).byteCounters ∧
    (sampleGuest 100 "running" 5000 7 0 0).byteCounters ∧
    (sampleGuest 100 "running" 200 7 0 0).DiskRead
      ≤ (sampleGuest 100 "running" 5000 7 0 0).DiskRead ∧
    (sampleGuest 100 "running" 200 7 0 0).DiskWrite
      ≤ (sampleGuest 100 "running" 5000 7 0 0).DiskWrite ∧
    (sampleModel (sampleGuest 100 "running" 5000 7 0 0) 0 5000000000).getDiskRateNumeric
        (sampleGuest 100 "running" 200 7 0 0) = 0 :=
  ⟨sampleModel_prev _ _ _, by unfold Guest.byteCounters; decide,
    by unfold Guest.byteCounters; decide, by decide, by decide,
    (reset_counter_contributes_zero
      (sampleModel (sampleGuest 100 "running" 5000 7 0 0) 0 5000000000)
      (sampleGuest 100 "running" 200 7 0 0) (sampleGuest 100 "running" 5000 7 0 0)
      (sampleModel_prev _ _ _) (by unfold Guest.byteCounters; decide)
      (by unfold Guest.byteCounters; decide)).1 (by decide) (by decide)⟩

/-! ## Lemmas on the sorting routine -/

section InsertionSort
variable {α : Type}

theorem insertLeft_perm (less : α → α → Bool) (x : α) (l : List α) :
    (insertLeft less x l).Perm (x :: l) := by
  induction l with
  | nil => exact List.Perm.refl _
  | cons y before ih =>
    unfold insertLeft
    split_ifs
    · exact (List.Perm.cons y ih).trans (List.Perm.swap x y before)
    · exact List.Perm.refl _

theorem mem_insertLeft {less : α → α → Bool} {x z : α} {l : List α} :
    z ∈ insertLeft less x l ↔ z = x ∨ z ∈ l := by
  rw [(insertLeft_perm less x l).mem_iff, List.mem_cons]

theorem foldl_insertLeft_perm (less : α → α → Bool) (data acc : List α) :
    (data.foldl (fun sortedRev x => insertLeft less x sortedRev) acc).Perm (data ++ acc) := by
  induction data generalizing acc with
  | nil => exact List.Perm.refl _
  | cons x rest ih =>
    simp only [List.foldl_cons]
    refine (ih _).trans ?_
    refine (List.Perm.append_left rest (insertLeft_perm less x acc)).trans ?_
    simp

/-- Inserting into a prefix that is ordered by `R` (listed backwards) keeps it
ordered, when `less x y` implies `R x y`, its failure implies `R y x`, and `R`
composes with a failed comparison. -/
theorem insertLeft_pairwise {less : α → α → Bool} {R : α → α → Prop} {P : α → Prop}
    (h1 : ∀ x y, P x → P y → less x y = true → R x y)
    (h2 : ∀ x y, P x → P y → less x y = false → R y x)
    (h3 : ∀ x y z, P x → P y → P z → R z y → less x y = false → R z x)
    (x : α) (hx : P x) (l : List α) (hl : ∀ y ∈ l, P y)
    (hp : l.Pairwise (fun later earlier => R earlier later)) :
    (insertLeft less x l).Pairwise (fun later earlier => R earlier later) := by
  induction l with
  | nil => simp [insertLeft]
  | cons y before ih =>
    have hy : P y := hl y (List.mem_cons_self _ _)
    have hb : ∀ z ∈ before, P z := fun z hz => hl z (List.mem_cons_of_mem _ hz)
    rw [List.pairwise_cons] at hp
    unfold insertLeft
    cases hc : less x y with
    | true =>
      simp only [if_true]
      rw [List.pairwise_cons]
      refine ⟨?_, ih hb hp.2⟩
      intro z hz
      rcases mem_insertLeft.mp hz with rfl | hz
      · exact h1 _ _ hx hy hc
      · exact hp.1 z hz
    | false =>
      simp only [Bool.false_eq_true, if_false]
      rw [List.pairwise_cons]
      refine ⟨?_, List.pairwise_cons.mpr hp⟩
      intro z hz
      rcases List.mem_cons.mp hz with rfl | hz
      · exact h2 _ _ hx hy hc
      · exact h3 _ _ _ hx hy (hb z hz) (hp.1 z hz) hc

theorem foldl_insertLeft_pairwise {less : α → α → Bool} {R : α → α → Prop} {P : α → Prop}
    (h1 : ∀ x y, P x → P y → less x y = true → R x y)
    (h2 : ∀ x y, P x → P y → less x y = false → R y x)
    (h3 : ∀ x y z, P x → P y → P z → R z y → less x y = false → R z x)
    (data acc : List α) (hd : ∀ y ∈ data, P y) (ha : ∀ y ∈ acc, P y)
    (hp : acc.Pairwise (fun later earlier => R earlier later)) :
    (data.foldl (fun sortedRev x => insertLeft less x sortedRev) acc).Pairwise
      (fun later earlier => R earlier later) := by
  induction data generalizing acc with
  | nil => exact hp
  | cons x rest ih =>
    simp only [List.foldl_cons]
    have hx : P x := hd x (List.mem_cons_self _ _)
    apply ih
    · exact fun y hy => hd y (List.mem_cons_of_mem _ hy)
    · intro y hy
      rcases mem_insertLeft.mp hy with rfl | hy
      · exact hx
      · exact ha y hy
    · exact insertLeft_pairwise h1 h2 h3 x hx acc ha hp

end InsertionSort

/-! ## The sorting routine only swaps -/

section SortPerm

variable {α : Type}

theorem Swap_length (data : List α) (i j : Nat) : (Swap data i j).length = data.length := by
  unfold Swap
  split <;> simp

theorem Swap_of_lt {data : List α} {i j : Nat} (hi : i < data.length) (hj : j < data.length) :
    Swap data i j = (data.set i data[j]).set j data[i] := by
  unfold Swap
  rw [List.getElem?_eq_getElem hi, List.getElem?_eq_getElem hj]

theorem getElem?_Swap {data : List α} {i j : Nat} (hi : i < data.length) (hj : j < data.length)
    (k : Nat) :
    (Swap data i j)[k]? = if k = j then data[i]? else if k = i then data[j]? else data[k]? := by
  rw [Swap_of_lt hi hj]
  by_cases hkj : k = j
  · subst hkj
    rw [if_pos rfl, List.getElem?_set_self (by simpa using hj), List.getElem?_eq_getElem hi]
  · rw [if_neg hkj, List.getElem?_set_ne (fun h => hkj h.symm)]
    by_cases hki : k = i
    · subst hki
      rw [if_pos rfl, List.getElem?_set_self hi, List.getElem?_eq_getElem hj]
    · rw [if_neg hki, List.getElem?_set_ne (fun h => hki h.symm)]

theorem cons_set_perm (x y : α) (xs : List α) (j : Nat) (h : xs[j]? = some y) :
    (y :: xs.set j x).Perm (x :: xs) := by
  induction xs generalizing j with
  | nil => simp at h
  | cons z zs ih =>
    cases j with
    | zero =>
      simp only [List.getElem?_cons_zero, Option.some.injEq] at h
      subst h
      simpa using List.Perm.swap x z zs
    | succ j =>
      simp only [List.getElem?_cons_succ] at h
      simp only [List.set_cons_succ]
      exact (List.Perm.swap z y _).trans (((ih j h).cons z).trans (List.Perm.swap x z zs))

theorem set_set_perm (data : List α) (i j : Nat) (x y : α) (hi : data[i]? = some x)
    (hj : data[j]? = some y) : ((data.set i y).set j x).Perm data := by
  induction data generalizing i j with
  | nil => simp at hi
  | cons d ds ih =>
    cases i with
    | zero =>
      simp only [List.getElem?_cons_zero, Option.some.injEq] at hi
      subst hi
      cases j with
      | zero =>
        simp only [List.getElem?_cons_zero, Option.some.injEq] at hj
        subst hj
        simp
      | succ j =>
        simp only [List.getElem?_cons_succ] at hj
        simp only [List.set_cons_zero, List.set_cons_succ]
        exact cons_set_perm d y ds j hj
    | succ i =>
      simp only [List.getElem?_cons_succ] at hi
      cases j with
      | zero =>
        simp only [List.getElem?_cons_zero, Option.some.injEq] at hj
        subst hj
        simp only [List.set_cons_zero, List.set_cons_succ]
        exact cons_set_perm d x ds i hi
      | succ j =>
        simp only [List.getElem?_cons_succ] at hj
        simp only [List.set_cons_succ]
        exact (ih i j hi hj).cons d

theorem Swap_perm (data : List α) (i j : Nat) : (Swap data i j).Perm data := by
  unfold Swap
  split
  · next x y hx hy => exact set_set_perm data i j x y hx hy
  · exact List.Perm.refl _

theorem insertionSortLessFunc_perm (less : α → α → Bool) (data : List α) :
    (insertionSortLessFunc less data).Perm data := by
  unfold insertionSortLessFunc
  refine (List.reverse_perm _).trans ?_
  simpa using foldl_insertLeft_perm less data []

theorem take_append_segment_append_drop (data : List α) (a n : Nat) :
    data.take a ++ (data.drop a).take n ++ data.drop (a + n) = data := by
  rw [List.append_assoc, ← List.drop_drop, List.take_append_drop, List.take_append_drop]

theorem insertionSort_func_perm (less : α → α → Bool) (data : List α) (a b : Nat) :
    (insertionSort_func less data a b).Perm data := by
  unfold insertionSort_func
  have h := take_append_segment_append_drop data a (b - a)
  nth_rewrite 4 [← h]
  exact List.Perm.append_right _
    (List.Perm.append_left _ (insertionSortLessFunc_perm less _))

theorem siftDown_func_perm (less : α → α → Bool) (hi first n : Nat) (data : List α) (root : Nat) :
    (siftDown_func less hi first n data root).Perm data := by
  induction n generalizing data root with
  | zero => exact List.Perm.refl _
  | succ n ih =>
    unfold siftDown_func
    by_cases h1 : 2 * root + 1 ≥ hi
    · rw [if_pos h1]
    · rw [if_neg h1]
      dsimp only
      generalize (if 2 * root + 1 + 1 < hi ∧
        Less less data (first + (2 * root + 1)) (first + (2 * root + 1) + 1) = true
        then 2 * root + 1 + 1 else 2 * root + 1) = child
      by_cases h2 : (!Less less data (first + root) (first + child)) = true
      · rw [if_pos h2]
      · rw [if_neg h2]
        exact (ih _ _).trans (Swap_perm _ _ _)

theorem foldl_perm {β : Type} (f : List α → β → List α) (hf : ∀ d x, (f d x).Perm d)
    (xs : List β) (data : List α) : (xs.foldl f data).Perm data := by
  induction xs generalizing data with
  | nil => exact List.Perm.refl _
  | cons x rest ih => exact (ih _).trans (hf _ _)

theorem heapSort_func_perm (less : α → α → Bool) (data : List α) (a b : Nat) :
    (heapSort_func less data a b).Perm data := by
  unfold heapSort_func
  dsimp only
  refine (foldl_perm _ ?_ _ _).trans (foldl_perm _ ?_ _ _)
  · intro d i
    exact (siftDown_func_perm _ _ _ _ _ _).trans (Swap_perm _ _ _)
  · intro d i
    exact siftDown_func_perm _ _ _ _ _ _

theorem breakPatterns_func_perm (data : List α) (a b : Nat) :
    (breakPatterns_func data a b).Perm data := by
  unfold breakPatterns_func
  dsimp only
  split_ifs
  · simp only [List.foldl_cons, List.foldl_nil]
    exact ((Swap_perm _ _ _).trans (Swap_perm _ _ _)).trans (Swap_perm _ _ _)
  · exact List.Perm.refl _

theorem reverseRange_loop_perm (n : Nat) (data : List α) (i j : Nat) :
    (reverseRange_loop n data i j).Perm data := by
  induction n generalizing data i j with
  | zero => exact List.Perm.refl _
  | succ n ih =>
    unfold reverseRange_loop
    split_ifs
    · exact (ih _ _ _).trans (Swap_perm _ _ _)
    · exact List.Perm.refl _

theorem reverseRange_func_perm (data : List α) (a b : Nat) :
    (reverseRange_func data a b).Perm data :=
  reverseRange_loop_perm _ _ _ _

theorem shiftSmaller_perm (less : α → α → Bool) (j : Nat) (data : List α) :
    (shiftSmaller less j data).Perm data := by
  induction j generalizing data with
  | zero => exact List.Perm.refl _
  | succ j ih =>
    unfold shiftSmaller
    split_ifs
    · exact List.Perm.refl _
    · exact (ih _).trans (Swap_perm _ _ _)

theorem shiftGreater_perm (less : α → α → Bool) (n : Nat) (data : List α) (j : Nat) :
    (shiftGreater less n data j).Perm data := by
  induction n generalizing data j with
  | zero => exact List.Perm.refl _
  | succ n ih =>
    unfold shiftGreater
    split_ifs
    · exact List.Perm.refl _
    · exact (ih _ _).trans (Swap_perm _ _ _)

theorem partialInsertionSort_loop_perm (less : α → α → Bool) (a b steps : Nat) (data : List α)
    (i : Nat) : (partialInsertionSort_loop less a b steps data i).1.Perm data := by
  induction steps generalizing data i with
  | zero => exact List.Perm.refl _
  | succ steps ih =>
    unfold partialInsertionSort_loop
    dsimp only
    split_ifs
    all_goals first
      | exact List.Perm.refl _
      | (refine (ih _ _).trans ?_
         first
          | exact ((shiftGreater_perm _ _ _ _).trans (shiftSmaller_perm _ _ _)).trans
              (Swap_perm _ _ _)
          | exact (shiftGreater_perm _ _ _ _).trans (Swap_perm _ _ _)
          | exact (shiftSmaller_perm _ _ _).trans (Swap_perm _ _ _)
          | exact Swap_perm _ _ _)

theorem partialInsertionSort_func_perm (less : α → α → Bool) (data : List α) (a b : Nat) :
    (partialInsertionSort_func less data a b).1.Perm data :=
  partialInsertionSort_loop_perm _ _ _ _ _ _

theorem partitionEqual_loop_perm (less : α → α → Bool) (a n : Nat) (data : List α) (i j : Nat) :
    (partitionEqual_loop less a n data i j).1.Perm data := by
  induction n generalizing data i j with
  | zero => exact List.Perm.refl _
  | succ n ih =>
    unfold partitionEqual_loop
    dsimp only
    split_ifs
    · exact List.Perm.refl _
    · exact (ih _ _ _).trans (Swap_perm _ _ _)

theorem partitionEqual_func_perm (less : α → α → Bool) (data : List α) (a b pivot : Nat) :
    (partitionEqual_func less data a b pivot).1.Perm data :=
  (partitionEqual_loop_perm _ _ _ _ _ _).trans (Swap_perm _ _ _)

theorem partition_loop_perm (less : α → α → Bool) (a n : Nat) (data : List α) (i j : Nat) :
    (partition_loop less a n data i j).1.Perm data := by
  induction n generalizing data i j with
  | zero => exact List.Perm.refl _
  | succ n ih =>
    unfold partition_loop
    dsimp only
    split_ifs
    · exact List.Perm.refl _
    · exact (ih _ _ _).trans (Swap_perm _ _ _)

theorem partition_func_perm (less : α → α → Bool) (data : List α) (a b pivot : Nat) :
    (partition_func less data a b pivot).1.Perm data := by
  unfold partition_func
  dsimp only
  split_ifs
  · exact (Swap_perm _ _ _).trans (Swap_perm _ _ _)
  · exact (Swap_perm _ _ _).trans
      ((partition_loop_perm _ _ _ _ _ _).trans ((Swap_perm _ _ _).trans (Swap_perm _ _ _)))

theorem pdqsort_func_succ (less : α → α → Bool) (n : Nat) (data : List α) (a b limit : Nat)
    (wasBalanced wasPartitioned : Bool) :
    pdqsort_func less (n + 1) data a b limit wasBalanced wasPartitioned
      = if b - a ≤ 12 then insertionSort_func less data a b
        else if limit = 0 then heapSort_func less data a b
        else if (pdqsort_attempt less data a b wasBalanced wasPartitioned).1.2 then
          (pdqsort_attempt less data a b wasBalanced wasPartitioned).1.1
        else if a > 0 ∧ !Less less (pdqsort_attempt less data a b wasBalanced wasPartitioned).1.1
            (a - 1) (pdqsort_attempt less data a b wasBalanced wasPartitioned).2 then
          pdqsort_func less n
            (partitionEqual_func less (pdqsort_attempt less data a b wasBalanced wasPartitioned).1.1
              a b (pdqsort_attempt less data a b wasBalanced wasPartitioned).2).1
            (partitionEqual_func less (pdqsort_attempt less data a b wasBalanced wasPartitioned).1.1
              a b (pdqsort_attempt less data a b wasBalanced wasPartitioned).2).2
            b (if !wasBalanced then limit - 1 else limit) wasBalanced wasPartitioned
        else if (partition_func less (pdqsort_attempt less data a b wasBalanced wasPartitioned).1.1
              a b (pdqsort_attempt less data a b wasBalanced wasPartitioned).2).2.1 - a
            < b - (partition_func less
              (pdqsort_attempt less data a b wasBalanced wasPartitioned).1.1
              a b (pdqsort_attempt less data a b wasBalanced wasPartitioned).2).2.1 then
          pdqsort_func less n
            (pdqsort_func less n
              (partition_func less (pdqsort_attempt less data a b wasBalanced wasPartitioned).1.1
                a b (pdqsort_attempt less data a b wasBalanced wasPartitioned).2).1
              a
              (partition_func less (pdqsort_attempt less data a b wasBalanced wasPartitioned).1.1
                a b (pdqsort_attempt less data a b wasBalanced wasPartitioned).2).2.1
              (if !wasBalanced then limit - 1 else limit) true true)
            ((partition_func less (pdqsort_attempt less data a b wasBalanced wasPartitioned).1.1
                a b (pdqsort_attempt less data a b wasBalanced wasPartitioned).2).2.1 + 1)
            b (if !wasBalanced then limit - 1 else limit)
            (decide ((partition_func less
              (pdqsort_attempt less data a b wasBalanced wasPartitioned).1.1
              a b (pdqsort_attempt less data a b wasBalanced wasPartitioned).2).2.1 - a
                ≥ (b - a) / 8))
            (partition_func less (pdqsort_attempt less data a b wasBalanced wasPartitioned).1.1
              a b (pdqsort_attempt less data a b wasBalanced wasPartitioned).2).2.2
        else
          pdqsort_func less n
            (pdqsort_func less n
              (partition_func less (pdqsort_attempt less data a b wasBalanced wasPartitioned).1.1
                a b (pdqsort_attempt less data a b wasBalanced wasPartitioned).2).1
              ((partition_func less (pdqsort_attempt less data a b wasBalanced wasPartitioned).1.1
                a b (pdqsort_attempt less data a b wasBalanced wasPartitioned).2).2.1 + 1)
              b (if !wasBalanced then limit - 1 else limit) true true)
            a
            (partition_func less (pdqsort_attempt less data a b wasBalanced wasPartitioned).1.1
              a b (pdqsort_attempt less data a b wasBalanced wasPartitioned).2).2.1
            (if !wasBalanced then limit - 1 else limit)
            (decide (b - (partition_func less
              (pdqsort_attempt less data a b wasBalanced wasPartitioned).1.1
              a b (pdqsort_attempt less data a b wasBalanced wasPartitioned).2).2.1
                ≥ (b - a) / 8))
            (partition_func less (pdqsort_attempt less data a b wasBalanced wasPartitioned).1.1
              a b (pdqsort_attempt less data a b wasBalanced wasPartitioned).2).2.2 :=
  rfl

theorem pdqsort_attempt_perm (less : α → α → Bool) (data : List α) (a b : Nat)
    (wasBalanced wasPartitioned : Bool) :
    (pdqsort_attempt less data a b wasBalanced wasPartitioned).1.1.Perm data := by
  unfold pdqsort_attempt
  dsimp only
  have h1 : (if (!wasBalanced) = true then breakPatterns_func data a b else data).Perm data := by
    split_ifs
    · exact breakPatterns_func_perm _ _ _
    · exact List.Perm.refl _
  generalize (if (!wasBalanced) = true then breakPatterns_func data a b else data) = data1 at h1 ⊢
  generalize choosePivot_func less data1 a b = choice
  have h2 : (if choice.2 = sortedHint.decreasingHint then reverseRange_func data1 a b
      else data1).Perm data := by
    split_ifs
    · exact (reverseRange_func_perm _ _ _).trans h1
    · exact h1
  generalize (if choice.2 = sortedHint.decreasingHint then reverseRange_func data1 a b
      else data1) = data2 at h2 ⊢
  split_ifs
  all_goals first
    | exact (partialInsertionSort_func_perm _ _ _ _).trans h2
    | exact h2

/-- The routine `pdqsort_func` only reorders the slice. -/
theorem pdqsort_func_perm (less : α → α → Bool) (n : Nat) (data : List α) (a b limit : Nat)
    (wasBalanced wasPartitioned : Bool) :
    (pdqsort_func less n data a b limit wasBalanced wasPartitioned).Perm data := by
  induction n generalizing data a b limit wasBalanced wasPartitioned with
  | zero => exact List.Perm.refl _
  | succ n ih =>
    rw [pdqsort_func_succ]
    have hatt := pdqsort_attempt_perm less data a b wasBalanced wasPartitioned
    generalize pdqsort_attempt less data a b wasBalanced wasPartitioned = att at hatt ⊢
    split_ifs
    all_goals first
      | exact insertionSort_func_perm _ _ _ _
      | exact heapSort_func_perm _ _ _ _
      | exact hatt
      | exact (ih _ _ _ _ _ _).trans ((partitionEqual_func_perm _ _ _ _ _).trans hatt)
      | exact (ih _ _ _ _ _ _).trans ((ih _ _ _ _ _ _).trans
          ((partition_func_perm _ _ _ _ _).trans hatt))

end SortPerm

/-! ## The sorting routine sorts

The comparison `less` is measured against a key with values in a linear order:
`less x y` implies `key x ≤ key y`, and its failure implies `key y ≤ key x`.
Under that hypothesis `pdqsort_func` puts the keys in order. -/

section SortKeys

set_option linter.unusedSectionVars false

variable {α K : Type} [LinearOrder K] [Inhabited α]

theorem getD_Swap {data : List α} {i j : Nat} (hi : i < data.length) (hj : j < data.length)
    (k : Nat) (d : α) :
    (Swap data i j).getD k d
      = if k = j then data.getD i d else if k = i then data.getD j d else data.getD k d := by
  simp only [List.getD_eq_getElem?_getD, getElem?_Swap hi hj]
  split_ifs <;> rfl

theorem keyAt_Swap (key : α → K) {data : List α} {i j : Nat} (hi : i < data.length)
    (hj : j < data.length) (k : Nat) :
    keyAt key (Swap data i j) k
      = if k = j then keyAt key data i else if k = i then keyAt key data j
        else keyAt key data k := by
  unfold keyAt
  rw [getD_Swap hi hj]
  split_ifs <;> rfl

theorem getD_mem {data : List α} {i : Nat} (hi : i < data.length) (d : α) :
    data.getD i d ∈ data := by
  rw [List.getD_eq_getElem _ _ hi]
  exact List.getElem_mem _

theorem Less_eq (less : α → α → Bool) {data : List α} {i j : Nat} (hi : i < data.length)
    (hj : j < data.length) :
    Less less data i j = less (data.getD i default) (data.getD j default) := by
  unfold Less
  rw [List.getElem?_eq_getElem hi, List.getElem?_eq_getElem hj, List.getD_eq_getElem _ _ hi,
    List.getD_eq_getElem _ _ hj]

theorem Compat.of_perm {key : α → K} {less : α → α → Bool} {data data' : List α}
    (h : Compat key less data) (hp : data'.Perm data) : Compat key less data' :=
  fun x hx y hy => h x (hp.mem_iff.mp hx) y (hp.mem_iff.mp hy)

theorem Compat.le_of_Less {key : α → K} {less : α → α → Bool} {data : List α}
    (h : Compat key less data) {i j : Nat} (hi : i < data.length) (hj : j < data.length)
    (hl : Less less data i j = true) : keyAt key data i ≤ keyAt key data j := by
  rw [Less_eq less hi hj] at hl
  exact (h _ (getD_mem hi _) _ (getD_mem hj _)).1 hl

theorem Compat.le_of_not_Less {key : α → K} {less : α → α → Bool} {data : List α}
    (h : Compat key less data) {i j : Nat} (hi : i < data.length) (hj : j < data.length)
    (hl : Less less data i j = false) : keyAt key data j ≤ keyAt key data i := by
  rw [Less_eq less hi hj] at hl
  exact (h _ (getD_mem hi _) _ (getD_mem hj _)).2 hl

theorem KFrame.refl (key : α → K) (a b : Nat) (data : List α) : KFrame key a b data data :=
  ⟨List.Perm.refl _, fun _ _ => rfl, fun k h1 h2 => ⟨k, h1, h2, rfl⟩⟩

theorem KFrame.length_eq {key : α → K} {a b : Nat} {data data' : List α}
    (h : KFrame key a b data data') : data'.length = data.length := h.perm.length_eq

theorem KFrame.trans {key : α → K} {a b : Nat} {data data' data'' : List α}
    (h1 : KFrame key a b data data') (h2 : KFrame key a b data' data'') :
    KFrame key a b data data'' := by
  refine ⟨h2.perm.trans h1.perm, fun k hk => (h2.out k hk).trans (h1.out k hk), ?_⟩
  intro k hk1 hk2
  obtain ⟨k', h3, h4, h5⟩ := h2.inn k hk1 hk2
  obtain ⟨k'', h6, h7, h8⟩ := h1.inn k' h3 h4
  exact ⟨k'', h6, h7, h5.trans h8⟩

theorem KFrame.mono {key : α → K} {a b a' b' : Nat} {data data' : List α}
    (h : KFrame key a b data data') (ha : a' ≤ a) (hb : b ≤ b') : KFrame key a' b' data data' := by
  refine ⟨h.perm, fun k hk => h.out k (by omega), ?_⟩
  intro k hk1 hk2
  by_cases hin : a ≤ k ∧ k < b
  · obtain ⟨k', h3, h4, h5⟩ := h.inn k hin.1 hin.2
    exact ⟨k', by omega, by omega, h5⟩
  · exact ⟨k, hk1, hk2, h.out k (by omega)⟩

/-- A swap of two elements of `data[a:b]`. -/
theorem KFrame.of_Swap (key : α → K) {a b : Nat} {data : List α} {i j : Nat}
    (hb : b ≤ data.length) (hi1 : a ≤ i) (hi2 : i < b) (hj1 : a ≤ j) (hj2 : j < b) :
    KFrame key a b data (Swap data i j) := by
  have hi : i < data.length := by omega
  have hj : j < data.length := by omega
  refine ⟨Swap_perm _ _ _, ?_, ?_⟩
  · intro k hk
    rw [keyAt_Swap key hi hj, if_neg (by omega), if_neg (by omega)]
  · intro k hk1 hk2
    rw [keyAt_Swap key hi hj]
    split_ifs
    · exact ⟨i, hi1, hi2, rfl⟩
    · exact ⟨j, hj1, hj2, rfl⟩
    · exact ⟨k, hk1, hk2, rfl⟩

/-- A swap of two elements with the same key, wherever they are. -/
theorem KFrame.of_Swap_eq (key : α → K) (a b : Nat) {data : List α} {i j : Nat}
    (hi : i < data.length) (hj : j < data.length) (h : keyAt key data i = keyAt key data j) :
    KFrame key a b data (Swap data i j) := by
  have hk : ∀ k, keyAt key (Swap data i j) k = keyAt key data k := by
    intro k
    rw [keyAt_Swap key hi hj]
    split_ifs with h1 h2
    · rw [h1, h]
    · rw [h2, h]
    · rfl
  exact ⟨Swap_perm _ _ _, fun k _ => hk k, fun k h1 h2 => ⟨k, h1, h2, hk k⟩⟩

theorem LowerBound.of_KFrame {key : α → K} {a b : Nat} {data data' : List α}
    (h : LowerBound key data a b) (hf : KFrame key a b data data') :
    LowerBound key data' a b := by
  intro u v hu hv1 hv2
  obtain ⟨v', h1, h2, h3⟩ := hf.inn v hv1 hv2
  rw [hf.out u (Or.inl hu), h3]
  exact h u v' hu h1 h2

/-- Keys that are in order step by step are in order. -/
theorem SortedOn.of_adjacent {key : α → K} {data : List α} {a b : Nat}
    (h : ∀ i, a < i → i < b → keyAt key data (i - 1) ≤ keyAt key data i) :
    SortedOn key data a b := by
  intro i j hi hij hj
  induction j with
  | zero => omega
  | succ j ih =>
    rcases Nat.lt_succ_iff_lt_or_eq.mp hij with h1 | h1
    · exact le_trans (ih h1 (by omega)) (by simpa using h (j + 1) (by omega) hj)
    · subst h1
      simpa using h (i + 1) (by omega) hj

theorem scanUp_spec (test : Nat → Bool) (n i : Nat) :
    i ≤ scanUp test n i ∧ scanUp test n i ≤ i + n ∧
    (∀ t, i ≤ t → t < scanUp test n i → test t = true) ∧
    (scanUp test n i < i + n → test (scanUp test n i) = false) := by
  induction n generalizing i with
  | zero => exact ⟨le_refl _, le_refl _, fun t h1 h2 => by simp [scanUp] at h2; omega,
      fun h => by simp [scanUp] at h⟩
  | succ n ih =>
    unfold scanUp
    by_cases ht : test i = true
    · rw [if_pos ht]
      obtain ⟨h1, h2, h3, h4⟩ := ih (i + 1)
      refine ⟨by omega, by omega, ?_, fun h => h4 (by omega)⟩
      intro t ht1 ht2
      rcases Nat.eq_or_lt_of_le ht1 with h | h
      · rw [← h]; exact ht
      · exact h3 t h ht2
    · rw [if_neg ht]
      exact ⟨le_refl _, by omega, fun t h1 h2 => by omega, fun _ => by simpa using ht⟩

theorem scanDown_spec (test : Nat → Bool) (n j : Nat) (hn : n ≤ j) :
    scanDown test n j ≤ j ∧ j ≤ scanDown test n j + n ∧
    (∀ t, scanDown test n j < t → t ≤ j → test t = true) ∧
    (j < scanDown test n j + n → test (scanDown test n j) = false) := by
  induction n generalizing j with
  | zero => exact ⟨le_refl _, le_refl _, fun t h1 h2 => by simp [scanDown] at h1; omega,
      fun h => by simp [scanDown] at h⟩
  | succ n ih =>
    unfold scanDown
    by_cases ht : test j = true
    · rw [if_pos ht]
      obtain ⟨h1, h2, h3, h4⟩ := ih (j - 1) (by omega)
      refine ⟨by omega, by omega, ?_, fun h => h4 (by omega)⟩
      intro t ht1 ht2
      rcases Nat.eq_or_lt_of_le ht2 with h | h
      · rw [h]; exact ht
      · exact h3 t ht1 (by omega)
    · rw [if_neg ht]
      exact ⟨le_refl _, by omega, fun t h1 h2 => by omega, fun _ => by simpa using ht⟩

theorem insertionSortLessFunc_pairwise {less : α → α → Bool} {R : α → α → Prop} {P : α → Prop}
    (h1 : ∀ x y, P x → P y → less x y = true → R x y)
    (h2 : ∀ x y, P x → P y → less x y = false → R y x)
    (h3 : ∀ x y z, P x → P y → P z → R z y → less x y = false → R z x)
    (data : List α) (hd : ∀ y ∈ data, P y) :
    (insertionSortLessFunc less data).Pairwise R := by
  unfold insertionSortLessFunc
  rw [List.pairwise_reverse]
  exact foldl_insertLeft_pairwise h1 h2 h3 data [] hd (by simp) List.Pairwise.nil

theorem getD_splice (data L : List α) (a b : Nat) (hab : a ≤ b) (hb : b ≤ data.length)
    (hL : L.length = b - a) (k : Nat) (d : α) :
    (data.take a ++ L ++ data.drop b).getD k d
      = if k < a then data.getD k d else if k < b then L.getD (k - a) d else data.getD k d := by
  have hta : (data.take a).length = a := by rw [List.length_take]; omega
  simp only [List.getD_eq_getElem?_getD]
  by_cases h1 : k < a
  · rw [if_pos h1, List.append_assoc, List.getElem?_append_left (by omega), List.getElem?_take_of_lt h1]
  · rw [if_neg h1]
    by_cases h2 : k < b
    · rw [if_pos h2, List.getElem?_append_left (by rw [List.length_append]; omega),
        List.getElem?_append_right (by omega), hta]
    · rw [if_neg h2, List.getElem?_append_right (by rw [List.length_append]; omega),
        List.length_append, hta, hL, List.getElem?_drop]
      congr 2
      omega

theorem insertionSort_func_spec {key : α → K} {less : α → α → Bool} {data : List α} {a b : Nat}
    (hc : Compat key less data) (hab : a ≤ b) (hb : b ≤ data.length) :
    KFrame key a b data (insertionSort_func less data a b) ∧
      SortedOn key (insertionSort_func less data a b) a b := by
  have hseg : ∀ x ∈ (data.drop a).take (b - a), x ∈ data :=
    fun x hx => List.mem_of_mem_drop (List.mem_of_mem_take hx)
  have hperm := insertionSortLessFunc_perm less ((data.drop a).take (b - a))
  have hlen : (insertionSortLessFunc less ((data.drop a).take (b - a))).length = b - a := by
    rw [hperm.length_eq, List.length_take, List.length_drop]; omega
  have hpw : (insertionSortLessFunc less ((data.drop a).take (b - a))).Pairwise
      (fun x y => key x ≤ key y) := by
    refine insertionSortLessFunc_pairwise (P := fun x => x ∈ data)
      (fun x y hx hy h => (hc x hx y hy).1 h) (fun x y hx hy h => (hc x hx y hy).2 h)
      (fun x y z hx hy _ hzy h => le_trans hzy ((hc x hx y hy).2 h)) _ hseg
  have heq : insertionSort_func less data a b
      = data.take a ++ insertionSortLessFunc less ((data.drop a).take (b - a)) ++ data.drop b := by
    unfold insertionSort_func
    rw [show a + (b - a) = b by omega]
  have hkey : ∀ k, keyAt key (insertionSort_func less data a b) k
      = if k < a then keyAt key data k else if k < b then
          key ((insertionSortLessFunc less ((data.drop a).take (b - a))).getD (k - a) default)
        else keyAt key data k := by
    intro k
    unfold keyAt
    rw [heq, getD_splice data _ a b hab hb hlen]
    split_ifs <;> rfl
  refine ⟨⟨insertionSort_func_perm less data a b, ?_, ?_⟩, ?_⟩
  · intro k hk
    rw [hkey]
    rcases hk with hk | hk
    · rw [if_pos hk]
    · rw [if_neg (by omega), if_neg (by omega)]
  · intro k hk1 hk2
    rw [hkey, if_neg (by omega), if_pos hk2]
    have hmem : (insertionSortLessFunc less ((data.drop a).take (b - a))).getD (k - a) default
        ∈ (data.drop a).take (b - a) :=
      hperm.mem_iff.mp (getD_mem (by omega) _)
    obtain ⟨n, hn, hx⟩ := List.getElem_of_mem hmem
    have hn' : n < b - a := by
      rw [List.length_take, List.length_drop] at hn; omega
    refine ⟨a + n, by omega, by omega, ?_⟩
    rw [← hx]
    unfold keyAt
    rw [List.getElem_take, List.getElem_drop, List.getD_eq_getElem _ _ (by omega)]
  · intro i j hi hij hj
    rw [hkey, hkey, if_neg (by omega), if_pos (by omega), if_neg (by omega), if_pos hj]
    rw [List.getD_eq_getElem _ _ (by omega), List.getD_eq_getElem _ _ (by omega)]
    exact List.pairwise_iff_getElem.mp hpw _ _ _ _ (by omega)

theorem partition_loop_spec {key : α → K} {less : α → α → Bool} {a b : Nat} :
    ∀ (n : Nat) (data : List α) (i j : Nat), Compat key less data → b ≤ data.length →
      a + 1 ≤ i → j < b → i ≤ j + 1 → j + 1 ≤ i + n →
      (∀ t, a < t → t < i → keyAt key data t ≤ keyAt key data a) →
      (∀ t, j < t → t < b → keyAt key data a ≤ keyAt key data t) →
      KFrame key (a + 1) b data (partition_loop less a n data i j).1 ∧
        a ≤ (partition_loop less a n data i j).2 ∧ (partition_loop less a n data i j).2 < b ∧
        (∀ t, a < t → t ≤ (partition_loop less a n data i j).2 →
          keyAt key (partition_loop less a n data i j).1 t
            ≤ keyAt key (partition_loop less a n data i j).1 a) ∧
        (∀ t, (partition_loop less a n data i j).2 < t → t < b →
          keyAt key (partition_loop less a n data i j).1 a
            ≤ keyAt key (partition_loop less a n data i j).1 t) := by
  intro n
  induction n with
  | zero =>
    intro data i j _ _ hi hj hij hfuel hL hR
    simp only [partition_loop]
    exact ⟨KFrame.refl _ _ _ _, by omega, hj, fun t h1 h2 => hL t h1 (by omega), hR⟩
  | succ n ih =>
    intro data i j hc hb hi hj hij hfuel hL hR
    obtain ⟨u1, u2, u3, u4⟩ := scanUp_spec (fun i => Less less data i a) (j + 1 - i) i
    obtain ⟨d1, d2, d3, d4⟩ := scanDown_spec (fun j => !Less less data j a)
      (j + 1 - scanUp (fun i => Less less data i a) (j + 1 - i) i) j (by omega)
    simp only [partition_loop]
    generalize scanUp (fun i => Less less data i a) (j + 1 - i) i = i' at *
    generalize scanDown (fun j => !Less less data j a) (j + 1 - i') j = j' at *
    have hL' : ∀ t, a < t → t < i' → keyAt key data t ≤ keyAt key data a := by
      intro t h1 h2
      by_cases h : t < i
      · exact hL t h1 h
      · exact hc.le_of_Less (by omega) (by omega) (u3 t (by omega) h2)
    have hR' : ∀ t, j' < t → t < b → keyAt key data a ≤ keyAt key data t := by
      intro t h1 h2
      by_cases h : j < t
      · exact hR t h h2
      · have := d3 t h1 (by omega)
        simp only [Bool.not_eq_true'] at this
        exact hc.le_of_not_Less (by omega) (by omega) this
    by_cases hgt : i' > j'
    · rw [if_pos hgt]
      exact ⟨KFrame.refl _ _ _ _, by omega, by omega, fun t h1 h2 => hL' t h1 (by omega), hR'⟩
    · rw [if_neg hgt]
      have hi'f : Less less data i' a = false := by simpa using u4 (by omega)
      have hj't : Less less data j' a = true := by simpa using d4 (by omega)
      have hne : i' ≠ j' := by
        intro h
        rw [h, hj't] at hi'f
        exact Bool.noConfusion hi'f
      have hki : keyAt key data a ≤ keyAt key data i' :=
        hc.le_of_not_Less (by omega) (by omega) hi'f
      have hkj : keyAt key data j' ≤ keyAt key data a :=
        hc.le_of_Less (by omega) (by omega) hj't
      have hsw : KFrame key (a + 1) b data (Swap data i' j') :=
        KFrame.of_Swap key hb (by omega) (by omega) (by omega) (by omega)
      have hka : keyAt key (Swap data i' j') a = keyAt key data a := hsw.out a (Or.inl (by omega))
      have hk : ∀ t, keyAt key (Swap data i' j') t
          = if t = j' then keyAt key data i' else if t = i' then keyAt key data j'
            else keyAt key data t :=
        fun t => keyAt_Swap key (by omega) (by omega) t
      obtain ⟨r1, r2, r3, r4, r5⟩ := ih (Swap data i' j') (i' + 1) (j' - 1)
        (hc.of_perm hsw.perm) (by rw [hsw.length_eq]; exact hb) (by omega) (by omega) (by omega)
        (by omega)
        (by
          intro t h1 h2
          rw [hka, hk, if_neg (by omega)]
          by_cases h : t = i'
          · rw [if_pos h]; exact hkj
          · rw [if_neg h]; exact hL' t h1 (by omega))
        (by
          intro t h1 h2
          rw [hka, hk]
          by_cases h : t = j'
          · rw [if_pos h]; exact hki
          · rw [if_neg h, if_neg (by omega)]; exact hR' t (by omega) h2)
      exact ⟨hsw.trans r1, r2, r3, r4, r5⟩

theorem partition_func_eq (less : α → α → Bool) (data : List α) (a b pivot : Nat) :
    (partition_func less data a b pivot).1
        = Swap (partition_loop less a (b - a + 1) (Swap data a pivot) (a + 1) (b - 1)).1
            (partition_loop less a (b - a + 1) (Swap data a pivot) (a + 1) (b - 1)).2 a ∧
      (partition_func less data a b pivot).2.1
        = (partition_loop less a (b - a + 1) (Swap data a pivot) (a + 1) (b - 1)).2 := by
  simp only [partition_func, partition_loop]
  split_ifs <;> exact ⟨rfl, rfl⟩

/-- After `partition_func` the pivot is at the returned index, no key before it is
greater and no key after it is smaller. -/
theorem partition_func_spec {key : α → K} {less : α → α → Bool} {data : List α} {a b pivot : Nat}
    (hc : Compat key less data) (hb : b ≤ data.length) (ha : a ≤ pivot) (hp : pivot < b) :
    KFrame key a b data (partition_func less data a b pivot).1 ∧
      a ≤ (partition_func less data a b pivot).2.1 ∧ (partition_func less data a b pivot).2.1 < b ∧
      (∀ t, a ≤ t → t < (partition_func less data a b pivot).2.1 →
        keyAt key (partition_func less data a b pivot).1 t
          ≤ keyAt key (partition_func less data a b pivot).1 (partition_func less data a b pivot).2.1) ∧
      (∀ t, (partition_func less data a b pivot).2.1 < t → t < b →
        keyAt key (partition_func less data a b pivot).1 (partition_func less data a b pivot).2.1
          ≤ keyAt key (partition_func less data a b pivot).1 t) := by
  have hsw : KFrame key a b data (Swap data a pivot) :=
    KFrame.of_Swap key hb (le_refl _) (by omega) ha hp
  obtain ⟨r1, r2, r3, r4, r5⟩ := @partition_loop_spec _ _ _ _ key less a b
    (b - a + 1) (Swap data a pivot) (a + 1) (b - 1) (hc.of_perm hsw.perm)
    (by rw [hsw.length_eq]; exact hb) (le_refl _) (by omega) (by omega) (by omega)
    (fun t h1 h2 => by omega) (fun t h1 h2 => by omega)
  obtain ⟨e1, e2⟩ := partition_func_eq less data a b pivot
  rw [e1, e2]
  generalize partition_loop less a (b - a + 1) (Swap data a pivot) (a + 1) (b - 1) = r at *
  have hlen : r.1.length = data.length := by rw [r1.length_eq, hsw.length_eq]
  have hk : ∀ t, keyAt key (Swap r.1 r.2 a) t
      = if t = a then keyAt key r.1 r.2 else if t = r.2 then keyAt key r.1 a
        else keyAt key r.1 t :=
    fun t => keyAt_Swap key (by omega) (by omega) t
  refine ⟨(hsw.trans (r1.mono (by omega) (le_refl _))).trans
    (KFrame.of_Swap key (by omega) r2 r3 (le_refl _) (by omega)), r2, r3, ?_, ?_⟩
  · intro t h1 h2
    rw [hk t, hk r.2]
    by_cases h : t = a
    · rw [if_pos h]
      by_cases h' : r.2 = a
      · rw [if_pos h', h']
      · rw [if_neg h', if_pos rfl]
        exact r4 r.2 (by omega) (le_refl _)
    · rw [if_neg h, if_neg (by omega)]
      by_cases h' : r.2 = a
      · omega
      · rw [if_neg h', if_pos rfl]
        exact r4 t (by omega) (by omega)
  · intro t h1 h2
    rw [hk t, hk r.2, if_neg (show ¬ t = a by omega), if_neg (show ¬ t = r.2 by omega)]
    by_cases h' : r.2 = a
    · rw [if_pos h', h']
      exact r5 t (by omega) h2
    · rw [if_neg h', if_pos rfl]
      exact r5 t h1 h2

theorem partitionEqual_loop_spec {key : α → K} {less : α → α → Bool} {a b : Nat} :
    ∀ (n : Nat) (data : List α) (i j : Nat), Compat key less data → b ≤ data.length →
      a + 1 ≤ i → j < b → i ≤ j + 1 → j + 1 ≤ i + n →
      (∀ t, a < t → t < i → keyAt key data t ≤ keyAt key data a) →
      KFrame key (a + 1) b data (partitionEqual_loop less a n data i j).1 ∧
        a < (partitionEqual_loop less a n data i j).2 ∧
        (partitionEqual_loop less a n data i j).2 ≤ b ∧
        (∀ t, a < t → t < (partitionEqual_loop less a n data i j).2 →
          keyAt key (partitionEqual_loop less a n data i j).1 t
            ≤ keyAt key (partitionEqual_loop less a n data i j).1 a) := by
  intro n
  induction n with
  | zero =>
    intro data i j _ _ hi hj hij hfuel hL
    simp only [partitionEqual_loop]
    exact ⟨KFrame.refl _ _ _ _, by omega, by omega, hL⟩
  | succ n ih =>
    intro data i j hc hb hi hj hij hfuel hL
    obtain ⟨u1, u2, u3, u4⟩ := scanUp_spec (fun i => !Less less data a i) (j + 1 - i) i
    obtain ⟨d1, d2, d3, d4⟩ := scanDown_spec (fun j => Less less data a j)
      (j + 1 - scanUp (fun i => !Less less data a i) (j + 1 - i) i) j (by omega)
    simp only [partitionEqual_loop]
    generalize scanUp (fun i => !Less less data a i) (j + 1 - i) i = i' at *
    generalize scanDown (fun j => Less less data a j) (j + 1 - i') j = j' at *
    have hL' : ∀ t, a < t → t < i' → keyAt key data t ≤ keyAt key data a := by
      intro t h1 h2
      by_cases h : t < i
      · exact hL t h1 h
      · have := u3 t (by omega) h2
        simp only [Bool.not_eq_true'] at this
        exact hc.le_of_not_Less (by omega) (by omega) this
    by_cases hgt : i' > j'
    · rw [if_pos hgt]
      exact ⟨KFrame.refl _ _ _ _, by omega, by omega, hL'⟩
    · rw [if_neg hgt]
      have hi't : Less less data a i' = true := by simpa using u4 (by omega)
      have hj'f : Less less data a j' = false := by simpa using d4 (by omega)
      have hne : i' ≠ j' := by
        intro h
        rw [h, hj'f] at hi't
        exact Bool.noConfusion hi't
      have hkj : keyAt key data j' ≤ keyAt key data a :=
        hc.le_of_not_Less (by omega) (by omega) hj'f
      have hsw : KFrame key (a + 1) b data (Swap data i' j') :=
        KFrame.of_Swap key hb (by omega) (by omega) (by omega) (by omega)
      have hka : keyAt key (Swap data i' j') a = keyAt key data a := hsw.out a (Or.inl (by omega))
      have hk : ∀ t, keyAt key (Swap data i' j') t
          = if t = j' then keyAt key data i' else if t = i' then keyAt key data j'
            else keyAt key data t :=
        fun t => keyAt_Swap key (by omega) (by omega) t
      obtain ⟨r1, r2, r3, r4⟩ := ih (Swap data i' j') (i' + 1) (j' - 1)
        (hc.of_perm hsw.perm) (by rw [hsw.length_eq]; exact hb) (by omega) (by omega) (by omega)
        (by omega)
        (by
          intro t h1 h2
          rw [hka, hk, if_neg (by omega)]
          by_cases h : t = i'
          · rw [if_pos h]; exact hkj
          · rw [if_neg h]; exact hL' t h1 (by omega))
      exact ⟨hsw.trans r1, r2, r3, r4⟩

/-- When no key of `data[a:b]` is smaller than the pivot's, `partitionEqual_func`
returns an index after `a` below which every key of the range is smallest. -/
theorem partitionEqual_func_spec {key : α → K} {less : α → α → Bool} {data : List α}
    {a b pivot : Nat} (hc : Compat key less data) (hb : b ≤ data.length) (ha : a ≤ pivot)
    (hp : pivot < b)
    (hmin : ∀ t, a ≤ t → t < b → keyAt key data pivot ≤ keyAt key data t) :
    KFrame key a b data (partitionEqual_func less data a b pivot).1 ∧
      a < (partitionEqual_func less data a b pivot).2 ∧
      (partitionEqual_func less data a b pivot).2 ≤ b ∧
      (∀ t v, a ≤ t → t < (partitionEqual_func less data a b pivot).2 → a ≤ v → v < b →
        keyAt key (partitionEqual_func less data a b pivot).1 t
          ≤ keyAt key (partitionEqual_func less data a b pivot).1 v) := by
  have hsw : KFrame key a b data (Swap data a pivot) :=
    KFrame.of_Swap key hb (le_refl _) (by omega) ha hp
  have hka : keyAt key (Swap data a pivot) a = keyAt key data pivot := by
    rw [keyAt_Swap key (by omega) (by omega)]
    by_cases h : a = pivot
    · rw [if_pos h, h]
    · rw [if_neg h, if_pos rfl]
  obtain ⟨r1, r2, r3, r4⟩ := @partitionEqual_loop_spec _ _ _ _ key less a
    b (b - a) (Swap data a pivot) (a + 1) (b - 1) (hc.of_perm hsw.perm)
    (by rw [hsw.length_eq]; exact hb) (le_refl _) (by omega) (by omega) (by omega)
    (fun t h1 h2 => by omega)
  unfold partitionEqual_func
  generalize partitionEqual_loop less a (b - a) (Swap data a pivot) (a + 1) (b - 1) = r at *
  have hfr : KFrame key a b data r.1 := hsw.trans (r1.mono (by omega) (le_refl _))
  have hra : keyAt key r.1 a = keyAt key data pivot := by
    rw [r1.out a (Or.inl (by omega)), hka]
  have hge : ∀ v, a ≤ v → v < b → keyAt key data pivot ≤ keyAt key r.1 v := by
    intro v h1 h2
    obtain ⟨k', h3, h4, h5⟩ := hfr.inn v h1 h2
    rw [h5]
    exact hmin k' h3 h4
  refine ⟨hfr, r2, r3, ?_⟩
  intro t v h1 h2 h3 h4
  refine le_trans ?_ (hge v h3 h4)
  by_cases h : t = a
  · rw [h, hra]
  · rw [← hra]
    exact r4 t (by omega) h2

theorem KFrame.of_keys_eq {key : α → K} (a b : Nat) {data data' : List α}
    (hp : data'.Perm data) (h : ∀ k, keyAt key data' k = keyAt key data k) :
    KFrame key a b data data' :=
  ⟨hp, fun k _ => h k, fun k h1 h2 => ⟨k, h1, h2, h k⟩⟩

theorem SortedOn.subrange {key : α → K} {data : List α} {a b a' b' : Nat}
    (h : SortedOn key data a b) (ha : a ≤ a') (hb : b' ≤ b) : SortedOn key data a' b' :=
  fun i j hi hij hj => h i j (by omega) hij (by omega)

theorem SortedOn.adjacent {key : α → K} {data : List α} {a b : Nat}
    (h : SortedOn key data a b) (t : Nat) (h1 : a < t) (h2 : t < b) :
    keyAt key data (t - 1) ≤ keyAt key data t :=
  h (t - 1) t (by omega) (by omega) h2

theorem SortedOn.of_frame {key : α → K} {data data' : List α} {a b a' b' : Nat}
    (h : SortedOn key data a b) (hf : KFrame key a' b' data data') (hd : b ≤ a' ∨ b' ≤ a) :
    SortedOn key data' a b := by
  intro i j hi hij hj
  rw [hf.out i (by omega), hf.out j (by omega)]
  exact h i j hi hij hj

theorem shiftGreater_spec {key : α → K} {less : α → α → Bool} {i b : Nat} :
    ∀ (n : Nat) (data : List α) (j : Nat), i + 1 ≤ j → j + n ≤ b → b ≤ data.length →
      KFrame key i b data (shiftGreater less n data j) := by
  intro n
  induction n with
  | zero => intro data j _ _ _; exact KFrame.refl _ _ _ _
  | succ n ih =>
    intro data j hj hn hb
    unfold shiftGreater
    split_ifs
    · exact KFrame.refl _ _ _ _
    · have hsw : KFrame key i b data (Swap data j (j - 1)) :=
        KFrame.of_Swap key hb (by omega) (by omega) (by omega) (by omega)
      exact hsw.trans (ih _ (j + 1) (by omega) (by omega) (by rw [hsw.length_eq]; exact hb))

/-- Below the start of the range the loop `for j := i - 1; j >= 1; j--` only
exchanges elements with the same key. -/
theorem shiftSmaller_neutral {key : α → K} {less : α → α → Bool} {a b : Nat} (hab : a < b) :
    ∀ (j : Nat) (data : List α), j ≤ a → b ≤ data.length → Compat key less data →
      LowerBound key data a b → keyAt key data j = keyAt key data a →
      (shiftSmaller less j data).Perm data ∧
        ∀ k, keyAt key (shiftSmaller less j data) k = keyAt key data k := by
  intro j
  induction j with
  | zero => intro data _ _ _ _ _; exact ⟨List.Perm.refl _, fun _ => rfl⟩
  | succ j ih =>
    intro data hj hb hc hlb hk
    unfold shiftSmaller
    split_ifs with h
    · exact ⟨List.Perm.refl _, fun _ => rfl⟩
    · have hl : Less less data (j + 1) j = true := by simpa using h
      have h1 : keyAt key data (j + 1) ≤ keyAt key data j :=
        hc.le_of_Less (by omega) (by omega) hl
      have h2 : keyAt key data j ≤ keyAt key data (j + 1) := by
        rw [hk]; exact hlb j a (by omega) (le_refl _) hab
      have heq : keyAt key data (j + 1) = keyAt key data j := le_antisymm h1 h2
      have hsw := KFrame.of_Swap_eq key a b (show j + 1 < data.length by omega)
        (show j < data.length by omega) heq
      have hkeys : ∀ k, keyAt key (Swap data (j + 1) j) k = keyAt key data k := by
        intro k
        by_cases hk' : a ≤ k ∧ k < b
        · rw [keyAt_Swap key (by omega) (by omega)]
          split_ifs with e1 e2
          · rw [e1, heq]
          · rw [e2, heq]
          · rfl
        · exact hsw.out k (by omega)
      obtain ⟨p, q⟩ := ih (Swap data (j + 1) j) (by omega) (by rw [hsw.length_eq]; exact hb)
        (hc.of_perm hsw.perm) (fun u v hu hv1 hv2 => by rw [hkeys, hkeys]; exact hlb u v hu hv1 hv2)
        (by rw [hkeys, hkeys, ← heq, hk])
      exact ⟨p.trans hsw.perm, fun k => (q k).trans (hkeys k)⟩

theorem shiftSmaller_spec {key : α → K} {less : α → α → Bool} {a b m : Nat} (hab : a < b) :
    ∀ (j : Nat) (data : List α), Compat key less data → b ≤ data.length → a ≤ j → j < m → m ≤ b →
      LowerBound key data a b → SortedOn key data a j → SortedOn key data j m →
      (∀ u v, a ≤ u → u < j → j < v → v < m → keyAt key data u ≤ keyAt key data v) →
      KFrame key a b data (shiftSmaller less j data) ∧
        SortedOn key (shiftSmaller less j data) a m := by
  intro j
  induction j with
  | zero =>
    intro data hc hb ha hm hmb hlb _ h2 _
    have : a = 0 := by omega
    subst this
    simp only [shiftSmaller]
    exact ⟨KFrame.refl _ _ _ _, h2⟩
  | succ j ih =>
    intro data hc hb ha hm hmb hlb h1 h2 hx
    by_cases hja : j + 1 = a
    · obtain ⟨p, q⟩ := @shiftSmaller_neutral _ _ _ _ key less a b hab (j + 1) data (by omega)
        hb hc hlb (by rw [hja])
      refine ⟨KFrame.of_keys_eq a b p q, ?_⟩
      intro u v hu huv hv
      rw [q, q]
      exact h2 u v (by omega) huv hv
    · unfold shiftSmaller
      split_ifs with h
      · refine ⟨KFrame.refl _ _ _ _, SortedOn.of_adjacent ?_⟩
        intro t ht1 ht2
        have hl : Less less data (j + 1) j = false := by simpa using h
        by_cases e1 : t < j + 1
        · exact h1.adjacent t ht1 e1
        · by_cases e2 : t = j + 1
          · rw [e2]
            exact hc.le_of_not_Less (by omega) (by omega) hl
          · exact h2.adjacent t (by omega) ht2
      · have hl : Less less data (j + 1) j = true := by simpa using h
        have hle : keyAt key data (j + 1) ≤ keyAt key data j :=
          hc.le_of_Less (by omega) (by omega) hl
        have hsw : KFrame key a b data (Swap data (j + 1) j) :=
          KFrame.of_Swap key hb (by omega) (by omega) (by omega) (by omega)
        have hk : ∀ t, keyAt key (Swap data (j + 1) j) t
            = if t = j then keyAt key data (j + 1) else if t = j + 1 then keyAt key data j
              else keyAt key data t :=
          fun t => keyAt_Swap key (by omega) (by omega) t
        obtain ⟨p, q⟩ := ih (Swap data (j + 1) j) (hc.of_perm hsw.perm)
          (by rw [hsw.length_eq]; exact hb) (by omega) (by omega) hmb (hlb.of_KFrame hsw)
          (by
            intro u v hu huv hv
            rw [hk, hk, if_neg (by omega), if_neg (by omega), if_neg (by omega), if_neg (by omega)]
            exact h1 u v hu huv (by omega))
          (by
            refine SortedOn.of_adjacent ?_
            intro t ht1 ht2
            by_cases e1 : t = j + 1
            · subst e1
              rw [show j + 1 - 1 = j by omega, hk j, hk (j + 1), if_pos rfl, if_neg (by omega),
                if_pos rfl]
              exact hle
            · by_cases e2 : t = j + 2
              · subst e2
                rw [show j + 2 - 1 = j + 1 by omega, hk (j + 1), hk (j + 2), if_neg (by omega),
                  if_pos rfl, if_neg (by omega), if_neg (by omega)]
                exact hx j (j + 2) (by omega) (by omega) (by omega) ht2
              · rw [hk (t - 1), hk t, if_neg (by omega), if_neg (by omega), if_neg (by omega),
                  if_neg (by omega)]
                exact h2.adjacent t (by omega) ht2)
          (by
            intro u v hu huj hjv hv
            rw [hk, hk, if_neg (by omega), if_neg (by omega), if_neg (by omega)]
            by_cases e1 : v = j + 1
            · rw [if_pos e1]
              exact h1 u j hu huj (by omega)
            · rw [if_neg e1]
              exact hx u v hu (by omega) (by omega) hv)
        exact ⟨hsw.trans p, q⟩

theorem partialInsertionSort_loop_spec {key : α → K} {less : α → α → Bool} {a b : Nat}
    (hab : a < b) :
    ∀ (steps : Nat) (data : List α) (i : Nat), Compat key less data → b ≤ data.length →
      a + 1 ≤ i → i ≤ b → LowerBound key data a b → SortedOn key data a i →
      KFrame key a b data (partialInsertionSort_loop less a b steps data i).1 ∧
        ((partialInsertionSort_loop less a b steps data i).2 = true →
          SortedOn key (partialInsertionSort_loop less a b steps data i).1 a b) := by
  intro steps
  induction steps with
  | zero =>
    intro data i _ _ _ _ _ _
    exact ⟨KFrame.refl _ _ _ _, fun h => Bool.noConfusion h⟩
  | succ steps ih =>
    intro data i hc hb hi hib hlb hs
    obtain ⟨u1, u2, u3, u4⟩ := scanUp_spec (fun i => !Less less data i (i - 1)) (b - i) i
    simp only [partialInsertionSort_loop]
    generalize scanUp (fun i => !Less less data i (i - 1)) (b - i) i = i' at *
    have hs' : SortedOn key data a i' := by
      refine SortedOn.of_adjacent ?_
      intro t ht1 ht2
      by_cases e : t < i
      · exact hs.adjacent t ht1 e
      · have := u3 t (by omega) ht2
        simp only [Bool.not_eq_true'] at this
        exact hc.le_of_not_Less (by omega) (by omega) this
    by_cases e1 : i' = b
    · rw [if_pos e1]
      exact ⟨KFrame.refl _ _ _ _, fun _ => e1 ▸ hs'⟩
    · rw [if_neg e1]
      by_cases e2 : b - a < 50
      · rw [if_pos e2]
        exact ⟨KFrame.refl _ _ _ _, fun h => Bool.noConfusion h⟩
      · rw [if_neg e2]
        have hl : Less less data i' (i' - 1) = true := by simpa using u4 (by omega)
        have hle : keyAt key data i' ≤ keyAt key data (i' - 1) :=
          hc.le_of_Less (by omega) (by omega) hl
        have hsw : KFrame key a b data (Swap data i' (i' - 1)) :=
          KFrame.of_Swap key hb (by omega) (by omega) (by omega) (by omega)
        have hk : ∀ t, keyAt key (Swap data i' (i' - 1)) t
            = if t = i' - 1 then keyAt key data i' else if t = i' then keyAt key data (i' - 1)
              else keyAt key data t :=
          fun t => keyAt_Swap key (by omega) (by omega) t
        have hlen1 : b ≤ (Swap data i' (i' - 1)).length := by rw [hsw.length_eq]; exact hb
        have h2 : KFrame key a b (Swap data i' (i' - 1))
              (if i' - a ≥ 2 then shiftSmaller less (i' - 1) (Swap data i' (i' - 1))
                else Swap data i' (i' - 1)) ∧
            SortedOn key (if i' - a ≥ 2 then shiftSmaller less (i' - 1) (Swap data i' (i' - 1))
                else Swap data i' (i' - 1)) a i' := by
          by_cases e3 : i' - a ≥ 2
          · rw [if_pos e3]
            refine shiftSmaller_spec hab (i' - 1) _ (hc.of_perm hsw.perm) hlen1 (by omega)
              (by omega) (by omega) (hlb.of_KFrame hsw) ?_ ?_ ?_
            · intro u v hu huv hv
              rw [hk, hk, if_neg (by omega), if_neg (by omega), if_neg (by omega),
                if_neg (by omega)]
              exact hs' u v hu huv (by omega)
            · intro u v hu huv hv
              omega
            · intro u v _ _ h3 h4
              omega
          · rw [if_neg e3]
            refine ⟨KFrame.refl _ _ _ _, ?_⟩
            intro u v hu huv hv
            omega
        generalize (if i' - a ≥ 2 then shiftSmaller less (i' - 1) (Swap data i' (i' - 1))
                else Swap data i' (i' - 1)) = data2 at h2 ⊢
        obtain ⟨f2, s2⟩ := h2
        have hlen2 : b ≤ data2.length := by rw [f2.length_eq]; exact hlen1
        have h3 : KFrame key i' b data2
            (if b - i' ≥ 2 then shiftGreater less (b - (i' + 1)) data2 (i' + 1) else data2) := by
          by_cases e4 : b - i' ≥ 2
          · rw [if_pos e4]
            exact shiftGreater_spec _ _ _ (le_refl _) (by omega) hlen2
          · rw [if_neg e4]
            exact KFrame.refl _ _ _ _
        generalize (if b - i' ≥ 2 then shiftGreater less (b - (i' + 1)) data2 (i' + 1) else data2)
          = data3 at h3 ⊢
        have f3 : KFrame key a b data data3 :=
          (hsw.trans f2).trans (h3.mono (by omega) (le_refl _))
        obtain ⟨p, q⟩ := ih data3 i' (hc.of_perm f3.perm) (by rw [f3.length_eq]; exact hb)
          (by omega) (by omega) (hlb.of_KFrame f3) (s2.of_frame h3 (Or.inl (le_refl _)))
        exact ⟨f3.trans p, q⟩

/-- When `partialInsertionSort_func` reports success, `data[a:b]` is in order. -/
theorem partialInsertionSort_func_spec {key : α → K} {less : α → α → Bool} {data : List α}
    {a b : Nat} (hab : a < b) (hc : Compat key less data) (hb : b ≤ data.length)
    (hlb : LowerBound key data a b) :
    KFrame key a b data (partialInsertionSort_func less data a b).1 ∧
      ((partialInsertionSort_func less data a b).2 = true →
        SortedOn key (partialInsertionSort_func less data a b).1 a b) :=
  partialInsertionSort_loop_spec hab 5 data (a + 1) hc hb (le_refl _) (by omega) hlb
    (fun u v hu huv hv => by omega)

theorem HeapFrom.of_except {key : α → K} {data : List α} {first lo hi root : Nat}
    (h : HeapExcept key data first lo hi root)
    (hr : ∀ c, c < hi → c = 2 * root + 1 ∨ c = 2 * root + 2 →
      keyAt key data (first + c) ≤ keyAt key data (first + root)) :
    HeapFrom key data first lo hi := by
  intro i c hi1 hc hch
  by_cases e : i = root
  · subst e; exact hr c hc hch
  · exact h.1 i c hi1 e hc hch

theorem siftDown_func_spec {key : α → K} {less : α → α → Bool} {first lo hi : Nat} :
    ∀ (n : Nat) (data : List α) (root : Nat), Compat key less data → first + hi ≤ data.length →
      lo ≤ root → hi ≤ root + n → HeapExcept key data first lo hi root →
      KFrame key first (first + hi) data (siftDown_func less hi first n data root) ∧
        HeapFrom key (siftDown_func less hi first n data root) first lo hi := by
  intro n
  induction n with
  | zero =>
    intro data root _ _ _ hfuel hex
    simp only [siftDown_func]
    exact ⟨KFrame.refl _ _ _ _, HeapFrom.of_except hex (fun c h1 h2 => by omega)⟩
  | succ n ih =>
    intro data root hc hlen hlo hfuel hex
    unfold siftDown_func
    by_cases h0 : 2 * root + 1 ≥ hi
    · rw [if_pos h0]
      exact ⟨KFrame.refl _ _ _ _, HeapFrom.of_except hex (fun c h1 h2 => by omega)⟩
    · rw [if_neg h0]
      dsimp only
      have hchild : ∃ child, (if 2 * root + 1 + 1 < hi ∧
            Less less data (first + (2 * root + 1)) (first + (2 * root + 1) + 1) = true
          then 2 * root + 1 + 1 else 2 * root + 1) = child ∧
          (child = 2 * root + 1 ∨ child = 2 * root + 2) ∧ child < hi ∧
          ∀ c, c < hi → c = 2 * root + 1 ∨ c = 2 * root + 2 →
            keyAt key data (first + c) ≤ keyAt key data (first + child) := by
        by_cases h1 : 2 * root + 1 + 1 < hi ∧
            Less less data (first + (2 * root + 1)) (first + (2 * root + 1) + 1) = true
        · refine ⟨2 * root + 1 + 1, if_pos h1, Or.inr rfl, h1.1, ?_⟩
          intro c hc1 hc2
          rcases hc2 with e | e
          · subst e
            exact hc.le_of_Less (by omega) (by omega) h1.2
          · subst e
            exact le_refl _
        · refine ⟨2 * root + 1, if_neg h1, Or.inl rfl, by omega, ?_⟩
          intro c hc1 hc2
          rcases hc2 with e | e
          · subst e
            exact le_refl _
          · subst e
            have h2 : Less less data (first + (2 * root + 1)) (first + (2 * root + 1) + 1)
                = false := by
              cases hL : Less less data (first + (2 * root + 1)) (first + (2 * root + 1) + 1)
              · rfl
              · exact absurd ⟨by omega, hL⟩ h1
            exact hc.le_of_not_Less (by omega) (by omega) h2
      obtain ⟨child, hce, hcc, hclt, hcmax⟩ := hchild
      rw [hce]
      by_cases h3 : (!Less less data (first + root) (first + child)) = true
      · rw [if_pos h3]
        have h4 : Less less data (first + root) (first + child) = false := by simpa using h3
        have h5 : keyAt key data (first + child) ≤ keyAt key data (first + root) :=
          hc.le_of_not_Less (by omega) (by omega) h4
        exact ⟨KFrame.refl _ _ _ _,
          HeapFrom.of_except hex (fun c h1 h2 => le_trans (hcmax c h1 h2) h5)⟩
      · rw [if_neg h3]
        have h4 : Less less data (first + root) (first + child) = true := by simpa using h3
        have h5 : keyAt key data (first + root) ≤ keyAt key data (first + child) :=
          hc.le_of_Less (by omega) (by omega) h4
        have hsw : KFrame key first (first + hi) data
            (Swap data (first + root) (first + child)) :=
          KFrame.of_Swap key hlen (by omega) (by omega) (by omega) (by omega)
        have hk : ∀ t, keyAt key (Swap data (first + root) (first + child)) (first + t)
            = if t = child then keyAt key data (first + root)
              else if t = root then keyAt key data (first + child)
              else keyAt key data (first + t) := by
          intro t
          rw [keyAt_Swap key (by omega) (by omega)]
          by_cases e1 : t = child
          · rw [if_pos (by omega), if_pos e1]
          · rw [if_neg (by omega), if_neg e1]
            by_cases e2 : t = root
            · rw [if_pos (by omega), if_pos e2]
            · rw [if_neg (by omega), if_neg e2]
        obtain ⟨p, q⟩ := ih (Swap data (first + root) (first + child)) child
          (hc.of_perm hsw.perm) (by rw [hsw.length_eq]; exact hlen) (by omega) (by omega)
          (by
            refine ⟨?_, ?_⟩
            · intro i c hi1 hi2 hc1 hc2
              rw [hk c, hk i, if_neg hi2]
              by_cases e1 : i = root
              · rw [if_pos e1]
                by_cases e2 : c = child
                · rw [if_pos e2]; exact h5
                · rw [if_neg e2, if_neg (by omega)]
                  exact hcmax c hc1 (by omega)
              · rw [if_neg e1, if_neg (by omega)]
                by_cases e2 : c = root
                · rw [if_pos e2]
                  exact hex.2 i child hi1 (by omega) hclt hcc
                · rw [if_neg e2]
                  exact hex.1 i c hi1 e1 hc1 hc2
            · intro p c hp1 hp2 hc1 hc2
              have hpr : p = root := by omega
              subst hpr
              rw [hk c, hk p, if_neg (by omega), if_neg (by omega), if_neg (by omega), if_pos rfl]
              exact hex.1 child c (by omega) (by omega) hc1 hc2)
        exact ⟨hsw.trans p, q⟩

/-- In a heap no key is greater than the root's. -/
theorem HeapFrom.le_root {key : α → K} {data : List α} {first hi : Nat}
    (h : HeapFrom key data first 0 hi) :
    ∀ t, t < hi → keyAt key data (first + t) ≤ keyAt key data first := by
  intro t
  induction t using Nat.strong_induction_on with
  | _ t ih =>
    intro ht
    rcases Nat.eq_zero_or_pos t with e | e
    · subst e; exact le_refl _
    · have h1 := h ((t - 1) / 2) t (Nat.zero_le _) ht (by omega)
      exact le_trans h1 (ih ((t - 1) / 2) (by omega) (by omega))

theorem reverse_range_succ (k : Nat) : (List.range (k + 1)).reverse = k :: (List.range k).reverse := by
  rw [List.range_succ, List.reverse_append]
  rfl

theorem heapSort_build_spec {key : α → K} {less : α → α → Bool} {first hi : Nat} :
    ∀ (k : Nat) (data : List α), Compat key less data → first + hi ≤ data.length →
      HeapFrom key data first (k + 1) hi →
      KFrame key first (first + hi) data
          ((List.range (k + 1)).reverse.foldl
            (fun data i => siftDown_func less hi first hi data i) data) ∧
        HeapFrom key
          ((List.range (k + 1)).reverse.foldl
            (fun data i => siftDown_func less hi first hi data i) data) first 0 hi := by
  intro k
  induction k with
  | zero =>
    intro data hc hlen hh
    rw [reverse_range_succ 0]
    simp only [List.range_zero, List.reverse_nil, List.foldl_cons, List.foldl_nil]
    refine siftDown_func_spec hi data 0 hc hlen (le_refl _) (by omega) ⟨?_, ?_⟩
    · intro i c hi1 hi2 hc1 hc2
      exact hh i c (by omega) hc1 hc2
    · intro p c hp1 hp2
      omega
  | succ k ih =>
    intro data hc hlen hh
    rw [reverse_range_succ (k + 1), List.foldl_cons]
    obtain ⟨p, q⟩ := @siftDown_func_spec _ _ _ _ key less first
      (k + 1) hi hi data (k + 1) hc hlen (le_refl _) (by omega)
      ⟨fun i c hi1 hi2 hc1 hc2 => hh i c (by omega) hc1 hc2, fun p c hp1 hp2 => by omega⟩
    obtain ⟨p', q'⟩ := ih (siftDown_func less hi first hi data (k + 1)) (hc.of_perm p.perm)
      (by rw [p.length_eq]; exact hlen) q
    exact ⟨p.trans p', q'⟩

theorem heapSort_pop_spec {key : α → K} {less : α → α → Bool} {first hi : Nat} :
    ∀ (k : Nat) (data : List α), Compat key less data → first + hi ≤ data.length → k ≤ hi →
      HeapFrom key data first 0 k → SortedOn key data (first + k) (first + hi) →
      (∀ u v, first ≤ u → u < first + k → first + k ≤ v → v < first + hi →
        keyAt key data u ≤ keyAt key data v) →
      KFrame key first (first + hi) data
          ((List.range k).reverse.foldl
            (fun data i => siftDown_func less i first i (Swap data first (first + i)) 0) data) ∧
        SortedOn key
          ((List.range k).reverse.foldl
            (fun data i => siftDown_func less i first i (Swap data first (first + i)) 0) data)
          first (first + hi) := by
  intro k
  induction k with
  | zero =>
    intro data _ _ _ _ hs _
    exact ⟨KFrame.refl _ _ _ _, hs⟩
  | succ k ih =>
    intro data hc hlen hk hh hs hx
    rw [reverse_range_succ k, List.foldl_cons]
    have hsw : KFrame key first (first + (k + 1)) data (Swap data first (first + k)) :=
      KFrame.of_Swap key (by omega) (le_refl _) (by omega) (by omega) (by omega)
    have hks : ∀ t, keyAt key (Swap data first (first + k)) t
        = if t = first + k then keyAt key data first
          else if t = first then keyAt key data (first + k) else keyAt key data t :=
      fun t => keyAt_Swap key (by omega) (by omega) t
    have hlen1 : first + hi ≤ (Swap data first (first + k)).length := by
      rw [hsw.length_eq]; exact hlen
    obtain ⟨p, q⟩ := @siftDown_func_spec _ _ _ _ key less first 0
      k k (Swap data first (first + k)) 0 (hc.of_perm hsw.perm) (by omega) (le_refl _)
      (by omega)
      ⟨fun i c hi1 hi2 hc1 hc2 => by
          rw [hks, hks, if_neg (by omega), if_neg (by omega), if_neg (by omega), if_neg (by omega)]
          exact hh i c hi1 (by omega) hc2,
        fun p c hp1 hp2 => by omega⟩
    generalize siftDown_func less k first k (Swap data first (first + k)) 0 = data2 at p q ⊢
    have hroot := hh.le_root
    have hf2 : KFrame key first (first + hi) data data2 :=
      (hsw.mono (le_refl _) (by omega)).trans (p.mono (le_refl _) (by omega))
    have hout : ∀ v, first + k ≤ v → keyAt key data2 v
        = if v = first + k then keyAt key data first else keyAt key data v := by
      intro v hv
      rw [p.out v (Or.inr hv), hks]
      by_cases e : v = first + k
      · rw [if_pos e, if_pos e]
      · rw [if_neg e, if_neg (by omega), if_neg e]
    have hin : ∀ u, first ≤ u → u < first + k →
        ∃ u', first ≤ u' ∧ u' < first + (k + 1) ∧ keyAt key data2 u = keyAt key data u' := by
      intro u hu1 hu2
      obtain ⟨k', h1, h2, h3⟩ := p.inn u hu1 hu2
      obtain ⟨k'', h4, h5, h6⟩ := hsw.inn k' h1 (by omega)
      exact ⟨k'', h4, h5, h3.trans h6⟩
    obtain ⟨p', q'⟩ := ih data2 (hc.of_perm hf2.perm) (by rw [hf2.length_eq]; exact hlen)
      (by omega) q
      (by
        refine SortedOn.of_adjacent ?_
        intro t ht1 ht2
        rw [hout (t - 1) (by omega), hout t (by omega), if_neg (show ¬ t = first + k by omega)]
        by_cases e : t - 1 = first + k
        · rw [if_pos e]
          exact hx first t (le_refl _) (by omega) (by omega) ht2
        · rw [if_neg e]
          exact hs.adjacent t (by omega) ht2)
      (by
        intro u v hu1 hu2 hv1 hv2
        obtain ⟨u', h1, h2, h3⟩ := hin u hu1 hu2
        rw [h3, hout v hv1]
        by_cases e : v = first + k
        · rw [if_pos e]
          have := hroot (u' - first) (by omega)
          rwa [show first + (u' - first) = u' by omega] at this
        · rw [if_neg e]
          exact hx u' v h1 h2 (by omega) hv2)
    exact ⟨hf2.trans p', q'⟩

/-- The function `heapSort_func` puts `data[a:b]` in order. -/
theorem heapSort_func_spec {key : α → K} {less : α → α → Bool} {data : List α} {a b : Nat}
    (hc : Compat key less data) (hab : a ≤ b) (hb : b ≤ data.length) :
    KFrame key a b data (heapSort_func less data a b) ∧
      SortedOn key (heapSort_func less data a b) a b := by
  unfold heapSort_func
  dsimp only
  have hlen : a + (b - a) ≤ data.length := by omega
  obtain ⟨p, q⟩ := @heapSort_build_spec _ _ _ _ key less a (b - a)
    ((b - a - 1) / 2) data hc hlen (fun i c hi1 hi2 hc2 => by omega)
  generalize (List.range ((b - a - 1) / 2 + 1)).reverse.foldl
    (fun data i => siftDown_func less (b - a) a (b - a) data i) data = data1 at p q ⊢
  obtain ⟨p', q'⟩ := @heapSort_pop_spec _ _ _ _ key less a (b - a)
    (b - a) data1 (hc.of_perm p.perm) (by rw [p.length_eq]; exact hlen) (le_refl _) q
    (fun u v hu huv hv => by omega) (fun u v _ _ h1 h2 => by omega)
  rw [show a + (b - a) = b by omega] at p p' q'
  exact ⟨p.trans p', q'⟩

theorem order2_func_fst (less : α → α → Bool) (data : List α) (a b swaps : Nat) :
    ((order2_func less data a b swaps).1 = a ∧ (order2_func less data a b swaps).2.1 = b) ∨
      ((order2_func less data a b swaps).1 = b ∧ (order2_func less data a b swaps).2.1 = a) := by
  unfold order2_func
  split_ifs
  · exact Or.inr ⟨rfl, rfl⟩
  · exact Or.inl ⟨rfl, rfl⟩

theorem median_func_mem (less : α → α → Bool) (data : List α) (a b c swaps : Nat) :
    (median_func less data a b c swaps).1 = a ∨ (median_func less data a b c swaps).1 = b ∨
      (median_func less data a b c swaps).1 = c := by
  unfold median_func
  dsimp only
  have h1 := order2_func_fst less data a b swaps
  generalize order2_func less data a b swaps = r1 at h1 ⊢
  have h2 := order2_func_fst less data r1.2.1 c r1.2.2
  generalize order2_func less data r1.2.1 c r1.2.2 = r2 at h2 ⊢
  have h3 := order2_func_fst less data r1.1 r2.1 r2.2.2
  generalize order2_func less data r1.1 r2.1 r2.2.2 = r3 at h3 ⊢
  omega

theorem medianAdjacent_func_mem (less : α → α → Bool) (data : List α) (a swaps : Nat) :
    (medianAdjacent_func less data a swaps).1 = a - 1 ∨
      (medianAdjacent_func less data a swaps).1 = a ∨
      (medianAdjacent_func less data a swaps).1 = a + 1 :=
  median_func_mem less data (a - 1) a (a + 1) swaps

/-- The pivot chosen is an index of the range. -/
theorem choosePivot_func_range (less : α → α → Bool) (data : List α) {a b : Nat} (hab : a < b) :
    a ≤ (choosePivot_func less data a b).1 ∧ (choosePivot_func less data a b).1 < b := by
  have key1 : ∀ r : Nat × Nat, (a ≤ r.1 ∧ r.1 < b) →
      a ≤ (if r.2 = 0 then (r.1, sortedHint.increasingHint)
        else if r.2 = 4 * 3 then (r.1, sortedHint.decreasingHint)
        else (r.1, sortedHint.unknownHint)).1 ∧
      (if r.2 = 0 then (r.1, sortedHint.increasingHint)
        else if r.2 = 4 * 3 then (r.1, sortedHint.decreasingHint)
        else (r.1, sortedHint.unknownHint)).1 < b := by
    intro r hr
    split_ifs <;> exact hr
  unfold choosePivot_func
  dsimp only
  apply key1
  by_cases h8 : b - a ≥ 8
  · rw [if_pos h8]
    by_cases h50 : b - a ≥ 50
    · rw [if_pos h50]
      rcases medianAdjacent_func_mem less data (a + (b - a) / 4 * 1) 0 with e1 | e1 | e1 <;>
      rcases medianAdjacent_func_mem less data (a + (b - a) / 4 * 2)
        (medianAdjacent_func less data (a + (b - a) / 4 * 1) 0).2 with e2 | e2 | e2 <;>
      rcases medianAdjacent_func_mem less data (a + (b - a) / 4 * 3)
        (medianAdjacent_func less data (a + (b - a) / 4 * 2)
          (medianAdjacent_func less data (a + (b - a) / 4 * 1) 0).2).2 with e3 | e3 | e3 <;>
      rcases median_func_mem less data (medianAdjacent_func less data (a + (b - a) / 4 * 1) 0).1
        (medianAdjacent_func less data (a + (b - a) / 4 * 2)
          (medianAdjacent_func less data (a + (b - a) / 4 * 1) 0).2).1
        (medianAdjacent_func less data (a + (b - a) / 4 * 3)
          (medianAdjacent_func less data (a + (b - a) / 4 * 2)
            (medianAdjacent_func less data (a + (b - a) / 4 * 1) 0).2).2).1
        (medianAdjacent_func less data (a + (b - a) / 4 * 3)
          (medianAdjacent_func less data (a + (b - a) / 4 * 2)
            (medianAdjacent_func less data (a + (b - a) / 4 * 1) 0).2).2).2 with e | e | e <;>
      rw [e] <;> omega
    · rw [if_neg h50]
      rcases median_func_mem less data (a + (b - a) / 4 * 1) (a + (b - a) / 4 * 2)
        (a + (b - a) / 4 * 3) 0 with e | e | e <;> rw [e] <;> omega
  · rw [if_neg h8]
    dsimp only
    omega

theorem reverseRange_loop_spec {key : α → K} {a b : Nat} :
    ∀ (n : Nat) (data : List α) (i j : Nat), b ≤ data.length → a ≤ i → j < b →
      KFrame key a b data (reverseRange_loop n data i j) := by
  intro n
  induction n with
  | zero => intro data i j _ _ _; exact KFrame.refl _ _ _ _
  | succ n ih =>
    intro data i j hb hi hj
    unfold reverseRange_loop
    split_ifs with h
    · have hsw : KFrame key a b data (Swap data i j) :=
        KFrame.of_Swap key hb hi (by omega) (by omega) hj
      exact hsw.trans (ih _ _ _ (by rw [hsw.length_eq]; exact hb) (by omega) (by omega))
    · exact KFrame.refl _ _ _ _

theorem reverseRange_func_spec {key : α → K} {data : List α} {a b : Nat} (hab : a < b)
    (hb : b ≤ data.length) : KFrame key a b data (reverseRange_func data a b) :=
  reverseRange_loop_spec _ _ _ _ hb (le_refl _) (by omega)

theorem two_pow_bitsLen_le (n x : Nat) (hx : 1 ≤ x) : 2 ^ bitsLen n x ≤ 2 * x := by
  induction n generalizing x with
  | zero => simp only [bitsLen, pow_zero]; omega
  | succ n ih =>
    unfold bitsLen
    rw [if_neg (by omega), pow_succ]
    by_cases h : x / 2 = 0
    · have h0 : bitsLen n (x / 2) = 0 := by
        rw [h]
        cases n with
        | zero => rfl
        | succ n => simp [bitsLen]
      rw [h0]
      simp only [pow_zero]
      omega
    · have := ih (x / 2) (by omega)
      omega

theorem nextPowerOfTwo_le (length : Nat) (h : 1 ≤ length) :
    1 ≤ nextPowerOfTwo length ∧ nextPowerOfTwo length ≤ 2 * length := by
  unfold nextPowerOfTwo
  rw [Nat.shiftLeft_eq, one_mul]
  exact ⟨Nat.one_le_two_pow, two_pow_bitsLen_le length length h⟩

theorem breakPatterns_func_spec {key : α → K} {data : List α} {a b : Nat}
    (hb : b ≤ data.length) : KFrame key a b data (breakPatterns_func data a b) := by
  unfold breakPatterns_func
  dsimp only
  by_cases h8 : b - a ≥ 8
  · rw [if_pos h8]
    obtain ⟨m1, m2⟩ := nextPowerOfTwo_le (b - a) (by omega)
    have step : ∀ (state : Nat × List α) (i : Nat), i ≤ 2 → b ≤ state.2.length →
        KFrame key a b state.2
          (xorshiftNext state.1,
            Swap state.2 (a + (b - a) / 4 * 2 - 1 - 1 + i)
              (a + if xorshiftNext state.1 &&& (nextPowerOfTwo (b - a) - 1) ≥ b - a
                then (xorshiftNext state.1 &&& (nextPowerOfTwo (b - a) - 1)) - (b - a)
                else xorshiftNext state.1 &&& (nextPowerOfTwo (b - a) - 1))).2 := by
      intro state i hi hlen
      have hle : xorshiftNext state.1 &&& (nextPowerOfTwo (b - a) - 1)
          ≤ nextPowerOfTwo (b - a) - 1 := Nat.and_le_right
      refine KFrame.of_Swap key hlen (by omega) (by omega) (by omega) ?_
      split_ifs <;> omega
    simp only [List.foldl_cons, List.foldl_nil]
    have s0 := step (b - a, data) 0 (by omega) hb
    have s1 := step _ 1 (by omega) (by rw [s0.length_eq]; exact hb)
    have s2 := step _ 2 (by omega) (by rw [s1.length_eq, s0.length_eq]; exact hb)
    exact (s0.trans s1).trans s2
  · rw [if_neg h8]
    exact KFrame.refl _ _ _ _

theorem pdqsort_attempt_spec {key : α → K} {less : α → α → Bool} {data : List α} {a b : Nat}
    (wasBalanced wasPartitioned : Bool) (hab : a < b) (hc : Compat key less data)
    (hb : b ≤ data.length) (hlb : LowerBound key data a b) :
    KFrame key a b data (pdqsort_attempt less data a b wasBalanced wasPartitioned).1.1 ∧
      a ≤ (pdqsort_attempt less data a b wasBalanced wasPartitioned).2 ∧
      (pdqsort_attempt less data a b wasBalanced wasPartitioned).2 < b ∧
      ((pdqsort_attempt less data a b wasBalanced wasPartitioned).1.2 = true →
        SortedOn key (pdqsort_attempt less data a b wasBalanced wasPartitioned).1.1 a b) := by
  unfold pdqsort_attempt
  dsimp only
  have h1 : KFrame key a b data
      (if (!wasBalanced) = true then breakPatterns_func data a b else data) := by
    split_ifs
    · exact breakPatterns_func_spec hb
    · exact KFrame.refl _ _ _ _
  generalize (if (!wasBalanced) = true then breakPatterns_func data a b else data) = data1 at h1 ⊢
  have hb1 : b ≤ data1.length := by rw [h1.length_eq]; exact hb
  obtain ⟨c1, c2⟩ := choosePivot_func_range less data1 hab
  generalize choosePivot_func less data1 a b = choice at c1 c2 ⊢
  have h2 : KFrame key a b data
      (if choice.2 = sortedHint.decreasingHint then reverseRange_func data1 a b else data1) := by
    split_ifs
    · exact h1.trans (reverseRange_func_spec hab hb1)
    · exact h1
  generalize (if choice.2 = sortedHint.decreasingHint then reverseRange_func data1 a b
      else data1) = data2 at h2 ⊢
  have hp : a ≤ (if choice.2 = sortedHint.decreasingHint then b - 1 - (choice.1 - a)
        else choice.1) ∧
      (if choice.2 = sortedHint.decreasingHint then b - 1 - (choice.1 - a) else choice.1) < b := by
    split_ifs <;> omega
  have hpis := partialInsertionSort_func_spec hab (hc.of_perm h2.perm)
    (by rw [h2.length_eq]; exact hb) (hlb.of_KFrame h2)
  have hatt : ∀ c : Bool,
      KFrame key a b data
          (if c = true then partialInsertionSort_func less data2 a b else (data2, false)).1 ∧
        ((if c = true then partialInsertionSort_func less data2 a b else (data2, false)).2 = true →
          SortedOn key
            (if c = true then partialInsertionSort_func less data2 a b else (data2, false)).1
            a b) := by
    intro c
    cases c
    · exact ⟨h2, fun h => Bool.noConfusion h⟩
    · exact ⟨h2.trans hpis.1, hpis.2⟩
  exact ⟨(hatt _).1, hp.1, hp.2, (hatt _).2⟩

theorem LowerBound.shorter {key : α → K} {data : List α} {a b b' : Nat}
    (h : LowerBound key data a b) (hb : b' ≤ b) : LowerBound key data a b' :=
  fun u v hu hv1 hv2 => h u v hu hv1 (by omega)

/-- Two sorted parts around a pivot that separates them make a sorted range. -/
theorem SortedOn.of_parts {key : α → K} {data : List α} {a mid b : Nat}
    (h1 : SortedOn key data a mid) (h2 : SortedOn key data (mid + 1) b)
    (hl : ∀ t, a ≤ t → t < mid → keyAt key data t ≤ keyAt key data mid)
    (hr : ∀ t, mid < t → t < b → keyAt key data mid ≤ keyAt key data t) :
    SortedOn key data a b := by
  intro i j hi hij hj
  by_cases e1 : j < mid
  · exact h1 i j hi hij e1
  · by_cases e2 : j = mid
    · rw [e2]; exact hl i hi (by omega)
    · by_cases e3 : i < mid
      · exact le_trans (hl i hi e3) (hr j (by omega) hj)
      · by_cases e4 : i = mid
        · rw [e4]; exact hr j (by omega) hj
        · exact h2 i j (by omega) hij hj

/-- The function `pdqsort_func` puts `data[a:b]` in order, when the counter is
above `b - a` and no key before the range is greater than a key of the range.
Every call made from there has its counter above the length of its range, so
the counter never runs out. -/
theorem pdqsort_func_spec {key : α → K} {less : α → α → Bool} :
    ∀ (n : Nat) (data : List α) (a b limit : Nat) (wasBalanced wasPartitioned : Bool),
      Compat key less data → a ≤ b → b ≤ data.length → b - a < n → LowerBound key data a b →
      KFrame key a b data (pdqsort_func less n data a b limit wasBalanced wasPartitioned) ∧
        SortedOn key (pdqsort_func less n data a b limit wasBalanced wasPartitioned) a b := by
  intro n
  induction n with
  | zero => intro data a b _ _ _ _ _ _ h _; omega
  | succ n ih =>
    intro data a b limit wasBalanced wasPartitioned hc hab hb hn hlb
    rw [pdqsort_func_succ]
    by_cases h12 : b - a ≤ 12
    · rw [if_pos h12]
      exact insertionSort_func_spec hc hab hb
    rw [if_neg h12]
    by_cases hlim : limit = 0
    · rw [if_pos hlim]
      exact heapSort_func_spec hc hab hb
    rw [if_neg hlim]
    obtain ⟨f0, p1, p2, s0⟩ := @pdqsort_attempt_spec _ _ _ _ key less data a b
      wasBalanced wasPartitioned (show a < b by omega) hc hb hlb
    generalize pdqsort_attempt less data a b wasBalanced wasPartitioned = att at f0 p1 p2 s0 ⊢
    generalize (if (!wasBalanced) = true then limit - 1 else limit) = limit1
    have hc0 := hc.of_perm f0.perm
    have hb0 : b ≤ att.1.1.length := by rw [f0.length_eq]; exact hb
    have hlb0 := hlb.of_KFrame f0
    by_cases hatt : att.1.2 = true
    · rw [if_pos hatt]
      exact ⟨f0, s0 hatt⟩
    rw [if_neg hatt]
    by_cases heq : a > 0 ∧ (!Less less att.1.1 (a - 1) att.2) = true
    · rw [if_pos heq]
      have hl : Less less att.1.1 (a - 1) att.2 = false := by simpa using heq.2
      have hle : keyAt key att.1.1 att.2 ≤ keyAt key att.1.1 (a - 1) :=
        hc0.le_of_not_Less (by omega) (by omega) hl
      obtain ⟨f1, m1, m2, hmin⟩ := @partitionEqual_func_spec _ _ _ _ key less _ _ _ _ hc0 hb0
        p1 p2 (fun t h1 h2 => le_trans hle (hlb0 (a - 1) t (by omega) h1 h2))
      generalize partitionEqual_func less att.1.1 a b att.2 = r at f1 m1 m2 hmin ⊢
      have hf1 := f0.trans f1
      obtain ⟨f2, s2⟩ := ih r.1 r.2 b limit1 wasBalanced wasPartitioned (hc.of_perm hf1.perm)
        m2 (by rw [hf1.length_eq]; exact hb) (by omega)
        (by
          intro u v hu hv1 hv2
          by_cases e : u < a
          · exact hlb.of_KFrame hf1 u v e (by omega) hv2
          · exact hmin u v (by omega) hu (by omega) hv2)
      refine ⟨hf1.trans (f2.mono (by omega) (le_refl _)), ?_⟩
      intro i j hi hij hj
      by_cases e1 : r.2 ≤ i
      · exact s2 i j e1 hij hj
      · rw [f2.out i (Or.inl (by omega))]
        by_cases e2 : j < r.2
        · rw [f2.out j (Or.inl e2)]
          exact hmin i j hi (by omega) (by omega) hj
        · obtain ⟨j', h1, h2, h3⟩ := f2.inn j (by omega) hj
          rw [h3]
          exact hmin i j' hi (by omega) (by omega) h2
    rw [if_neg heq]
    obtain ⟨f1, m1, m2, hl, hr⟩ := @partition_func_spec _ _ _ _ key less _ _ _ _ hc0 hb0 p1 p2
    generalize partition_func less att.1.1 a b att.2 = r at f1 m1 m2 hl hr ⊢
    have hf1 := f0.trans f1
    have hc1 := hc.of_perm hf1.perm
    have hb1 : b ≤ r.1.length := by rw [hf1.length_eq]; exact hb
    have hlb1 := hlb.of_KFrame hf1
    by_cases hside : r.2.1 - a < b - r.2.1
    · rw [if_pos hside]
      obtain ⟨f2, s2⟩ := ih r.1 a r.2.1 limit1 true true hc1 m1 (by omega) (by omega)
        (hlb1.shorter (by omega))
      generalize pdqsort_func less n r.1 a r.2.1 limit1 true true = d1 at f2 s2 ⊢
      have hl2 : ∀ t, a ≤ t → t < r.2.1 → keyAt key d1 t ≤ keyAt key d1 r.2.1 := by
        intro t h1 h2
        obtain ⟨t', h3, h4, h5⟩ := f2.inn t h1 h2
        rw [h5, f2.out r.2.1 (Or.inr (le_refl _))]
        exact hl t' h3 h4
      have hr2 : ∀ t, r.2.1 < t → t < b → keyAt key d1 r.2.1 ≤ keyAt key d1 t := by
        intro t h1 h2
        rw [f2.out t (Or.inr (by omega)), f2.out r.2.1 (Or.inr (le_refl _))]
        exact hr t h1 h2
      have hf2 := hf1.trans (f2.mono (le_refl _) (by omega))
      obtain ⟨f3, s3⟩ := ih d1 (r.2.1 + 1) b limit1 (decide (r.2.1 - a ≥ (b - a) / 8)) r.2.2
        (hc.of_perm hf2.perm) (by omega) (by rw [hf2.length_eq]; exact hb) (by omega)
        (by
          intro u v hu hv1 hv2
          by_cases e : u < a
          · exact hlb.of_KFrame hf2 u v e (by omega) hv2
          · by_cases e' : u = r.2.1
            · rw [e']; exact hr2 v (by omega) hv2
            · exact le_trans (hl2 u (by omega) (by omega)) (hr2 v (by omega) hv2))
      refine ⟨hf2.trans (f3.mono (by omega) (le_refl _)), ?_⟩
      refine SortedOn.of_parts (s2.of_frame f3 (Or.inl (by omega))) s3 ?_ ?_
      · intro t h1 h2
        rw [f3.out t (Or.inl (by omega)), f3.out r.2.1 (Or.inl (by omega))]
        exact hl2 t h1 h2
      · intro t h1 h2
        obtain ⟨t', h3, h4, h5⟩ := f3.inn t (by omega) h2
        rw [h5, f3.out r.2.1 (Or.inl (by omega))]
        exact hr2 t' (by omega) h4
    · rw [if_neg hside]
      obtain ⟨f2, s2⟩ := ih r.1 (r.2.1 + 1) b limit1 true true hc1 (by omega) hb1 (by omega)
        (by
          intro u v hu hv1 hv2
          by_cases e : u < a
          · exact hlb1 u v e (by omega) hv2
          · by_cases e' : u = r.2.1
            · rw [e']; exact hr v (by omega) hv2
            · exact le_trans (hl u (by omega) (by omega)) (hr v (by omega) hv2))
      generalize pdqsort_func less n r.1 (r.2.1 + 1) b limit1 true true = d1 at f2 s2 ⊢
      have hl2 : ∀ t, a ≤ t → t < r.2.1 → keyAt key d1 t ≤ keyAt key d1 r.2.1 := by
        intro t h1 h2
        rw [f2.out t (Or.inl (by omega)), f2.out r.2.1 (Or.inl (by omega))]
        exact hl t h1 h2
      have hr2 : ∀ t, r.2.1 < t → t < b → keyAt key d1 r.2.1 ≤ keyAt key d1 t := by
        intro t h1 h2
        obtain ⟨t', h3, h4, h5⟩ := f2.inn t (by omega) h2
        rw [h5, f2.out r.2.1 (Or.inl (by omega))]
        exact hr t' (by omega) h4
      have hf2 := hf1.trans (f2.mono (by omega) (le_refl _))
      obtain ⟨f3, s3⟩ := ih d1 a r.2.1 limit1 (decide (b - r.2.1 ≥ (b - a) / 8)) r.2.2
        (hc.of_perm hf2.perm) m1 (by rw [hf2.length_eq]; omega) (by omega)
        ((hlb.of_KFrame hf2).shorter (by omega))
      refine ⟨hf2.trans (f3.mono (le_refl _) (by omega)), ?_⟩
      refine SortedOn.of_parts s3 (s2.of_frame f3 (Or.inr (by omega))) ?_ ?_
      · intro t h1 h2
        obtain ⟨t', h3, h4, h5⟩ := f3.inn t h1 h2
        rw [h5, f3.out r.2.1 (Or.inr (le_refl _))]
        exact hl2 t' h3 h4
      · intro t h1 h2
        rw [f3.out t (Or.inr (by omega)), f3.out r.2.1 (Or.inr (le_refl _))]
        exact hr2 t h1 h2

end SortKeys

/-! ## Lemmas on `sortSlice` -/

theorem sortSlice_perm {α : Type} (less : α → α → Bool) (data : List α) :
    (sortSlice less data).Perm data :=
  pdqsort_func_perm less _ data 0 data.length _ true true

/-- On a slice of at most 12 elements `sort.Slice` is the insertion sort. -/
theorem sortSlice_eq_insertionSortLessFunc {α : Type} (less : α → α → Bool) {data : List α}
    (h : data.length ≤ 12) : sortSlice less data = insertionSortLessFunc less data := by
  unfold sortSlice
  rw [pdqsort_func_succ, if_pos (by omega)]
  unfold insertionSort_func
  simp

/-- The result of `sortSlice` is in the order of any key that the comparison
agrees with. -/
theorem sortSlice_pairwise_key {α K : Type} [LinearOrder K] {key : α → K} {less : α → α → Bool}
    {data : List α} (hc : Compat key less data) :
    (sortSlice less data).Pairwise (fun x y => key x ≤ key y) := by
  cases hd : data with
  | nil =>
    have := (sortSlice_perm less ([] : List α)).eq_nil
    rw [this]
    exact List.Pairwise.nil
  | cons x rest =>
    rw [← hd]
    haveI : Inhabited α := ⟨x⟩
    have q : SortedOn key (sortSlice less data) 0 data.length :=
      (@pdqsort_func_spec _ _ _ _ key less (data.length + 1) data 0
        data.length (bitsLen data.length data.length) true true hc (Nat.zero_le _) (le_refl _)
        (by omega) (fun u v hu _ _ => by omega)).2
    have hlen : (sortSlice less data).length = data.length := (sortSlice_perm less data).length_eq
    rw [List.pairwise_iff_getElem]
    intro i j hi hj hij
    have := q i j (Nat.zero_le _) hij (by rw [← hlen]; exact hj)
    unfold keyAt at this
    rw [List.getD_eq_getElem _ _ (show i < (sortSlice less data).length from hi),
      List.getD_eq_getElem _ _ (show j < (sortSlice less data).length from hj)] at this
    exact this


theorem less_running_stopped {m : Model} {x y : Guest} (hx : x.Status = "running")
    (hy : y.Status ≠ "running") : m.less x y = true := by
  simp [Model.less, hx, hy]

theorem less_stopped_running {m : Model} {x y : Guest} (hx : x.Status ≠ "running")
    (hy : y.Status = "running") : m.less x y = false := by
  simp [Model.less, hx, hy]

theorem less_stopped_stopped {m : Model} {x y : Guest} (hx : x.Status ≠ "running")
    (hy : y.Status ≠ "running") : m.less x y = decide (x.VMID < y.VMID) := by
  simp [Model.less, hx, hy]

theorem less_running_running {m : Model} {x y : Guest} (hx : x.Status = "running")
    (hy : y.Status = "running") :
    m.less x y = if m.sortReverse then !(m.keyLess x y) else m.keyLess x y := by
  simp [Model.less, hx, hy]

theorem insertLeft_nil {α : Type} (less : α → α → Bool) (x : α) : insertLeft less x [] = [x] := rfl

theorem insertLeft_cons_pos {α : Type} {less : α → α → Bool} {x y : α} (h : less x y = true)
    (l : List α) : insertLeft less x (y :: l) = y :: insertLeft less x l := by
  rw [insertLeft, if_pos h]

theorem insertLeft_cons_neg {α : Type} {less : α → α → Bool} {x y : α} (h : less x y = false)
    (l : List α) : insertLeft less x (y :: l) = x :: y :: l := by
  rw [insertLeft, if_neg (by simp [h])]

theorem filter_stopped_cons_running {g : Guest} (h : g.Status = "running") (l : List Guest) :
    (g :: l).filter (fun g => !g.isRunning) = l.filter (fun g => !g.isRunning) :=
  List.filter_cons_of_neg (by simp [Guest.isRunning, h])

theorem filter_stopped_cons_stopped {g : Guest} (h : g.Status ≠ "running") (l : List Guest) :
    (g :: l).filter (fun g => !g.isRunning) = g :: l.filter (fun g => !g.isRunning) :=
  List.filter_cons_of_pos (by simp [Guest.isRunning, h])

theorem filter_stopped_insertLeft_running (m : Model) {x : Guest} (hx : x.Status = "running")
    (l : List Guest) :
    (insertLeft m.less x l).filter (fun g => !g.isRunning) = l.filter (fun g => !g.isRunning) := by
  induction l with
  | nil => rw [insertLeft_nil, filter_stopped_cons_running hx]
  | cons y before ih =>
    cases hc : m.less x y with
    | true =>
      rw [insertLeft_cons_pos hc]
      by_cases hy : y.Status = "running"
      · rw [filter_stopped_cons_running hy, filter_stopped_cons_running hy, ih]
      · rw [filter_stopped_cons_stopped hy, filter_stopped_cons_stopped hy, ih]
    | false => rw [insertLeft_cons_neg hc, filter_stopped_cons_running hx]

theorem filter_stopped_insertLeft_stopped (m : Model) {x : Guest} (hx : x.Status ≠ "running")
    (l : List Guest)
    (hl : l.Pairwise (fun later earlier => later.Status = "running" → earlier.Status = "running")) :
    (insertLeft m.less x l).filter (fun g => !g.isRunning)
      = insertLeft idLess x (l.filter (fun g => !g.isRunning)) := by
  induction l with
  | nil => rw [insertLeft_nil, filter_stopped_cons_stopped hx]; rfl
  | cons y before ih =>
    rw [List.pairwise_cons] at hl
    by_cases hy : y.Status = "running"
    · have hnil : before.filter (fun g => !g.isRunning) = [] := by
        rw [List.filter_eq_nil_iff]
        intro a ha
        simp [Guest.isRunning, hl.1 a ha hy]
      rw [insertLeft_cons_neg (less_stopped_running hx hy), filter_stopped_cons_stopped hx,
        filter_stopped_cons_running hy, hnil]
      rfl
    · rw [filter_stopped_cons_stopped hy]
      by_cases hc : x.VMID < y.VMID
      · have hid : idLess x y = true := by simp [idLess, hc]
        have hls : m.less x y = true := by rw [less_stopped_stopped hx hy]; simpa using hc
        rw [insertLeft_cons_pos hls, insertLeft_cons_pos hid, filter_stopped_cons_stopped hy,
          ih hl.2]
      · have hid : idLess x y = false := by simp [idLess, hc]
        have hls : m.less x y = false := by rw [less_stopped_stopped hx hy]; simpa using hc
        rw [insertLeft_cons_neg hls, insertLeft_cons_neg hid, filter_stopped_cons_stopped hx,
          filter_stopped_cons_stopped hy]

theorem less_respects_partition (m : Model) :
    (∀ x y : Guest, True → True → m.less x y = true →
      (y.Status = "running" → x.Status = "running") ∧
      (x.Status ≠ "running" → y.Status ≠ "running" → x.VMID ≤ y.VMID)) ∧
    (∀ x y : Guest, True → True → m.less x y = false →
      (x.Status = "running" → y.Status = "running") ∧
      (y.Status ≠ "running" → x.Status ≠ "running" → y.VMID ≤ x.VMID)) ∧
    (∀ x y z : Guest, True → True → True →
      ((y.Status = "running" → z.Status = "running") ∧
        (z.Status ≠ "running" → y.Status ≠ "running" → z.VMID ≤ y.VMID)) →
      m.less x y = false →
      (x.Status = "running" → z.Status = "running") ∧
      (z.Status ≠ "running" → x.Status ≠ "running" → z.VMID ≤ x.VMID)) := by
  refine ⟨?_, ?_, ?_⟩
  · intro x y _ _ hc
    by_cases hx : x.Status = "running" <;> by_cases hy : y.Status = "running"
    · exact ⟨fun _ => hx, fun h => absurd hx h⟩
    · rw [less_running_stopped hx hy] at hc; exact ⟨fun h => absurd h hy, fun h => absurd hx h⟩
    · rw [less_stopped_running hx hy] at hc; exact absurd hc (by simp)
    · rw [less_stopped_stopped hx hy] at hc
      have : x.VMID < y.VMID := by simpa using hc
      exact ⟨fun h => absurd h hy, fun _ _ => this.le⟩
  · intro x y _ _ hc
    by_cases hx : x.Status = "running" <;> by_cases hy : y.Status = "running"
    · exact ⟨fun _ => hy, fun h => absurd hy h⟩
    · rw [less_running_stopped hx hy] at hc; exact absurd hc (by simp)
    · exact ⟨fun h => absurd h hx, fun h => absurd hy h⟩
    · rw [less_stopped_stopped hx hy] at hc
      have : ¬ x.VMID < y.VMID := by simpa using hc
      exact ⟨fun h => absurd h hx, fun _ _ => by omega⟩
  · intro x y z _ _ _ hzy hc
    by_cases hx : x.Status = "running" <;> by_cases hy : y.Status = "running"
    · exact ⟨fun _ => hzy.1 hy, fun h1 _ => absurd (hzy.1 hy) h1⟩
    · rw [less_running_stopped hx hy] at hc; exact absurd hc (by simp)
    · exact ⟨fun h => absurd h hx, fun h1 _ => absurd (hzy.1 hy) h1⟩
    · rw [less_stopped_stopped hx hy] at hc
      have hxy : ¬ x.VMID < y.VMID := by simpa using hc
      refine ⟨fun h => absurd h hx, fun h1 _ => ?_⟩
      have := hzy.2 h1 hy
      omega

theorem filter_stopped_foldl (m : Model) (data acc : List Guest)
    (ha : acc.Pairwise (fun later earlier =>
      (later.Status = "running" → earlier.Status = "running") ∧
      (earlier.Status ≠ "running" → later.Status ≠ "running" → earlier.VMID ≤ later.VMID))) :
    (data.foldl (fun sortedRev x => insertLeft m.less x sortedRev) acc).filter
        (fun g => !g.isRunning)
      = (data.filter (fun g => !g.isRunning)).foldl (fun sortedRev x => insertLeft idLess x sortedRev)
          (acc.filter (fun g => !g.isRunning)) := by
  induction data generalizing acc with
  | nil => rfl
  | cons x rest ih =>
    simp only [List.foldl_cons]
    obtain ⟨h1, h2, h3⟩ := less_respects_partition m
    have hnext := insertLeft_pairwise (P := fun _ => True) h1 h2 h3 x trivial acc
      (fun _ _ => trivial) ha
    rw [ih _ hnext]
    by_cases hx : x.Status = "running"
    · rw [filter_stopped_insertLeft_running m hx, filter_stopped_cons_running hx]
    · rw [filter_stopped_insertLeft_stopped m hx acc (ha.imp (fun h => h.1)),
        filter_stopped_cons_stopped hx, List.foldl_cons]

/-- Up to 12 guests, the non-running guests of the sorted list are the
non-running guests of the input sorted by id alone. -/
theorem filter_stopped_sortSlice (m : Model) (data : List Guest) (h : data.length ≤ 12) :
    (sortSlice m.less data).filter (fun g => !g.isRunning)
      = insertionSortLessFunc idLess (data.filter (fun g => !g.isRunning)) := by
  rw [sortSlice_eq_insertionSortLessFunc _ h]
  unfold insertionSortLessFunc
  rw [List.filter_reverse, filter_stopped_foldl m data [] List.Pairwise.nil]
  rfl

/-- The comparison of `sortGuests` agrees with `guestKey k` as soon as it agrees
with `k` on the running guests. -/
theorem compat_guestKey {K : Type} [LinearOrder K] (k : Guest → K) (m : Model) (data : List Guest)
    (hk : ∀ x ∈ data, ∀ y ∈ data, x.Status = "running" → y.Status = "running" →
      (m.less x y = true → k x ≤ k y) ∧ (m.less x y = false → k y ≤ k x)) :
    Compat (guestKey k) m.less data := by
  intro x hx y hy
  unfold guestKey
  by_cases h1 : x.Status = "running" <;> by_cases h2 : y.Status = "running"
  · rw [if_pos h1, if_pos h2]
    exact ⟨fun h => Sum.Lex.inl_le_inl_iff.mpr ((hk x hx y hy h1 h2).1 h),
      fun h => Sum.Lex.inl_le_inl_iff.mpr ((hk x hx y hy h1 h2).2 h)⟩
  · rw [if_pos h1, if_neg h2]
    refine ⟨fun _ => Sum.Lex.inl_le_inr _ _, fun h => ?_⟩
    rw [less_running_stopped h1 h2] at h
    exact Bool.noConfusion h
  · rw [if_neg h1, if_pos h2]
    refine ⟨fun h => ?_, fun _ => Sum.Lex.inl_le_inr _ _⟩
    rw [less_stopped_running h1 h2] at h
    exact Bool.noConfusion h
  · rw [if_neg h1, if_neg h2, less_stopped_stopped h1 h2]
    refine ⟨fun h => Sum.Lex.inr_le_inr_iff.mpr ?_, fun h => Sum.Lex.inr_le_inr_iff.mpr ?_⟩
    · exact le_of_lt (by simpa using h)
    · exact not_lt.mp (by simpa using h)

/-- After `sortSlice` with the comparison of `sortGuests`, a guest that precedes
a running guest is running, two non-running guests are in ascending id order,
and two running guests are in the order of any key `k` that the comparison
agrees with on the running guests. -/
theorem sortSlice_less_pairwise {K : Type} [LinearOrder K] (k : Guest → K) (m : Model)
    (data : List Guest)
    (hk : ∀ x ∈ data, ∀ y ∈ data, x.Status = "running" → y.Status = "running" →
      (m.less x y = true → k x ≤ k y) ∧ (m.less x y = false → k y ≤ k x)) :
    (sortSlice m.less data).Pairwise (fun a b =>
      (b.Status = "running" → a.Status = "running") ∧
      (a.Status ≠ "running" → b.Status ≠ "running" → a.VMID ≤ b.VMID) ∧
      (a.Status = "running" → b.Status = "running" → k a ≤ k b)) := by
  refine (sortSlice_pairwise_key (compat_guestKey k m data hk)).imp ?_
  intro a b h
  unfold guestKey at h
  by_cases h1 : a.Status = "running" <;> by_cases h2 : b.Status = "running"
  · rw [if_pos h1, if_pos h2] at h
    exact ⟨fun _ => h1, fun h3 => absurd h1 h3, fun _ _ => Sum.Lex.inl_le_inl_iff.mp h⟩
  · exact ⟨fun h3 => absurd h3 h2, fun h3 => absurd h1 h3, fun _ h3 => absurd h3 h2⟩
  · rw [if_neg h1, if_pos h2] at h
    exact absurd h Sum.Lex.not_inr_le_inl
  · rw [if_neg h1, if_neg h2] at h
    exact ⟨fun h3 => absurd h3 h2, fun _ _ => Sum.Lex.inr_le_inr_iff.mp h,
      fun h3 => absurd h3 h1⟩

/-- After `sortSlice` with the comparison of `sortGuests`, a guest that precedes
a running guest is running, and two non-running guests are in ascending id
order. -/
theorem sortSlice_less_partition (m : Model) (data : List Guest) :
    (sortSlice m.less data).Pairwise (fun a b =>
      (b.Status = "running" → a.Status = "running") ∧
      (a.Status ≠ "running" → b.Status ≠ "running" → a.VMID ≤ b.VMID)) :=
  (sortSlice_less_pairwise (fun _ => PUnit.unit) m data
    (fun _ _ _ _ _ _ => ⟨fun _ => le_refl _, fun _ => le_refl _⟩)).imp
    (fun h => ⟨h.1, h.2.1⟩)

theorem roundF64_neg {x : ℚ} (hx : x < 0) : roundF64 x < 0 := by
  have hpos : 0 < -x := by linarith
  have h := scaled_ge hpos
  rw [abs_neg] at h
  have hm : x * 2 ^ (52 - Int.log 2 |x|) ≤ -(2 : ℚ) ^ (52 : Int) := by linarith
  have hfl : ⌊x * 2 ^ (52 - Int.log 2 |x|)⌋ ≤ -(2 ^ 52) := by
    have : ⌊x * 2 ^ (52 - Int.log 2 |x|)⌋ ≤ ⌊-(2 : ℚ) ^ (52 : Int)⌋ := Int.floor_mono hm
    have h2 : ⌊-(2 : ℚ) ^ (52 : Int)⌋ = -(2 ^ 52) := by
      rw [Int.floor_eq_iff]; norm_num
    omega
  have hr := roundHalfEven_le_floor_add_one (x * 2 ^ (52 - Int.log 2 |x|))
  have hneg : (roundHalfEven (x * 2 ^ (52 - Int.log 2 |x|)) : ℚ) < 0 := by
    have : roundHalfEven (x * 2 ^ (52 - Int.log 2 |x|)) < 0 := by omega
    exact_mod_cast this
  unfold roundF64
  exact mul_neg_of_neg_of_pos hneg (two_zpow_pos _)

theorem roundF64_eq_zero_iff {x : ℚ} : roundF64 x = 0 ↔ x = 0 := by
  constructor
  · intro h
    rcases lt_trichotomy x 0 with hx | hx | hx
    · have := roundF64_neg hx; linarith
    · exact hx
    · have := roundF64_pos hx; linarith
  · rintro rfl; exact roundF64_zero

namespace F64

theorem lt_asymm' {a b : F64} (h : lt a b = true) : lt b a = false := by
  cases a with
  | nan => simp [lt] at h
  | inf s =>
    cases b with
    | nan => simp [lt] at h
    | inf t => cases s <;> cases t <;> simp_all [lt]
    | fin q => cases s <;> simp_all [lt]
  | fin p =>
    cases b with
    | nan => simp [lt] at h
    | inf t => cases t <;> simp_all [lt]
    | fin q =>
      simp only [lt, decide_eq_true_eq, decide_eq_false_iff_not, not_lt] at h ⊢
      exact le_of_lt h

theorem lt_trans' {a b c : F64} (h1 : lt a b = true) (h2 : lt b c = true) : lt a c = true := by
  cases a with
  | nan => simp [lt] at h1
  | inf s =>
    cases b with
    | nan => simp [lt] at h1
    | inf t => cases c <;> cases s <;> cases t <;> simp_all [lt]
    | fin q => cases c <;> cases s <;> simp_all [lt]
  | fin p =>
    cases b with
    | nan => simp [lt] at h1
    | inf t => cases c <;> cases t <;> simp_all [lt]
    | fin q =>
      cases c with
      | nan => simp [lt] at h2
      | inf u => cases u <;> simp_all [lt]
      | fin r =>
        simp only [lt, decide_eq_true_eq] at h1 h2 ⊢
        exact lt_trans h1 h2

theorem lt_negtrans {a b c : F64} (hb : b ≠ nan) (h1 : lt a b = false) (h2 : lt b c = false) :
    lt a c = false := by
  cases b with
  | nan => exact absurd rfl hb
  | inf t =>
    cases a with
    | nan => simp [lt]
    | inf s => cases c <;> cases s <;> cases t <;> simp_all [lt]
    | fin p => cases c <;> cases t <;> simp_all [lt]
  | fin q =>
    cases a with
    | nan => simp [lt]
    | inf s => cases c <;> cases s <;> simp_all [lt]
    | fin p =>
      cases c with
      | nan => simp [lt]
      | inf u => cases u <;> simp_all [lt]
      | fin r =>
        simp only [lt, decide_eq_false_iff_not, not_lt] at h1 h2 ⊢
        exact le_trans h2 h1

theorem div_ofInt_ne_nan {a b : Int} (h : ¬ (a = 0 ∧ b = 0)) : div (ofInt a) (ofInt b) ≠ nan := by
  unfold div ofInt round
  simp only [roundF64_eq_zero_iff, Int.cast_eq_zero]
  split_ifs with h1 h2
  · exact absurd ⟨h2, h1⟩ h
  · simp
  · simp

end F64

theorem keyLess_asymm (m : Model) {a b : Guest} (h : m.keyLess a b = true) :
    m.keyLess b a = false := by
  revert h
  unfold Model.keyLess
  cases m.sortBy <;> simp only [decide_eq_true_eq, decide_eq_false_iff_not, not_lt] <;> intro h <;>
    first
      | exact le_of_lt h
      | exact F64.lt_asymm' h

theorem keyLess_trans (m : Model) {a b c : Guest} (h1 : m.keyLess a b = true)
    (h2 : m.keyLess b c = true) : m.keyLess a c = true := by
  revert h1 h2
  unfold Model.keyLess
  cases m.sortBy <;> simp only [decide_eq_true_eq] <;> intro h1 h2 <;>
    first
      | exact lt_trans h1 h2
      | exact F64.lt_trans' h1 h2

theorem keyLess_negtrans (m : Model) {a b c : Guest}
    (hb : m.sortBy = sortColumn.sortByMem → ¬ (b.Mem = 0 ∧ b.MaxMem = 0))
    (h1 : m.keyLess a b = false) (h2 : m.keyLess b c = false) : m.keyLess a c = false := by
  revert h1 h2
  unfold Model.keyLess
  cases hs : m.sortBy <;> simp only [decide_eq_false_iff_not, not_lt] <;> intro h1 h2 <;>
    first
      | exact le_trans h2 h1
      | exact F64.lt_negtrans (F64.div_ofInt_ne_nan (hb hs)) h1 h2

theorem F64.lt_iff_toOrd {a b : F64} (ha : a ≠ F64.nan) (hb : b ≠ F64.nan) :
    F64.lt a b = true ↔ F64.toOrd a < F64.toOrd b := by
  cases a with
  | nan => exact absurd rfl ha
  | inf s =>
    cases b with
    | nan => exact absurd rfl hb
    | inf t => cases s <;> cases t <;> simp [F64.lt, F64.toOrd, Prod.Lex.lt_iff]
    | fin q => cases s <;> simp [F64.lt, F64.toOrd, Prod.Lex.lt_iff]
  | fin p =>
    cases b with
    | nan => exact absurd rfl hb
    | inf t => cases t <;> simp [F64.lt, F64.toOrd, Prod.Lex.lt_iff]
    | fin q => simp [F64.lt, F64.toOrd, Prod.Lex.lt_iff]

theorem F64.le_iff_toOrd {a b : F64} (ha : a ≠ F64.nan) (hb : b ≠ F64.nan) :
    F64.le a b = true ↔ F64.toOrd a ≤ F64.toOrd b := by
  cases a with
  | nan => exact absurd rfl ha
  | inf s =>
    cases b with
    | nan => exact absurd rfl hb
    | inf t => cases s <;> cases t <;> simp [F64.le, F64.toOrd, Prod.Lex.le_iff]
    | fin q => cases s <;> simp [F64.le, F64.toOrd, Prod.Lex.le_iff]
  | fin p =>
    cases b with
    | nan => exact absurd rfl hb
    | inf t => cases t <;> simp [F64.le, F64.toOrd, Prod.Lex.le_iff]
    | fin q => simp [F64.le, F64.toOrd, Prod.Lex.le_iff]

/-- After `sortSlice` with the comparison of `sortGuests`, two running guests are
in the order of a key `k` that the comparison of the selected key decides: not
decreasing when the sort is not reversed, not increasing when it is. -/
theorem sortSlice_less_running_of_key {K : Type} [LinearOrder K] (k : Guest → K) (m : Model)
    (data : List Guest)
    (hk : ∀ x ∈ data, ∀ y ∈ data, x.Status = "running" → y.Status = "running" →
      (m.keyLess x y = true ↔ k x < k y)) :
    (sortSlice m.less data).Pairwise (fun a b =>
      a.Status = "running" → b.Status = "running" →
        if m.sortReverse then k b ≤ k a else k a ≤ k b) := by
  cases hr : m.sortReverse with
  | false =>
    refine (sortSlice_less_pairwise k m data ?_).imp (fun h => ?_)
    · intro x hx y hy h1 h2
      rw [less_running_running h1 h2, hr]
      simp only [Bool.false_eq_true, if_false]
      refine ⟨fun h => le_of_lt ((hk x hx y hy h1 h2).mp h), fun h => not_lt.mp ?_⟩
      intro hlt
      rw [(hk x hx y hy h1 h2).mpr hlt] at h
      exact Bool.noConfusion h
    · simpa using h.2.2
  | true =>
    refine (sortSlice_less_pairwise (fun g => OrderDual.toDual (k g)) m data ?_).imp (fun h => ?_)
    · intro x hx y hy h1 h2
      rw [less_running_running h1 h2, hr]
      simp only [if_true, Bool.not_eq_true', Bool.not_eq_false', OrderDual.toDual_le_toDual]
      refine ⟨fun h => not_lt.mp ?_, fun h => le_of_lt ((hk x hx y hy h1 h2).mp h)⟩
      intro hlt
      rw [(hk x hx y hy h1 h2).mpr hlt] at h
      exact Bool.noConfusion h
    · simpa using h.2.2

/-- After `sortSlice` with the comparison of `sortGuests`, two running guests are
in the order of the selected key, not decreasing when the sort is not reversed
and not increasing when it is, provided that no running guest has the memory
ratio `0 / 0` when the key is the memory use. -/
theorem sortSlice_less_running (m : Model) (data : List Guest)
    (hnan : m.sortBy = sortColumn.sortByMem →
      ∀ g ∈ data, g.Status = "running" → ¬ (g.Mem = 0 ∧ g.MaxMem = 0)) :
    (sortSlice m.less data).Pairwise (fun a b =>
      a.Status = "running" → b.Status = "running" →
        if m.sortReverse then m.keyLE b a else m.keyLE a b) := by
  have hmem : ∀ {a : Guest}, a ∈ sortSlice m.less data → a ∈ data :=
    fun h => (sortSlice_perm m.less data).mem_iff.mp h
  cases hs : m.sortBy with
  | sortByVMID =>
    refine (sortSlice_less_running_of_key (fun g => g.VMID) m data ?_).imp ?_
    · intro x _ y _ _ _
      simp [Model.keyLess, hs]
    · intro a b h h1 h2
      simpa [Model.keyLE, hs] using h h1 h2
  | sortByName =>
    refine (sortSlice_less_running_of_key (fun g => g.Name) m data ?_).imp ?_
    · intro x _ y _ _ _
      simp [Model.keyLess, hs]
    · intro a b h h1 h2
      simpa [Model.keyLE, hs] using h h1 h2
  | sortByStatus =>
    refine (sortSlice_less_running_of_key (fun g => g.Status) m data ?_).imp ?_
    · intro x _ y _ _ _
      simp [Model.keyLess, hs]
    · intro a b h h1 h2
      simpa [Model.keyLE, hs] using h h1 h2
  | sortByCPU =>
    refine (sortSlice_less_running_of_key (fun g => g.CPU) m data ?_).imp ?_
    · intro x _ y _ _ _
      simp [Model.keyLess, hs]
    · intro a b h h1 h2
      simpa [Model.keyLE, hs] using h h1 h2
  | sortByMem =>
    have hne : ∀ g ∈ data, g.Status = "running" → g.memRatio ≠ F64.nan :=
      fun g hg hrun => F64.div_ofInt_ne_nan (hnan hs g hg hrun)
    refine (sortSlice_less_running_of_key (fun g => F64.toOrd g.memRatio) m data ?_).imp_of_mem ?_
    · intro x hx y hy h1 h2
      have := F64.lt_iff_toOrd (hne x hx h1) (hne y hy h2)
      simpa [Model.keyLess, hs, Guest.memRatio] using this
    · intro a b ha hb h h1 h2
      have e1 := F64.le_iff_toOrd (hne a (hmem ha) h1) (hne b (hmem hb) h2)
      have e2 := F64.le_iff_toOrd (hne b (hmem hb) h2) (hne a (hmem ha) h1)
      have := h h1 h2
      cases hr : m.sortReverse <;> rw [hr] at this <;>
        simp only [Bool.false_eq_true, if_false, if_true] at this ⊢ <;>
        simp only [Model.keyLE, hs]
      · exact e1.mpr this
      · exact e2.mpr this
  | sortByDisk =>
    refine (sortSlice_less_running_of_key (fun g => g.Disk) m data ?_).imp ?_
    · intro x _ y _ _ _
      simp [Model.keyLess, hs]
    · intro a b h h1 h2
      simpa [Model.keyLE, hs] using h h1 h2
  | sortByDiskIO =>
    refine (sortSlice_less_running_of_key (fun g => m.getDiskRateNumeric g) m data ?_).imp ?_
    · intro x _ y _ _ _
      simp [Model.keyLess, hs]
    · intro a b h h1 h2
      simpa [Model.keyLE, hs] using h h1 h2
  | sortByNetIO =>
    refine (sortSlice_less_running_of_key (fun g => m.getNetRateNumeric g) m data ?_).imp ?_
    · intro x _ y _ _ _
      simp [Model.keyLess, hs]
    · intro a b h h1 h2
      simpa [Model.keyLE, hs] using h h1 h2

/-- A key of the running guests that the comparison of the selected key decides,
when no running guest has the memory ratio `0 / 0` while the key is the memory
use. -/
theorem exists_key_of_keyLess (m : Model) (data : List Guest)
    (hnan : m.sortBy = sortColumn.sortByMem →
      ∀ g ∈ data, g.Status = "running" → ¬ (g.Mem = 0 ∧ g.MaxMem = 0)) :
    ∃ (K : Type) (_ : LinearOrder K) (k : Guest → K),
      ∀ x ∈ data, ∀ y ∈ data, x.Status = "running" → y.Status = "running" →
        (m.keyLess x y = true ↔ k x < k y) := by
  cases hs : m.sortBy with
  | sortByVMID =>
    exact ⟨Int, inferInstance, fun g => g.VMID, fun x _ y _ _ _ => by simp [Model.keyLess, hs]⟩
  | sortByName =>
    exact ⟨String, inferInstance, fun g => g.Name, fun x _ y _ _ _ => by simp [Model.keyLess, hs]⟩
  | sortByStatus =>
    exact ⟨String, inferInstance, fun g => g.Status,
      fun x _ y _ _ _ => by simp [Model.keyLess, hs]⟩
  | sortByCPU =>
    exact ⟨ℚ, inferInstance, fun g => g.CPU, fun x _ y _ _ _ => by simp [Model.keyLess, hs]⟩
  | sortByMem =>
    refine ⟨ℤ ×ₗ ℚ, inferInstance, fun g => F64.toOrd g.memRatio, fun x hx y hy h1 h2 => ?_⟩
    have := F64.lt_iff_toOrd (F64.div_ofInt_ne_nan (hnan hs x hx h1))
      (F64.div_ofInt_ne_nan (hnan hs y hy h2))
    simpa [Model.keyLess, hs, Guest.memRatio] using this
  | sortByDisk =>
    exact ⟨Int, inferInstance, fun g => g.Disk, fun x _ y _ _ _ => by simp [Model.keyLess, hs]⟩
  | sortByDiskIO =>
    exact ⟨Int, inferInstance, fun g => m.getDiskRateNumeric g,
      fun x _ y _ _ _ => by simp [Model.keyLess, hs]⟩
  | sortByNetIO =>
    exact ⟨Int, inferInstance, fun g => m.getNetRateNumeric g,
      fun x _ y _ _ _ => by simp [Model.keyLess, hs]⟩

/-- When the sort is not reversed, the sorted list is one on which the
comparison never holds backwards, provided that no running guest has the memory
ratio `0 / 0` while the key is the memory use. -/
theorem sortSlice_less_not_backwards (m : Model) (hr : m.sortReverse = false) (data : List Guest)
    (hnan : m.sortBy = sortColumn.sortByMem →
      ∀ g ∈ data, g.Status = "running" → ¬ (g.Mem = 0 ∧ g.MaxMem = 0)) :
    (sortSlice m.less data).Pairwise (fun x y => m.less y x = false) := by
  obtain ⟨K, inst, k, hk⟩ := exists_key_of_keyLess m data hnan
  have hmem : ∀ {a : Guest}, a ∈ sortSlice m.less data → a ∈ data :=
    fun h => (sortSlice_perm m.less data).mem_iff.mp h
  have hcompat : ∀ x ∈ data, ∀ y ∈ data, x.Status = "running" → y.Status = "running" →
      (m.less x y = true → k x ≤ k y) ∧ (m.less x y = false → k y ≤ k x) := by
    intro x hx y hy h1 h2
    rw [less_running_running h1 h2, hr]
    simp only [Bool.false_eq_true, if_false]
    refine ⟨fun h => le_of_lt ((hk x hx y hy h1 h2).mp h), fun h => not_lt.mp ?_⟩
    intro hlt
    rw [(hk x hx y hy h1 h2).mpr hlt] at h
    exact Bool.noConfusion h
  refine (sortSlice_less_pairwise k m data hcompat).imp_of_mem ?_
  intro a b ha hb h
  by_cases h1 : a.Status = "running" <;> by_cases h2 : b.Status = "running"
  · rw [less_running_running h2 h1, hr]
    simp only [Bool.false_eq_true, if_false]
    cases hlt : m.keyLess b a with
    | false => rfl
    | true =>
      exact absurd ((hk b (hmem hb) a (hmem ha) h2 h1).mp hlt) (not_lt.mpr (h.2.2 h1 h2))
  · exact less_stopped_running h2 h1
  · exact absurd (h.1 h2) h1
  · rw [less_stopped_stopped h2 h1]
    simpa using h.2.1 h1 h2

theorem filter_running_cons_running {g : Guest} (h : g.Status = "running") (l : List Guest) :
    (g :: l).filter Guest.isRunning = g :: l.filter Guest.isRunning :=
  List.filter_cons_of_pos (by simp [Guest.isRunning, h])

theorem filter_running_cons_stopped {g : Guest} (h : g.Status ≠ "running") (l : List Guest) :
    (g :: l).filter Guest.isRunning = l.filter Guest.isRunning :=
  List.filter_cons_of_neg (by simp [Guest.isRunning, h])

/-- A list in which only running guests precede a running guest is its running
guests followed by its other guests. -/
theorem eq_running_append_stopped (l : List Guest)
    (h : l.Pairwise (fun a b => b.Status = "running" → a.Status = "running")) :
    l = l.filter Guest.isRunning ++ l.filter (fun g => !g.isRunning) := by
  induction l with
  | nil => rfl
  | cons x rest ih =>
    rw [List.pairwise_cons] at h
    by_cases hx : x.Status = "running"
    · rw [filter_running_cons_running hx, filter_stopped_cons_running hx, List.cons_append,
        ← ih h.2]
    · have hnil : rest.filter Guest.isRunning = [] := by
        rw [List.filter_eq_nil_iff]
        intro a ha hrun
        exact hx (h.1 a ha (by simpa [Guest.isRunning] using hrun))
      have hall : rest.filter (fun g => !g.isRunning) = rest := by
        rw [List.filter_eq_self]
        intro a ha
        have : a.Status ≠ "running" := fun hrun => hx (h.1 a ha hrun)
        simp [Guest.isRunning, this]
      rw [filter_running_cons_stopped hx, filter_stopped_cons_stopped hx, hnil, hall,
        List.nil_append]

theorem roundF64_one : roundF64 1 = 1 := by
  have := roundF64_intCast 1 (by norm_num)
  simpa using this

section Idempotence
variable {α : Type}

theorem insertLeft_chain {less : α → α → Bool}
    (hasymm : ∀ x y, less x y = true → less y x = false) (x : α) (l : List α)
    (hl : l.Chain' (fun later earlier => less later earlier = false)) :
    (insertLeft less x l).Chain' (fun later earlier => less later earlier = false) := by
  induction l with
  | nil => simp [insertLeft]
  | cons y before ih =>
    cases hc : less x y with
    | false =>
      rw [insertLeft_cons_neg hc]
      exact List.Chain'.cons hc hl
    | true =>
      rw [insertLeft_cons_pos hc]
      have hrest := ih hl.tail
      cases before with
      | nil =>
        rw [insertLeft_nil]
        exact List.Chain'.cons (hasymm _ _ hc) (List.chain'_singleton _)
      | cons z rest =>
        cases hz : less x z with
        | true =>
          rw [insertLeft_cons_pos hz] at hrest ⊢
          have hyz := List.Chain'.rel_head hl
          exact List.Chain'.cons hyz hrest
        | false =>
          rw [insertLeft_cons_neg hz] at hrest ⊢
          exact List.Chain'.cons (hasymm _ _ hc) hrest

theorem foldl_insertLeft_chain {less : α → α → Bool}
    (hasymm : ∀ x y, less x y = true → less y x = false) (data acc : List α)
    (ha : acc.Chain' (fun later earlier => less later earlier = false)) :
    (data.foldl (fun sortedRev x => insertLeft less x sortedRev) acc).Chain'
      (fun later earlier => less later earlier = false) := by
  induction data generalizing acc with
  | nil => exact ha
  | cons x rest ih => exact ih _ (insertLeft_chain hasymm x acc ha)

theorem foldl_insertLeft_of_chain {less : α → α → Bool} (data acc : List α)
    (h : (data.reverse ++ acc).Chain' (fun later earlier => less later earlier = false)) :
    data.foldl (fun sortedRev x => insertLeft less x sortedRev) acc = data.reverse ++ acc := by
  induction data generalizing acc with
  | nil => rfl
  | cons x rest ih =>
    have h' : (rest.reverse ++ (x :: acc)).Chain' (fun later earlier => less later earlier = false) := by
      simpa using h
    have hx : insertLeft less x acc = x :: acc := by
      cases acc with
      | nil => rfl
      | cons y before =>
        have hxy := List.Chain'.rel_head (List.chain'_append.mp h').2.1
        exact insertLeft_cons_neg hxy _
    simp only [List.foldl_cons, hx, ih _ h', List.reverse_cons, List.append_assoc,
      List.singleton_append]

/-- With a comparison function that never holds in both directions, sorting a
sorted slice of at most 12 elements changes nothing. -/
theorem sortSlice_idempotent {less : α → α → Bool}
    (hasymm : ∀ x y, less x y = true → less y x = false) (data : List α)
    (hlen : data.length ≤ 12) :
    sortSlice less (sortSlice less data) = sortSlice less data := by
  rw [sortSlice_eq_insertionSortLessFunc _ hlen, sortSlice_eq_insertionSortLessFunc _
    (by rw [(insertionSortLessFunc_perm less data).length_eq]; exact hlen)]
  unfold insertionSortLessFunc
  have hc := foldl_insertLeft_chain hasymm data [] List.chain'_nil
  rw [foldl_insertLeft_of_chain _ [] (by simpa using hc)]
  simp

end Idempotence

section SortedInput

variable {α : Type}

theorem order2_func_of_sorted {less : α → α → Bool} {data : List α}
    (h : ∀ i j, i < j → Less less data j i = false) {a b : Nat} (hab : a < b) (swaps : Nat) :
    order2_func less data a b swaps = (a, b, swaps) := by
  unfold order2_func
  rw [h a b hab]
  rfl

theorem median_func_of_sorted {less : α → α → Bool} {data : List α}
    (h : ∀ i j, i < j → Less less data j i = false) {a b c : Nat} (hab : a < b) (hbc : b < c)
    (swaps : Nat) : median_func less data a b c swaps = (b, swaps) := by
  unfold median_func
  simp only [order2_func_of_sorted h hab, order2_func_of_sorted h hbc]

theorem choosePivot_func_of_sorted {less : α → α → Bool} {data : List α}
    (h : ∀ i j, i < j → Less less data j i = false) {a b : Nat} (hab : 8 ≤ b - a) :
    choosePivot_func less data a b = (a + (b - a) / 4 * 2, sortedHint.increasingHint) := by
  have h1 : a + (b - a) / 4 * 1 < a + (b - a) / 4 * 2 := by omega
  have h2 : a + (b - a) / 4 * 2 < a + (b - a) / 4 * 3 := by omega
  unfold choosePivot_func medianAdjacent_func
  simp only [median_func_of_sorted h h1 h2,
    median_func_of_sorted h (show a + (b - a) / 4 * 1 - 1 < a + (b - a) / 4 * 1 by omega)
      (show a + (b - a) / 4 * 1 < a + (b - a) / 4 * 1 + 1 by omega),
    median_func_of_sorted h (show a + (b - a) / 4 * 2 - 1 < a + (b - a) / 4 * 2 by omega)
      (show a + (b - a) / 4 * 2 < a + (b - a) / 4 * 2 + 1 by omega),
    median_func_of_sorted h (show a + (b - a) / 4 * 3 - 1 < a + (b - a) / 4 * 3 by omega)
      (show a + (b - a) / 4 * 3 < a + (b - a) / 4 * 3 + 1 by omega)]
  rw [if_pos hab]
  by_cases h50 : b - a ≥ 50
  · rw [if_pos h50]
    rfl
  · rw [if_neg h50]
    rfl

theorem scanUp_of_all (test : Nat → Bool) (n i : Nat) (h : ∀ t, i ≤ t → test t = true) :
    scanUp test n i = i + n := by
  induction n generalizing i with
  | zero => rfl
  | succ n ih =>
    unfold scanUp
    rw [if_pos (h i (le_refl _)), ih (i + 1) (fun t ht => h t (by omega))]
    omega

theorem partialInsertionSort_func_of_sorted {less : α → α → Bool} {data : List α}
    (h : ∀ i j, i < j → Less less data j i = false) {a b : Nat} (hab : a < b) :
    partialInsertionSort_func less data a b = (data, true) := by
  have hs : scanUp (fun i => !Less less data i (i - 1)) (b - (a + 1)) (a + 1) = b := by
    rw [scanUp_of_all (fun i => !Less less data i (i - 1)) (b - (a + 1)) (a + 1)
      (fun t ht => by show (!Less less data t (t - 1)) = true; rw [h (t - 1) t (by omega)]; rfl)]
    omega
  unfold partialInsertionSort_func
  show partialInsertionSort_loop less a b (4 + 1) data (a + 1) = (data, true)
  rw [partialInsertionSort_loop]
  simp only [hs, if_true]

/-- A slice on which the comparison never holds backwards is left as it is. -/
theorem sortSlice_of_sorted {less : α → α → Bool} {data : List α}
    (hp : data.Pairwise (fun x y => less y x = false)) : sortSlice less data = data := by
  by_cases hlen : data.length ≤ 12
  · rw [sortSlice_eq_insertionSortLessFunc _ hlen]
    unfold insertionSortLessFunc
    have hc : (data.reverse ++ []).Chain' (fun later earlier => less later earlier = false) := by
      rw [List.append_nil]
      exact List.Pairwise.chain' (List.pairwise_reverse.mpr hp)
    rw [foldl_insertLeft_of_chain data [] hc]
    simp
  · have h : ∀ i j, i < j → Less less data j i = false := by
      intro i j hij
      unfold Less
      by_cases hj : j < data.length
      · rw [List.getElem?_eq_getElem hj, List.getElem?_eq_getElem (show i < data.length by omega)]
        exact List.pairwise_iff_getElem.mp hp i j (by omega) hj hij
      · rw [List.getElem?_eq_none (by omega)]
    unfold sortSlice
    rw [pdqsort_func_succ, if_neg (by omega)]
    have hlim : bitsLen data.length data.length ≠ 0 := by
      cases hd : data.length with
      | zero => omega
      | succ n =>
        unfold bitsLen
        rw [if_neg (by omega)]
        omega
    rw [if_neg hlim]
    have hatt : pdqsort_attempt less data 0 data.length true true
        = ((data, true), 0 + (data.length - 0) / 4 * 2) := by
      have hcp := choosePivot_func_of_sorted h (show 8 ≤ data.length - 0 by omega)
      unfold pdqsort_attempt
      simp only [Bool.not_true, Bool.false_eq_true, if_false]
      rw [hcp]
      simp [partialInsertionSort_func_of_sorted h (show 0 < data.length by omega)]
    rw [hatt]
    rfl

end SortedInput

theorem less_asymm_of_not_reversed (m : Model) (hr : m.sortReverse = false) (x y : Guest)
    (h : m.less x y = true) : m.less y x = false := by
  by_cases hx : x.Status = "running" <;> by_cases hy : y.Status = "running"
  · rw [less_running_running hx hy, hr] at h
    rw [less_running_running hy hx, hr]
    exact keyLess_asymm m (by simpa using h)
  · exact less_stopped_running hy hx
  · rw [less_stopped_running hx hy] at h; exact absurd h (by simp)
  · rw [less_stopped_stopped hx hy] at h
    rw [less_stopped_stopped hy hx]
    have : x.VMID < y.VMID := by simpa using h
    simp only [decide_eq_false_iff_not, not_lt]
    omega

/-- When the sort is not reversed, `sortGuests` is idempotent for every sort key,
on every list of at most 12 guests and on every list in which no running guest
has the memory ratio `0 / 0` while the key is the memory use. -/
theorem sortGuests_idempotent_of_not_reversed (m : Model) (hr : m.sortReverse = false)
    (h : m.guests.length ≤ 12 ∨ (m.sortBy = sortColumn.sortByMem →
      ∀ g ∈ m.guests, g.Status = "running" → ¬ (g.Mem = 0 ∧ g.MaxMem = 0))) :
    m.sortGuests.sortGuests = m.sortGuests := by
  have h : sortSlice m.less (sortSlice m.less m.guests) = sortSlice m.less m.guests := by
    rcases h with hlen | hnan
    · exact sortSlice_idempotent (less_asymm_of_not_reversed m hr) m.guests hlen
    · exact sortSlice_of_sorted (sortSlice_less_not_backwards m hr m.guests hnan)
  show ({ m.sortGuests with guests := sortSlice m.less (sortSlice m.less m.guests) } : Model)
    = m.sortGuests
  rw [h]
  rfl

/-! ## C7 .. C10: `sortGuests` -/

/-- C7: for every guest list, sort key and reverse flag, after `sortGuests` every
running guest stands before every guest that is not running. -/
theorem running_guests_precede_the_others (m : Model) (i j : Nat) (a b : Guest)
    (hi : m.sortGuests.guests[i]? = some a) (hj : m.sortGuests.guests[j]? = some b)
    (ha : a.Status = "running") (hb : b.Status ≠ "running") : i < j := by
  have hp := sortSlice_less_partition m m.guests
  rw [List.pairwise_iff_getElem] at hp
  obtain ⟨hi', rfl⟩ := List.getElem?_eq_some.mp hi
  obtain ⟨hj', rfl⟩ := List.getElem?_eq_some.mp hj
  rcases Nat.lt_trichotomy i j with h | h | h
  · exact h
  · subst h; exact absurd ha hb
  · exact absurd ((hp j i hj' hi' h).1 ha) hb

/-- Witness for C7 on a list of thirteen guests sorted by CPU: the running guest
at index 10 and the stopped guest at index 11 of the sorted list. -/
theorem running_guests_precede_the_others_witness :
    (sharedIdModel false).sortGuests.guests[10]? = some (namedGuest 111 "r" "running" 11) ∧
    (sharedIdModel false).sortGuests.guests[11]? = some (namedGuest 50 "a" "stopped" 0) ∧
    (namedGuest 111 "r" "running" 11).Status = "running" ∧
    (namedGuest 50 "a" "stopped" 0).Status ≠ "running" ∧ 10 < 11 :=
  ⟨by decide, by decide, by decide, by decide,
    running_guests_precede_the_others (sharedIdModel false) 10 11
      (namedGuest 111 "r" "running" 11) (namedGuest 50 "a" "stopped" 0) (by decide) (by decide)
      (by decide) (by decide)⟩

/-- C8 fails as stated: of thirteen guests sorted by CPU, the two stopped guests
`a` and `b` that share the id 50 come out as `a`, `b` when the sort is not
reversed and as `b`, `a` when it is. -/
theorem stopped_guests_with_the_same_id_change_places :
    (sharedIdModel false).sortGuests.guests.filter (fun g => !g.isRunning)
      = [namedGuest 50 "a" "stopped" 0, namedGuest 50 "b" "stopped" 0] ∧
    (sharedIdModel true).sortGuests.guests.filter (fun g => !g.isRunning)
      = [namedGuest 50 "b" "stopped" 0, namedGuest 50 "a" "stopped" 0] := by
  decide

theorem filter_stopped_sorted (m : Model) :
    (m.sortGuests.guests.filter (fun g => !g.isRunning)).Pairwise
      (fun a b => a.VMID ≤ b.VMID) := by
  have hp := (sortSlice_less_partition m m.guests).filter (fun g => !g.isRunning)
  refine hp.imp_of_mem ?_
  intro a b hma hmb h
  have ha : a.Status ≠ "running" := by
    have := (List.mem_filter.mp hma).2
    simpa [Guest.isRunning] using this
  have hb : b.Status ≠ "running" := by
    have := (List.mem_filter.mp hmb).2
    simpa [Guest.isRunning] using this
  exact h.2 ha hb

theorem filter_stopped_perm (m : Model) :
    (m.sortGuests.guests.filter (fun g => !g.isRunning)).Perm
      (m.guests.filter (fun g => !g.isRunning)) :=
  (sortSlice_perm m.less m.guests).filter _

/-- C8 (as amended): after `sortGuests` the guests that are not running are in
ascending id order, and their ids form the same sequence whatever the sort key
and the reverse flag: the ids of the non-running guests of the input in
ascending order. The guests themselves form the same sequence whatever the key
and the flag when no two non-running guests share an id (the non-running guests
of the input in ascending id order), and when the list has at most 12 guests
(the non-running guests of the input sorted by id, ties in the order of the
input). -/
theorem stopped_guests_sorted_by_id_whatever_the_key (m : Model) :
    (m.sortGuests.guests.filter (fun g => !g.isRunning)).Pairwise
      (fun a b => a.VMID ≤ b.VMID) ∧
    (∀ (sortBy : sortColumn) (sortReverse : Bool),
      (({ m with sortBy := sortBy, sortReverse := sortReverse } : Model).sortGuests.guests.filter
          (fun g => !g.isRunning)).map (fun g => g.VMID)
        = ((m.guests.filter (fun g => !g.isRunning)).map (fun g => g.VMID)).insertionSort
            (fun x y => x ≤ y)) ∧
    (((m.guests.filter (fun g => !g.isRunning)).map (fun g => g.VMID)).Nodup →
      ∀ (sortBy : sortColumn) (sortReverse : Bool),
        ({ m with sortBy := sortBy, sortReverse := sortReverse } : Model).sortGuests.guests.filter
            (fun g => !g.isRunning)
          = (m.guests.filter (fun g => !g.isRunning)).insertionSort
              (fun a b => a.VMID ≤ b.VMID)) ∧
    (m.guests.length ≤ 12 →
      ∀ (sortBy : sortColumn) (sortReverse : Bool),
        ({ m with sortBy := sortBy, sortReverse := sortReverse } : Model).sortGuests.guests.filter
            (fun g => !g.isRunning)
          = insertionSortLessFunc idLess (m.guests.filter (fun g => !g.isRunning))) := by
  refine ⟨filter_stopped_sorted m, ?_, ?_, ?_⟩
  · intro sortBy sortReverse
    refine List.eq_of_perm_of_sorted (r := fun x y : Int => x ≤ y) ?_ ?_ ?_
    · exact ((filter_stopped_perm _).map _).trans (List.perm_insertionSort _ _).symm
    · exact List.pairwise_map.mpr (filter_stopped_sorted _)
    · exact List.sorted_insertionSort _ _
  · intro hnd sortBy sortReverse
    haveI : IsAntisymm Guest (fun a b => a.VMID < b.VMID) :=
      ⟨fun a b h1 h2 => absurd h1 (not_lt.mpr (le_of_lt h2))⟩
    haveI : IsTotal Guest (fun a b => a.VMID ≤ b.VMID) := ⟨fun a b => le_total _ _⟩
    haveI : IsTrans Guest (fun a b => a.VMID ≤ b.VMID) := ⟨fun a b c h1 h2 => le_trans h1 h2⟩
    have strict : ∀ l : List Guest, l.Perm (m.guests.filter (fun g => !g.isRunning)) →
        l.Pairwise (fun a b => a.VMID ≤ b.VMID) → l.Pairwise (fun a b => a.VMID < b.VMID) := by
      intro l hl hs
      have hnd' : (l.map (fun g => g.VMID)).Nodup := (hl.map _).nodup_iff.mpr hnd
      have hne : l.Pairwise (fun a b => a.VMID ≠ b.VMID) := List.pairwise_map.mp hnd'
      exact (hs.and hne).imp (fun h => lt_of_le_of_ne h.1 h.2)
    refine List.eq_of_perm_of_sorted (r := fun a b : Guest => a.VMID < b.VMID) ?_ ?_ ?_
    · exact (filter_stopped_perm _).trans (List.perm_insertionSort _ _).symm
    · exact strict _ (filter_stopped_perm _) (filter_stopped_sorted _)
    · exact strict _ (List.perm_insertionSort _ _) (List.sorted_insertionSort _ _)
  · intro hlen sortBy sortReverse
    exact filter_stopped_sortSlice _ m.guests hlen

/-- Witness for C8 on the scenario of the specification (ten guests with distinct
ids): whatever the key and the flag, the seven guests that are not running come
out in ascending id order. -/
theorem stopped_guests_sorted_by_id_whatever_the_key_witness :
    ((scenarioModel.guests.filter (fun g => !g.isRunning)).map (fun g => g.VMID)).Nodup ∧
    scenarioModel.guests.length ≤ 12 ∧
    (({ scenarioModel with sortBy := sortColumn.sortByVMID, sortReverse := true } :
        Model).sortGuests.guests.filter (fun g => !g.isRunning)).map (fun g => g.VMID)
      = [104, 105, 106, 107, 108, 109, 110] ∧
    ({ scenarioModel with sortBy := sortColumn.sortByVMID, sortReverse := true } :
        Model).sortGuests.guests.filter (fun g => !g.isRunning)
      = (scenarioModel.guests.filter (fun g => !g.isRunning)).insertionSort
          (fun a b => a.VMID ≤ b.VMID) ∧
    ({ scenarioModel with sortBy := sortColumn.sortByVMID, sortReverse := true } :
        Model).sortGuests.guests.filter (fun g => !g.isRunning)
      = insertionSortLessFunc idLess (scenarioModel.guests.filter (fun g => !g.isRunning)) :=
  ⟨by decide, by decide, by decide,
    (stopped_guests_sorted_by_id_whatever_the_key scenarioModel).2.2.1 (by decide)
      sortColumn.sortByVMID true,
    (stopped_guests_sorted_by_id_whatever_the_key scenarioModel).2.2.2 (by decide)
      sortColumn.sortByVMID true⟩

/-- C9 (as amended): after `sortGuests` the running guests are in non-decreasing
order of the selected key when the sort is not reversed and in non-increasing
order of that key when it is, provided that, when the key is the memory use, no
running guest has used and maximum memory both 0 (a ratio that is not a number).
The order is that of the field the key names. The sorted list is the running
guests followed by the others, the others by ascending id; so with key CPU, not
reversed, it is the running guests by ascending CPU followed by the others by
ascending id. -/
theorem running_guests_sorted_by_key (m : Model)
    (hnan : m.sortBy = sortColumn.sortByMem →
      ∀ g ∈ m.guests, g.Status = "running" → ¬ (g.Mem = 0 ∧ g.MaxMem = 0)) :
    (m.sortReverse = false →
      (m.sortGuests.guests.filter Guest.isRunning).Pairwise (fun a b => m.keyLE a b)) ∧
    (m.sortReverse = true →
      (m.sortGuests.guests.filter Guest.isRunning).Pairwise (fun a b => m.keyLE b a)) ∧
    m.sortGuests.guests
      = m.sortGuests.guests.filter Guest.isRunning
        ++ m.sortGuests.guests.filter (fun g => !g.isRunning) ∧
    (m.sortGuests.guests.filter (fun g => !g.isRunning)).Pairwise
      (fun a b => a.VMID ≤ b.VMID) ∧
    (m.sortBy = sortColumn.sortByCPU → m.sortReverse = false →
      (m.sortGuests.guests.filter Guest.isRunning).Pairwise (fun a b => a.CPU ≤ b.CPU)) := by
  have hp := (sortSlice_less_running m m.guests hnan).filter Guest.isRunning
  have hrun : ∀ {a : Guest}, a ∈ (sortSlice m.less m.guests).filter Guest.isRunning →
      a.Status = "running" := by
    intro a ha
    have := (List.mem_filter.mp ha).2
    simpa [Guest.isRunning] using this
  have hfalse : m.sortReverse = false →
      (m.sortGuests.guests.filter Guest.isRunning).Pairwise (fun a b => m.keyLE a b) := by
    intro hr
    refine hp.imp_of_mem ?_
    intro a b ha hb h
    have := h (hrun ha) (hrun hb)
    simpa [hr] using this
  refine ⟨hfalse, ?_, ?_, filter_stopped_sorted m, ?_⟩
  · intro hr
    refine hp.imp_of_mem ?_
    intro a b ha hb h
    have := h (hrun ha) (hrun hb)
    simpa [hr] using this
  · exact eq_running_append_stopped _ ((sortSlice_less_partition m m.guests).imp (fun h => h.1))
  · intro hs hr
    refine (hfalse hr).imp ?_
    intro a b h
    simpa [Model.keyLE, hs] using h

/-- Witness for C9, the scenario of the specification: ten guests, three of
them running, sorted by CPU and not reversed, come out as the three running
guests by ascending CPU followed by the seven others by ascending id. -/
theorem running_guests_sorted_by_key_witness :
    (scenarioModel.sortBy = sortColumn.sortByMem →
      ∀ g ∈ scenarioModel.guests, g.Status = "running" → ¬ (g.Mem = 0 ∧ g.MaxMem = 0)) ∧
    scenarioModel.sortBy = sortColumn.sortByCPU ∧ scenarioModel.sortReverse = false ∧
    (scenarioModel.sortGuests.guests.filter Guest.isRunning).Pairwise
      (fun a b => a.CPU ≤ b.CPU) ∧
    scenarioModel.sortGuests.guests =
      [sampleLoad 102 "running" 1 3 4, sampleLoad 103 "running" 3 1 4,
       sampleLoad 101 "running" 5 2 4, sampleLoad 104 "paused" 9 1 4,
       sampleLoad 105 "stopped" 0 0 4, sampleLoad 106 "stopped" 0 0 4,
       sampleLoad 107 "stopped" 0 0 4, sampleLoad 108 "stopped" 0 0 4,
       sampleLoad 109 "stopped" 0 0 4, sampleLoad 110 "stopped" 0 0 4] :=
  ⟨by decide, by decide, by decide,
    (running_guests_sorted_by_key scenarioModel (by decide)).2.2.2.2 (by decide) (by decide),
    by decide⟩

theorem memRatio_zero_zero (vmid : Int) (status : String) (cpu : ℚ) :
    (sampleLoad vmid status cpu 0 0).memRatio = F64.nan := by
  simp [Guest.memRatio, sampleLoad, F64.div, F64.ofInt, F64.round, roundF64_zero]

theorem memRatio_one_one (vmid : Int) (status : String) (cpu : ℚ) :
    (sampleLoad vmid status cpu 1 1).memRatio = F64.fin 1 := by
  simp [Guest.memRatio, sampleLoad, F64.div, F64.ofInt, F64.round, roundF64_one]

/-- C9 fails as stated. Sorted by memory use, not reversed, three running guests
with ratios 1, NaN (0 / 0) and 0 keep that order, so a guest with ratio 0 comes
after a guest with ratio 1. Sorted by memory use, reversed, two running guests
with ratios 1 and NaN come out as NaN, 1, and 1 is not at most NaN. -/
theorem memory_sort_disordered_by_nan :
    (nanModel.sortBy = sortColumn.sortByMem ∧ nanModel.sortReverse = false ∧
      nanModel.sortGuests.guests.filter Guest.isRunning
        = [sampleLoad 101 "running" 0 1 1, sampleLoad 102 "running" 0 0 0,
           sampleLoad 103 "running" 0 0 1] ∧
      nanModel.keyLess (sampleLoad 103 "running" 0 0 1) (sampleLoad 101 "running" 0 1 1) = true ∧
      ¬ (nanModel.sortGuests.guests.filter Guest.isRunning).Pairwise
          (fun a b => nanModel.keyLess b a = false) ∧
      ¬ (nanModel.sortGuests.guests.filter Guest.isRunning).Pairwise
          (fun a b => nanModel.keyLE a b)) ∧
    (nanModelReversed.sortBy = sortColumn.sortByMem ∧ nanModelReversed.sortReverse = true ∧
      nanModelReversed.sortGuests.guests.filter Guest.isRunning
        = [sampleLoad 102 "running" 0 0 0, sampleLoad 101 "running" 0 1 1] ∧
      ¬ (nanModelReversed.sortGuests.guests.filter Guest.isRunning).Pairwise
          (fun a b => nanModelReversed.keyLE b a)) := by
  have hBA : nanModel.less (sampleLoad 102 "running" 0 0 0) (sampleLoad 101 "running" 0 1 1)
      = false := by
    simp [Model.less, Model.keyLess, nanModel, sampleLoad, F64.div, F64.ofInt, F64.round, F64.lt,
      roundF64_zero, roundF64_one]
  have hCB : nanModel.less (sampleLoad 103 "running" 0 0 1) (sampleLoad 102 "running" 0 0 0)
      = false := by
    simp [Model.less, Model.keyLess, nanModel, sampleLoad, F64.div, F64.ofInt, F64.round, F64.lt,
      roundF64_zero, roundF64_one]
  have hCA : nanModel.keyLess (sampleLoad 103 "running" 0 0 1) (sampleLoad 101 "running" 0 1 1)
      = true := by
    simp [Model.keyLess, nanModel, sampleLoad, F64.div, F64.ofInt, F64.round, F64.lt,
      roundF64_zero, roundF64_one]
  have hsorted : nanModel.sortGuests.guests
      = [sampleLoad 101 "running" 0 1 1, sampleLoad 102 "running" 0 0 0,
         sampleLoad 103 "running" 0 0 1] := by
    show sortSlice nanModel.less nanGuests = _
    rw [sortSlice_eq_insertionSortLessFunc _ (by decide)]
    unfold insertionSortLessFunc nanGuests
    simp only [List.foldl_cons, List.foldl_nil, insertLeft_nil, insertLeft_cons_neg hBA,
      insertLeft_cons_neg hCB]
    rfl
  have hfilter : nanModel.sortGuests.guests.filter Guest.isRunning
      = [sampleLoad 101 "running" 0 1 1, sampleLoad 102 "running" 0 0 0,
         sampleLoad 103 "running" 0 0 1] := by
    rw [hsorted]; decide
  have hle : ¬ nanModel.keyLE (sampleLoad 101 "running" 0 1 1) (sampleLoad 102 "running" 0 0 0) := by
    show ¬ F64.le _ _ = true
    rw [memRatio_zero_zero, memRatio_one_one]
    decide
  have hRev : nanModelReversed.less (sampleLoad 102 "running" 0 0 0)
      (sampleLoad 101 "running" 0 1 1) = true := by
    simp [Model.less, Model.keyLess, nanModelReversed, NewModel, sampleLoad, F64.div, F64.ofInt,
      F64.round, F64.lt, roundF64_zero, roundF64_one]
  have hsortedR : nanModelReversed.sortGuests.guests
      = [sampleLoad 102 "running" 0 0 0, sampleLoad 101 "running" 0 1 1] := by
    show sortSlice nanModelReversed.less
      [sampleLoad 101 "running" 0 1 1, sampleLoad 102 "running" 0 0 0] = _
    rw [sortSlice_eq_insertionSortLessFunc _ (by decide)]
    unfold insertionSortLessFunc
    simp only [List.foldl_cons, List.foldl_nil, insertLeft_nil, insertLeft_cons_pos hRev]
    rfl
  have hfilterR : nanModelReversed.sortGuests.guests.filter Guest.isRunning
      = [sampleLoad 102 "running" 0 0 0, sampleLoad 101 "running" 0 1 1] := by
    rw [hsortedR]; decide
  refine ⟨⟨rfl, rfl, hfilter, hCA, ?_, ?_⟩, rfl, rfl, hfilterR, ?_⟩
  · rw [hfilter]
    intro hp
    have := (List.pairwise_cons.mp hp).1 (sampleLoad 103 "running" 0 0 1) (by simp)
    rw [hCA] at this
    exact absurd this (by simp)
  · rw [hfilter]
    intro hp
    exact hle ((List.pairwise_cons.mp hp).1 (sampleLoad 102 "running" 0 0 0) (by simp))
  · rw [hfilterR]
    intro hp
    exact hle ((List.pairwise_cons.mp hp).1 (sampleLoad 101 "running" 0 1 1) (by simp))

/-- C10 fails on the code: with the settings of `NewModel` (key CPU, reversed),
two running guests with the same CPU use are swapped by every call of
`sortGuests`, so sorting twice is not sorting once. -/
theorem sortGuests_swaps_ties_when_reversed :
    tieModel.sortBy = sortColumn.sortByCPU ∧ tieModel.sortReverse = true ∧
    tieModel.sortGuests.guests
      = [sampleLoad 102 "running" 0 1 4, sampleLoad 101 "running" 0 1 4] ∧
    tieModel.sortGuests.sortGuests.guests
      = [sampleLoad 101 "running" 0 1 4, sampleLoad 102 "running" 0 1 4] ∧
    tieModel.sortGuests.sortGuests.guests ≠ tieModel.sortGuests.guests := by
  decide

/-! ## C5, C6: snapshot rotation -/

theorem foldl_prevGuestMap_some (guests : List Guest) (acc : Int → Option Guest) (id : Int)
    (g : Guest)
    (h : guests.foldl
      (fun prevGuestMap guest k => if k = guest.VMID then some guest else prevGuestMap k) acc id
        = some g) :
    (g ∈ guests ∧ g.VMID = id) ∨ acc id = some g := by
  induction guests generalizing acc with
  | nil => exact Or.inr h
  | cons x rest ih =>
    simp only [List.foldl_cons] at h
    rcases ih _ h with ⟨hm, hid⟩ | hacc
    · exact Or.inl ⟨List.mem_cons_of_mem _ hm, hid⟩
    · by_cases hk : id = x.VMID
      · simp only [hk, if_true, Option.some.injEq] at hacc
        subst hacc
        exact Or.inl ⟨List.mem_cons_self _ _, hk.symm⟩
      · simp only [hk, if_false] at hacc
        exact Or.inr hacc

theorem foldl_prevGuestMap_none (guests : List Guest) (acc : Int → Option Guest) (id : Int) :
    guests.foldl
      (fun prevGuestMap guest k => if k = guest.VMID then some guest else prevGuestMap k) acc id
        = none ↔ (∀ g ∈ guests, g.VMID ≠ id) ∧ acc id = none := by
  induction guests generalizing acc with
  | nil => simp
  | cons x rest ih =>
    simp only [List.foldl_cons, ih, List.mem_cons, forall_eq_or_imp]
    by_cases hk : id = x.VMID
    · simp [hk]
    · have hk' : x.VMID ≠ id := fun h => hk h.symm
      simp [hk, hk']

theorem buildPrevGuestMap_some {guests : List Guest} {id : Int} {g : Guest}
    (h : buildPrevGuestMap guests id = some g) : g ∈ guests ∧ g.VMID = id := by
  rcases foldl_prevGuestMap_some guests _ id g h with h | h
  · exact h
  · exact absurd h (by simp)

theorem buildPrevGuestMap_none {guests : List Guest} {id : Int} :
    buildPrevGuestMap guests id = none ↔ ∀ g ∈ guests, g.VMID ≠ id := by
  unfold buildPrevGuestMap
  rw [foldl_prevGuestMap_none]
  simp

theorem applyData_guests_perm (m : Model) (guests : List Guest) (nodes : List Node) (now : Time) :
    (m.applyData guests nodes now).guests.Perm guests := by
  unfold Model.applyData Model.sortGuests
  dsimp only
  split_ifs <;> exact sortSlice_perm _ _

theorem applyData_fields (m : Model) (guests : List Guest) (nodes : List Node) (now : Time) :
    (m.applyData guests nodes now).prevGuests = m.guests ∧
    (m.applyData guests nodes now).prevGuestMap = buildPrevGuestMap m.guests ∧
    (m.applyData guests nodes now).nodes = nodes ∧
    (m.applyData guests nodes now).lastUpdate = now ∧
    (m.lastUpdate.IsZero = false → (m.applyData guests nodes now).lastFetch = m.lastUpdate) ∧
    (m.lastUpdate.IsZero = true → m.lastFetch.IsZero = true →
      (m.applyData guests nodes now).lastFetch = now) := by
  unfold Model.applyData Model.sortGuests
  cases h1 : m.lastUpdate.IsZero <;> cases h2 : m.lastFetch.IsZero <;> simp [h1, h2]

/-- C5: when `Update` processes a data arrival, whatever the state of the model:
the previous generation becomes the old current one (`prevGuests` is the old
guest list; the previous-guest map has an entry for an id exactly when the old
list holds a guest with that id, and the entry is such a guest), the current
generation becomes the new one (`guests` is a permutation of the arrived guests,
`nodes` are the arrived nodes), `lastFetch` becomes the old `lastUpdate` when
that one is set, `lastUpdate` becomes the current time, and no command is
issued. -/
theorem data_arrival_rotates_generations (m : Model) (guests : List Guest) (nodes : List Node)
    (now : Time) :
    (m.Update (Msg.data guests nodes) now).1.prevGuests = m.guests ∧
    (∀ id : Int, (∃ g, (m.Update (Msg.data guests nodes) now).1.prevGuestMap id = some g)
      ↔ ∃ g ∈ m.guests, g.VMID = id) ∧
    (∀ (id : Int) (g : Guest), (m.Update (Msg.data guests nodes) now).1.prevGuestMap id = some g →
      g ∈ m.guests ∧ g.VMID = id) ∧
    (m.Update (Msg.data guests nodes) now).1.guests.Perm guests ∧
    (m.Update (Msg.data guests nodes) now).1.nodes = nodes ∧
    (m.lastUpdate.IsZero = false →
      (m.Update (Msg.data guests nodes) now).1.lastFetch = m.lastUpdate) ∧
    (m.Update (Msg.data guests nodes) now).1.lastUpdate = now ∧
    (m.Update (Msg.data guests nodes) now).2 = Cmd.none := by
  obtain ⟨h1, h2, h4, h5, h6, _⟩ := applyData_fields m guests nodes now
  show (m.applyData guests nodes now).prevGuests = m.guests ∧ _
  refine ⟨h1, ?_, ?_, ?_, h4, h6, h5, rfl⟩
  · intro id
    show (∃ g, (m.applyData guests nodes now).prevGuestMap id = some g) ↔ _
    rw [h2]
    constructor
    · rintro ⟨g, hg⟩
      exact ⟨g, buildPrevGuestMap_some hg⟩
    · rintro ⟨g, hg, hid⟩
      cases hb : buildPrevGuestMap m.guests id with
      | none => exact absurd hid (buildPrevGuestMap_none.mp hb g hg)
      | some g' => exact ⟨g', rfl⟩
  · intro id g hg
    have hg' : (m.applyData guests nodes now).prevGuestMap id = some g := hg
    rw [h2] at hg'
    exact buildPrevGuestMap_some hg'
  · exact applyData_guests_perm m guests nodes now

/-- Witness for C5: a model last updated at instant 2 receives ten guests at
instant 3. -/
theorem data_arrival_rotates_generations_witness :
    (sampleModel (sampleGuest 100 "running" 1000 7 0 0) 1 2).lastUpdate.IsZero = false ∧
    ((sampleModel (sampleGuest 100 "running" 1000 7 0 0) 1 2).Update
        (Msg.data scenarioGuests []) ⟨3⟩).1.lastFetch
      = (sampleModel (sampleGuest 100 "running" 1000 7 0 0) 1 2).lastUpdate ∧
    ((sampleModel (sampleGuest 100 "running" 1000 7 0 0) 1 2).Update
        (Msg.data scenarioGuests []) ⟨3⟩).1.lastUpdate = ⟨3⟩ :=
  ⟨by decide,
    (data_arrival_rotates_generations (sampleModel (sampleGuest 100 "running" 1000 7 0 0) 1 2)
      scenarioGuests [] ⟨3⟩).2.2.2.2.2.1 (by decide),
    (data_arrival_rotates_generations (sampleModel (sampleGuest 100 "running" 1000 7 0 0) 1 2)
      scenarioGuests [] ⟨3⟩).2.2.2.2.2.2.1⟩

/-- C6: starting from `NewModel`, after `Update` has processed the first data
arrival the previous generation is empty (no previous guest, no entry in the
previous-guest map) and `getDiskRateNumeric` and `getNetRateNumeric` return 0 for
every guest, whatever its counters. -/
theorem first_snapshot_has_no_previous_sample (guests : List Guest) (nodes : List Node)
    (now : Time) :
    (NewModel.Update (Msg.data guests nodes) now).1.prevGuests = [] ∧
    (∀ id : Int, (NewModel.Update (Msg.data guests nodes) now).1.prevGuestMap id = none) ∧
    (∀ g : Guest,
      (NewModel.Update (Msg.data guests nodes) now).1.getDiskRateNumeric g = 0 ∧
      (NewModel.Update (Msg.data guests nodes) now).1.getNetRateNumeric g = 0) := by
  obtain ⟨h1, h2, _⟩ := applyData_fields NewModel guests nodes now
  have hmap : ∀ id : Int, (NewModel.applyData guests nodes now).prevGuestMap id = none := by
    intro id
    rw [h2]
    rfl
  exact ⟨h1, hmap, fun g => ⟨getDiskRateNumeric_of_none (hmap _), getNetRateNumeric_of_none (hmap _)⟩⟩

/-! ## C13 .. C16: `getVisibleColumns` -/

open column

theorem remainingWidth_values :
    remainingWidth 0 = 111 ∧ remainingWidth 1 = 97 ∧ remainingWidth 2 = 83 ∧
    remainingWidth 3 = 67 ∧ remainingWidth 4 = 60 ∧ remainingWidth 5 = 51 ∧
    remainingWidth 6 = 44 ∧ remainingWidth 7 = 37 ∧ remainingWidth 8 = 30 := by decide

theorem hiddenCount_eq (w : Int) :
    hiddenCount w = if 111 ≤ w then 0 else if 97 ≤ w then 1 else if 83 ≤ w then 2
      else if 67 ≤ w then 3 else if 60 ≤ w then 4 else if 51 ≤ w then 5
      else if 44 ≤ w then 6 else if 37 ≤ w then 7 else 8 := by
  obtain ⟨h0, h1, h2, h3, h4, h5, h6, h7, _⟩ := remainingWidth_values
  have hr : List.range 8 = [0, 1, 2, 3, 4, 5, 6, 7] := by decide
  unfold hiddenCount
  rw [hr]
  simp only [List.find?, h0, h1, h2, h3, h4, h5, h6, h7]
  by_cases c0 : (111 : Int) ≤ w
  · simp [c0]
  by_cases c1 : (97 : Int) ≤ w
  · simp [c0, c1]
  by_cases c2 : (83 : Int) ≤ w
  · simp [c0, c1, c2]
  by_cases c3 : (67 : Int) ≤ w
  · simp [c0, c1, c2, c3]
  by_cases c4 : (60 : Int) ≤ w
  · simp [c0, c1, c2, c3, c4]
  by_cases c5 : (51 : Int) ≤ w
  · simp [c0, c1, c2, c3, c4, c5]
  by_cases c6 : (44 : Int) ≤ w
  · simp [c0, c1, c2, c3, c4, c5, c6]
  by_cases c7 : (37 : Int) ≤ w
  · simp [c0, c1, c2, c3, c4, c5, c6, c7]
  · simp [c0, c1, c2, c3, c4, c5, c6, c7]

theorem sacrificeLoop_eq (width : Int) (columns : List (column × Int)) (order : List column)
    (visible : columnMap) (totalWidth : Int) :
    sacrificeLoop width columns order visible totalWidth
      = (order.take (sacrificeSteps width columns order totalWidth)).foldl
          (fun visible col => visible.set col false) visible := by
  induction order generalizing visible totalWidth with
  | nil => rfl
  | cons col rest ih =>
    unfold sacrificeLoop sacrificeSteps
    split_ifs with h
    · rfl
    · rw [ih]; rfl

theorem sacrificeSteps_eq (w : Int) :
    sacrificeSteps w optionalColumns sacrificeOrder 111 = hiddenCount w := by
  rw [hiddenCount_eq]
  have s1 : subtractWidth optionalColumns colDiskIO 111 = 97 := by decide
  have s2 : subtractWidth optionalColumns colNetIO 97 = 83 := by decide
  have s3 : subtractWidth optionalColumns colMemGiB 83 = 67 := by decide
  have s4 : subtractWidth optionalColumns colID 67 = 60 := by decide
  have s5 : subtractWidth optionalColumns colStatus 60 = 51 := by decide
  have s6 : subtractWidth optionalColumns colType 51 = 44 := by decide
  have s7 : subtractWidth optionalColumns colMem 44 = 37 := by decide
  unfold sacrificeOrder
  simp only [sacrificeSteps, s1, s2, s3, s4, s5, s6, s7]
  split_ifs <;> rfl

theorem getVisibleColumns_eq_visibleWhenHidden (m : Model) :
    m.getVisibleColumns = visibleWhenHidden (hiddenCount m.width) := by
  have ht : optionalColumns.foldl (fun total col => total + col.2) (20 + 8 + 2) = (111 : Int) := by
    decide
  unfold Model.getVisibleColumns visibleWhenHidden
  simp only [ht, sacrificeLoop_eq, sacrificeSteps_eq]

theorem hiddenCount_le (w : Int) : hiddenCount w ≤ 8 := by
  rw [hiddenCount_eq]
  split_ifs <;> omega

theorem visibleWhenHidden_eq (k : Nat) (hk : k ≤ 8) (col : column) :
    visibleWhenHidden k col = some (decide (col ∉ sacrificeOrder.take k)) := by
  interval_cases k <;> cases col <;> decide

theorem getVisibleColumns_apply (m : Model) (col : column) :
    m.getVisibleColumns col = some (decide (col ∉ sacrificeOrder.take (hiddenCount m.width))) := by
  rw [getVisibleColumns_eq_visibleWhenHidden]
  exact visibleWhenHidden_eq _ (hiddenCount_le _) col

theorem hiddenCount_fits (w : Int) (h : hiddenCount w < 8) : remainingWidth (hiddenCount w) ≤ w := by
  obtain ⟨h0, h1, h2, h3, h4, h5, h6, h7, h8⟩ := remainingWidth_values
  revert h
  rw [hiddenCount_eq]
  split_ifs <;> simp_all

theorem hiddenCount_min (w : Int) (j : Nat) (hj : j < hiddenCount w) : ¬ remainingWidth j ≤ w := by
  obtain ⟨h0, h1, h2, h3, h4, h5, h6, h7, h8⟩ := remainingWidth_values
  revert hj
  rw [hiddenCount_eq]
  split_ifs <;> intro hj <;> interval_cases j <;> simp_all

theorem hiddenCount_antitone {w1 w2 : Int} (h : w1 ≤ w2) : hiddenCount w2 ≤ hiddenCount w1 := by
  by_contra hlt
  have hlt' : hiddenCount w1 < hiddenCount w2 := Nat.lt_of_not_le hlt
  have h8 := hiddenCount_le w2
  have hfit := hiddenCount_fits w1 (by omega)
  exact hiddenCount_min w2 _ hlt' (le_trans hfit h)

/-- C13: for every terminal width, zero and negative ones included,
`getVisibleColumns` marks the name column and the node column visible. -/
theorem name_and_node_columns_always_visible (m : Model) :
    m.getVisibleColumns colName = some true ∧ m.getVisibleColumns colNode = some true := by
  have h1 : colName ∉ sacrificeOrder.take (hiddenCount m.width) :=
    fun h => absurd (List.mem_of_mem_take h) (by decide)
  have h2 : colNode ∉ sacrificeOrder.take (hiddenCount m.width) :=
    fun h => absurd (List.mem_of_mem_take h) (by decide)
  rw [getVisibleColumns_apply, getVisibleColumns_apply]
  simp [h1, h2]

/-- C14 fails as stated: the column widths sum to 109 (20 + 8 for the mandatory
columns, 81 for the optional ones), yet at width 109 `getVisibleColumns` hides
the disk I/O column, since it counts 2 more for the separators of the mandatory
columns. -/
theorem disk_column_hidden_at_sum_of_widths :
    20 + 8 + (optionalColumns.map Prod.snd).sum = (109 : Int) ∧
    ({ NewModel with width := 109 } : Model).getVisibleColumns colDiskIO = some false := by
  decide

/-- C14 (as amended): for every terminal width that is at least the total the
planner computes, that is the sum of all column widths plus 2 for the separators
of the two mandatory columns (111), `getVisibleColumns` marks all ten columns
visible. -/
theorem all_columns_visible_from_planned_total (m : Model)
    (h : 20 + 8 + 2 + (optionalColumns.map Prod.snd).sum ≤ m.width) (col : column) :
    m.getVisibleColumns col = some true := by
  have hs : 20 + 8 + 2 + (optionalColumns.map Prod.snd).sum = (111 : Int) := by decide
  rw [hs] at h
  have hk : hiddenCount m.width = 0 := by
    rw [hiddenCount_eq, if_pos h]
  rw [getVisibleColumns_apply, hk]
  simp

/-- Witness for C14: a terminal 111 columns wide. -/
theorem all_columns_visible_from_planned_total_witness :
    20 + 8 + 2 + (optionalColumns.map Prod.snd).sum ≤ ({ NewModel with width := 111 } : Model).width ∧
    ({ NewModel with width := 111 } : Model).getVisibleColumns colDiskIO = some true :=
  ⟨by decide, all_columns_visible_from_planned_total _ (by decide) _⟩

/-- C15: for every terminal width of at most 30, the width of the name and node
columns with their separators (hence also at most 28, their width without),
`getVisibleColumns` marks the name and node columns visible and the eight
optional columns hidden. -/
theorem only_mandatory_columns_at_mandatory_width (m : Model) (h : m.width ≤ 20 + 8 + 2)
    (col : column) :
    m.getVisibleColumns col = some (decide (col = colName ∨ col = colNode)) := by
  have hk : hiddenCount m.width = 8 := by
    rw [hiddenCount_eq]
    split_ifs <;> first | rfl | omega
  rw [getVisibleColumns_apply, hk]
  cases col <;> decide

/-- Witness for C15: a terminal 28 columns wide. -/
theorem only_mandatory_columns_at_mandatory_width_witness :
    ({ NewModel with width := 28 } : Model).width ≤ 20 + 8 + 2 ∧
    ({ NewModel with width := 28 } : Model).getVisibleColumns colCPU = some false ∧
    ({ NewModel with width := 28 } : Model).getVisibleColumns colName = some true :=
  ⟨by decide, only_mandatory_columns_at_mandatory_width _ (by decide) colCPU,
    only_mandatory_columns_at_mandatory_width _ (by decide) colName⟩

/-- C16: for every terminal width, the columns hidden by `getVisibleColumns` are
exactly the first `k` columns of the sacrifice order, every other column being
visible, where `k` is the smallest number for which the total width without
those `k` columns fits the width, or 8 when there is none; and a wider terminal
never hides a column that a narrower one shows. -/
theorem hidden_columns_are_a_prefix_of_the_sacrifice_order (m : Model) :
    (∀ col, m.getVisibleColumns col
      = some (decide (col ∉ sacrificeOrder.take (hiddenCount m.width)))) ∧
    hiddenCount m.width ≤ 8 ∧
    (hiddenCount m.width < 8 → remainingWidth (hiddenCount m.width) ≤ m.width) ∧
    (∀ j, j < hiddenCount m.width → ¬ remainingWidth j ≤ m.width) ∧
    (∀ wider : Model, m.width ≤ wider.width → ∀ col,
      m.getVisibleColumns col = some true → wider.getVisibleColumns col = some true) := by
  refine ⟨getVisibleColumns_apply m, hiddenCount_le _, hiddenCount_fits _, hiddenCount_min _, ?_⟩
  · intro wider hw col
    rw [getVisibleColumns_apply, getVisibleColumns_apply]
    simp only [Option.some.injEq, decide_eq_true_eq]
    intro hnot hmem
    apply hnot
    have hle := hiddenCount_antitone hw
    have : sacrificeOrder.take (hiddenCount wider.width)
        = (sacrificeOrder.take (hiddenCount m.width)).take (hiddenCount wider.width) := by
      rw [List.take_take, Nat.min_eq_left hle]
    rw [this] at hmem
    exact List.mem_of_mem_take hmem

/-- Witness for C16: at width 70 the three columns disk I/O, net I/O and memory
GiB are hidden (111 - 14 - 14 - 16 = 67 fits, 83 does not). -/
theorem hidden_columns_are_a_prefix_of_the_sacrifice_order_witness :
    hiddenCount ({ NewModel with width := 70 } : Model).width = 3 ∧
    remainingWidth 3 ≤ ({ NewModel with width := 70 } : Model).width ∧
    ¬ remainingWidth 2 ≤ ({ NewModel with width := 70 } : Model).width :=
  ⟨by decide,
    (hidden_columns_are_a_prefix_of_the_sacrifice_order
      ({ NewModel with width := 70 } : Model)).2.2.1 (by decide),
    (hidden_columns_are_a_prefix_of_the_sacrifice_order
      ({ NewModel with width := 70 } : Model)).2.2.2.1 2 (by decide)⟩

/-! ## C17 .. C19: scrolling and view state -/

/-- C18: for every model, after `Update` has processed a sort-key selection (id,
CPU, memory, disk I/O, net I/O), the reverse toggle or the active-only filter
toggle, the scroll offset is 0; the selection sets the sort key, the reverse
toggle negates the reverse flag and the filter toggle negates the show-all
flag. -/
theorem sort_and_filter_keys_reset_scroll (m : Model) (now : Time) :
    ((m.Update (Msg.key "v") now).1.scrollOffset = 0 ∧
      (m.Update (Msg.key "v") now).1.sortBy = sortColumn.sortByVMID) ∧
    ((m.Update (Msg.key "c") now).1.scrollOffset = 0 ∧
      (m.Update (Msg.key "c") now).1.sortBy = sortColumn.sortByCPU) ∧
    ((m.Update (Msg.key "m") now).1.scrollOffset = 0 ∧
      (m.Update (Msg.key "m") now).1.sortBy = sortColumn.sortByMem) ∧
    ((m.Update (Msg.key "d") now).1.scrollOffset = 0 ∧
      (m.Update (Msg.key "d") now).1.sortBy = sortColumn.sortByDiskIO) ∧
    ((m.Update (Msg.key "i") now).1.scrollOffset = 0 ∧
      (m.Update (Msg.key "i") now).1.sortBy = sortColumn.sortByNetIO) ∧
    ((m.Update (Msg.key "r") now).1.scrollOffset = 0 ∧
      (m.Update (Msg.key "r") now).1.sortReverse = !m.sortReverse) ∧
    ((m.Update (Msg.key "a") now).1.scrollOffset = 0 ∧
      (m.Update (Msg.key "a") now).1.showAll = !m.showAll) := by
  refine ⟨⟨rfl, rfl⟩, ⟨rfl, rfl⟩, ⟨rfl, rfl⟩, ⟨rfl, rfl⟩, ⟨rfl, rfl⟩, ⟨rfl, rfl⟩, ⟨rfl, rfl⟩⟩

/-- C19: with no known node, `Update` on the view-mode toggle key returns the
model unchanged and no command; with at least one known node it switches
between the guest table and the node table, so that toggling twice restores the
view mode. -/
theorem view_toggle_needs_a_node (m : Model) (now : Time) :
    (m.nodes = [] → m.Update (Msg.key "n") now = (m, Cmd.none)) ∧
    (m.nodes ≠ [] →
      (m.Update (Msg.key "n") now).2 = Cmd.none ∧
      (m.viewMode = viewMode.viewGuests →
        (m.Update (Msg.key "n") now).1.viewMode = viewMode.viewNodes) ∧
      (m.viewMode = viewMode.viewNodes →
        (m.Update (Msg.key "n") now).1.viewMode = viewMode.viewGuests) ∧
      ((m.Update (Msg.key "n") now).1.Update (Msg.key "n") now).1.viewMode = m.viewMode) := by
  have hkey : ∀ m' : Model, m'.Update (Msg.key "n") now
      = (if 0 < m'.nodes.length then
          { m' with
            viewMode := if m'.viewMode = viewMode.viewGuests then viewMode.viewNodes
              else viewMode.viewGuests
            scrollOffset := 0 }
         else m', Cmd.none) := fun _ => rfl
  constructor
  · intro h
    rw [hkey, h]
    rfl
  · intro h
    have hlen : 0 < m.nodes.length := List.length_pos.mpr h
    rw [hkey m, if_pos hlen]
    refine ⟨rfl, ?_, ?_, ?_⟩
    · intro hv; simp [hv]
    · intro hv; simp [hv]
    · rw [hkey, if_pos hlen]
      cases hv : m.viewMode <;> simp

/-- Witness for C19: `NewModel`, which knows no node, and the same model with one
node. -/
theorem view_toggle_needs_a_node_witness :
    NewModel.nodes = [] ∧
    NewModel.Update (Msg.key "n") ⟨1⟩ = (NewModel, Cmd.none) ∧
    ({ NewModel with nodes := [⟨"pve", "online", 0, 4, 0, 8, 0, 16, 0⟩] } : Model).nodes ≠ [] ∧
    (({ NewModel with nodes := [⟨"pve", "online", 0, 4, 0, 8, 0, 16, 0⟩] } : Model).Update
      (Msg.key "n") ⟨1⟩).1.viewMode = viewMode.viewNodes :=
  ⟨rfl, (view_toggle_needs_a_node NewModel ⟨1⟩).1 rfl, by decide,
    ((view_toggle_needs_a_node
      ({ NewModel with nodes := [⟨"pve", "online", 0, 4, 0, 8, 0, 16, 0⟩] } : Model) ⟨1⟩).2
        (by decide)).2.1 rfl⟩

theorem applyKey_scrollOffset_nonneg (m : Model) (k : String) (h : 0 ≤ m.scrollOffset) :
    0 ≤ (m.applyKey k).1.scrollOffset := by
  unfold Model.applyKey
  by_cases h1 : k = "q" ∨ k = "ctrl+c"
  · rw [if_pos h1]; exact h
  rw [if_neg h1]
  by_cases h2 : k = "up" ∨ k = "k"
  · rw [if_pos h2]
    by_cases hs : 0 < m.scrollOffset
    · rw [if_pos hs]; show 0 ≤ m.scrollOffset - 1; omega
    · rw [if_neg hs]; exact h
  rw [if_neg h2]
  by_cases h3 : k = "down" ∨ k = "j"
  · rw [if_pos h3]
    dsimp only
    split_ifs
    all_goals first
      | exact h
      | (show 0 ≤ m.scrollOffset + 1; omega)
  rw [if_neg h3]
  by_cases h4 : k = "v"
  · rw [if_pos h4]
  rw [if_neg h4]
  by_cases h5 : k = "c"
  · rw [if_pos h5]
  rw [if_neg h5]
  by_cases h6 : k = "m"
  · rw [if_pos h6]
  rw [if_neg h6]
  by_cases h7 : k = "d"
  · rw [if_pos h7]
  rw [if_neg h7]
  by_cases h8 : k = "i"
  · rw [if_pos h8]
  rw [if_neg h8]
  by_cases h9 : k = "r"
  · rw [if_pos h9]
  rw [if_neg h9]
  by_cases h10 : k = "a"
  · rw [if_pos h10]
  rw [if_neg h10]
  by_cases h11 : k = "n"
  · rw [if_pos h11]
    by_cases hn : 0 < m.nodes.length
    · rw [if_pos hn]
    · rw [if_neg hn]; exact h
  rw [if_neg h11]
  exact h

/-- The scroll offset of a model the program can hold is never negative. -/
theorem scrollOffset_nonneg_of_reachable {m : Model} (h : Reachable m) : 0 ≤ m.scrollOffset := by
  induction h with
  | init => decide
  | step m msg now _ ih =>
    cases msg with
    | windowSize w h => exact ih
    | tick => exact ih
    | data guests nodes =>
      show 0 ≤ (m.applyData guests nodes now).scrollOffset
      unfold Model.applyData Model.sortGuests
      dsimp only
      split_ifs <;> exact ih
    | err e => exact ih
    | key k => exact applyKey_scrollOffset_nonneg m k ih

/-- C17 fails on the code: after the guest list has shrunk, the model that the
program holds keeps a scroll offset (2) above the maximum (0), although the
program can reach that model and `viewGuests` has rendered it; only the copy
that `viewGuests` works on is clamped (to 0). -/
theorem scroll_offset_stale_after_the_list_shrinks :
    Reachable staleScrollModel ∧
    staleScrollModel.scrollOffset = 2 ∧
    max 0 ((staleScrollModel.getDisplayGuests.length : Int) - max 1 (staleScrollModel.height - 5))
      = 0 ∧
    ¬ staleScrollModel.scrollOffset
      ≤ max 0 ((staleScrollModel.getDisplayGuests.length : Int)
          - max 1 (staleScrollModel.height - 5)) ∧
    staleScrollModel.viewGuestsScrollOffset = 0 := by
  refine ⟨?_, by decide, by decide, by decide, by decide⟩
  exact Reachable.step _ _ _ (Reachable.step _ _ _ (Reachable.step _ _ _
    (Reachable.step _ _ _ (Reachable.step _ _ _ Reachable.init))))

/-! ## C20: `GetAllGuests` -/

theorem foldl_allGuests (getVMs getContainers : String → Except String (List Guest))
    (nodes : List Node) (acc : List Guest) :
    nodes.foldl
      (fun allGuests node =>
        match getVMs node.Node with
        | Except.error _ => allGuests
        | Except.ok vms =>
          match getContainers node.Node with
          | Except.error _ => allGuests ++ vms
          | Except.ok containers => allGuests ++ vms ++ containers)
      acc
      = acc ++ nodes.flatMap (hostContribution getVMs getContainers) := by
  induction nodes generalizing acc with
  | nil => simp
  | cons node rest ih =>
    rw [List.foldl_cons, ih, List.flatMap_cons]
    unfold hostContribution
    cases getVMs node.Node with
    | error e => simp
    | ok vms =>
      cases getContainers node.Node with
      | error e => simp
      | ok containers => simp

/-- C20 fails as stated: a host whose VM enumeration succeeds and whose container
enumeration fails still contributes its VMs to the result of `GetAllGuests`. -/
theorem vms_kept_when_containers_fail :
    GetAllGuests (Except.ok [⟨"pve", "online", 0, 4, 0, 8, 0, 16, 0⟩])
        (fun _ => Except.ok [sampleLoad 101 "running" 0 1 4])
        (fun _ => Except.error "lxc: permission denied")
      = Except.ok [sampleLoad 101 "running" 0 1 4] ∧
    [⟨"pve", "online", 0, 4, 0, 8, 0, 16, 0⟩].flatMap
        (specHostContribution (fun _ => Except.ok [sampleLoad 101 "running" 0 1 4])
          (fun _ => Except.error "lxc: permission denied"))
      = [] := by
  constructor <;> rfl

/-- C20 (as amended): for every list of hosts and every outcome of the per-host
enumerations, `GetAllGuests` succeeds and returns, in host order, for each host:
nothing when the enumeration of its VMs fails (its containers are then not
asked for), its VMs alone when only the enumeration of its containers fails,
and its VMs followed by its containers when both succeed. So every instance of
a host whose two enumerations succeed is in the result, and a failure never
aborts the aggregation. -/
theorem getAllGuests_keeps_what_was_enumerated (nodes : List Node)
    (getVMs getContainers : String → Except String (List Guest)) :
    GetAllGuests (Except.ok nodes) getVMs getContainers
      = Except.ok (nodes.flatMap (hostContribution getVMs getContainers)) ∧
    (∀ node, (∃ e, getVMs node.Node = Except.error e) →
      hostContribution getVMs getContainers node = []) ∧
    (∀ node vms, getVMs node.Node = Except.ok vms →
      (∃ e, getContainers node.Node = Except.error e) →
      hostContribution getVMs getContainers node = vms) ∧
    (∀ node vms containers, getVMs node.Node = Except.ok vms →
      getContainers node.Node = Except.ok containers →
      hostContribution getVMs getContainers node = vms ++ containers) := by
  refine ⟨?_, ?_, ?_, ?_⟩
  · exact congrArg Except.ok
      ((foldl_allGuests getVMs getContainers nodes []).trans (List.nil_append _))
  · rintro node ⟨e, he⟩
    simp [hostContribution, he]
  · rintro node vms hv ⟨e, he⟩
    simp [hostContribution, hv, he]
  · intro node vms containers hv hc
    simp [hostContribution, hv, hc]

/-- Witness for C20: one host whose VMs are listed and whose containers are
not. -/
theorem getAllGuests_keeps_what_was_enumerated_witness :
    (fun _ : String => (Except.ok [sampleLoad 101 "running" 0 1 4] : Except String (List Guest)))
        "pve" = Except.ok [sampleLoad 101 "running" 0 1 4] ∧
    (∃ e, (fun _ : String => (Except.error "lxc: permission denied" :
        Except String (List Guest))) "pve" = Except.error e) ∧
    hostContribution (fun _ => Except.ok [sampleLoad 101 "running" 0 1 4])
        (fun _ => Except.error "lxc: permission denied") ⟨"pve", "online", 0, 4, 0, 8, 0, 16, 0⟩
      = [sampleLoad 101 "running" 0 1 4] :=
  ⟨rfl, ⟨_, rfl⟩,
    (getAllGuests_keeps_what_was_enumerated [⟨"pve", "online", 0, 4, 0, 8, 0, 16, 0⟩]
      (fun _ => Except.ok [sampleLoad 101 "running" 0 1 4])
      (fun _ => Except.error "lxc: permission denied")).2.2.1
      ⟨"pve", "online", 0, 4, 0, 8, 0, 16, 0⟩ _ rfl ⟨_, rfl⟩⟩

/-! ## C11: stability -/

section Stability

variable {α : Type}

/-- Inserting `x` leaves the members of a class `p` in their order when `x` is
not less than any member of the class that is already placed. -/
theorem filter_insertLeft {less : α → α → Bool} {p : α → Bool} (x : α) (acc : List α)
    (h : p x = true → ∀ y ∈ acc, p y = true → less x y = false) :
    (insertLeft less x acc).filter p = (x :: acc).filter p := by
  induction acc with
  | nil => rfl
  | cons y before ih =>
    have ih1 := ih (fun hx z hz hpz => h hx z (List.mem_cons_of_mem _ hz) hpz)
    by_cases hl : less x y = true
    · rw [insertLeft_cons_pos hl]
      by_cases hx : p x = true
      · have hy : p y = false := by
          by_contra hy
          have := h hx y (List.mem_cons_self _ _) (by simpa using hy)
          rw [this] at hl
          exact absurd hl (by simp)
        rw [List.filter_cons_of_neg (by simp [hy]), ih1, List.filter_cons_of_pos hx,
          List.filter_cons_of_pos hx, List.filter_cons_of_neg (by simp [hy])]
      · rw [List.filter_cons_of_neg hx]
        rw [List.filter_cons_of_neg hx] at ih1
        by_cases hy : p y = true
        · rw [List.filter_cons_of_pos hy, List.filter_cons_of_pos hy, ih1]
        · rw [List.filter_cons_of_neg hy, List.filter_cons_of_neg hy, ih1]
    · rw [insertLeft_cons_neg (by simpa using hl)]

theorem filter_foldl_insertLeft {less : α → α → Bool} {p : α → Bool} (data acc : List α)
    (h : ∀ x, x ∈ data ∨ x ∈ acc → ∀ y, y ∈ data ∨ y ∈ acc → p x = true → p y = true →
      less x y = false) :
    (data.foldl (fun sortedRev x => insertLeft less x sortedRev) acc).filter p
      = (data.filter p).reverse ++ acc.filter p := by
  induction data generalizing acc with
  | nil => simp
  | cons x rest ih =>
    rw [List.foldl_cons, ih, filter_insertLeft x acc]
    · by_cases hx : p x = true
      · rw [List.filter_cons_of_pos hx, List.filter_cons_of_pos hx]
        simp
      · rw [List.filter_cons_of_neg hx, List.filter_cons_of_neg hx]
    · intro hx y hy hpy
      exact h x (Or.inl (List.mem_cons_self _ _)) y (Or.inr hy) hx hpy
    · intro a ha b hb hpa hpb
      refine h a ?_ b ?_ hpa hpb
      · rcases ha with ha | ha
        · exact Or.inl (List.mem_cons_of_mem _ ha)
        · rcases mem_insertLeft.1 ha with ha | ha
          · exact Or.inl (ha ▸ List.mem_cons_self _ _)
          · exact Or.inr ha
      · rcases hb with hb | hb
        · exact Or.inl (List.mem_cons_of_mem _ hb)
        · rcases mem_insertLeft.1 hb with hb | hb
          · exact Or.inl (hb ▸ List.mem_cons_self _ _)
          · exact Or.inr hb

/-- On a slice of at most 12 elements, which `sort.Slice` sorts by insertion, the
members of a class stay in their order when no member of the class is less than
another. -/
theorem filter_sortSlice {less : α → α → Bool} {p : α → Bool} (data : List α)
    (hlen : data.length ≤ 12)
    (h : ∀ x ∈ data, ∀ y ∈ data, p x = true → p y = true → less x y = false) :
    (sortSlice less data).filter p = data.filter p := by
  rw [sortSlice_eq_insertionSortLessFunc _ hlen]
  unfold insertionSortLessFunc
  rw [List.filter_reverse, filter_foldl_insertLeft data []]
  · simp
  · intro x hx y hy hpx hpy
    refine h x ?_ y ?_ hpx hpy
    · rcases hx with hx | hx
      · exact hx
      · exact absurd hx (List.not_mem_nil _)
    · rcases hy with hy | hy
      · exact hy
      · exact absurd hy (List.not_mem_nil _)

end Stability

/-- C11 fails on the code: with the sort reversed (the setting of `NewModel`), two
running guests with the same CPU use leave `sortGuests` in the opposite of the
order they had in the input. -/
theorem reversed_sort_exchanges_equal_guests :
    tieModel.sortReverse = true ∧ tieModel.sortBy = sortColumn.sortByCPU ∧
    tieModel.guests = [sampleLoad 101 "running" 0 1 4, sampleLoad 102 "running" 0 1 4] ∧
    (sampleLoad 101 "running" 0 1 4).CPU = (sampleLoad 102 "running" 0 1 4).CPU ∧
    tieModel.sortGuests.guests
      = [sampleLoad 102 "running" 0 1 4, sampleLoad 101 "running" 0 1 4] := by
  refine ⟨rfl, rfl, rfl, rfl, ?_⟩
  decide

/-- With the settings of `NewModel` (key CPU, reversed), thirteen running guests
with the same CPU use, in the order of their ids 100 to 112, leave `sortGuests`
in the order that the quicksort of the library gives a slice of more than 12
elements. -/
theorem reversed_sort_of_thirteen_equal_guests :
    tiedModel.sortBy = sortColumn.sortByCPU ∧ tiedModel.sortReverse = true ∧
    tiedModel.guests.map (fun g => g.VMID)
      = [100, 101, 102, 103, 104, 105, 106, 107, 108, 109, 110, 111, 112] ∧
    tiedModel.sortGuests.guests.map (fun g => g.VMID)
      = [111, 110, 109, 108, 107, 100, 105, 104, 103, 102, 101, 112, 106] := by
  decide

/-- The library routine is not stable on longer slices either: of thirteen
running guests sorted by CPU, not reversed, the two with the same CPU use (ids
100 and 106, in that order in the input) come out as 106, 100. -/
theorem forward_sort_exchanges_equal_guests_of_thirteen :
    thirteenModel.sortReverse = false ∧ thirteenModel.sortBy = sortColumn.sortByCPU ∧
    thirteenModel.guests.filter (fun g => decide (g.CPU = 20))
      = [sampleLoad 100 "running" 20 1 4, sampleLoad 106 "running" 20 1 4] ∧
    thirteenModel.sortGuests.guests.filter (fun g => decide (g.CPU = 20))
      = [sampleLoad 106 "running" 20 1 4, sampleLoad 100 "running" 20 1 4] ∧
    thirteenModel.sortGuests.guests.map (fun g => g.VMID)
      = [112, 111, 110, 109, 108, 107, 105, 104, 103, 102, 101, 106, 100] := by
  decide

/-- For every guest list of at most 12 guests (the lists that the library sorts
by insertion), every sort key and every class `p` of guests of which any two in
the list are either both non-running with the same id, or both running and not
ordered by the selected key while the sort is not reversed, the members of the
class are after `sortGuests` in the order they had in the input. -/
theorem equal_guests_keep_their_order (m : Model) (p : Guest → Bool)
    (hlen : m.guests.length ≤ 12)
    (hp : ∀ x ∈ m.guests, ∀ y ∈ m.guests, p x = true → p y = true →
      (x.Status ≠ "running" ∧ y.Status ≠ "running" ∧ x.VMID = y.VMID) ∨
      (x.Status = "running" ∧ y.Status = "running" ∧ m.sortReverse = false ∧
        m.keyLess x y = false)) :
    m.sortGuests.guests.filter p = m.guests.filter p := by
  show (sortSlice m.less m.guests).filter p = m.guests.filter p
  apply filter_sortSlice _ hlen
  intro x hx y hy hpx hpy
  rcases hp x hx y hy hpx hpy with ⟨h1, h2, h3⟩ | ⟨h1, h2, h3, h4⟩
  · rw [less_stopped_stopped h1 h2, h3]
    simp
  · rw [less_running_running h1 h2, h3]
    simpa using h4

/-- The two running guests of `tieModelForward` have the same CPU use and stay
in their order. -/
theorem equal_guests_stay_in_tieModelForward :
    tieModelForward.guests.length ≤ 12 ∧
    tieModelForward.sortGuests.guests.filter (fun _ => true)
      = [sampleLoad 101 "running" 0 1 4, sampleLoad 102 "running" 0 1 4] :=
  ⟨by decide,
    equal_guests_keep_their_order tieModelForward (fun _ => true) (by decide) (by decide)⟩

/-! ## C12: the comparison as an ordering -/

theorem less_irrefl_of_not_reversed (m : Model) (hr : m.sortReverse = false) (a : Guest) :
    m.less a a = false := by
  by_cases ha : a.Status = "running"
  · rw [less_running_running ha ha, hr]
    by_contra h
    have h1 : m.keyLess a a = true := by simpa using h
    have h2 := keyLess_asymm m h1
    rw [h1] at h2
    exact absurd h2 (by simp)
  · rw [less_stopped_stopped ha ha]
    simp

theorem less_trans_of_not_reversed (m : Model) (hr : m.sortReverse = false) {a b c : Guest}
    (h1 : m.less a b = true) (h2 : m.less b c = true) : m.less a c = true := by
  by_cases ha : a.Status = "running" <;> by_cases hb : b.Status = "running" <;>
    by_cases hc : c.Status = "running"
  · rw [less_running_running ha hb, hr] at h1
    rw [less_running_running hb hc, hr] at h2
    rw [less_running_running ha hc, hr]
    exact keyLess_trans m (by simpa using h1) (by simpa using h2)
  · exact less_running_stopped ha hc
  · rw [less_stopped_running hb hc] at h2; exact absurd h2 (by simp)
  · exact less_running_stopped ha hc
  · rw [less_stopped_running ha hb] at h1; exact absurd h1 (by simp)
  · rw [less_stopped_running ha hb] at h1; exact absurd h1 (by simp)
  · rw [less_stopped_running hb hc] at h2; exact absurd h2 (by simp)
  · rw [less_stopped_stopped ha hb] at h1
    rw [less_stopped_stopped hb hc] at h2
    rw [less_stopped_stopped ha hc]
    have h3 : a.VMID < b.VMID := by simpa using h1
    have h4 : b.VMID < c.VMID := by simpa using h2
    simp only [decide_eq_true_eq]
    omega

theorem less_negtrans_of_not_reversed (m : Model) (hr : m.sortReverse = false) {a b c : Guest}
    (hb : m.sortBy = sortColumn.sortByMem → b.Status = "running" →
      ¬ (b.Mem = 0 ∧ b.MaxMem = 0))
    (h1 : m.less a b = false) (h2 : m.less b c = false) : m.less a c = false := by
  by_cases ha : a.Status = "running" <;> by_cases hb' : b.Status = "running" <;>
    by_cases hc : c.Status = "running"
  · rw [less_running_running ha hb', hr] at h1
    rw [less_running_running hb' hc, hr] at h2
    rw [less_running_running ha hc, hr]
    have := keyLess_negtrans m (fun hs => hb hs hb') (by simpa using h1) (by simpa using h2)
    simpa using this
  · rw [less_running_stopped hb' hc] at h2; exact absurd h2 (by simp)
  · rw [less_running_stopped ha hb'] at h1; exact absurd h1 (by simp)
  · rw [less_running_stopped ha hb'] at h1; exact absurd h1 (by simp)
  · exact less_stopped_running ha hc
  · rw [less_running_stopped hb' hc] at h2; exact absurd h2 (by simp)
  · exact less_stopped_running ha hc
  · rw [less_stopped_stopped ha hb'] at h1
    rw [less_stopped_stopped hb' hc] at h2
    rw [less_stopped_stopped ha hc]
    have h3 : ¬ a.VMID < b.VMID := by simpa using h1
    have h4 : ¬ b.VMID < c.VMID := by simpa using h2
    simp only [decide_eq_false_iff_not]
    omega

/-- C12 fails as stated. With the sort reversed (the setting of `NewModel`) the
comparison holds between a running guest and itself, so it is not irreflexive.
With the sort not reversed and the memory key, a guest with `Mem = MaxMem = 0`
(ratio `0 / 0`) is not ordered against the guests with the ratios 1 and 0,
which are ordered against each other: incomparability is not transitive. -/
theorem comparison_is_no_strict_weak_ordering :
    NewModel.sortReverse = true ∧
    NewModel.less (sampleLoad 101 "running" 0 1 4) (sampleLoad 101 "running" 0 1 4) = true ∧
    nanModel.sortReverse = false ∧
    nanModel.less (sampleLoad 101 "running" 0 1 1) (sampleLoad 102 "running" 0 0 0) = false ∧
    nanModel.less (sampleLoad 102 "running" 0 0 0) (sampleLoad 101 "running" 0 1 1) = false ∧
    nanModel.less (sampleLoad 102 "running" 0 0 0) (sampleLoad 103 "running" 0 0 1) = false ∧
    nanModel.less (sampleLoad 103 "running" 0 0 1) (sampleLoad 102 "running" 0 0 0) = false ∧
    nanModel.less (sampleLoad 103 "running" 0 0 1) (sampleLoad 101 "running" 0 1 1) = true := by
  refine ⟨rfl, by decide, rfl, ?_, ?_, ?_, ?_, ?_⟩ <;>
    simp [Model.less, Model.keyLess, nanModel, sampleLoad, F64.div, F64.ofInt, F64.round, F64.lt,
      roundF64_zero, roundF64_one]

/-- C12 (as amended): for every sort key, when the sort is not reversed the
comparison that `sortGuests` passes to the sorting routine is irreflexive,
asymmetric and transitive on all guests, and incomparability is transitive
through every guest `b` that is not a running guest with `Mem = MaxMem = 0`
while the key is the memory use. -/
theorem comparison_is_strict_weak_ordering_when_not_reversed (m : Model)
    (hr : m.sortReverse = false) :
    (∀ a, m.less a a = false) ∧
    (∀ a b, m.less a b = true → m.less b a = false) ∧
    (∀ a b c, m.less a b = true → m.less b c = true → m.less a c = true) ∧
    (∀ a b c,
      (m.sortBy = sortColumn.sortByMem → b.Status = "running" → ¬ (b.Mem = 0 ∧ b.MaxMem = 0)) →
      m.less a b = false → m.less b a = false → m.less b c = false → m.less c b = false →
      m.less a c = false ∧ m.less c a = false) := by
  refine ⟨less_irrefl_of_not_reversed m hr, less_asymm_of_not_reversed m hr, ?_, ?_⟩
  · intro a b c h1 h2
    exact less_trans_of_not_reversed m hr h1 h2
  · intro a b c hb hab hba hbc hcb
    exact ⟨less_negtrans_of_not_reversed m hr hb hab hbc,
      less_negtrans_of_not_reversed m hr hb hcb hba⟩

/-- Witness for C12: in `scenarioModel` (key CPU, not reversed) the running guest
103 (CPU 3) is before the running guest 101 (CPU 5) and not after it. -/
theorem comparison_is_strict_weak_ordering_when_not_reversed_witness :
    scenarioModel.sortReverse = false ∧
    scenarioModel.less (sampleLoad 103 "running" 3 1 4) (sampleLoad 101 "running" 5 2 4) = true ∧
    scenarioModel.less (sampleLoad 101 "running" 5 2 4) (sampleLoad 103 "running" 3 1 4) = false :=
  ⟨rfl, by decide,
    (comparison_is_strict_weak_ordering_when_not_reversed scenarioModel rfl).2.1
      (sampleLoad 103 "running" 3 1 4) (sampleLoad 101 "running" 5 2 4) (by decide)⟩

/-! ## C21 .. C28: keys, screens and the row window -/

/-- The cases of the key `switch` of `Update`: a property of the result of
`applyKey` holds as soon as it holds for the result of every case. -/
theorem applyKey_cases (m : Model) (k : String) (P : Model × Cmd → Prop)
    (hquit : P (m, Cmd.quit))
    (hup : P (if 0 < m.scrollOffset then { m with scrollOffset := m.scrollOffset - 1 } else m,
      Cmd.none))
    (hdown : P
      (if m.scrollOffset <
          (if (m.getDisplayGuests.length : Int) - (if m.height - 5 < 1 then 1 else m.height - 5) < 0
            then 0
            else (m.getDisplayGuests.length : Int) - (if m.height - 5 < 1 then 1 else m.height - 5))
        then { m with scrollOffset := m.scrollOffset + 1 } else m, Cmd.none))
    (hsort : ∀ sortBy : sortColumn,
      P ({ ({ m with sortBy := sortBy } : Model).sortGuests with scrollOffset := 0 }, Cmd.none))
    (hreverse :
      P ({ ({ m with sortReverse := !m.sortReverse } : Model).sortGuests with scrollOffset := 0 },
        Cmd.none))
    (hall : P ({ m with showAll := !m.showAll, scrollOffset := 0 }, Cmd.none))
    (hview : P
      (if 0 < m.nodes.length then
        { m with
          viewMode := if m.viewMode = viewMode.viewGuests then viewMode.viewNodes
            else viewMode.viewGuests
          scrollOffset := 0 }
       else m, Cmd.none))
    (hother : P (m, Cmd.none)) : P (m.applyKey k) := by
  unfold Model.applyKey
  by_cases h1 : k = "q" ∨ k = "ctrl+c"
  · rw [if_pos h1]; exact hquit
  rw [if_neg h1]
  by_cases h2 : k = "up" ∨ k = "k"
  · rw [if_pos h2]; exact hup
  rw [if_neg h2]
  by_cases h3 : k = "down" ∨ k = "j"
  · rw [if_pos h3]; exact hdown
  rw [if_neg h3]
  by_cases h4 : k = "v"
  · rw [if_pos h4]; exact hsort _
  rw [if_neg h4]
  by_cases h5 : k = "c"
  · rw [if_pos h5]; exact hsort _
  rw [if_neg h5]
  by_cases h6 : k = "m"
  · rw [if_pos h6]; exact hsort _
  rw [if_neg h6]
  by_cases h7 : k = "d"
  · rw [if_pos h7]; exact hsort _
  rw [if_neg h7]
  by_cases h8 : k = "i"
  · rw [if_pos h8]; exact hsort _
  rw [if_neg h8]
  by_cases h9 : k = "r"
  · rw [if_pos h9]; exact hreverse
  rw [if_neg h9]
  by_cases h10 : k = "a"
  · rw [if_pos h10]; exact hall
  rw [if_neg h10]
  by_cases h11 : k = "n"
  · rw [if_pos h11]; exact hview
  rw [if_neg h11]
  exact hother

/-- A key press leaves the recorded error and the size of the terminal as they
are. -/
theorem applyKey_err_size (m : Model) (k : String) :
    (m.applyKey k).1.err = m.err ∧ (m.applyKey k).1.width = m.width ∧
    (m.applyKey k).1.height = m.height := by
  apply applyKey_cases m k
    (fun r => r.1.err = m.err ∧ r.1.width = m.width ∧ r.1.height = m.height)
  · exact ⟨rfl, rfl, rfl⟩
  · split_ifs <;> exact ⟨rfl, rfl, rfl⟩
  · split_ifs <;> exact ⟨rfl, rfl, rfl⟩
  · intro _; exact ⟨rfl, rfl, rfl⟩
  · exact ⟨rfl, rfl, rfl⟩
  · exact ⟨rfl, rfl, rfl⟩
  · split_ifs <;> exact ⟨rfl, rfl, rfl⟩
  · exact ⟨rfl, rfl, rfl⟩

/-- A key press permutes the guests and leaves the nodes, the previous snapshot
and the timestamps as they are. -/
theorem applyKey_snapshot (m : Model) (k : String) :
    (m.applyKey k).1.guests.Perm m.guests ∧ (m.applyKey k).1.nodes = m.nodes ∧
    (m.applyKey k).1.prevGuests = m.prevGuests ∧
    (m.applyKey k).1.prevGuestMap = m.prevGuestMap ∧
    (m.applyKey k).1.lastUpdate = m.lastUpdate ∧ (m.applyKey k).1.lastFetch = m.lastFetch := by
  apply applyKey_cases m k
    (fun r => r.1.guests.Perm m.guests ∧ r.1.nodes = m.nodes ∧ r.1.prevGuests = m.prevGuests ∧
      r.1.prevGuestMap = m.prevGuestMap ∧ r.1.lastUpdate = m.lastUpdate ∧
      r.1.lastFetch = m.lastFetch)
  · exact ⟨List.Perm.refl _, rfl, rfl, rfl, rfl, rfl⟩
  · split_ifs <;> exact ⟨List.Perm.refl _, rfl, rfl, rfl, rfl, rfl⟩
  · split_ifs <;> exact ⟨List.Perm.refl _, rfl, rfl, rfl, rfl, rfl⟩
  · intro _; exact ⟨sortSlice_perm _ _, rfl, rfl, rfl, rfl, rfl⟩
  · exact ⟨sortSlice_perm _ _, rfl, rfl, rfl, rfl, rfl⟩
  · exact ⟨List.Perm.refl _, rfl, rfl, rfl, rfl, rfl⟩
  · split_ifs <;> exact ⟨List.Perm.refl _, rfl, rfl, rfl, rfl, rfl⟩
  · exact ⟨List.Perm.refl _, rfl, rfl, rfl, rfl, rfl⟩

/-- A data arrival leaves the recorded error and the size of the terminal as
they are. -/
theorem applyData_err_size (m : Model) (guests : List Guest) (nodes : List Node) (now : Time) :
    (m.applyData guests nodes now).err = m.err ∧
    (m.applyData guests nodes now).width = m.width ∧
    (m.applyData guests nodes now).height = m.height := by
  unfold Model.applyData Model.sortGuests
  dsimp only
  split_ifs <;> exact ⟨rfl, rfl, rfl⟩

/-- On a terminal of at least 35 x 10, `View` of a model with a recorded error is
the error screen. -/
theorem View_of_err (m : Model) (fmtFloat : F64 → String) (err : String)
    (hw : minTerminalWidth ≤ m.width) (hh : minTerminalHeight ≤ m.height)
    (he : m.err = some err) : m.View fmtFloat = some (Screen.error (errorScreenText err)) := by
  unfold Model.View
  rw [if_neg (by omega), he]
  rfl

/-- C21: after `Update` has processed an error message, `View` on a terminal of
at least 35 x 10 is the error screen carrying the error text, whatever else the
model holds; it stays so after any key press, and the quit key still gives the
quit command. -/
theorem failed_fetch_shows_the_error_screen (m : Model) (err : String) (now : Time)
    (fmtFloat : F64 → String)
    (hw : minTerminalWidth ≤ m.width) (hh : minTerminalHeight ≤ m.height) :
    (m.Update (Msg.err err) now).1.View fmtFloat = some (Screen.error (errorScreenText err)) ∧
    (∀ (k : String) (later : Time),
      ((m.Update (Msg.err err) now).1.Update (Msg.key k) later).1.View fmtFloat
        = some (Screen.error (errorScreenText err))) ∧
    (∀ later : Time, ((m.Update (Msg.err err) now).1.Update (Msg.key "q") later).2 = Cmd.quit) := by
  refine ⟨View_of_err _ _ err hw hh rfl, ?_, fun _ => rfl⟩
  intro k later
  obtain ⟨h1, h2, h3⟩ := applyKey_err_size (m.Update (Msg.err err) now).1 k
  apply View_of_err
  · show minTerminalWidth ≤ ((m.Update (Msg.err err) now).1.applyKey k).1.width
    rw [h2]; exact hw
  · show minTerminalHeight ≤ ((m.Update (Msg.err err) now).1.applyKey k).1.height
    rw [h3]; exact hh
  · show ((m.Update (Msg.err err) now).1.applyKey k).1.err = some err
    rw [h1]; rfl

/-- Witness for C21: a terminal of 80 x 24 showing three guests when the fetch
fails with `timeout`. -/
theorem failed_fetch_shows_the_error_screen_witness :
    minTerminalWidth ≤ ({ nanModel with width := 80, height := 24 } : Model).width ∧
    minTerminalHeight ≤ ({ nanModel with width := 80, height := 24 } : Model).height ∧
    ((({ nanModel with width := 80, height := 24 } : Model).Update (Msg.err "timeout") ⟨1⟩).1.Update
        (Msg.key "a") ⟨2⟩).1.View (fun _ => "0.0")
      = some (Screen.error "Error: timeout\n\nPress 'q' to quit.") :=
  ⟨by decide, by decide,
    (failed_fetch_shows_the_error_screen ({ nanModel with width := 80, height := 24 } : Model)
      "timeout" ⟨1⟩ (fun _ => "0.0") (by decide) (by decide)).2.1 "a" ⟨2⟩⟩

/-- C23: for every model whose scroll offset lies between 0 and
`max(0, displayed guests - content height)`, a scroll-up key decrements the
offset by one unless it is 0, a scroll-down key increments it by one unless it
is at the maximum, no other field changes, and the new offset lies in the same
range. -/
theorem scroll_keys_keep_the_offset_in_range (m : Model) (now : Time)
    (h0 : 0 ≤ m.scrollOffset) (h1 : m.scrollOffset ≤ m.maxScrollOffset) :
    (∀ k, k = "up" ∨ k = "k" →
      m.Update (Msg.key k) now
        = ({ m with scrollOffset := if m.scrollOffset = 0 then 0 else m.scrollOffset - 1 },
            Cmd.none) ∧
      0 ≤ (m.Update (Msg.key k) now).1.scrollOffset ∧
      (m.Update (Msg.key k) now).1.scrollOffset ≤ (m.Update (Msg.key k) now).1.maxScrollOffset) ∧
    (∀ k, k = "down" ∨ k = "j" →
      m.Update (Msg.key k) now
        = ({ m with scrollOffset :=
              if m.scrollOffset = m.maxScrollOffset then m.scrollOffset
              else m.scrollOffset + 1 },
            Cmd.none) ∧
      0 ≤ (m.Update (Msg.key k) now).1.scrollOffset ∧
      (m.Update (Msg.key k) now).1.scrollOffset ≤ (m.Update (Msg.key k) now).1.maxScrollOffset) := by
  have hmax : ∀ s : Int, ({ m with scrollOffset := s } : Model).maxScrollOffset = m.maxScrollOffset :=
    fun _ => rfl
  constructor
  · intro k hk
    have hq : ¬ (k = "q" ∨ k = "ctrl+c") := by
      rcases hk with hk | hk <;> subst hk <;> decide
    have hup : m.Update (Msg.key k) now
        = ({ m with scrollOffset := if m.scrollOffset = 0 then 0 else m.scrollOffset - 1 },
            Cmd.none) := by
      show m.applyKey k = _
      unfold Model.applyKey
      rw [if_neg hq, if_pos hk]
      by_cases hs : 0 < m.scrollOffset
      · rw [if_pos hs, if_neg (by omega)]
      · have hz : m.scrollOffset = 0 := by omega
        rw [if_neg hs, if_pos hz]
        cases m
        simp only at hz
        subst hz
        rfl
    rw [hup]
    refine ⟨rfl, ?_, ?_⟩
    · show 0 ≤ (if m.scrollOffset = 0 then 0 else m.scrollOffset - 1)
      split_ifs <;> omega
    · rw [hmax]
      show (if m.scrollOffset = 0 then 0 else m.scrollOffset - 1) ≤ m.maxScrollOffset
      split_ifs <;> omega
  · intro k hk
    have hq : ¬ (k = "q" ∨ k = "ctrl+c") := by
      rcases hk with hk | hk <;> subst hk <;> decide
    have hu : ¬ (k = "up" ∨ k = "k") := by
      rcases hk with hk | hk <;> subst hk <;> decide
    have hbound :
        (if (m.getDisplayGuests.length : Int) - (if m.height - 5 < 1 then 1 else m.height - 5) < 0
          then 0
          else (m.getDisplayGuests.length : Int) - (if m.height - 5 < 1 then 1 else m.height - 5))
        = m.maxScrollOffset := by
      unfold Model.maxScrollOffset
      split_ifs <;> omega
    have hdown : m.Update (Msg.key k) now
        = ({ m with scrollOffset :=
              if m.scrollOffset = m.maxScrollOffset then m.scrollOffset
              else m.scrollOffset + 1 },
            Cmd.none) := by
      show m.applyKey k = _
      unfold Model.applyKey
      rw [if_neg hq, if_neg hu, if_pos hk]
      dsimp only
      rw [hbound]
      by_cases hs : m.scrollOffset < m.maxScrollOffset
      · rw [if_pos hs, if_neg (by omega)]
      · have hz : m.scrollOffset = m.maxScrollOffset := by omega
        rw [if_neg hs, if_pos hz]
    rw [hdown]
    refine ⟨rfl, ?_, ?_⟩
    · show 0 ≤ (if m.scrollOffset = m.maxScrollOffset then m.scrollOffset else m.scrollOffset + 1)
      split_ifs <;> omega
    · rw [hmax]
      show (if m.scrollOffset = m.maxScrollOffset then m.scrollOffset else m.scrollOffset + 1)
        ≤ m.maxScrollOffset
      split_ifs <;> omega

/-- Witness for C23: three running guests among ten on a terminal 7 rows high
(content height 2, largest offset 1), the offset being 0: scroll-down gives 1,
scroll-up leaves 0. -/
theorem scroll_keys_keep_the_offset_in_range_witness :
    0 ≤ ({ scenarioModel with height := 7 } : Model).scrollOffset ∧
    ({ scenarioModel with height := 7 } : Model).scrollOffset
      ≤ ({ scenarioModel with height := 7 } : Model).maxScrollOffset ∧
    (({ scenarioModel with height := 7 } : Model).Update (Msg.key "j") ⟨1⟩).1.scrollOffset = 1 ∧
    (({ scenarioModel with height := 7 } : Model).Update (Msg.key "up") ⟨1⟩).1.scrollOffset = 0 :=
  ⟨by decide, by decide,
    congrArg (fun r : Model × Cmd => r.1.scrollOffset)
      (((scroll_keys_keep_the_offset_in_range ({ scenarioModel with height := 7 } : Model) ⟨1⟩
        (by decide) (by decide)).2 "j" (Or.inr rfl)).1),
    congrArg (fun r : Model × Cmd => r.1.scrollOffset)
      (((scroll_keys_keep_the_offset_in_range ({ scenarioModel with height := 7 } : Model) ⟨1⟩
        (by decide) (by decide)).1 "up" (Or.inl rfl)).1)⟩

/-- C25: for every model, `getDisplayGuests` and the list `viewGuests` builds are
the same list: all guests in their stored order when show-all is on, the guests
with status `running` in their stored order otherwise; so the bound against
which scroll-down tests the offset is the one to which `viewGuests` clamps it. -/
theorem display_list_is_the_rendered_list (m : Model) (now : Time) :
    m.getDisplayGuests = m.viewGuestsDisplayGuests ∧
    (m.showAll = true → m.getDisplayGuests = m.guests) ∧
    (m.showAll = false →
      m.getDisplayGuests = m.guests.filter (fun g => decide (g.Status = "running"))) ∧
    (m.Update (Msg.key "down") now).1.scrollOffset
      = (if m.scrollOffset
            < max 0 ((m.viewGuestsDisplayGuests.length : Int) - m.viewGuestsContentHeight)
          then m.scrollOffset + 1 else m.scrollOffset) ∧
    m.viewGuestsScrollOffset
      = max 0 (min m.scrollOffset
          (max 0 ((m.viewGuestsDisplayGuests.length : Int) - m.viewGuestsContentHeight))) := by
  refine ⟨rfl, ?_, ?_, ?_, ?_⟩
  · intro h
    simp [Model.getDisplayGuests, h]
  · intro h
    simp [Model.getDisplayGuests, h]
  · show (if m.scrollOffset <
          (if (m.getDisplayGuests.length : Int) - (if m.height - 5 < 1 then 1 else m.height - 5) < 0
            then 0
            else (m.getDisplayGuests.length : Int) - (if m.height - 5 < 1 then 1 else m.height - 5))
        then ({ m with scrollOffset := m.scrollOffset + 1 } : Model) else m).scrollOffset = _
    have hl : m.getDisplayGuests = m.viewGuestsDisplayGuests := rfl
    rw [hl]
    unfold Model.viewGuestsContentHeight
    generalize (m.viewGuestsDisplayGuests.length : Int) = n
    split_ifs <;> first | rfl | (exfalso; omega)
  · unfold Model.viewGuestsScrollOffset Model.viewGuestsContentHeight
    dsimp only
    generalize (m.viewGuestsDisplayGuests.length : Int) = n
    split_ifs <;> omega

/-- Witness for C25: with show-all off, `scenarioModel` displays its three
running guests. -/
theorem display_list_is_the_rendered_list_witness :
    scenarioModel.showAll = false ∧
    scenarioModel.getDisplayGuests
      = [sampleLoad 103 "running" 3 1 4, sampleLoad 101 "running" 5 2 4,
         sampleLoad 102 "running" 1 3 4] :=
  ⟨rfl, ((display_list_is_the_rendered_list scenarioModel ⟨1⟩).2.2.1 rfl).trans (by decide)⟩

/-- C26: `sortGuests` only reorders: for every guest list, sort key and reverse
flag the list after `sortGuests` is a permutation of the list before it and no
other field of the model changes; hence after any key press the guests are a
permutation of the guests before it, and the nodes, the previous snapshot and
the timestamps are the same. -/
theorem sortGuests_only_reorders (m : Model) :
    m.sortGuests.guests.Perm m.guests ∧
    m.sortGuests = { m with guests := m.sortGuests.guests } ∧
    (∀ (k : String) (now : Time),
      (m.Update (Msg.key k) now).1.guests.Perm m.guests ∧
      (m.Update (Msg.key k) now).1.nodes = m.nodes ∧
      (m.Update (Msg.key k) now).1.prevGuests = m.prevGuests ∧
      (m.Update (Msg.key k) now).1.prevGuestMap = m.prevGuestMap ∧
      (m.Update (Msg.key k) now).1.lastUpdate = m.lastUpdate ∧
      (m.Update (Msg.key k) now).1.lastFetch = m.lastFetch) :=
  ⟨sortSlice_perm _ _, rfl, fun k _ => applyKey_snapshot m k⟩

/-- C27: a recorded fetch error is never cleared. For every model whose `err` is
set and every message, the model `Update` returns has `err` set; it is the same
error unless the message is another error. After a data arrival the stored
snapshot is the arrived one (the guests sorted, the nodes as they came), and
`View` on a terminal of at least 35 x 10 is still the error screen. -/
theorem recorded_error_is_never_cleared (m : Model) (err : String) (now : Time)
    (h : m.err = some err) :
    (∀ msg : Msg, (m.Update msg now).1.err ≠ none) ∧
    (∀ msg : Msg, (∀ e, msg ≠ Msg.err e) → (m.Update msg now).1.err = some err) ∧
    (∀ (guests : List Guest) (nodes : List Node) (fmtFloat : F64 → String),
      (m.Update (Msg.data guests nodes) now).1.guests.Perm guests ∧
      (m.Update (Msg.data guests nodes) now).1.nodes = nodes ∧
      (minTerminalWidth ≤ m.width → minTerminalHeight ≤ m.height →
        (m.Update (Msg.data guests nodes) now).1.View fmtFloat
          = some (Screen.error (errorScreenText err)))) := by
  have hkeep : ∀ msg : Msg, (∀ e, msg ≠ Msg.err e) → (m.Update msg now).1.err = some err := by
    intro msg hmsg
    cases msg with
    | windowSize w h' => exact h
    | tick => exact h
    | data guests nodes => exact (applyData_err_size m guests nodes now).1.trans h
    | err e => exact absurd rfl (hmsg e)
    | key k => exact (applyKey_err_size m k).1.trans h
  refine ⟨?_, hkeep, ?_⟩
  · intro msg
    cases msg with
    | err e => exact Option.some_ne_none e
    | windowSize w h' => rw [hkeep _ (fun e => by simp)]; exact Option.some_ne_none err
    | tick => rw [hkeep _ (fun e => by simp)]; exact Option.some_ne_none err
    | data guests nodes => rw [hkeep _ (fun e => by simp)]; exact Option.some_ne_none err
    | key k => rw [hkeep _ (fun e => by simp)]; exact Option.some_ne_none err
  · intro guests nodes fmtFloat
    refine ⟨applyData_guests_perm m guests nodes now, (applyData_fields m guests nodes now).2.2.1,
      ?_⟩
    intro hw hh
    obtain ⟨h1, h2, h3⟩ := applyData_err_size m guests nodes now
    apply View_of_err
    · show minTerminalWidth ≤ (m.applyData guests nodes now).width
      rw [h2]; exact hw
    · show minTerminalHeight ≤ (m.applyData guests nodes now).height
      rw [h3]; exact hh
    · exact h1.trans h

/-- Witness for C27: a model that recorded `timeout` receives a snapshot. -/
theorem recorded_error_is_never_cleared_witness :
    ({ NewModel with err := some "timeout" } : Model).err = some "timeout" ∧
    (({ NewModel with err := some "timeout" } : Model).Update
      (Msg.data [sampleLoad 101 "running" 0 1 4] []) ⟨1⟩).1.err = some "timeout" :=
  ⟨rfl, (recorded_error_is_never_cleared ({ NewModel with err := some "timeout" } : Model)
    "timeout" ⟨1⟩ rfl).2.1 (Msg.data [sampleLoad 101 "running" 0 1 4] []) (fun e => by simp)⟩

/-- C28: for every model (any scroll offset, height, guest list and filter
setting) the row window of `viewGuests` satisfies
`0 ≤ start ≤ end ≤ number of displayed guests` and
`end - start ≤ max(1, height - 5)`; so the slice expression does not panic, it
yields `end - start` rows, and `viewGuests` returns a screen. -/
theorem row_window_is_in_range (m : Model) :
    0 ≤ m.viewGuestsStartIdx ∧ m.viewGuestsStartIdx ≤ m.viewGuestsEndIdx ∧
    m.viewGuestsEndIdx ≤ m.viewGuestsDisplayGuests.length ∧
    m.viewGuestsEndIdx - m.viewGuestsStartIdx ≤ max 1 (m.height - 5) ∧
    (∃ visibleGuests, m.viewGuestsVisibleGuests = some visibleGuests ∧
      (visibleGuests.length : Int) = m.viewGuestsEndIdx - m.viewGuestsStartIdx) ∧
    (∀ fmtFloat, ∃ headers rows, m.viewGuests fmtFloat = some (Screen.guests headers rows) ∧
      (rows.length : Int) ≤ max 1 (m.height - 5)) := by
  have hwin : 0 ≤ m.viewGuestsStartIdx ∧ m.viewGuestsStartIdx ≤ m.viewGuestsEndIdx ∧
      m.viewGuestsEndIdx ≤ m.viewGuestsDisplayGuests.length ∧
      m.viewGuestsEndIdx - m.viewGuestsStartIdx ≤ max 1 (m.height - 5) := by
    unfold Model.viewGuestsEndIdx Model.viewGuestsStartIdx Model.viewGuestsScrollOffset
      Model.viewGuestsContentHeight
    dsimp only
    have hn : (0 : Int) ≤ (m.viewGuestsDisplayGuests.length : Int) := Int.natCast_nonneg _
    generalize (m.viewGuestsDisplayGuests.length : Int) = n at hn
    split_ifs <;> omega
  obtain ⟨h0, h1, h2, h3⟩ := hwin
  have hslice : m.viewGuestsVisibleGuests
      = some ((m.viewGuestsDisplayGuests.drop m.viewGuestsStartIdx.toNat).take
          (m.viewGuestsEndIdx - m.viewGuestsStartIdx).toNat) := by
    unfold Model.viewGuestsVisibleGuests sliceGuests
    rw [if_pos ⟨h0, h1, h2⟩]
  have hlen : (((m.viewGuestsDisplayGuests.drop m.viewGuestsStartIdx.toNat).take
      (m.viewGuestsEndIdx - m.viewGuestsStartIdx).toNat).length : Int)
      = m.viewGuestsEndIdx - m.viewGuestsStartIdx := by
    rw [List.length_take, List.length_drop]
    omega
  refine ⟨h0, h1, h2, h3, ⟨_, hslice, hlen⟩, ?_⟩
  intro fmtFloat
  refine ⟨m.formatHeaders m.getVisibleColumns,
    ((m.viewGuestsDisplayGuests.drop m.viewGuestsStartIdx.toNat).take
      (m.viewGuestsEndIdx - m.viewGuestsStartIdx).toNat).map
      (fun guest => m.formatGuestRow fmtFloat guest m.getVisibleColumns), ?_, ?_⟩
  · unfold Model.viewGuests
    rw [hslice]
  · rw [List.length_map, hlen]
    exact h3

/-! ## C22, C29: table lines -/

/-- The loop of `formatHeaders` and `formatGuestRow` collects the fields of the
visible columns in the order of the columns. -/
theorem foldl_parts (visible : columnMap) (field : column → String) (cols : List column)
    (parts : List String) :
    cols.foldl (fun parts col => if !visible.get col then parts else parts ++ [field col]) parts
      = parts ++ (cols.filter visible.get).map field := by
  induction cols generalizing parts with
  | nil => simp
  | cons col rest ih =>
    rw [List.foldl_cons, ih]
    cases hv : visible.get col <;> simp [hv, List.filter_cons]

theorem formatGuestRow_eq (m : Model) (fmtFloat : F64 → String) (guest : Guest)
    (visible : columnMap) :
    m.formatGuestRow fmtFloat guest visible
      = " ".intercalate ((columnOrder.filter visible.get).map (m.guestField fmtFloat guest)) := by
  unfold Model.formatGuestRow
  rw [foldl_parts, List.nil_append]

theorem formatHeaders_eq (m : Model) (visible : columnMap) :
    m.formatHeaders visible
      = " ".intercalate ((columnOrder.filter visible.get).map headerField) := by
  unfold Model.formatHeaders
  rw [foldl_parts, List.nil_append]

/-- The field of a guest that is not running depends on the id, name, type,
status and node of the guest alone. -/
theorem guestField_of_not_running (m m' : Model) (fmtFloat fmtFloat' : F64 → String)
    (guest guest' : Guest) (h : guest.Status ≠ "running")
    (hid : guest'.VMID = guest.VMID) (hname : guest'.Name = guest.Name)
    (htyp : guest'.Typ = guest.Typ) (hstatus : guest'.Status = guest.Status)
    (hnode : guest'.Node = guest.Node) (col : column) :
    m'.guestField fmtFloat' guest' col = m.guestField fmtFloat guest col := by
  have h' : guest'.Status ≠ "running" := by rw [hstatus]; exact h
  cases col <;> simp only [Model.guestField, hid, hname, htyp, hstatus, hnode, if_pos h, if_pos h',
    ne_eq, h, not_false_eq_true, if_true]

/-- C22: for every guest whose status is not `running` and every set of visible
columns, the fields CPU%, MEM%, MEM(GiB), disk rate and net rate of the row built
by `formatGuestRow` are the placeholder dash padded on the left to the widths 6,
6, 15, 13 and 13; the row is made of the fields of the visible columns, and it
is the same for any other counters, CPU and memory figures of the guest, any
other model and any rendering of numbers. -/
theorem stopped_guest_row_shows_dashes (m : Model) (fmtFloat : F64 → String) (guest : Guest)
    (visible : columnMap) (h : guest.Status ≠ "running") :
    m.guestField fmtFloat guest colCPU = "     —" ∧
    m.guestField fmtFloat guest colMem = "     —" ∧
    m.guestField fmtFloat guest colMemGiB = "              —" ∧
    m.guestField fmtFloat guest colDiskIO = "            —" ∧
    m.guestField fmtFloat guest colNetIO = "            —" ∧
    m.formatGuestRow fmtFloat guest visible
      = " ".intercalate ((columnOrder.filter visible.get).map (m.guestField fmtFloat guest)) ∧
    (∀ (m' : Model) (fmtFloat' : F64 → String) (guest' : Guest),
      guest'.VMID = guest.VMID → guest'.Name = guest.Name → guest'.Typ = guest.Typ →
      guest'.Status = guest.Status → guest'.Node = guest.Node →
      m'.formatGuestRow fmtFloat' guest' visible = m.formatGuestRow fmtFloat guest visible) := by
  refine ⟨?_, ?_, ?_, ?_, ?_, formatGuestRow_eq m fmtFloat guest visible, ?_⟩
  · simp only [Model.guestField, if_pos h]; decide
  · simp only [Model.guestField, if_pos h]; decide
  · simp only [Model.guestField, if_pos h]; decide
  · simp only [Model.guestField, if_pos h]; decide
  · simp only [Model.guestField, if_pos h]; decide
  · intro m' fmtFloat' guest' hid hname htyp hstatus hnode
    rw [formatGuestRow_eq, formatGuestRow_eq]
    congr 1
    apply List.map_congr_left
    intro col _
    exact guestField_of_not_running m m' fmtFloat fmtFloat' guest guest' h hid hname htyp hstatus
      hnode col

/-- Witness for C22: the row of a stopped guest with every column visible. -/
theorem stopped_guest_row_shows_dashes_witness :
    (sampleLoad 107 "stopped" 0 0 4).Status ≠ "running" ∧
    NewModel.formatGuestRow (fun _ => "0.0") (sampleLoad 107 "stopped" 0 0 4)
        (fun _ => some true)
      = "107    guest                qemu   stopped       —      —               —             —             — pve     " :=
  ⟨by decide,
    ((stopped_guest_row_shows_dashes NewModel (fun _ => "0.0") (sampleLoad 107 "stopped" 0 0 4)
      (fun _ => some true) (by decide)).2.2.2.2.2.1).trans (by decide)⟩

/-- The length of the header line when the first `k` columns of the sacrifice
order are hidden: one less than the total the planner counts. -/
theorem formatHeaders_length (k : Nat) (hk : k ≤ 8) :
    ((NewModel.formatHeaders (fun col => some (decide (col ∉ sacrificeOrder.take k)))).length : Int)
      = remainingWidth k - 1 := by
  interval_cases k <;> decide

/-- C29: for every terminal width of at least 29, the column-header line that
`formatHeaders` builds for the columns chosen by `getVisibleColumns` is at most
that width long; it is made of one field per visible column, in the order id,
name, type, status, cpu, mem, mem GiB, disk, net, node, the fields having the
widths 6, 20, 6, 8, 6, 6, 15, 13, 13, 8 and being joined by single spaces. -/
theorem header_line_fits_the_width (m : Model) (h : 29 ≤ m.width) :
    ((m.formatHeaders m.getVisibleColumns).length : Int) ≤ m.width ∧
    m.formatHeaders m.getVisibleColumns
      = " ".intercalate
          ((columnOrder.filter (fun col => decide (m.getVisibleColumns col = some true))).map
            headerField) ∧
    columnOrder = [colID, colName, colType, colStatus, colCPU, colMem, colMemGiB, colDiskIO,
      colNetIO, colNode] ∧
    columnOrder.map (fun col => (headerField col).length) = [6, 20, 6, 8, 6, 6, 15, 13, 13, 8] := by
  have hv : m.getVisibleColumns
      = fun col => some (decide (col ∉ sacrificeOrder.take (hiddenCount m.width))) :=
    funext (getVisibleColumns_apply m)
  refine ⟨?_, ?_, rfl, by decide⟩
  · have hm : m.formatHeaders m.getVisibleColumns = NewModel.formatHeaders m.getVisibleColumns :=
      rfl
    rw [hm, hv, formatHeaders_length _ (hiddenCount_le _)]
    rcases Nat.lt_or_ge (hiddenCount m.width) 8 with hlt | hge
    · have := hiddenCount_fits m.width hlt
      omega
    · have h8 : hiddenCount m.width = 8 := le_antisymm (hiddenCount_le _) hge
      rw [h8, remainingWidth_values.2.2.2.2.2.2.2.2]
      omega
  · rw [formatHeaders_eq]
    congr 2
    apply List.filter_congr
    intro col _
    rw [hv]
    simp only [columnMap.get, Option.getD_some, Option.some.injEq]
    cases decide (col ∉ sacrificeOrder.take (hiddenCount m.width)) <;> rfl

/-- Witness for C29: at width 70 the header line has the seven columns that
remain and is 66 characters long. -/
theorem header_line_fits_the_width_witness :
    29 ≤ ({ NewModel with width := 70 } : Model).width ∧
    ({ NewModel with width := 70 } : Model).formatHeaders
        ({ NewModel with width := 70 } : Model).getVisibleColumns
      = "ID     NAME                 TYPE   STATUS     CPU%   MEM% NODE    " ∧
    ((({ NewModel with width := 70 } : Model).formatHeaders
        ({ NewModel with width := 70 } : Model).getVisibleColumns).length : Int)
      ≤ ({ NewModel with width := 70 } : Model).width :=
  ⟨by decide, by decide,
    (header_line_fits_the_width ({ NewModel with width := 70 } : Model) (by decide)).1⟩

/-! ## C24: throughput of a node -/

theorem wrapInt64_add_wrapInt64 (a b : Int) : wrapInt64 (wrapInt64 a + b) = wrapInt64 (a + b) := by
  unfold wrapInt64
  omega

theorem wrapInt64_zero : wrapInt64 0 = 0 := by decide

/-- The `int64` total of a loop that adds up the rates of the selected guests is
the exact sum of these rates, wrapped around. -/
theorem foldl_wrapped_total (rate : Guest → Int) (select : Guest → Prop) [DecidablePred select]
    (guests : List Guest) (total : Int) :
    guests.foldl
        (fun totalRate guest => if select guest then wrapInt64 (totalRate + rate guest)
          else totalRate)
        (wrapInt64 total)
      = wrapInt64 (total + ((guests.filter (fun g => decide (select g))).map rate).sum) := by
  induction guests generalizing total with
  | nil => simp
  | cons g rest ih =>
    rw [List.foldl_cons]
    by_cases hg : select g
    · rw [if_pos hg, wrapInt64_add_wrapInt64, ih, List.filter_cons_of_pos (by simpa using hg),
        List.map_cons, List.sum_cons, add_assoc]
    · rw [if_neg hg, ih, List.filter_cons_of_neg (by simpa using hg)]

theorem rateBody_one_second_two_pow_62 :
    rateBody 1000000000 4611686018427387904 0 0 0 = 4611686018427387904 := by
  have hsec : secondsValue 1000000000 = 1 := by
    have := secondsValue_whole 1 (by norm_num)
    simpa using this
  have hS : wrapInt64 (clampedDelta 4611686018427387904 0 + clampedDelta 0 0)
      = 4611686018427387904 := by decide
  have hround : roundF64 (4611686018427387904 : ℚ) = 4611686018427387904 := by
    rw [roundF64_eq_of_bounds 62 (by norm_num [abs_of_pos]) (by norm_num [abs_of_pos])]
    have hx : (4611686018427387904 : ℚ) * 2 ^ ((52 : Int) - 62) = ((4503599627370496 : Int) : ℚ) := by
      norm_num
    rw [hx, roundHalfEven_intCast]
    norm_num
  unfold rateBody
  rw [Duration.Seconds_eq, hsec, hS]
  have hlt : F64.lt (F64.fin 0) (F64.fin 1) = true := by simp [F64.lt]
  rw [if_pos hlt]
  have hdiv : F64.div (F64.ofInt 4611686018427387904) (F64.fin 1)
      = F64.fin ((4611686018427387904 : Int) : ℚ) := by
    simp [F64.div, F64.ofInt, F64.round, hround]
  rw [hdiv]
  exact toInt64_intCast _ (by decide) (by decide)

theorem nodeDiskRateTotal_eq (m : Model) (nodeName : String) :
    m.nodeDiskRateTotal nodeName
      = wrapInt64 (((m.runningGuestsOf nodeName).map m.getDiskRateNumeric).sum) := by
  have h := foldl_wrapped_total m.getDiskRateNumeric
    (fun g => g.Node = nodeName ∧ g.Status = "running") m.guests 0
  rw [wrapInt64_zero, zero_add] at h
  exact h

theorem nodeNetRateTotal_eq (m : Model) (nodeName : String) :
    m.nodeNetRateTotal nodeName
      = wrapInt64 (((m.runningGuestsOf nodeName).map m.getNetRateNumeric).sum) := by
  have h := foldl_wrapped_total m.getNetRateNumeric
    (fun g => g.Node = nodeName ∧ g.Status = "running") m.guests 0
  rw [wrapInt64_zero, zero_add] at h
  exact h

theorem heavyLoadModel_rate (id : Int) (h : id = 101 ∨ id = 102) :
    heavyLoadModel.getDiskRateNumeric (sampleGuest id "running" 4611686018427387904 0 0 0)
      = 4611686018427387904 := by
  have hprev : heavyLoadModel.prevGuestMap
      (sampleGuest id "running" 4611686018427387904 0 0 0).VMID
      = some (sampleGuest id "running" 0 0 0 0) := by
    rcases h with h | h <;> subst h <;> rfl
  rw [getDiskRateNumeric_of_prev hprev]
  exact rateBody_one_second_two_pow_62

/-- C24 fails as stated: with two running guests of node `pve` whose disk rates
are `2^62` bytes per second each, the rates sum to `2^63`, which is not an
`int64`; the total that `getNodeDiskRate` formats is `-2^63`. -/
theorem node_rate_wraps_around :
    (heavyLoadModel.runningGuestsOf "pve").map heavyLoadModel.getDiskRateNumeric
      = [4611686018427387904, 4611686018427387904] ∧
    ((heavyLoadModel.runningGuestsOf "pve").map heavyLoadModel.getDiskRateNumeric).sum
      = 9223372036854775808 ∧
    heavyLoadModel.nodeDiskRateTotal "pve" = -9223372036854775808 ∧
    heavyLoadModel.getNodeDiskRate (fun _ => "") "pve"
      = formatBytesPerSec (fun _ => "") (-9223372036854775808) := by
  have hrun : heavyLoadModel.runningGuestsOf "pve"
      = [sampleGuest 101 "running" 4611686018427387904 0 0 0,
         sampleGuest 102 "running" 4611686018427387904 0 0 0] := by decide
  have hmap : (heavyLoadModel.runningGuestsOf "pve").map heavyLoadModel.getDiskRateNumeric
      = [4611686018427387904, 4611686018427387904] := by
    rw [hrun, List.map_cons, List.map_cons, List.map_nil,
      heavyLoadModel_rate 101 (Or.inl rfl), heavyLoadModel_rate 102 (Or.inr rfl)]
  have htotal : heavyLoadModel.nodeDiskRateTotal "pve" = -9223372036854775808 := by
    rw [nodeDiskRateTotal_eq, hmap]
    decide
  refine ⟨hmap, ?_, htotal, ?_⟩
  · rw [hmap]; decide
  · unfold Model.getNodeDiskRate
    rw [htotal]

/-- C24 (as amended): for every model and host name, the total that
`getNodeDiskRate` (resp. `getNodeNetRate`) formats is the `int64` sum of
`getDiskRateNumeric` (resp. `getNetRateNumeric`) over exactly the guests whose
node equals that name and whose status is `running`: the exact sum whenever that
one fits in an `int64`, the exact sum wrapped around otherwise. Non-running
guests and guests of other hosts contribute nothing, and a host with no running
guest gets 0. -/
theorem node_rate_is_the_int64_sum_over_running_guests (m : Model) (fmtFloat : F64 → String)
    (nodeName : String) :
    m.getNodeDiskRate fmtFloat nodeName
      = formatBytesPerSec fmtFloat
          (wrapInt64 (((m.runningGuestsOf nodeName).map m.getDiskRateNumeric).sum)) ∧
    m.getNodeNetRate fmtFloat nodeName
      = formatBytesPerSec fmtFloat
          (wrapInt64 (((m.runningGuestsOf nodeName).map m.getNetRateNumeric).sum)) ∧
    (minInt64 ≤ ((m.runningGuestsOf nodeName).map m.getDiskRateNumeric).sum →
      ((m.runningGuestsOf nodeName).map m.getDiskRateNumeric).sum ≤ maxInt64 →
      m.getNodeDiskRate fmtFloat nodeName
        = formatBytesPerSec fmtFloat ((m.runningGuestsOf nodeName).map m.getDiskRateNumeric).sum) ∧
    (minInt64 ≤ ((m.runningGuestsOf nodeName).map m.getNetRateNumeric).sum →
      ((m.runningGuestsOf nodeName).map m.getNetRateNumeric).sum ≤ maxInt64 →
      m.getNodeNetRate fmtFloat nodeName
        = formatBytesPerSec fmtFloat ((m.runningGuestsOf nodeName).map m.getNetRateNumeric).sum) ∧
    (∀ g, g ∈ m.runningGuestsOf nodeName ↔
      g ∈ m.guests ∧ g.Node = nodeName ∧ g.Status = "running") ∧
    ((∀ g ∈ m.guests, ¬ (g.Node = nodeName ∧ g.Status = "running")) →
      m.getNodeDiskRate fmtFloat nodeName = formatBytesPerSec fmtFloat 0 ∧
      m.getNodeNetRate fmtFloat nodeName = formatBytesPerSec fmtFloat 0) := by
  have hd : m.getNodeDiskRate fmtFloat nodeName
      = formatBytesPerSec fmtFloat
          (wrapInt64 (((m.runningGuestsOf nodeName).map m.getDiskRateNumeric).sum)) := by
    unfold Model.getNodeDiskRate
    rw [nodeDiskRateTotal_eq]
  have hn : m.getNodeNetRate fmtFloat nodeName
      = formatBytesPerSec fmtFloat
          (wrapInt64 (((m.runningGuestsOf nodeName).map m.getNetRateNumeric).sum)) := by
    unfold Model.getNodeNetRate
    rw [nodeNetRateTotal_eq]
  refine ⟨hd, hn, ?_, ?_, ?_, ?_⟩
  · intro h1 h2
    rw [hd, wrapInt64_of_range h1 h2]
  · intro h1 h2
    rw [hn, wrapInt64_of_range h1 h2]
  · intro g
    simp [Model.runningGuestsOf, List.mem_filter]
  · intro hnone
    have hempty : m.runningGuestsOf nodeName = [] := by
      unfold Model.runningGuestsOf
      rw [List.filter_eq_nil_iff]
      intro g hg
      simpa using hnone g hg
    rw [hd, hn, hempty]
    exact ⟨rfl, rfl⟩

theorem busyNodeModel_rates :
    (busyNodeModel.runningGuestsOf "pve").map busyNodeModel.getDiskRateNumeric = [500, 300] := by
  have hrun : busyNodeModel.runningGuestsOf "pve"
      = [sampleGuest 101 "running" 1500 0 0 0, sampleGuest 103 "running" 300 0 0 0] := by decide
  have h1 : busyNodeModel.getDiskRateNumeric (sampleGuest 101 "running" 1500 0 0 0) = 500 := by
    have hprev : busyNodeModel.prevGuestMap (sampleGuest 101 "running" 1500 0 0 0).VMID
        = some (sampleGuest 101 "running" 1000 0 0 0) := rfl
    rw [getDiskRateNumeric_of_prev hprev]
    exact rateBody_one_second 1500 1000 0 0 (by decide)
  have h2 : busyNodeModel.getDiskRateNumeric (sampleGuest 103 "running" 300 0 0 0) = 300 := by
    have hprev : busyNodeModel.prevGuestMap (sampleGuest 103 "running" 300 0 0 0).VMID
        = some (sampleGuest 103 "running" 0 0 0 0) := rfl
    rw [getDiskRateNumeric_of_prev hprev]
    exact rateBody_one_second 300 0 0 0 (by decide)
  rw [hrun, List.map_cons, List.map_cons, List.map_nil, h1, h2]

/-- Witness for C24: node `pve` of `busyNodeModel` has two running guests with
the disk rates 500 and 300, a stopped guest, and node `pve2` another running
guest; the sum 800 fits in an `int64` and is the total that is formatted. -/
theorem node_rate_is_the_int64_sum_over_running_guests_witness :
    minInt64 ≤ ((busyNodeModel.runningGuestsOf "pve").map busyNodeModel.getDiskRateNumeric).sum ∧
    ((busyNodeModel.runningGuestsOf "pve").map busyNodeModel.getDiskRateNumeric).sum ≤ maxInt64 ∧
    ((busyNodeModel.runningGuestsOf "pve").map busyNodeModel.getDiskRateNumeric).sum = 800 ∧
    busyNodeModel.getNodeDiskRate (fun _ => "0.8") "pve" = formatBytesPerSec (fun _ => "0.8") 800 :=
  ⟨by rw [busyNodeModel_rates]; decide, by rw [busyNodeModel_rates]; decide,
    by rw [busyNodeModel_rates]; decide,
    ((node_rate_is_the_int64_sum_over_running_guests busyNodeModel (fun _ => "0.8") "pve").2.2.1
      (by rw [busyNodeModel_rates]; decide) (by rw [busyNodeModel_rates]; decide)).trans
      (by rw [busyNodeModel_rates]; rfl)⟩

/-! ## C30: `ValidateHost` -/

theorem not_mem_take_indexOf (a : Char) (l : List Char) : a ∉ l.take (l.indexOf a) := by
  induction l with
  | nil => simp
  | cons x xs ih =>
    rw [List.indexOf_cons]
    by_cases hx : x = a
    · simp [hx]
    · have hb : (x == a) = false := by simpa using hx
      rw [hb]
      simp only [cond_false, List.take_succ_cons, List.mem_cons, not_or]
      exact ⟨fun h => hx h.symm, ih⟩

theorem not_mem_cutAtColon (host : List Char) : ':' ∉ cutAtColon host := by
  unfold cutAtColon
  split_ifs with h
  · exact not_mem_take_indexOf _ _
  · exact h

theorem mem_of_mem_TrimSuffix {c : Char} {s suf : List Char} (h : c ∈ TrimSuffix s suf) :
    c ∈ s := by
  unfold TrimSuffix at h
  split_ifs at h
  · exact List.mem_of_mem_take h
  · exact h

/-- What `ValidateHost` does right: a host it returns contains no `:`, no `/`
and no space, and a host it returns that is not empty is returned as it is when
validated again. -/
theorem ValidateHost_ok (host out : String) (h : ValidateHost host = Except.ok out) :
    ':' ∉ out.data ∧ '/' ∉ out.data ∧ ' ' ∉ out.data ∧
    (out ≠ "" → ValidateHost out = Except.ok out) := by
  have hdef : ValidateHost host
      = if host = "" then Except.error "host cannot be empty"
        else if '/' ∈ TrimSuffix (cutAtColon
              (TrimPrefix (TrimPrefix host.data "https://".data) "http://".data)) "/".data
            ∨ ' ' ∈ TrimSuffix (cutAtColon
              (TrimPrefix (TrimPrefix host.data "https://".data) "http://".data)) "/".data
          then Except.error "invalid host format"
          else Except.ok (String.mk (TrimSuffix (cutAtColon
              (TrimPrefix (TrimPrefix host.data "https://".data) "http://".data)) "/".data)) :=
    rfl
  rw [hdef] at h
  by_cases h1 : host = ""
  · rw [if_pos h1] at h
    exact absurd h (by simp)
  rw [if_neg h1] at h
  by_cases h2 : '/' ∈ TrimSuffix (cutAtColon
        (TrimPrefix (TrimPrefix host.data "https://".data) "http://".data)) "/".data
      ∨ ' ' ∈ TrimSuffix (cutAtColon
        (TrimPrefix (TrimPrefix host.data "https://".data) "http://".data)) "/".data
  · rw [if_pos h2] at h
    exact absurd h (by simp)
  rw [if_neg h2] at h
  simp only [Except.ok.injEq] at h
  have hdata : out.data
      = TrimSuffix (cutAtColon (TrimPrefix (TrimPrefix host.data "https://".data) "http://".data))
          "/".data := by
    rw [← h]
  have hcolon : ':' ∉ out.data := by
    rw [hdata]
    exact fun hc => not_mem_cutAtColon _ (mem_of_mem_TrimSuffix hc)
  have hslash : '/' ∉ out.data := by
    rw [hdata]; exact fun hc => h2 (Or.inl hc)
  have hspace : ' ' ∉ out.data := by
    rw [hdata]; exact fun hc => h2 (Or.inr hc)
  refine ⟨hcolon, hslash, hspace, ?_⟩
  intro hne
  have hp1 : TrimPrefix out.data "https://".data = out.data := by
    unfold TrimPrefix
    rw [if_neg]
    intro hpre
    rw [List.isPrefixOf_iff_prefix] at hpre
    exact hcolon (hpre.subset (by decide))
  have hp2 : TrimPrefix out.data "http://".data = out.data := by
    unfold TrimPrefix
    rw [if_neg]
    intro hpre
    rw [List.isPrefixOf_iff_prefix] at hpre
    exact hcolon (hpre.subset (by decide))
  have hp3 : cutAtColon out.data = out.data := by
    unfold cutAtColon
    rw [if_neg hcolon]
  have hp4 : TrimSuffix out.data "/".data = out.data := by
    unfold TrimSuffix
    rw [if_neg]
    intro hsuf
    rw [List.isSuffixOf_iff_suffix] at hsuf
    exact hslash (hsuf.subset (by decide))
  unfold ValidateHost
  rw [if_neg hne]
  simp only [hp1, hp2, hp3, hp4]
  rw [if_neg (by simp [hslash, hspace])]

/-- C30 fails on the code: `ValidateHost` succeeds on `https://`, on `:8006` and
on `/` and returns the empty host, which it rejects when it is given as the
input. -/
theorem ValidateHost_returns_an_empty_host :
    ValidateHost "https://" = Except.ok "" ∧
    ValidateHost ":8006" = Except.ok "" ∧
    ValidateHost "/" = Except.ok "" ∧
    ValidateHost "" = Except.error "host cannot be empty" ∧
    ValidateHost "https://pve.lan:8006/" = Except.ok "pve.lan" := by
  refine ⟨rfl, rfl, rfl, rfl, rfl⟩

end Pvetop
